import Mathlib

/-!
# Geometry, indexing, symmetry and domain splitting of `vec.cpp`

A shallow embedding of the integer core of `src/1.2.1/src/vec.cpp`.

Conventions of the embedding:

* C `int` values are mathematical integers (`Int`); C integer division and remainder
  truncate towards zero and are written `Int.tdiv` / `Int.tmod`.
* The cached members `the_stride` and `the_ntot` are recomputed by `num_changed()` after every
  change of `num`, so they are functions of `num` here (`grid_volume.stride`, `grid_volume.ntot`).
* `origin` is `io * (0.5 * inva)` after every `set_origin`, so the test `origin.r() == 0.0`
  is the test `io.r = 0`.
* `(int)(p / (double) q + 0.5)` is the truncation of the rational `p/q + 1/2`
  (`round_div`); doubles are exact rationals (`Rat`) in the effort scan.
* Functions that can call `abort`, dereference a null pointer or divide by zero return a `Res`.
* The slots of a `vec` and the corners of a `volume` are exact rationals; comparisons, `min`
  and `max` of doubles are exact, and sums and products are taken without rounding. The
  conversion to `float` of `round_float` is a parameter `rf` of the functions that use it.
* The weights of a `volume_list` and the phases have a type `α` with the ring operations that
  are used; `star` stands for `conj`.
* The resolution `a` is not a field of the descriptor `grid_volume` here: the functions that
  read `a` or `inva = 1 / a` (`operator[]`, `yee_shift`, `contains(const vec &)`,
  `interpolate`) take it as a parameter. The rounding `my_round` of `round_vec` is a
  parameter `rnd`; `floor` and `fabs` are exact; `pi` is the double nearest to the number pi.
* The method `gv.has_field` (header) is a parameter `has_field` of `derived_component_func`;
  the output array `component cs[12]` is the list of the entries written, and a write beyond
  its twelfth entry is undefined. A `complex<double>` is the pair of its real and imaginary
  parts.
-/

namespace meep

/-- Outcome of a call that may not return normally. -/
inductive Res (α : Type) where
  /-- normal return -/
  | ok (a : α)
  /-- the call `abort(...)` was made -/
  | fatal
  /-- undefined behaviour: null dereference, division by zero, cast of NaN or infinity -/
  | undef
  /-- the fuel of the model ran out -/
  | nofuel
deriving DecidableEq, Repr

/-- Sequencing of fallible calls. -/
def Res.bind {α β : Type} : Res α → (α → Res β) → Res β
  | .ok a, f => f a
  | .fatal, _ => .fatal
  | .undef, _ => .undef
  | .nofuel, _ => .nofuel

/-- The value of a normal return, `dflt` otherwise. -/
def Res.getD {α : Type} : Res α → α → α
  | .ok a, _ => a
  | _, dflt => dflt

/-- Whether the call returned normally. -/
def Res.isOk {α : Type} : Res α → Bool
  | .ok _ => true
  | _ => false

/-- Modelled from the spec: the dimension tag `ndim` (declared in the header, which is not
among the sources); one of 1-D, 2-D, 3-D, cylindrical. -/
inductive ndim where
  | D1 | D2 | D3 | Dcyl
deriving DecidableEq, Repr

/-- Modelled from the spec: the `direction` enumeration (header); the order `X, Y, Z, R, P,
NO_DIRECTION` is the one of `direction_name` and of the casts `(direction) n` in the source. -/
inductive direction where
  | X | Y | Z | R | P | NO_DIRECTION
deriving DecidableEq, Repr

/-- The integer value of a direction (`X = 0`, ..., `NO_DIRECTION = 5`). -/
def direction.toInt : direction → Int
  | .X => 0 | .Y => 1 | .Z => 2 | .R => 3 | .P => 4 | .NO_DIRECTION => 5

/-- The cast `(direction) n` for `n` in `0..5`. -/
def direction.ofInt (n : Int) : direction :=
  if n = 0 then .X else if n = 1 then .Y else if n = 2 then .Z
  else if n = 3 then .R else if n = 4 then .P else .NO_DIRECTION

/-- Modelled from the spec: the `component` enumeration (header), in the order of
`component_name`: the E, H, D and B fields along x, y, r, phi, z and the two scalar tags. -/
inductive component where
  | Ex | Ey | Er | Ep | Ez | Hx | Hy | Hr | Hp | Hz
  | Dx | Dy | Dr | Dp | Dz | Bx | By | Br | Bp | Bz
  | Dielectric | Permeability
deriving DecidableEq, Repr

/-- Modelled from the spec: `component_direction` (header): the direction a field component
is bound to; the scalar tags have none. -/
def component_direction : component → direction
  | .Ex | .Hx | .Dx | .Bx => .X
  | .Ey | .Hy | .Dy | .By => .Y
  | .Ez | .Hz | .Dz | .Bz => .Z
  | .Er | .Hr | .Dr | .Br => .R
  | .Ep | .Hp | .Dp | .Bp => .P
  | .Dielectric | .Permeability => .NO_DIRECTION

/-- Modelled from the spec: `is_electric` (header). -/
def is_electric : component → Bool
  | .Ex | .Ey | .Er | .Ep | .Ez => true
  | _ => false

/-- Modelled from the spec: `is_magnetic` (header). -/
def is_magnetic : component → Bool
  | .Hx | .Hy | .Hr | .Hp | .Hz => true
  | _ => false

/-- Modelled from the spec: `is_D` (header). -/
def is_D : component → Bool
  | .Dx | .Dy | .Dr | .Dp | .Dz => true
  | _ => false

/-- Modelled from the spec: `is_B` (header). -/
def is_B : component → Bool
  | .Bx | .By | .Br | .Bp | .Bz => true
  | _ => false

/-- Modelled from the spec: the macro `LOOP_OVER_DIRECTIONS(dim, d)` (header): the active
directions of a dimension tag in increasing enumeration order. The source fixes the sets
(`owns`, `big_corner`, `icenter`): z in 1-D, x and y in 2-D, x, y, z in 3-D, z and r in
cylindrical coordinates. -/
def loop_over_directions : ndim → List direction
  | .D1 => [.Z]
  | .D2 => [.X, .Y]
  | .D3 => [.X, .Y, .Z]
  | .Dcyl => [.Z, .R]

/-- Modelled from the spec: `has_direction(dim, d)` (header): `d` is active in `dim`. -/
def has_direction (dim : ndim) (d : direction) : Bool :=
  decide (d ∈ loop_over_directions dim)

/-- Modelled from the spec: the class `ivec` (header): a dimension tag and one integer slot
per direction, in half-grid-point units. Slots a constructor leaves unset are `0` here. -/
structure ivec where
  dim : ndim
  x : Int
  y : Int
  z : Int
  r : Int
  p : Int
deriving DecidableEq, Repr

/-- Modelled from the spec: `ivec::in_direction` (header): the slot `t[d]`. -/
def ivec.in_direction (v : ivec) : direction → Int
  | .X => v.x | .Y => v.y | .Z => v.z | .R => v.r | .P => v.p | .NO_DIRECTION => 0

/-- Modelled from the spec: `ivec::set_direction` (header): `t[d] = val`. -/
def ivec.set_direction (v : ivec) (d : direction) (val : Int) : ivec :=
  match d with
  | .X => { v with x := val }
  | .Y => { v with y := val }
  | .Z => { v with z := val }
  | .R => { v with r := val }
  | .P => { v with p := val }
  | .NO_DIRECTION => v

/-- Modelled from the spec: `zero_ivec(dim)` (header). -/
def zero_ivec (dim : ndim) : ivec := ⟨dim, 0, 0, 0, 0, 0⟩

/-- Modelled from the spec: `one_ivec(dim)` (header): `1` in every active slot. -/
def one_ivec (dim : ndim) : ivec :=
  (loop_over_directions dim).foldl (fun v d => v.set_direction d 1) (zero_ivec dim)

/-- Modelled from the spec: `unit_ivec(dim, d)` (header): `zero_ivec(dim)` with slot `d`
set to `1`. -/
def unit_ivec (dim : ndim) (d : direction) : ivec := (zero_ivec dim).set_direction d 1

/-- Modelled from the spec: `ivec::operator+` (header): a copy of the right operand to which
the active slots of the left operand are added. -/
def ivec.add (v a : ivec) : ivec :=
  (loop_over_directions v.dim).foldl
    (fun res d => res.set_direction d (res.in_direction d + v.in_direction d)) a

/-- Modelled from the spec: `ivec::operator-` (header): a copy of the left operand from which
the active slots of the right operand are subtracted. -/
def ivec.sub (v a : ivec) : ivec :=
  (loop_over_directions v.dim).foldl
    (fun res d => res.set_direction d (res.in_direction d - a.in_direction d)) v

/-- Modelled from the spec: `ivec::operator*(int)` (header): the active slots scaled. -/
def ivec.scale (v : ivec) (s : Int) : ivec :=
  (loop_over_directions v.dim).foldl
    (fun res d => res.set_direction d (res.in_direction d * s)) v

/-- Modelled from the spec: unary `ivec::operator-` (header): the active slots negated. -/
def ivec.neg (v : ivec) : ivec :=
  (loop_over_directions v.dim).foldl
    (fun res d => res.set_direction d (- res.in_direction d)) v

/-- The descriptor `grid_volume`: dimension tag, the extents `num[3]` and the integer origin
`io`. The resolution `a` is not needed by the integer operations. -/
structure grid_volume where
  dim : ndim
  num0 : Int
  num1 : Int
  num2 : Int
  io : ivec
deriving DecidableEq, Repr

/-- The array access `num[i]` for `i` in `0..2`. -/
def grid_volume.num (gv : grid_volume) (i : Int) : Int :=
  if i = 0 then gv.num0 else if i = 1 then gv.num1 else gv.num2

/-- The assignment `num[i] = value` for `i` in `0..2`. -/
def grid_volume.set_num (gv : grid_volume) (i : Int) (value : Int) : grid_volume :=
  if i = 0 then { gv with num0 := value }
  else if i = 1 then { gv with num1 := value }
  else { gv with num2 := value }

/-- Modelled from the spec: `grid_volume::num_direction` (header): `num[d % 3]`, the index
used by `set_num_direction` and `update_ntot`. -/
def grid_volume.num_direction (gv : grid_volume) (d : direction) : Int :=
  gv.num (d.toInt.tmod 3)

/-- The accessors `nx()`, `ny()`, `nz()`, `nr()`. -/
def grid_volume.nx (gv : grid_volume) : Int := gv.num_direction .X

/-- See `nx`. -/
def grid_volume.ny (gv : grid_volume) : Int := gv.num_direction .Y

/-- See `nx`. -/
def grid_volume.nz (gv : grid_volume) : Int := gv.num_direction .Z

/-- See `nx`. -/
def grid_volume.nr (gv : grid_volume) : Int := gv.num_direction .R

/-- The method `grid_volume::set_num_direction`: `num[d%3] = value; num_changed();`. -/
def grid_volume.set_num_direction (gv : grid_volume) (d : direction) (value : Int) :
    grid_volume :=
  gv.set_num (d.toInt.tmod 3) value

/-- The method `grid_volume::update_ntot`: the product of `num[d%3] + 1` over the active directions. -/
def grid_volume.ntot (gv : grid_volume) : Int :=
  (loop_over_directions gv.dim).foldl (fun n d => n * (gv.num_direction d + 1)) 1

/-- The method `grid_volume::set_strides`: `0` for every direction, then the stride of each active
direction (none for `P`). -/
def grid_volume.stride (gv : grid_volume) (d : direction) : Int :=
  if d ∈ loop_over_directions gv.dim then
    match d with
    | .Z => 1
    | .R => gv.nz + 1
    | .X => (gv.nz + 1) * (gv.ny + 1)
    | .Y => gv.nz + 1
    | .P => 0
    | .NO_DIRECTION => 0
  else 0

/-- Modelled from the spec: `grid_volume::nowned_min` (header): the number of grid points,
the product of `num_direction(d)` over the active directions (the count `split` reports as
"Cannot split %d grid points into %d parts"). -/
def grid_volume.nowned_min (gv : grid_volume) : Int :=
  (loop_over_directions gv.dim).foldl (fun n d => n * gv.num_direction d) 1

/-- Modelled from the spec: `grid_volume::iyee_shift` (header): the half-lattice offset of
the sub-lattice of `c`: `1` along an active direction `d` for the scalar tags, for an E or D
component along `d`, and for an H or B component not along `d`. -/
def grid_volume.iyee_shift (gv : grid_volume) (c : component) : ivec :=
  (loop_over_directions gv.dim).foldl
    (fun out d =>
      if c = .Dielectric ∨ c = .Permeability
          ∨ ((is_electric c ∨ is_D c) ∧ d = component_direction c)
          ∨ ((is_magnetic c ∨ is_B c) ∧ d ≠ component_direction c)
      then out.set_direction d 1 else out)
    (zero_ivec gv.dim)

/-- Modelled from the spec: `grid_volume::little_corner` (header): the origin index `io`. -/
def grid_volume.little_corner (gv : grid_volume) : ivec := gv.io

/-- Modelled from the spec: the constructors `ivec(zz)`, `ivec(xx, yy)`, `ivec(xx, yy, zz)`
and `iveccyl(rr, zz)` (header), selected by the dimension as in `big_corner`. -/
def ivec_of_nums (dim : ndim) (n0 n1 n2 : Int) : ivec :=
  match dim with
  | .D1 => ⟨.D1, 0, 0, n2, 0, 0⟩
  | .D2 => ⟨.D2, n0, n1, 0, 0, 0⟩
  | .D3 => ⟨.D3, n0, n1, n2, 0, 0⟩
  | .Dcyl => ⟨.Dcyl, 0, 0, n2, n0, 0⟩

/-- The method `grid_volume::big_corner`: `io + ivec(n...) * 2`. -/
def grid_volume.big_corner (gv : grid_volume) : ivec :=
  match gv.dim with
  | .D1 => gv.io.add ((ivec_of_nums .D1 0 0 gv.nz).scale 2)
  | .D2 => gv.io.add ((ivec_of_nums .D2 gv.nx gv.ny 0).scale 2)
  | .D3 => gv.io.add ((ivec_of_nums .D3 gv.nx gv.ny gv.nz).scale 2)
  | .Dcyl => gv.io.add ((ivec_of_nums .Dcyl gv.nr 0 gv.nz).scale 2)

/-- Modelled from the spec: `grid_volume::little_owned_corner0` (header):
`little_corner() + one_ivec(dim)*2 - iyee_shift(c)`. -/
def grid_volume.little_owned_corner0 (gv : grid_volume) (c : component) : ivec :=
  (gv.little_corner.add ((one_ivec gv.dim).scale 2)).sub (gv.iyee_shift c)

/-- The method `grid_volume::little_owned_corner`: the first owned point of `c`; on the axis of a
cylindrical descriptor whose origin sits at `r = 0` the point `r = 0` itself. -/
def grid_volume.little_owned_corner (gv : grid_volume) (c : component) : ivec :=
  let iloc := gv.little_owned_corner0 c
  if gv.dim = .Dcyl ∧ gv.io.r = 0 ∧ iloc.r = 2 then iloc.set_direction .R 0 else iloc

/-- The method `grid_volume::nowned`. -/
def grid_volume.nowned (gv : grid_volume) (c : component) : Int :=
  let pt := gv.big_corner.sub (gv.little_owned_corner c)
  (loop_over_directions gv.dim).foldl (fun n d => n * ((pt.in_direction d).tdiv 2 + 1)) 1

/-- The method `grid_volume::index`. -/
def grid_volume.index (gv : grid_volume) (c : component) (p : ivec) : Int :=
  let offset := (p.sub gv.io).sub (gv.iyee_shift c)
  (loop_over_directions gv.dim).foldl
    (fun idx d => idx + (offset.in_direction d).tdiv 2 * gv.stride d) 0

/-- The loop `while (ind_over_stride < 0) ind_over_stride += num_direction(d)+1;` of `iloc`,
run for at most `fuel` rounds. -/
def iloc_wrap : Nat → Int → Int → Int
  | 0, v, _ => v
  | fuel + 1, v, m => if v < 0 then iloc_wrap fuel (v + m) m else v

/-- The method `grid_volume::iloc`. The wrap loop ends within `|ind/stride|` rounds when
`num_direction(d) + 1` is positive. -/
def grid_volume.iloc (gv : grid_volume) (c : component) (ind : Int) : ivec :=
  let out := (loop_over_directions gv.dim).foldl
    (fun out d =>
      let ind_over_stride := iloc_wrap (ind.tdiv (gv.stride d)).natAbs (ind.tdiv (gv.stride d))
        (gv.num_direction d + 1)
      out.set_direction d (2 * (ind_over_stride.tmod (gv.num_direction d + 1))))
    (zero_ivec gv.dim)
  (out.add (gv.iyee_shift c)).add gv.io


/-- The method `grid_volume::set_origin(const ivec &)`: `io = o` (and `origin` follows). -/
def grid_volume.set_origin (gv : grid_volume) (o : ivec) : grid_volume := { gv with io := o }

/-- Modelled from the spec: `grid_volume::shift_origin(direction, int)` (header):
`set_origin(io + unit_ivec(dim, d) * s)`. -/
def grid_volume.shift_origin (gv : grid_volume) (d : direction) (s : Int) : grid_volume :=
  gv.set_origin (gv.io.add ((unit_ivec gv.dim d).scale s))

/-- The method `grid_volume::contains(const ivec &)`. -/
def grid_volume.contains (gv : grid_volume) (p : ivec) : Bool :=
  let o := p.sub gv.io
  (loop_over_directions gv.dim).all
    (fun d => !(decide (o.in_direction d < 0)
      || decide (o.in_direction d ≥ (gv.num_direction d + 1) * 2)))

/-- The method `grid_volume::owns`. -/
def grid_volume.owns (gv : grid_volume) (p : ivec) : Bool :=
  let o := p.sub gv.io
  match gv.dim with
  | .Dcyl =>
    if gv.io.r = 0 ∧ o.z > 0 ∧ o.z ≤ gv.nz * 2 ∧ o.r = 0 then true
    else decide (o.r > 0 ∧ o.z > 0 ∧ o.r ≤ gv.nr * 2 ∧ o.z ≤ gv.nz * 2)
  | .D3 =>
    decide (o.x > 0 ∧ o.x ≤ gv.nx * 2 ∧ o.y > 0 ∧ o.y ≤ gv.ny * 2 ∧ o.z > 0 ∧ o.z ≤ gv.nz * 2)
  | .D2 => decide (o.x > 0 ∧ o.x ≤ gv.nx * 2 ∧ o.y > 0 ∧ o.y ≤ gv.ny * 2)
  | .D1 => decide (o.z > 0 ∧ o.z ≤ gv.nz * 2)

/-- The cast `(int)(p / (double) q + 0.5)` for `q ≠ 0`: the rational `p/q + 1/2`, that is
`(2p + q) / (2q)`, truncated towards zero. -/
def round_div (p q : Int) : Int := (2 * p + q).tdiv (2 * q)

/-- The selection loop of `split_at_fraction`: `bestd = -1, bestlen = 1`, then for
`i = 0, 1, 2` the pair becomes `(i, num[i])` when `num[i] > bestlen`. -/
def grid_volume.best (gv : grid_volume) : Int × Int :=
  [0, 1, 2].foldl (fun (b : Int × Int) i => if gv.num i > b.2 then (i, gv.num i) else b) (-1, 1)

/-- The axis `split_at_fraction` cuts: `direction d = (direction) bestd;
if (dim == Dcyl && d == X) d = R;`. -/
def grid_volume.split_direction (gv : grid_volume) : direction :=
  let d := direction.ofInt gv.best.1
  if gv.dim = .Dcyl ∧ d = .X then .R else d

/-- The descriptor `retval` that `split_at_fraction` builds and returns once its two checks
have passed: `grid_volume retval(dim, a, 1,1,1)`, the copy of `num`, `set_origin(io)`, the
shift of the origin for the high part and the new extent along `bestd`. -/
def grid_volume.split_retval (gv : grid_volume) (want_high : Bool) (numer : Int) :
    grid_volume :=
  let bestd := gv.best.1
  let retval : grid_volume := ⟨gv.dim, 1, 1, 1, zero_ivec gv.dim⟩
  let retval := ((retval.set_num 0 (gv.num 0)).set_num 1 (gv.num 1)).set_num 2 (gv.num 2)
  let d := gv.split_direction
  let retval := retval.set_origin gv.io
  let retval := if want_high then retval.shift_origin d (numer * 2) else retval
  if want_high then retval.set_num bestd (retval.num bestd - numer)
  else retval.set_num bestd numer

/-- The method `grid_volume::split_at_fraction`: the abort for `bestd == -1`, the abort for
`numer >= num[bestd]`, otherwise `retval`. -/
def grid_volume.split_at_fraction (gv : grid_volume) (want_high : Bool) (numer : Int) :
    Res grid_volume :=
  let bestd := gv.best.1
  if bestd = -1 then .fatal
  else if numer ≥ gv.num bestd then .fatal
  else .ok (gv.split_retval want_high numer)

/-- The loop `biglen = 0; for i = 0, 1, 2: if (num[i] > biglen) biglen = num[i]` of `split`. -/
def grid_volume.biglen (gv : grid_volume) : Int :=
  [0, 1, 2].foldl (fun (b : Int) i => if gv.num i > b then gv.num i else b) 0

/-- The method `grid_volume::split`, with fuel for the recursion. The two casts divide by
`(double) n` and `(double) biglen`; a zero divisor gives NaN or infinity, whose cast to `int`
is undefined. -/
def grid_volume.split_fuel : Nat → grid_volume → Int → Int → Res grid_volume
  | 0, _, _, _ => .nofuel
  | fuel + 1, gv, n, which =>
    if n > gv.nowned_min then .fatal
    else if n = 1 then .ok gv
    else
      let biglen := gv.biglen
      if n = 0 ∨ biglen = 0 then .undef
      else
        let split_point := round_div (biglen * n.tdiv 2) n
        let num_low := round_div (split_point * n) biglen
        if which < num_low then
          (gv.split_at_fraction false split_point).bind
            (fun lo => grid_volume.split_fuel fuel lo num_low which)
        else
          (gv.split_at_fraction true split_point).bind
            (fun hi => grid_volume.split_fuel fuel hi (n - num_low) (which - num_low))

/-- The method `grid_volume::split`: every recursive call has a smaller part count, so
`n` rounds of fuel are enough (`split_fuel_enough`). -/
def grid_volume.split (gv : grid_volume) (n which : Int) : Res grid_volume :=
  grid_volume.split_fuel n.toNat gv n which

/-- A call made while `split` runs: the receiver and the arguments. -/
inductive split_call where
  /-- a call `gv.split(n, which)` -/
  | split (gv : grid_volume) (n which : Int)
  /-- a call `gv.split_at_fraction(want_high, numer)` -/
  | at_fraction (gv : grid_volume) (want_high : Bool) (numer : Int)
deriving DecidableEq, Repr

/-- The calls of `split` and `split_at_fraction` made by `gv.split(n, which)`, in order,
the call itself first: the control flow of `split_fuel` with the calls recorded. -/
def grid_volume.split_calls : Nat → grid_volume → Int → Int → List split_call
  | 0, _, _, _ => []
  | fuel + 1, gv, n, which =>
    split_call.split gv n which ::
    (if n > gv.nowned_min then []
    else if n = 1 then []
    else
      let biglen := gv.biglen
      if n = 0 ∨ biglen = 0 then []
      else
        let split_point := round_div (biglen * n.tdiv 2) n
        let num_low := round_div (split_point * n) biglen
        if which < num_low then
          split_call.at_fraction gv false split_point ::
          (match gv.split_at_fraction false split_point with
           | .ok lo => grid_volume.split_calls fuel lo num_low which
           | _ => [])
        else
          split_call.at_fraction gv true split_point ::
          (match gv.split_at_fraction true split_point with
           | .ok hi => grid_volume.split_calls fuel hi (n - num_low) (which - num_low)
           | _ => []))

/-- What the safety claim asks of a call: a `split` call has a part count between `1` and
`nowned_min()` of its receiver (so it does not abort), a `split_at_fraction` call has
`0 < numer < ` the longest extent. -/
def split_call.valid : split_call → Prop
  | .split gv n _ => 1 ≤ n ∧ n ≤ gv.nowned_min
  | .at_fraction gv _ numer => 0 < numer ∧ numer < gv.biglen ∧ 1 < gv.biglen

/-- The point count of a returned descriptor, the product of the extents over the active
directions; `0` when the call did not return. -/
def point_count : Res grid_volume → Int
  | .ok gv => gv.nowned_min
  | _ => 0

/-- The method `grid_volume::intersect_with` called without `others`: `none` for `false`,
otherwise the intersection written through the second argument. -/
def grid_volume.intersect_with (gv vol_in : grid_volume) : Option grid_volume :=
  let step := fun (st : Option ((Int × Int × Int) × ivec)) (d : direction) =>
    match st with
    | none => none
    | some (temp_num, new_io) =>
      let minval := max (gv.little_corner.in_direction d) (vol_in.little_corner.in_direction d)
      let maxval := min (gv.big_corner.in_direction d) (vol_in.big_corner.in_direction d)
      if minval ≥ maxval then none
      else
        let t := (maxval - minval).tdiv 2
        let i := d.toInt.tmod 3
        let temp_num : Int × Int × Int :=
          if i = 0 then (t, temp_num.2.1, temp_num.2.2)
          else if i = 1 then (temp_num.1, t, temp_num.2.2)
          else (temp_num.1, temp_num.2.1, t)
        some (temp_num, new_io.set_direction d minval)
  match (loop_over_directions gv.dim).foldl step (some ((0, 0, 0), zero_ivec gv.dim)) with
  | none => none
  | some (temp_num, new_io) =>
    some ((⟨gv.dim, temp_num.1, temp_num.2.1, temp_num.2.2, zero_ivec gv.dim⟩ :
      grid_volume).set_origin new_io)

/-- The selection loop of `split_by_effort`: `biglen = 0, splitdir = NO_DIRECTION`, then over
the active directions the pair becomes `(num_direction(d), d)` when
`num_direction(d) > biglen`. -/
def grid_volume.effort_axis (gv : grid_volume) : Int × direction :=
  (loop_over_directions gv.dim).foldl
    (fun (b : Int × direction) d => if gv.num_direction d > b.1 then (gv.num_direction d, d) else b)
    (0, .NO_DIRECTION)

/-- The cast `(int) x` of a finite double: truncation towards zero. -/
def trunc (q : Rat) : Int := q.num.tdiv q.den

/-- The state of the candidate scan of `split_by_effort`: `best_split_measure`,
`best_split_point` and `left_effort_fraction`; the fraction is `none` when the division
`total_left_effort / (total_left_effort + total_right_effort)` has a zero divisor (NaN or
infinity). -/
structure scan_state where
  best_split_measure : Rat
  best_split_point : Int
  left_effort_fraction : Option Rat
deriving DecidableEq, Repr

/-- One round of the candidate scan of `split_by_effort` for `split_point`, for `n ≥ 2`:
the effort table is the list of the pairs `(v[j], effort[j])`, `Ngv` its length. -/
def grid_volume.scan_step (gv : grid_volume) (n : Int) (splitdir : direction)
    (table : List (grid_volume × Rat)) (st : scan_state) (split_point : Int) : scan_state :=
  let v_left := gv.set_num_direction splitdir split_point
  let v_right := gv.set_num_direction splitdir (gv.num_direction splitdir - split_point)
  let v_right := v_right.shift_origin splitdir (split_point * 2)
  let total : Rat × Rat :=
    if table.length = 0 then ((v_left.ntot : Rat), (v_right.ntot : Rat))
    else
      table.foldl
        (fun (acc : Rat × Rat) (e : grid_volume × Rat) =>
          let l := match v_left.intersect_with e.1 with
            | some vol => acc.1 + e.2 * (vol.ntot : Rat)
            | none => acc.1
          let r := match v_right.intersect_with e.1 with
            | some vol => acc.2 + e.2 * (vol.ntot : Rat)
            | none => acc.2
          (l, r))
        (0, 0)
  let total_left_effort := total.1
  let total_right_effort := total.2
  let ml := total_left_effort / ((n.tdiv 2 : Int) : Rat)
  let mr := total_right_effort / ((n - n.tdiv 2 : Int) : Rat)
  let split_measure := if ml > mr then ml else mr
  if split_measure < st.best_split_measure then
    { best_split_measure := split_measure
      best_split_point := split_point
      left_effort_fraction :=
        if total_left_effort + total_right_effort = 0 then none
        else some (total_left_effort / (total_left_effort + total_right_effort)) }
  else st

/-- The candidate scan of `split_by_effort`: `split_point = 1, ..., biglen - 1` from the
initial state `best_split_measure = 1e20`, `best_split_point = 0`,
`left_effort_fraction = 0`. -/
def grid_volume.scan (gv : grid_volume) (n : Int) (table : List (grid_volume × Rat)) :
    scan_state :=
  let ax := gv.effort_axis
  ((List.range (ax.1.toNat - 1)).map (fun (k : Nat) => (k : Int) + 1)).foldl
    (gv.scan_step n ax.2 table) ⟨(10 : Rat) ^ 20, 0, some 0⟩

/-- The method `grid_volume::split_by_effort`, with fuel for the recursion. For `n ≤ 0` the
scan divides by `n/2 = 0` and for `biglen = 0` the fallback test divides by zero; the model
stops there with `undef`. A `left_effort_fraction` that is NaN or infinite makes the cast
to `int` undefined. -/
def grid_volume.split_by_effort_fuel :
    Nat → grid_volume → Int → Int → List (grid_volume × Rat) → Res grid_volume
  | 0, _, _, _, _ => .nofuel
  | fuel + 1, gv, n, which, table =>
    let grid_points_owned := gv.nowned_min
    if n > grid_points_owned then .fatal
    else if n = 1 then .ok gv
    else if n ≤ 0 then .undef
    else
      let biglen := gv.effort_axis.1
      let st := gv.scan n table
      let split_point := st.best_split_point
      match st.left_effort_fraction with
      | none => .undef
      | some left_effort_fraction =>
        let num_low := trunc (left_effort_fraction * (n : Rat) + 1 / 2)
        if biglen = 0 then .undef
        else if num_low > st.best_split_point * grid_points_owned.tdiv biglen
            ∨ n - num_low
              > grid_points_owned - st.best_split_point * grid_points_owned.tdiv biglen then
          gv.split n which
        else if which < num_low then
          (gv.split_at_fraction false split_point).bind
            (fun lo => grid_volume.split_by_effort_fuel fuel lo num_low which table)
        else
          (gv.split_at_fraction true split_point).bind
            (fun hi =>
              grid_volume.split_by_effort_fuel fuel hi (n - num_low) (which - num_low) table)


/-- Modelled from the spec: `ivec::round_up_to_even` (header): every active slot `t` becomes
`t + |t| % 2`. -/
def ivec.round_up_to_even (v : ivec) : ivec :=
  (loop_over_directions v.dim).foldl
    (fun res d =>
      res.set_direction d
        (v.in_direction d
          + (if v.in_direction d ≥ 0 then v.in_direction d else - v.in_direction d).tmod 2))
    (zero_ivec v.dim)

/-- The method `grid_volume::icenter`. -/
def grid_volume.icenter (gv : grid_volume) : ivec :=
  match gv.dim with
  | .D1 => gv.io.add (ivec_of_nums .D1 0 0 gv.nz).round_up_to_even
  | .D2 => gv.io.add (ivec_of_nums .D2 gv.nx gv.ny 0).round_up_to_even
  | .D3 => gv.io.add (ivec_of_nums .D3 gv.nx gv.ny gv.nz).round_up_to_even
  | .Dcyl => gv.io.add (ivec_of_nums .Dcyl 0 0 gv.nz).round_up_to_even

/-- Modelled from the spec: the struct `signed_direction` (header): a destination direction,
a flip and a phase. The phase type `α` stands for `complex<double>`; only its product and
its `1.0` are used. -/
structure signed_direction (α : Type) where
  d : direction
  flipped : Bool
  phase : α
deriving DecidableEq, Repr

/-- Modelled from the spec: the constructor `signed_direction(d)` (header): no flip, phase
`1.0`. -/
def signed_direction.of {α : Type} [One α] (d : direction) : signed_direction α := ⟨d, false, 1⟩

/-- Modelled from the spec: `flip(signed_direction)` (header): the flip negated. -/
def flip {α : Type} (sd : signed_direction α) : signed_direction α :=
  { sd with flipped := !sd.flipped }

/-- The operator `signed_direction::operator*(complex<double>)`: `phase *= p`. -/
def signed_direction.mul {α : Type} [Mul α] (sd : signed_direction α) (p : α) :
    signed_direction α :=
  { sd with phase := sd.phase * p }

/-- One link of a `symmetry`: the members `S`, `ph`, `g` and `i_symmetry_point` of the class
(the member `next` is the constructor of `symmetry`). -/
structure generator (α : Type) where
  S : direction → signed_direction α
  ph : α
  g : Int
  i_symmetry_point : ivec

/-- The class `symmetry`: a link whose `next` is `NULL`, or a link that owns its tail. -/
inductive symmetry (α : Type) where
  /-- a link with `next == NULL` -/
  | last (l : generator α)
  /-- a link followed by the chain `next` -/
  | link (l : generator α) (next : symmetry α)

/-- The members of the first link. -/
def symmetry.head {α : Type} : symmetry α → generator α
  | .last l => l
  | .link l _ => l

/-- The member `next`; `none` is `NULL`. -/
def symmetry.next {α : Type} : symmetry α → Option (symmetry α)
  | .last _ => none
  | .link _ nx => some nx

/-- The method `symmetry::multiplicity`. -/
def symmetry.multiplicity {α : Type} : symmetry α → Int
  | .last l => l.g
  | .link l nx => l.g * nx.multiplicity

/-- The loop `for (; sn->next; sn = sn->next) ; sn->next = new symmetry(b);` of
`operator+`: a copy of `b` hung on the last link. -/
def symmetry.append {α : Type} : symmetry α → symmetry α → symmetry α
  | .last l, b => .link l b
  | .link l nx, b => .link l (nx.append b)

/-- The operator `symmetry::operator+`. -/
def symmetry.add {α : Type} (a b : symmetry α) : symmetry α :=
  if a.multiplicity = 1 then b
  else if b.multiplicity = 1 then a
  else a.append b

/-- The operator `symmetry::operator*(complex<double>)`: `ph *= p` on the first link. -/
def symmetry.mul {α : Type} [Mul α] : symmetry α → α → symmetry α
  | .last l, p => .last { l with ph := l.ph * p }
  | .link l nx, p => .link { l with ph := l.ph * p } nx

/-- The constructor `symmetry::symmetry()`, which is `identity()`: `g = 1`, `ph = 1.0`,
`S[d] = (d, false)`, `next = NULL`; the integer symmetry point is the default `ivec()`. -/
def identity {α : Type} [One α] : symmetry α :=
  .last ⟨fun d => signed_direction.of d, 1, 1, ⟨.D2, 0, 0, 0, 0, 0⟩⟩

/-- The write `S[i] = f(S[i])` for an index `i` in `0..4`. -/
def set_S {α : Type} (S : direction → signed_direction α) (i : Int)
    (f : signed_direction α → signed_direction α) : direction → signed_direction α :=
  fun d => if d.toInt = i then f (S d) else S d

/-- The function `rotate4(axis, gv)`; `fatal` for an axis beyond `Z`. -/
def rotate4 {α : Type} [One α] (axis : direction) (gv : grid_volume) : Res (symmetry α) :=
  if axis.toInt > 2 then .fatal
  else
    let S : direction → signed_direction α := fun d => signed_direction.of d
    let S := set_S S ((axis.toInt + 1).tmod 3)
      (fun sd => { sd with d := direction.ofInt ((axis.toInt + 2).tmod 3) })
    let S := set_S S ((axis.toInt + 1).tmod 3) (fun sd => { sd with flipped := true })
    let S := set_S S ((axis.toInt + 2).tmod 3)
      (fun sd => { sd with d := direction.ofInt ((axis.toInt + 1).tmod 3) })
    .ok (.last ⟨S, 1, 4, gv.icenter⟩)

/-- The function `rotate2(axis, gv)`; `fatal` for an axis beyond `Z`. -/
def rotate2 {α : Type} [One α] (axis : direction) (gv : grid_volume) : Res (symmetry α) :=
  if axis.toInt > 2 then .fatal
  else
    let S : direction → signed_direction α := fun d => signed_direction.of d
    let S := set_S S ((axis.toInt + 1).tmod 3) (fun sd => { sd with flipped := true })
    let S := set_S S ((axis.toInt + 2).tmod 3) (fun sd => { sd with flipped := true })
    .ok (.last ⟨S, 1, 2, gv.icenter⟩)

/-- The function `mirror(axis, gv)`. -/
def mirror {α : Type} [One α] (axis : direction) (gv : grid_volume) : symmetry α :=
  let S : direction → signed_direction α := fun d => signed_direction.of d
  let S := set_S S axis.toInt (fun sd => { sd with flipped := true })
  .last ⟨S, 1, 2, gv.icenter⟩

/-- The method `symmetry::transform(direction, int)`, with fuel for the recursion. A zero
`g` makes `%` undefined, and so does the call `next->transform` through a `NULL` `next`.
The assignment `if (nme == 1) sd = S[d];` is overwritten by the statement after it and is
left out. -/
def symmetry.transform_fuel {α : Type} [Mul α] [One α] :
    Nat → symmetry α → direction → Int → Res (signed_direction α)
  | 0, _, _, _ => .nofuel
  | fuel + 1, s, d, n =>
    if n = 0 ∨ d = .NO_DIRECTION then .ok (signed_direction.of d)
    else if s.head.g = 0 then .undef
    else
      let g := s.head.g
      let nme := if n < 0 then (g - (-n).tmod g).tmod g else n.tmod g
      let nrest := if n < 0 then -((-n).tdiv g) else n.tdiv g
      if nme = 0 then
        if nrest = 0 then .ok (signed_direction.of d)
        else
          match s.next with
          | none => .undef
          | some nx => symmetry.transform_fuel fuel nx d nrest
      else
        let sd :=
          if (s.head.S d).flipped then
            (symmetry.transform_fuel fuel s (s.head.S d).d (nme - 1)).bind
              (fun r => .ok (flip r))
          else symmetry.transform_fuel fuel s (s.head.S d).d (nme - 1)
        sd.bind (fun sd =>
          match s.next with
          | some nx =>
            if nrest ≠ 0 then
              if sd.flipped then
                (symmetry.transform_fuel fuel nx sd.d nrest).bind
                  (fun r => .ok ((flip r).mul s.head.ph))
              else
                (symmetry.transform_fuel fuel nx sd.d nrest).bind
                  (fun r => .ok (r.mul s.head.ph))
            else .ok (sd.mul s.head.ph)
          | none => .ok (sd.mul s.head.ph))

/-- Fuel that covers every call of `transform`: each link needs at most `|g| + 1` rounds. -/
def symmetry.fuel {α : Type} : symmetry α → Nat
  | .last l => l.g.natAbs + 1
  | .link l nx => l.g.natAbs + 1 + nx.fuel

/-- The method `symmetry::transform(direction, int)`. -/
def symmetry.transform {α : Type} [Mul α] [One α] (s : symmetry α) (d : direction) (n : Int) :
    Res (signed_direction α) :=
  symmetry.transform_fuel s.fuel s d n

/-- The residue of `n` that reaches the last link of the chain: `n % g` at the last link,
and the residue of `n / g` in the tail before it. -/
def symmetry.last_residue {α : Type} : symmetry α → Int → Int
  | .last l, n => n.tmod l.g
  | .link l nx, n => nx.last_residue (n.tdiv l.g)

/-- Every link of the chain has a positive order `g`. -/
def symmetry.pos {α : Type} : symmetry α → Prop
  | .last l => 0 < l.g
  | .link l nx => 0 < l.g ∧ nx.pos

/-- The method `grid_volume::split_by_effort`, run with `n + nowned_min() + 1` rounds of
fuel: a recursive call that does not repeat its caller has a smaller part count or a receiver
with fewer points. -/
def grid_volume.split_by_effort (gv : grid_volume) (n which : Int)
    (table : List (grid_volume × Rat)) : Res grid_volume :=
  grid_volume.split_by_effort_fuel ((n + gv.nowned_min).toNat + 1) gv n which table

/-- Decision procedure for `symmetry.pos`. -/
instance symmetry.decPos {α : Type} : (s : symmetry α) → Decidable s.pos
  | .last l => inferInstanceAs (Decidable (0 < l.g))
  | .link l nx =>
    have := symmetry.decPos nx
    inferInstanceAs (Decidable (0 < l.g ∧ nx.pos))

/-- The state the scan for two parts and no effort table moves to when it accepts
`split_point = sp`: the two totals are `(sp + 1) * K` and `(L - sp + 1) * K`. -/
def scan_accept_two (L K sp : Int) : scan_state :=
  ⟨((max ((sp + 1) * K) ((L - sp + 1) * K) : Int) : Rat), sp,
    if (((sp + 1) * K + (L - sp + 1) * K : Int) : Rat) = 0 then none
    else some ((((sp + 1) * K : Int) : Rat) / (((sp + 1) * K + (L - sp + 1) * K : Int) : Rat))⟩

/-- The value `split_point` of `split`: `(int)(biglen*(n/2)/(double)n + 0.5)`. -/
def grid_volume.split_point (gv : grid_volume) (n : Int) : Int :=
  round_div (gv.biglen * n.tdiv 2) n

/-- The value `num_low` of `split`: `(int)(split_point*n/(double)biglen + 0.5)`. -/
def grid_volume.num_low (gv : grid_volume) (n : Int) : Int :=
  round_div (gv.split_point n * n) gv.biglen

/-- Modelled from the spec: the class `vec` (header): a dimension tag and one `double` slot per
direction. Doubles are exact rationals; slots a constructor leaves unset are `0` here. -/
structure vec where
  dim : ndim
  x : Rat
  y : Rat
  z : Rat
  r : Rat
  p : Rat
deriving DecidableEq, Repr

/-- Modelled from the spec: `vec::in_direction` (header): the slot `t[d]`. -/
def vec.in_direction (v : vec) : direction → Rat
  | .X => v.x | .Y => v.y | .Z => v.z | .R => v.r | .P => v.p | .NO_DIRECTION => 0

/-- Modelled from the spec: `vec::set_direction` (header): `t[d] = val`. -/
def vec.set_direction (v : vec) (d : direction) (val : Rat) : vec :=
  match d with
  | .X => { v with x := val }
  | .Y => { v with y := val }
  | .Z => { v with z := val }
  | .R => { v with r := val }
  | .P => { v with p := val }
  | .NO_DIRECTION => v

/-- Modelled from the spec: `zero_vec(dim)` (header). -/
def zero_vec (dim : ndim) : vec := ⟨dim, 0, 0, 0, 0, 0⟩

/-- Modelled from the spec: `vec::operator+` (header): a copy of the right operand to which
the active slots of the left operand are added. -/
def vec.add (v a : vec) : vec :=
  (loop_over_directions v.dim).foldl
    (fun res d => res.set_direction d (res.in_direction d + v.in_direction d)) a

/-- Modelled from the spec: `vec::operator==` (header): the active slots of the left operand
are compared; the dimension tags are not. -/
def vec.beq (v a : vec) : Bool :=
  (loop_over_directions v.dim).all (fun d => decide (v.in_direction d = a.in_direction d))

/-- Modelled from the spec: `vec::round_float` (header): every active slot is converted to
`float` and back. The conversion is the parameter `rf`. -/
def vec.round_float (rf : Rat → Rat) (v : vec) : vec :=
  (loop_over_directions v.dim).foldl
    (fun res d => res.set_direction d (rf (res.in_direction d))) v

/-- Modelled from the spec: `ivec::operator*(double)` (header): a `vec` of the same dimension
whose active slots are the slots of the `ivec` times `s`. -/
def ivec.scale_double (v : ivec) (s : Rat) : vec :=
  (loop_over_directions v.dim).foldl
    (fun res d => res.set_direction d ((v.in_direction d : Rat) * s)) (zero_vec v.dim)

/-- The function `min(const vec &, const vec &)`: the slot-wise minimum over the active
directions of the first argument. -/
def vec_min (vec1 vec2 : vec) : vec :=
  (loop_over_directions vec1.dim).foldl
    (fun m d => m.set_direction d (min (vec1.in_direction d) (vec2.in_direction d)))
    (zero_vec vec1.dim)

/-- The function `max(const vec &, const vec &)`: the slot-wise maximum over the active
directions of the first argument. -/
def vec_max (vec1 vec2 : vec) : vec :=
  (loop_over_directions vec1.dim).foldl
    (fun m d => m.set_direction d (max (vec1.in_direction d) (vec2.in_direction d)))
    (zero_vec vec1.dim)

/-- Modelled from the spec: the class `volume` (header): a dimension tag and the two corners
`min_corner` and `max_corner`. -/
structure volume where
  dim : ndim
  min_corner : vec
  max_corner : vec
deriving DecidableEq, Repr

/-- The constructor `volume::volume(const vec &, const vec &)`. -/
def volume.of_corners (vec1 vec2 : vec) : volume :=
  ⟨vec1.dim, vec_min vec1 vec2, vec_max vec1 vec2⟩

/-- The constructor `volume::volume(const vec &)`. -/
def volume.of_point (pt : vec) : volume := ⟨pt.dim, pt, pt⟩

/-- Modelled from the spec: the constructor `volume::volume(ndim)` (header): the three
dimension tags are set and the slots of the corners are left unset (`0` here). -/
def volume.of_dim (dim : ndim) : volume := ⟨dim, zero_vec dim, zero_vec dim⟩

/-- Modelled from the spec: `volume::in_direction_min` (header). -/
def volume.in_direction_min (v : volume) (d : direction) : Rat := v.min_corner.in_direction d

/-- Modelled from the spec: `volume::in_direction_max` (header). -/
def volume.in_direction_max (v : volume) (d : direction) : Rat := v.max_corner.in_direction d

/-- Modelled from the spec: `volume::in_direction` (header): the extent `max - min`. -/
def volume.in_direction (v : volume) (d : direction) : Rat :=
  v.in_direction_max d - v.in_direction_min d

/-- Modelled from the spec: `volume::set_direction_min` (header). -/
def volume.set_direction_min (v : volume) (d : direction) (val : Rat) : volume :=
  { v with min_corner := v.min_corner.set_direction d val }

/-- Modelled from the spec: `volume::set_direction_max` (header). -/
def volume.set_direction_max (v : volume) (d : direction) (val : Rat) : volume :=
  { v with max_corner := v.max_corner.set_direction d val }

/-- Modelled from the spec: `volume::operator==` (header): both corners are equal. -/
def volume.beq (v a : volume) : Bool :=
  v.min_corner.beq a.min_corner && v.max_corner.beq a.max_corner

/-- Modelled from the spec: `volume::round_float` (header): the volume built from the two
rounded corners. -/
def volume.round_float (rf : Rat → Rat) (v : volume) : volume :=
  volume.of_corners (v.min_corner.round_float rf) (v.max_corner.round_float rf)

/-- The method `volume::computational_volume`. -/
def volume.computational_volume (v : volume) : Rat :=
  (loop_over_directions v.dim).foldl (fun vol d => vol * v.in_direction d) 1

/-- The loop of `volume::intersect_with` over the directions that are left, with the
`result` built so far. -/
def volume.intersect_loop (v a : volume) : List direction → volume → volume
  | [], result => result
  | d :: ds, result =>
    let minval := max (v.in_direction_min d) (a.in_direction_min d)
    let maxval := min (v.in_direction_max d) (a.in_direction_max d)
    if minval > maxval then volume.of_corners (zero_vec v.dim) (zero_vec v.dim)
    else
      volume.intersect_loop v a ds
        ((result.set_direction_min d minval).set_direction_max d maxval)

/-- The method `volume::intersect_with`; `fatal` for volumes of different dimensions. -/
def volume.intersect_with (v a : volume) : Res volume :=
  if a.dim ≠ v.dim then .fatal
  else .ok (volume.intersect_loop v a (loop_over_directions v.dim) (volume.of_dim v.dim))

/-- The method `volume::intersects`; `fatal` for volumes of different dimensions. -/
def volume.intersects (v a : volume) : Res Bool :=
  if a.dim ≠ v.dim then .fatal
  else
    .ok ((loop_over_directions v.dim).all (fun d =>
      !decide (max (v.in_direction_min d) (a.in_direction_min d)
        > min (v.in_direction_max d) (a.in_direction_max d))))

/-- The method `volume::contains(const vec &)`. -/
def volume.contains (v : volume) (p : vec) : Bool :=
  (loop_over_directions v.dim).all (fun d =>
    !(decide (p.in_direction d > v.in_direction_max d)
      || decide (p.in_direction d < v.in_direction_min d)))

/-- The method `volume::contains(const volume &)`. -/
def volume.contains_volume (v a : volume) : Bool :=
  v.contains a.min_corner && v.contains a.max_corner

/-- Modelled from the spec: the macro `FOR_DIRECTIONS(d)` (header): the five directions
`X, Y, Z, R, P` in enumeration order. -/
def for_directions : List direction := [.X, .Y, .Z, .R, .P]

/-- Modelled from the spec: the `derived_component` enumeration (header), in the order of its
declaration: the Poynting flux along x, y, r, phi, z and the three energy densities. -/
inductive derived_component where
  | Sx | Sy | Sr | Sp | Sz | EnergyDensity | D_EnergyDensity | H_EnergyDensity
deriving DecidableEq, Repr

/-- Modelled from the spec: `is_poynting` (header). -/
def is_poynting : derived_component → Bool
  | .Sx | .Sy | .Sr | .Sp | .Sz => true
  | _ => false

/-- Modelled from the spec: `component_direction` on a derived component (header). -/
def derived_component_direction : derived_component → direction
  | .Sx => .X | .Sy => .Y | .Sz => .Z | .Sr => .R | .Sp => .P
  | .EnergyDensity | .D_EnergyDensity | .H_EnergyDensity => .NO_DIRECTION

/-- Modelled from the spec: `direction_component(component, direction)` (header): the
component of the same field kind along `d`. It aborts for a field component and
`NO_DIRECTION`, and for a scalar tag and a direction. -/
def direction_component (c : component) (d : direction) : Res component :=
  let pick : component → component → component → component → component → Res component :=
    fun cx cy cr cp cz =>
      match d with
      | .X => .ok cx | .Y => .ok cy | .Z => .ok cz | .R => .ok cr | .P => .ok cp
      | .NO_DIRECTION => .fatal
  if is_electric c then pick .Ex .Ey .Er .Ep .Ez
  else if is_magnetic c then pick .Hx .Hy .Hr .Hp .Hz
  else if is_D c then pick .Dx .Dy .Dr .Dp .Dz
  else if is_B c then pick .Bx .By .Br .Bp .Bz
  else if c = .Dielectric ∧ d = .NO_DIRECTION then .ok .Dielectric
  else if c = .Permeability ∧ d = .NO_DIRECTION then .ok .Permeability
  else .fatal

/-- Modelled from the spec: `direction_component(derived_component, direction)` (header). -/
def direction_derived_component (c : derived_component) (d : direction) :
    Res derived_component :=
  if is_poynting c then
    match d with
    | .X => .ok .Sx | .Y => .ok .Sy | .Z => .ok .Sz | .R => .ok .Sr | .P => .ok .Sp
    | .NO_DIRECTION => .fatal
  else if d = .NO_DIRECTION then .ok c
  else .fatal

/-- The `int c` of a `volume_list`: a component, or a derived component (`is_derived(c)`). -/
inductive component_tag where
  | field (c : component)
  | derived (c : derived_component)
deriving DecidableEq, Repr

/-- The method `symmetry::transform(const ivec &, int)`. The fixed point is the member
`i_symmetry_point` of the first link. -/
def symmetry.transform_ivec {α : Type} [Mul α] [One α] (s : symmetry α) (ov : ivec) (n : Int) :
    Res ivec :=
  if n = 0 then .ok ov
  else
    (loop_over_directions ov.dim).foldl
      (fun (out : Res ivec) d =>
        out.bind (fun out =>
          (s.transform d n).bind (fun sd =>
            let sp_d := s.head.i_symmetry_point.in_direction d
            let sp_sd := s.head.i_symmetry_point.in_direction sd.d
            let delta := ov.in_direction d - sp_d
            if sd.flipped then .ok (out.set_direction sd.d (sp_sd - delta))
            else .ok (out.set_direction sd.d (sp_sd + delta)))))
      (.ok ov)

/-- The body of the loop of `is_primitive`: whether the image `pp` makes the method return
`false` for the point `p`. -/
def is_primitive_rejects (p pp : ivec) : Bool :=
  match p.dim with
  | .D2 =>
    decide (pp.x + pp.y < p.x + p.y)
      || (decide (pp.x + pp.y = p.x + p.y) && decide (p.y > p.x) && decide (pp.y ≤ pp.x))
  | .D3 =>
    decide (pp.x + pp.y + pp.z < p.x + p.y + p.z)
      || (decide (pp.x + pp.y + pp.z = p.x + p.y + p.z)
          && decide (pp.x + pp.y - pp.z < p.x + p.y - p.z))
      || (decide (pp.x + pp.y + pp.z = p.x + p.y + p.z)
          && decide (pp.x + pp.y - pp.z = p.x + p.y - p.z)
          && decide (pp.x - pp.y - pp.z < p.x - p.y - p.z))
  | .D1 | .Dcyl => decide (pp.z < p.z)

/-- The loop `for (int i=1;i<multiplicity();i++)` of `is_primitive` over the values of `i`
that are left. -/
def symmetry.is_primitive_loop {α : Type} [Mul α] [One α] (s : symmetry α) (p : ivec) :
    List Int → Res Bool
  | [] => .ok true
  | i :: rest =>
    (s.transform_ivec p i).bind (fun pp =>
      if is_primitive_rejects p pp then .ok false else symmetry.is_primitive_loop s p rest)

/-- The values `1, ..., m - 1` of a loop `for (i = 1; i < m; i++)`. -/
def loop_from_one (m : Int) : List Int :=
  (List.range (m - 1).toNat).map (fun (k : Nat) => (k : Int) + 1)

/-- The values `0, ..., m - 1` of a loop `for (i = 0; i < m; i++)`. -/
def loop_from_zero (m : Int) : List Int :=
  (List.range m.toNat).map (fun (k : Nat) => (k : Int))

/-- The method `symmetry::is_primitive`. -/
def symmetry.is_primitive {α : Type} [Mul α] [One α] (s : symmetry α) (p : ivec) : Res Bool :=
  if s.multiplicity = 1 then .ok true
  else symmetry.is_primitive_loop s p (loop_from_one s.multiplicity)

/-- The method `symmetry::transform(component, int)`. -/
def symmetry.transform_component {α : Type} [Mul α] [One α] (s : symmetry α) (c : component)
    (n : Int) : Res component :=
  (s.transform (component_direction c) n).bind (fun sd => direction_component c sd.d)

/-- The method `symmetry::transform(derived_component, int)`. -/
def symmetry.transform_derived {α : Type} [Mul α] [One α] (s : symmetry α)
    (c : derived_component) (n : Int) : Res derived_component :=
  (s.transform (derived_component_direction c) n).bind
    (fun sd => direction_derived_component c sd.d)

/-- The method `symmetry::transform(int, int)` on the tag of a `volume_list`. -/
def symmetry.transform_tag {α : Type} [Mul α] [One α] (s : symmetry α) (c : component_tag)
    (n : Int) : Res component_tag :=
  match c with
  | .field c => (s.transform_component c n).bind (fun r => .ok (.field r))
  | .derived c => (s.transform_derived c n).bind (fun r => .ok (.derived r))

/-- One round of the loop `FOR_DIRECTIONS(d)` of `phase_shift` on the state
`(flip, have_one, have_two)`. -/
def phase_shift_step {α : Type} (d : direction) (td : signed_direction α)
    (st : Bool × Bool × Bool) : Bool × Bool × Bool :=
  let fl := if td.flipped then !st.1 else st.1
  let shift := (td.d.toInt - d.toInt + 6).tmod 3
  (fl, st.2.1 || decide (shift = 1), st.2.2 || decide (shift = 2))

/-- The loop `FOR_DIRECTIONS(d)` of `phase_shift` over the directions that are left. -/
def symmetry.phase_shift_loop {α : Type} [Mul α] [One α] (s : symmetry α) (n : Int) :
    List direction → Bool × Bool × Bool → Res (Bool × Bool × Bool)
  | [], st => .ok st
  | d :: ds, st =>
    (s.transform d n).bind (fun td =>
      symmetry.phase_shift_loop s n ds (phase_shift_step d td st))

/-- The method `symmetry::phase_shift(component, int)`. -/
def symmetry.phase_shift {α : Type} [Mul α] [One α] [Neg α] (s : symmetry α) (c : component)
    (n : Int) : Res α :=
  if c = .Dielectric ∨ c = .Permeability then .ok 1
  else
    (s.transform (component_direction c) n).bind (fun t =>
      if is_magnetic c || is_B c then
        (symmetry.phase_shift_loop s n for_directions (t.flipped, false, false)).bind
          (fun st =>
            let fl := if st.2.1 && st.2.2 then !st.1 else st.1
            if fl then .ok (-t.phase) else .ok t.phase)
      else if t.flipped then .ok (-t.phase) else .ok t.phase)

/-- The method `symmetry::phase_shift(derived_component, int)`; `star` is `conj`. -/
def symmetry.phase_shift_derived {α : Type} [Mul α] [One α] [Neg α] [Star α] (s : symmetry α)
    (c : derived_component) (n : Int) : Res α :=
  if is_poynting c then
    (s.transform (derived_component_direction c) n).bind (fun ds =>
      if ds.flipped then .ok (-(star ds.phase * ds.phase)) else .ok (star ds.phase * ds.phase))
  else .ok 1

/-- The method `symmetry::phase_shift(int, int)` on the tag of a `volume_list`. -/
def symmetry.phase_shift_tag {α : Type} [Mul α] [One α] [Neg α] [Star α] (s : symmetry α)
    (c : component_tag) (n : Int) : Res α :=
  match c with
  | .field c => s.phase_shift c n
  | .derived c => s.phase_shift_derived c n

/-- The member `symmetry_point` of the first link. It is written by `rotate4`, `rotate2`
and `mirror` as `gv.center()`, which is `gv[icenter()] = icenter() * (0.5 * inva)`, next to
`i_symmetry_point = gv.icenter()`, and by `r_to_minus_r_symmetry` as zero next to a zero
`i_symmetry_point`; so it is `i_symmetry_point * (0.5 * inva)`, where `inva` is the inverse
resolution of the grid the symmetry was built from. -/
def symmetry.symmetry_point {α : Type} (s : symmetry α) (inva : Rat) : vec :=
  s.head.i_symmetry_point.scale_double ((1 / 2) * inva)

/-- The method `symmetry::transform(const vec &, int)`. -/
def symmetry.transform_vec {α : Type} [Mul α] [One α] (s : symmetry α) (inva : Rat) (ov : vec)
    (n : Int) : Res vec :=
  if n = 0 then .ok ov
  else
    ((loop_over_directions ov.dim).foldl
      (fun (delta : Res vec) d =>
        delta.bind (fun delta =>
          (s.transform d n).bind (fun sd =>
            let deltad := ov.in_direction d - (s.symmetry_point inva).in_direction d
            if sd.flipped then .ok (delta.set_direction sd.d (-deltad))
            else .ok (delta.set_direction sd.d deltad))))
      (.ok ov)).bind (fun delta => .ok ((s.symmetry_point inva).add delta))

/-- The method `symmetry::transform(const volume &, int)`. -/
def symmetry.transform_volume {α : Type} [Mul α] [One α] (s : symmetry α) (inva : Rat)
    (v : volume) (n : Int) : Res volume :=
  (s.transform_vec inva v.min_corner n).bind (fun lo =>
    (s.transform_vec inva v.max_corner n).bind (fun hi => .ok (volume.of_corners lo hi)))

/-- Modelled from the spec: one node of the class `volume_list` (header): a volume, the tag
`c` and a weight; the list itself is a `List` of nodes, first node first. -/
structure volume_list (α : Type) where
  v : volume
  c : component_tag
  weight : α
deriving DecidableEq, Repr

/-- The test `gn->c == cS && gn->v.round_float() == gS.round_float()` of `reduce`. -/
def reduce_matches {α : Type} (rf : Rat → Rat) (cS : component_tag) (gS : volume)
    (gn : volume_list α) : Bool :=
  decide (gn.c = cS) && (gn.v.round_float rf).beq (gS.round_float rf)

/-- The statement `gn->weight += w` of `reduce` on the first node of `glnew` that passes the
test. -/
def reduce_add_weight {α : Type} [Add α] (rf : Rat → Rat) (cS : component_tag) (gS : volume)
    (w : α) : List (volume_list α) → List (volume_list α)
  | [] => []
  | gn :: rest =>
    if reduce_matches rf cS gS gn then { gn with weight := gn.weight + w } :: rest
    else gn :: reduce_add_weight rf cS gS w rest

/-- The loop `for (sn = 0; sn < multiplicity(); ++sn)` of the first part of `reduce` for the
input node `g`, over the values of `sn` that are left: `some` of the new `glnew` when a match
is found (the loop is left by `break`), `none` when `sn` reaches the multiplicity. -/
def symmetry.reduce_match_loop {α : Type} [Mul α] [One α] [Neg α] [Star α] [Add α]
    (s : symmetry α) (inva : Rat) (rf : Rat → Rat) (g : volume_list α)
    (glnew : List (volume_list α)) : List Int → Res (Option (List (volume_list α)))
  | [] => .ok none
  | sn :: rest =>
    (s.transform_volume inva g.v sn).bind (fun gS =>
      (s.transform_tag g.c sn).bind (fun cS =>
        if glnew.any (reduce_matches rf cS gS) then
          (s.phase_shift_tag g.c sn).bind (fun ps =>
            .ok (some (reduce_add_weight rf cS gS (g.weight * ps) glnew)))
        else symmetry.reduce_match_loop s inva rf g glnew rest))

/-- The first loop of `reduce` over the input nodes that are left, with the list `glnew`
built so far (a new node goes to the front). -/
def symmetry.reduce_fold {α : Type} [Mul α] [One α] [Neg α] [Star α] [Add α] [Zero α]
    [DecidableEq α] (s : symmetry α) (inva : Rat) (rf : Rat → Rat) :
    List (volume_list α) → List (volume_list α) → Res (List (volume_list α))
  | [], glnew => .ok glnew
  | g :: gl, glnew =>
    (symmetry.reduce_match_loop s inva rf g glnew (loop_from_zero s.multiplicity)).bind
      (fun r =>
        match r with
        | some glnew2 => symmetry.reduce_fold s inva rf gl glnew2
        | none =>
          if 0 ≤ s.multiplicity ∧ g.weight ≠ 0 then
            symmetry.reduce_fold s inva rf gl (⟨g.v, g.c, g.weight⟩ :: glnew)
          else symmetry.reduce_fold s inva rf gl glnew)

/-- The loop `LOOP_OVER_DIRECTIONS(g->v.dim, d) if (transform(d,sn).flipped) { halve[d] =
true; break; }` of `reduce`: the first active direction that `sn` flips. -/
def symmetry.first_flipped {α : Type} [Mul α] [One α] (s : symmetry α) (sn : Int) :
    List direction → Res (Option direction)
  | [] => .ok none
  | d :: ds =>
    (s.transform d sn).bind (fun t =>
      if t.flipped then .ok (some d) else symmetry.first_flipped s sn ds)

/-- The loop `for (int sn = 1; sn < multiplicity(); ++sn)` of the second part of `reduce`
for the node `g`, over the values of `sn` that are left; the state is the list of the
directions `d` with `halve[d]` set and the weight of the node. -/
def symmetry.reduce_self_loop {α : Type} [Mul α] [One α] [Neg α] [Star α] [Add α]
    (s : symmetry α) (inva : Rat) (rf : Rat → Rat) (g : volume_list α) :
    List Int → List direction × α → Res (List direction × α)
  | [], st => .ok st
  | sn :: rest, st =>
    (s.transform_tag g.c sn).bind (fun cS =>
      if g.c = cS then
        (s.transform_volume inva g.v sn).bind (fun gS =>
          if (g.v.round_float rf).beq (gS.round_float rf) then
            (symmetry.first_flipped s sn (loop_over_directions g.v.dim)).bind (fun fd =>
              (s.phase_shift_tag g.c sn).bind (fun ps =>
                symmetry.reduce_self_loop s inva rf g rest
                  ((match fd with | some d => d :: st.1 | none => st.1),
                    st.2 + g.weight * ps)))
          else symmetry.reduce_self_loop s inva rf g rest st)
      else symmetry.reduce_self_loop s inva rf g rest st)

/-- The loop `LOOP_OVER_DIRECTIONS(g->v.dim, d) if (halve[d]) g->v.set_direction_max(d,
g->v.in_direction_min(d) + 0.5 * g->v.in_direction(d));` of `reduce`. -/
def volume.halve (v : volume) (halve : List direction) : volume :=
  (loop_over_directions v.dim).foldl
    (fun v d =>
      if d ∈ halve then v.set_direction_max d (v.in_direction_min d + (1 / 2) * v.in_direction d)
      else v) v

/-- One round of the second loop of `reduce`: the node `g` after the self-symmetry test and
the halving, or `none` when its weight is zero and it is deleted. -/
def symmetry.reduce_self {α : Type} [Mul α] [One α] [Neg α] [Star α] [Add α] [Zero α]
    [DecidableEq α] (s : symmetry α) (inva : Rat) (rf : Rat → Rat) (g : volume_list α) :
    Res (Option (volume_list α)) :=
  (symmetry.reduce_self_loop s inva rf g (loop_from_one s.multiplicity) ([], g.weight)).bind
    (fun st => if st.2 = 0 then .ok none else .ok (some ⟨g.v.halve st.1, g.c, st.2⟩))

/-- The second loop of `reduce` over the nodes of `glnew` that are left. -/
def symmetry.reduce_prune {α : Type} [Mul α] [One α] [Neg α] [Star α] [Add α] [Zero α]
    [DecidableEq α] (s : symmetry α) (inva : Rat) (rf : Rat → Rat) :
    List (volume_list α) → Res (List (volume_list α))
  | [] => .ok []
  | g :: rest =>
    (symmetry.reduce_self s inva rf g).bind (fun r =>
      (symmetry.reduce_prune s inva rf rest).bind (fun rs =>
        match r with
        | some e => .ok (e :: rs)
        | none => .ok rs))

/-- The method `symmetry::reduce`. The list `gl` is the input list, first node first; `inva`
is the inverse resolution behind `symmetry_point` and `rf` the conversion to `float` of
`round_float`. -/
def symmetry.reduce {α : Type} [Mul α] [One α] [Neg α] [Star α] [Add α] [Zero α]
    [DecidableEq α] (s : symmetry α) (inva : Rat) (rf : Rat → Rat) (gl : List (volume_list α)) :
    Res (List (volume_list α)) :=
  (symmetry.reduce_fold s inva rf gl []).bind (fun glnew => symmetry.reduce_prune s inva rf glnew)

/-- The links of a chain, first link first. -/
def symmetry.links {α : Type} : symmetry α → List (generator α)
  | .last l => [l]
  | .link l nx => l :: nx.links

/-- Every table of the chain maps the directions `X, ..., P` to directions `X, ..., P`, as the
tables written by `identity`, `rotate4`, `rotate2`, `mirror` and `r_to_minus_r_symmetry`
do. -/
def symmetry.closed {α : Type} : symmetry α → Prop
  | .last l => ∀ d, d ≠ .NO_DIRECTION → (l.S d).d ≠ .NO_DIRECTION
  | .link l nx => (∀ d, d ≠ .NO_DIRECTION → (l.S d).d ≠ .NO_DIRECTION) ∧ nx.closed

/-- Some active axis separates the two volumes: the test `minval > maxval` of
`intersect_with` and `intersects` succeeds on it. -/
def volume.separated (a b : volume) : Prop :=
  ∃ d ∈ loop_over_directions a.dim,
    max (a.in_direction_min d) (b.in_direction_min d)
      > min (a.in_direction_max d) (b.in_direction_max d)

instance (a b : volume) : Decidable (a.separated b) := by
  unfold volume.separated; infer_instance

/-- The volume `intersect_with` builds when no active axis separates the two volumes: the
slot-wise maximum of the two `min_corner`s and minimum of the two `max_corner`s on the active
axes of `a`, zero elsewhere. -/
def volume.meet (a b : volume) : volume :=
  ⟨a.dim,
    vec_max ⟨a.dim, a.min_corner.x, a.min_corner.y, a.min_corner.z, a.min_corner.r,
      a.min_corner.p⟩ b.min_corner,
    vec_min ⟨a.dim, a.max_corner.x, a.max_corner.y, a.max_corner.z, a.max_corner.r,
      a.max_corner.p⟩ b.max_corner⟩

/-- Corner normalisation: `min_d <= max_d` on every active axis. -/
def volume.normalised (v : volume) : Prop :=
  ∀ d ∈ loop_over_directions v.dim, v.in_direction_min d ≤ v.in_direction_max d

/-- The reflection `2 * c - x` of the slot `x` about the slot `c` of the symmetry point when
`d` is the mirror axis, the slot itself otherwise. -/
def mirror_slot (axis d : direction) (c x : Rat) : Rat := if d = axis then 2 * c - x else x

/-- The method `volume::normal_direction`. -/
def volume.normal_direction (v : volume) : direction :=
  match v.dim with
  | .D1 => .Z
  | .D2 =>
    if v.in_direction .X = 0 ∧ v.in_direction .Y > 0 then .X
    else if v.in_direction .X > 0 ∧ v.in_direction .Y = 0 then .Y
    else .NO_DIRECTION
  | .Dcyl =>
    if v.in_direction .R = 0 ∧ v.in_direction .Z > 0 then .R
    else if v.in_direction .R > 0 ∧ v.in_direction .Z = 0 then .Z
    else .NO_DIRECTION
  | .D3 =>
    let zx := decide (v.in_direction .X = 0)
    let zy := decide (v.in_direction .Y = 0)
    let zz := decide (v.in_direction .Z = 0)
    if zx && !zy && !zz then .X
    else if !zx && zy && !zz then .Y
    else if !zx && !zy && zz then .Z
    else .NO_DIRECTION

/-- Modelled from the spec: the constant `pi` (header), the double nearest to the number pi:
`0x400921FB54442D18`, that is `884279719003555 / 2^48`. -/
def pi : Rat := 884279719003555 / 281474976710656

/-- The method `volume::integral_volume`: the product of the extents that are not zero, times
`pi * (rmax + rmin)` in cylindrical coordinates. -/
def volume.integral_volume (v : volume) : Rat :=
  let vol := (loop_over_directions v.dim).foldl
    (fun vol d => if v.in_direction d ≠ 0 then vol * v.in_direction d else vol) 1
  if v.dim = .Dcyl then vol * (pi * (v.in_direction_max .R + v.in_direction_min .R)) else vol

/-- The method `volume::full_volume`. -/
def volume.full_volume (v : volume) : Rat :=
  let vol := v.computational_volume
  if v.dim = .Dcyl then vol * (pi * (v.in_direction_max .R + v.in_direction_min .R)) else vol

/-- The function `yucky_dir(dim, n)`: in cylindrical coordinates the `switch` returns `P`,
`R`, `Z` for `n = 0, 1, 2` and falls through to the cast `(direction) n` for another `n`; in
2-D the cast `(direction) ((n + 2) % 3)`; otherwise the cast `(direction) n`. -/
def yucky_dir (dim : ndim) (n : Int) : direction :=
  if dim = .Dcyl then
    if n = 0 then .P else if n = 1 then .R else if n = 2 then .Z else direction.ofInt n
  else if dim = .D2 then direction.ofInt ((n + 2).tmod 3)
  else direction.ofInt n

/-- The method `ivec::yucky_val`. -/
def ivec.yucky_val (v : ivec) (n : Int) : Int :=
  if has_direction v.dim (yucky_dir v.dim n) then v.in_direction (yucky_dir v.dim n) else 0

/-- The method `grid_volume::yucky_num`. -/
def grid_volume.yucky_num (gv : grid_volume) (n : Int) : Int :=
  if has_direction gv.dim (yucky_dir gv.dim n) then gv.num_direction (yucky_dir gv.dim n) else 1

/-- The method `grid_volume::yucky_direction`. -/
def grid_volume.yucky_direction (gv : grid_volume) (n : Int) : direction := yucky_dir gv.dim n

/-- The method `grid_volume::halve`. -/
def grid_volume.halve (gv : grid_volume) (d : direction) : grid_volume :=
  gv.set_num_direction d ((gv.icenter.in_direction d - gv.io.in_direction d).tdiv 2)

/-- The first block of a round of the second loop of `grid_volume::intersect_with`, for the
direction `d`: the lower slice of `vol_containing` is shaved off and added to `others`. The
state is `vol_containing` and the list `others` filled so far; the abort is `fatal`. -/
def grid_volume.shave_low (vol_in : grid_volume) (d : direction)
    (s : grid_volume × List grid_volume) : Res (grid_volume × List grid_volume) :=
  let vol_containing := s.1
  let others := s.2
  if vol_containing.little_corner.in_direction d < vol_in.little_corner.in_direction d then
    let other := vol_containing
    let thick := (vol_in.little_corner.in_direction d
      - vol_containing.little_corner.in_direction d).tdiv 2
    let other := other.set_num_direction d thick
    let others := others ++ [other]
    let vol_containing := vol_containing.shift_origin d (thick * 2)
    let vol_containing :=
      vol_containing.set_num_direction d (vol_containing.num_direction d - thick)
    if vol_containing.little_corner.in_direction d < vol_in.little_corner.in_direction d
    then .fatal
    else .ok (vol_containing, others)
  else .ok (vol_containing, others)

/-- The second block of a round of the second loop of `grid_volume::intersect_with`: the
upper slice of `vol_containing` is shaved off and added to `others`. -/
def grid_volume.shave_high (vol_in : grid_volume) (d : direction)
    (s : grid_volume × List grid_volume) : Res (grid_volume × List grid_volume) :=
  let vol_containing := s.1
  let others := s.2
  if vol_containing.big_corner.in_direction d > vol_in.big_corner.in_direction d then
    let other := vol_containing
    let thick := (vol_containing.big_corner.in_direction d
      - vol_in.big_corner.in_direction d).tdiv 2
    let other := other.set_num_direction d thick
    let other := other.shift_origin d ((vol_containing.num_direction d - thick) * 2)
    let others := others ++ [other]
    let vol_containing :=
      vol_containing.set_num_direction d (vol_containing.num_direction d - thick)
    if vol_containing.big_corner.in_direction d < vol_in.big_corner.in_direction d
    then .fatal
    else .ok (vol_containing, others)
  else .ok (vol_containing, others)

/-- One round of the second loop of `grid_volume::intersect_with`, for the direction `d`. -/
def grid_volume.shave (vol_in : grid_volume) (st : Res (grid_volume × List grid_volume))
    (d : direction) : Res (grid_volume × List grid_volume) :=
  st.bind (fun s => (grid_volume.shave_low vol_in d s).bind (grid_volume.shave_high vol_in d))

/-- The method `grid_volume::intersect_with` called with `intersection` and `others`:
`ok none` for `false`, otherwise `ok` of the intersection and the list `others` (its length
is `num_others`); the three aborts are `fatal`. -/
def grid_volume.intersect_with_others (gv vol_in : grid_volume) :
    Res (Option (grid_volume × List grid_volume)) :=
  match gv.intersect_with vol_in with
  | none => .ok none
  | some intersection =>
    ((loop_over_directions gv.dim).foldl (grid_volume.shave vol_in) (.ok (gv, []))).bind
      (fun (s : grid_volume × List grid_volume) =>
        let others := s.2
        let initial_points := gv.nowned_min
        let final_points := intersection.nowned_min + (others.map grid_volume.nowned_min).sum
        if initial_points ≠ final_points then .fatal else .ok (some (intersection, others)))

/-- The second block of a round of the loop of `get_boundary_icorners`, for the direction
`d`, with the state `jb`, `*cs`, `*ce`; `rest` runs the rounds that are left. The result is
`ib_found` and the two corners; a `break` ends the loop. -/
def boundary_high (cb cbo : ivec) (ib : Int) (d : direction) (jb : Int) (cs ce : ivec)
    (rest : Int → ivec → ivec → Bool × ivec × ivec) : Bool × ivec × ivec :=
  if cb.in_direction d > cbo.in_direction d then
    if jb = ib then (true, cs.set_direction d (ce.in_direction d), ce)
    else rest (jb + 1) cs (ce.set_direction d (cbo.in_direction d))
  else rest jb cs ce

/-- The loop of `get_boundary_icorners` over the directions that are left. -/
def boundary_loop (cl cb clo cbo : ivec) (ib : Int) :
    List direction → Int → ivec → ivec → Bool × ivec × ivec
  | [], _, cs, ce => (false, cs, ce)
  | d :: ds, jb, cs, ce =>
    if cl.in_direction d < clo.in_direction d then
      if jb = ib then (true, cs, ce.set_direction d (cs.in_direction d))
      else
        boundary_high cb cbo ib d (jb + 1) (cs.set_direction d (clo.in_direction d)) ce
          (boundary_loop cl cb clo cbo ib ds)
    else boundary_high cb cbo ib d jb cs ce (boundary_loop cl cb clo cbo ib ds)

/-- The method `grid_volume::get_boundary_icorners`: the returned flag, `*cs` and `*ce`. -/
def grid_volume.get_boundary_icorners (gv : grid_volume) (c : component) (ib : Int) :
    Bool × ivec × ivec :=
  let cl := gv.little_corner.add (gv.iyee_shift c)
  let cb := gv.big_corner.add (gv.iyee_shift c)
  let clo := gv.little_owned_corner c
  let cbo := gv.big_corner.sub (gv.iyee_shift c)
  let r := boundary_loop cl cb clo cbo ib (loop_over_directions gv.dim) 0 cl cb
  if !r.1 then (false, one_ivec gv.dim, (one_ivec gv.dim).neg) else r

/-- The lattice points between two corners, as the loops over a patch `[cs, ce]` visit them:
every active slot of `p` lies between the slots of the corners. -/
def ivec.between (dim : ndim) (cs ce p : ivec) : Bool :=
  (loop_over_directions dim).all
    (fun d => decide (cs.in_direction d ≤ p.in_direction d)
      && decide (p.in_direction d ≤ ce.in_direction d))

/-- The sub-lattice of the component `c` in a descriptor: the points that differ from
`io + iyee_shift(c)` by an even integer in every active slot. -/
def grid_volume.on_lattice (gv : grid_volume) (c : component) (p : ivec) : Bool :=
  (loop_over_directions gv.dim).all
    (fun d => decide ((p.in_direction d - gv.io.in_direction d
      - (gv.iyee_shift c).in_direction d) % 2 = 0))

/-- The point `p` lies in the patch `[cs, ce]` that `get_boundary_icorners(c, ib)` returns
with the flag true. -/
def grid_volume.in_boundary_patch (gv : grid_volume) (c : component) (ib : Int) (p : ivec) :
    Bool :=
  (gv.get_boundary_icorners c ib).1
    && ivec.between gv.dim (gv.get_boundary_icorners c ib).2.1
        (gv.get_boundary_icorners c ib).2.2 p

/-- Modelled from the spec: `vec::operator-` (header): a copy of the left operand from which
the active slots of the right operand are subtracted. -/
def vec.sub (v a : vec) : vec :=
  (loop_over_directions v.dim).foldl
    (fun res d => res.set_direction d (res.in_direction d - a.in_direction d)) v

/-- Modelled from the spec: `vec::operator*(double)` (header): the active slots scaled. -/
def vec.scale (v : vec) (s : Rat) : vec :=
  (loop_over_directions v.dim).foldl
    (fun res d => res.set_direction d (res.in_direction d * s)) v

/-- Modelled from the spec: `ivec::operator+=` (header): the active slots of the argument
are added to the active slots of the receiver. -/
def ivec.add_assign (v a : ivec) : ivec :=
  (loop_over_directions v.dim).foldl
    (fun res d => res.set_direction d (res.in_direction d + a.in_direction d)) v

/-- Modelled from the spec: `grid_volume::operator[](const ivec &)` (header): the
continuous point `p * (0.5 * inva)` of a lattice point, with `inva = 1 / a` for the
resolution `a`. -/
def grid_volume.at_ivec (a : Rat) (p : ivec) : vec := p.scale_double ((1 / 2) * (1 / a))

/-- The method `grid_volume::yee_shift`. -/
def grid_volume.yee_shift (gv : grid_volume) (a : Rat) (c : component) : vec :=
  grid_volume.at_ivec a (gv.iyee_shift c)

/-- The library function `floor` on an exact rational. -/
def floor (q : Rat) : Int := q.num / (q.den : Int)

/-- The method `grid_volume::round_vec`; the rounding `my_round` (header) is the parameter
`rnd`. -/
def grid_volume.round_vec (gv : grid_volume) (rnd : Rat → Int) (a : Rat) (p : vec) : ivec :=
  (loop_over_directions gv.dim).foldl
    (fun result d => result.set_direction d (rnd (p.in_direction d * 2 * a)))
    (zero_ivec gv.dim)

/-- The two functions `stupidsort`, on the list of the pairs `(ind[i], w[i])` (or
`(locs[i], w[i])`): `l` is the count that is left and the head of the list the entry the
pointers `w`, `ind` point to; `zero` is the value `0` of the index type. -/
def stupidsort {α : Type} (zero : α) : Nat → List (α × Rat) → List (α × Rat)
  | 0, xs => xs
  | _ + 1, [] => []
  | l + 1, x :: xs =>
    if |x.2| < 2 / 10 ^ 15 then
      let arr := x :: xs
      let arr := arr.set 0 (arr.getD l (zero, 0))
      let arr := arr.set l (zero, 0)
      stupidsort zero l arr
    else x :: stupidsort zero l xs

/-- The number of rounds of a loop `for (i = 0; i < 8 && weights[i]; i++)`: the length of the
leading run of non-zero weights. -/
def weight_run {α : Type} (xs : List (α × Rat)) : Nat :=
  (xs.takeWhile (fun x => decide (x.2 ≠ 0))).length

/-- One round of the doubling loop of `interpolate` for the direction `d`: the entries
`i < already_have` go to `middle_d - 1` with the factor `0.5 * (1 - dv_d)`, their copies at
`already_have + i` to `middle_d + 1` with the factor `0.5 * (1 + dv_d)`. -/
def interpolate_step (middle : ivec) (dv : vec) (xs : List (ivec × Rat)) (d : direction) :
    List (ivec × Rat) :=
  xs.map (fun x => (x.1.set_direction d (middle.in_direction d - 1),
      x.2 * ((1 / 2) * (1 - dv.in_direction d))))
    ++ xs.map (fun x => (x.1.set_direction d (middle.in_direction d + 1),
      x.2 * ((1 / 2) * (1 + dv.in_direction d))))

/-- The local `middle` of `interpolate`: the odd lattice point `2 * floor(p) + 1` of the cell
of `p = (pc - yee_shift(c)) * a`, moved by `iyee_shift(c)`. -/
def grid_volume.interpolate_middle (gv : grid_volume) (a : Rat) (c : component) (pc : vec) :
    ivec :=
  let p := (pc.sub (gv.yee_shift a c)).scale a
  let middle := (loop_over_directions gv.dim).foldl
    (fun m d => m.set_direction d (floor (p.in_direction d) * 2 + 1)) (zero_ivec gv.dim)
  middle.add_assign (gv.iyee_shift c)

/-- The local `dv` of `interpolate`: `(pc - operator[](middle)) * (2 * a)`. -/
def grid_volume.interpolate_dv (gv : grid_volume) (a : Rat) (c : component) (pc : vec) : vec :=
  (pc.sub (grid_volume.at_ivec a (gv.interpolate_middle a c pc))).scale (2 * a)

/-- The second half of `interpolate(component, const vec &, ivec locs[8], double
weights[8])`, after the doubling loop: `pts` holds the first `already_have` pairs
`(locs[i], weights[i])` and `fill` is the value `round_vec(midv)` of the other `locs`. The
weights are corrected by the defect of their total, the small and the negative ones are set
to `0.0` (abort for a large negative one), the arrays are compacted and equal weights are
replaced by `1.0 / num_weights`. -/
def interpolate_normalise (fill : ivec) (pts : List (ivec × Rat)) :
    Res (List (ivec × Rat)) :=
  let SMALL : Rat := 1 / 10 ^ 13
  let already_have := pts.length
  let total_weight := (pts.map (fun x => x.2)).sum
  let pts := pts.map (fun x => (x.1, x.2 + (1 - total_weight) * (1 / (already_have : Rat))))
  if pts.any (fun x => decide (x.2 < 0 ∧ -x.2 ≥ SMALL * 10 ^ 5)) then .fatal
  else
    let pts := pts.map
      (fun x => if x.2 < 0 then (x.1, 0) else if x.2 < SMALL then (x.1, 0) else x)
    let arr := pts ++ List.replicate (8 - already_have) (fill, 0)
    let arr := stupidsort (zero_ivec .D1) already_have arr
    let run := weight_run arr
    let all_same :=
      (arr.take run).all (fun x => decide (x.2 = (arr.getD 0 (zero_ivec .D1, 0)).2))
    if all_same then
      .ok ((arr.take run).map (fun x => (x.1, 1 / (run : Rat))) ++ arr.drop run)
    else .ok arr

/-- The method `grid_volume::interpolate(component, const vec &, ivec locs[8], double
weights[8])` for the resolution `a`: the eight pairs `(locs[i], weights[i])`; the abort for a
large negative weight is `fatal`. -/
def grid_volume.interpolate_locs (gv : grid_volume) (rnd : Rat → Int) (a : Rat)
    (c : component) (pc : vec) : Res (List (ivec × Rat)) :=
  let middle := gv.interpolate_middle a c pc
  let midv := grid_volume.at_ivec a middle
  let dv := gv.interpolate_dv a c pc
  let pts := (loop_over_directions gv.dim).foldl (interpolate_step middle dv)
    [(gv.round_vec rnd a midv, 1)]
  interpolate_normalise (gv.round_vec rnd a midv) pts

/-- The method `grid_volume::contains(const vec &)` for the resolution `a`; `origin` is
`operator[](io)`. -/
def grid_volume.contains_vec (gv : grid_volume) (a : Rat) (p : vec) : Bool :=
  let inva := 1 / a
  let o := p.sub (grid_volume.at_ivec a gv.io)
  (loop_over_directions gv.dim).all
    (fun d => !(decide (o.in_direction d < -inva)
      || decide (o.in_direction d > (gv.num_direction d : Rat) * inva + inva)))

/-- The method `grid_volume::interpolate(component, const vec &, int indices[8], double
weights[8])` for the resolution `a`: the eight pairs `(indices[i], weights[i])`; an entry
of `indices` that is not written is `0` here. -/
def grid_volume.interpolate (gv : grid_volume) (rnd : Rat → Int) (a : Rat)
    (c : component) (p : vec) : Res (List (Int × Rat)) :=
  (gv.interpolate_locs rnd a c p).bind (fun arr =>
    let run := weight_run arr
    let arr := (arr.take run).map (fun x => if !gv.owns x.1 then (x.1, 0) else x)
      ++ arr.drop run
    let arr := stupidsort (zero_ivec .D1) 8 arr
    let run := weight_run arr
    let ind : List (Int × Rat) :=
      (arr.take run).map (fun x => (gv.index c x.1, x.2))
        ++ (arr.drop run).map (fun x => ((0 : Int), x.2))
    if !gv.contains_vec a p ∧ (ind.getD 0 (0, 0)).2 ≠ 0 then .fatal
    else
      let ind := (ind.take run).map
          (fun x => if (ind.getD 0 (0, 0)).1 < 0 ∨ (ind.getD 0 (0, 0)).1 ≥ gv.ntot
            then (x.1, 0) else x)
        ++ ind.drop run
      let ind := stupidsort (0 : Int) 8 ind
      if !gv.contains_vec a p ∧ (ind.getD 0 (0, 0)).2 ≠ 0 then .fatal else .ok ind)

/-- Whether `stupidsort` keeps an entry in place: the test `fabs(w[0]) < 2e-15` fails on its
weight. -/
def stupidsort_keeps {α : Type} (x : α × Rat) : Bool := !decide (|x.2| < 2 / 10 ^ 15)

/-- Modelled from the spec: the macro `FOR_ELECTRIC_COMPONENTS(c)` (header): the electric
components in enumeration order. -/
def for_electric_components : List component := [.Ex, .Ey, .Er, .Ep, .Ez]

/-- Modelled from the spec: the macro `FOR_MAGNETIC_COMPONENTS(c)` (header): the magnetic
components in enumeration order. -/
def for_magnetic_components : List component := [.Hx, .Hy, .Hr, .Hp, .Hz]

/-- The two functions `derived_component_func` can return. -/
inductive field_rfunction where
  | poynting_fun | energy_fun
deriving DecidableEq, Repr

/-- The value `real(conj(a) * b)` of two `complex<double>`, each a pair of its real and its
imaginary part. -/
def real_conj_mul (a b : Rat × Rat) : Rat := a.1 * b.1 - (-a.2) * b.2

/-- The function `poynting_fun` on the array `fields`; a read beyond the end of the array is
undefined. -/
def poynting_fun (fields : List (Rat × Rat)) : Res Rat :=
  match fields with
  | [] | [_] | [_, _] | [_, _, _] => .undef
  | f0 :: f1 :: f2 :: f3 :: _ => .ok (real_conj_mul f0 f1 - real_conj_mul f2 f3)

/-- The statement `cs[nfields++] = c` on the array `component cs[12]`, the list of the
entries written so far: a write beyond the end of the array is undefined. -/
def push_component (st : Res (List component)) (c : Res component) : Res (List component) :=
  st.bind (fun cs => c.bind (fun c => if cs.length < 12 then .ok (cs ++ [c]) else .undef))

/-- The loops `FOR_ELECTRIC_COMPONENTS(c0) if (gv.has_field(c0)) ...` and
`FOR_MAGNETIC_COMPONENTS(c0) if (gv.has_field(c0)) ...` of `derived_component_func`:
`has_field` is `gv.has_field` (header) and `partner` is `Dx` or `Bx`. -/
def energy_loop (has_field : component → Bool) (partner : component) (cs0 : List component)
    (st : Res (List component)) : Res (List component) :=
  cs0.foldl
    (fun st c0 =>
      if has_field c0 then
        push_component (push_component st (.ok c0))
          (direction_component partner (component_direction c0))
      else st)
    st

/-- The function `derived_component_func`: the function returned, `nfields` and the entries
of `cs` that were written. The method `gv.has_field` (header) is the argument
`has_field`. -/
def derived_component_func (c : derived_component) (has_field : component → Bool) :
    Res (field_rfunction × Int × List component) :=
  match c with
  | .Sx | .Sy | .Sz | .Sr | .Sp =>
    let cs01 : component × component :=
      match c with
      | .Sx => (.Ey, .Hz)
      | .Sy => (.Ez, .Hx)
      | .Sz => (.Ex, .Hy)
      | .Sr => (.Ep, .Hz)
      | _ => (.Ez, .Hr)
    (direction_component .Ex (component_direction cs01.2)).bind (fun cs2 =>
      (direction_component .Hx (component_direction cs01.1)).bind (fun cs3 =>
        .ok (.poynting_fun, 4, [cs01.1, cs01.2, cs2, cs3])))
  | .EnergyDensity | .D_EnergyDensity | .H_EnergyDensity =>
    let st : Res (List component) := .ok []
    let st := if c ≠ .H_EnergyDensity then energy_loop has_field .Dx for_electric_components st
      else st
    let st := if c ≠ .D_EnergyDensity then energy_loop has_field .Bx for_magnetic_components st
      else st
    st.bind (fun cs =>
      if (cs.length : Int) > 12 then .fatal else .ok (.energy_fun, (cs.length : Int), cs))

/-- The directions `(j, k)` that follow `d` in the right-handed order `x, y, z` of the
Cartesian directions, or `r, phi, z` of the cylindrical ones for `d = r` and `d = phi`. -/
def right_handed : direction → direction × direction
  | .X => (.Y, .Z)
  | .Y => (.Z, .X)
  | .Z => (.X, .Y)
  | .R => (.P, .Z)
  | .P => (.Z, .R)
  | .NO_DIRECTION => (.NO_DIRECTION, .NO_DIRECTION)


/-- The lattice points of the closed box of a descriptor, each once: the origin index `io`
moved by the offsets `0, ..., 2 * num[i]` along the three slots of `num` (a slot of an
inactive axis has no effect on the point). -/
def grid_volume.box_points (gv : grid_volume) : Finset ivec :=
  (Finset.Icc 0 (2 * gv.num0) ×ˢ Finset.Icc 0 (2 * gv.num1) ×ˢ Finset.Icc 0 (2 * gv.num2)).image
    (fun t => (ivec_of_nums gv.dim t.1 t.2.1 t.2.2).add gv.io)

/-- The lattice points of the sub-lattice of `c` that `owns` accepts: the set whose size
`nowned(c)` is compared with. -/
def grid_volume.owned_points (gv : grid_volume) (c : component) : Finset ivec :=
  gv.box_points.filter (fun p => gv.on_lattice c p = true ∧ gv.owns p = true)

/-- The descriptors of `vol1d`/`vol2d`/`vol3d`/`volcyl`-style construction: extents of the
active axes non-negative, extents of the other slots of `num` zero, and an origin index of
the same dimension. -/
def grid_volume.wf (gv : grid_volume) : Prop :=
  gv.io.dim = gv.dim ∧ 0 ≤ gv.num0 ∧ 0 ≤ gv.num1 ∧ 0 ≤ gv.num2 ∧
  (gv.dim = .D1 → gv.num0 = 0 ∧ gv.num1 = 0) ∧
  (gv.dim = .D2 → gv.num2 = 0) ∧
  (gv.dim = .Dcyl → gv.num1 = 0)

instance (gv : grid_volume) : Decidable gv.wf := by
  unfold grid_volume.wf; infer_instance

/-! ## Basic facts -/

@[simp] theorem num_direction_X (gv : grid_volume) : gv.num_direction .X = gv.num0 := rfl

@[simp] theorem num_direction_Y (gv : grid_volume) : gv.num_direction .Y = gv.num1 := rfl

@[simp] theorem num_direction_Z (gv : grid_volume) : gv.num_direction .Z = gv.num2 := rfl

@[simp] theorem num_direction_R (gv : grid_volume) : gv.num_direction .R = gv.num0 := rfl

@[simp] theorem num_direction_P (gv : grid_volume) : gv.num_direction .P = gv.num1 := rfl

theorem iyee_shift_dim (gv : grid_volume) (c : component) : (gv.iyee_shift c).dim = gv.dim := by
  obtain ⟨dim, n0, n1, n2, io⟩ := gv
  cases dim <;> simp only [grid_volume.iyee_shift, loop_over_directions, List.foldl] <;>
    (repeat' split) <;> simp [ivec.set_direction, zero_ivec]

theorem iyee_shift_01 (gv : grid_volume) (c : component) (d : direction) :
    (gv.iyee_shift c).in_direction d = 0 ∨ (gv.iyee_shift c).in_direction d = 1 := by
  obtain ⟨dim, n0, n1, n2, io⟩ := gv
  cases dim <;> simp only [grid_volume.iyee_shift, loop_over_directions, List.foldl] <;>
    (repeat' split) <;> cases d <;> simp [ivec.set_direction, zero_ivec, ivec.in_direction]

/-- Truncating division by two in terms of flooring division. -/
theorem tdiv_two (x : Int) : x.tdiv 2 = if 0 ≤ x then x / 2 else -((-x) / 2) := by
  split
  · next h => exact Int.tdiv_eq_ediv h (by decide)
  · next h =>
    have h' : 0 ≤ -x := by omega
    have := Int.tdiv_eq_ediv h' (show (0:Int) ≤ 2 by decide)
    rw [← this, Int.neg_tdiv, neg_neg]

theorem iloc_wrap_nonneg (k : Nat) (v m : Int) (h : 0 ≤ v) : iloc_wrap k v m = v := by
  cases k with
  | zero => rfl
  | succ k => simp [iloc_wrap, not_lt.mpr h]

theorem ediv_ediv_pos (i B C : Int) (hB : 0 < B) (hC : 0 < C) : i / C / B = i / (C * B) := by
  have h3 := Int.emod_add_ediv (i / C) B
  have h4 := Int.emod_add_ediv i C
  have t0 := Int.emod_nonneg (i / C) (ne_of_gt hB)
  have t1 := Int.emod_lt_of_pos (i / C) hB
  have r0 := Int.emod_nonneg i (ne_of_gt hC)
  have r1 := Int.emod_lt_of_pos i hC
  have hCB : 0 < C * B := by positivity
  have key := (@Int.ediv_emod_unique i (C * B) (C * (i / C % B) + i % C) (i / C / B) hCB).mpr
    ⟨by nlinarith, by nlinarith, by nlinarith⟩
  exact key.1.symm

/-- The three mixed-radix digits of an index below `A * B * C` rebuild it. -/
theorem digits3 (i A B C : Int) (hA : 0 < A) (hB : 0 < B) (hC : 0 < C) (h0 : 0 ≤ i)
    (h1 : i < A * B * C) (k1 k2 k3 : Nat) :
    (iloc_wrap k1 (i.tdiv (C * B)) A).tmod A * (C * B)
      + (iloc_wrap k2 (i.tdiv C) B).tmod B * C + (iloc_wrap k3 i C).tmod C = i := by
  have hCB : 0 < C * B := by positivity
  rw [Int.tdiv_eq_ediv h0 hCB.le, Int.tdiv_eq_ediv h0 hC.le]
  have q0 : 0 ≤ i / (C * B) := Int.ediv_nonneg h0 hCB.le
  have m0 : 0 ≤ i / C := Int.ediv_nonneg h0 hC.le
  rw [iloc_wrap_nonneg _ _ _ q0, iloc_wrap_nonneg _ _ _ m0, iloc_wrap_nonneg _ _ _ h0,
    Int.tmod_eq_emod q0 hA.le, Int.tmod_eq_emod m0 hB.le, Int.tmod_eq_emod h0 hC.le]
  have hq : i / (C * B) % A = i / (C * B) := by
    apply Int.emod_eq_of_lt q0
    apply Int.ediv_lt_of_lt_mul hCB
    nlinarith
  have h2 : i / C / B = i / (C * B) := ediv_ediv_pos i B C hB hC
  have h3 := Int.emod_add_ediv (i / C) B
  have h4 := Int.emod_add_ediv i C
  rw [hq, ← h2]
  nlinarith

/-- The two mixed-radix digits of an index below `B * C` rebuild it. -/
theorem digits2 (i B C : Int) (hB : 0 < B) (hC : 0 < C) (h0 : 0 ≤ i) (h1 : i < B * C)
    (k2 k3 : Nat) :
    (iloc_wrap k2 (i.tdiv C) B).tmod B * C + (iloc_wrap k3 i C).tmod C = i := by
  have h := digits3 i 1 B C one_pos hB hC h0 (by simpa using h1) 0 k2 k3
  have hCB : 0 < C * B := by positivity
  have q0 : i.tdiv (C * B) = 0 := by
    rw [Int.tdiv_eq_ediv h0 hCB.le]
    exact Int.ediv_eq_zero_of_lt h0 (by nlinarith)
  rw [q0] at h
  simpa [iloc_wrap] using h

/-- One factor of `nowned`: it lies between `0` and `num + 1`. -/
theorem half_factor (n s : Int) (hn : 0 ≤ n) (hs : s = 0 ∨ s = 1) :
    0 ≤ (2 * n - 2 + s).tdiv 2 + 1 ∧ (2 * n - 2 + s).tdiv 2 + 1 ≤ n + 1 := by
  rw [tdiv_two]
  rcases hs with rfl | rfl <;> split <;> constructor <;> omega

theorem owned_factor (n o s : Int) (hn : 0 ≤ n) (hs : s = 0 ∨ s = 1) :
    0 ≤ (n * 2 + o - (1 * 2 + o - s)).tdiv 2 + 1
      ∧ (n * 2 + o - (1 * 2 + o - s)).tdiv 2 + 1 ≤ n + 1 := by
  have e : n * 2 + o - (1 * 2 + o - s) = 2 * n - 2 + s := by ring
  rw [e]
  exact half_factor n s hn hs

theorem axis_factor (n : Int) (hn : 0 ≤ n) :
    0 ≤ (n * 2 + 0 - 0).tdiv 2 + 1 ∧ (n * 2 + 0 - 0).tdiv 2 + 1 ≤ n + 1 := by
  rw [tdiv_two]
  split <;> constructor <;> omega

/-- The outcome of the selection loop of `split_at_fraction`: no axis, or the first axis of
maximal extent above `1`. -/
theorem best_cases (gv : grid_volume) :
    (gv.best = (-1, 1) ∧ gv.num0 ≤ 1 ∧ gv.num1 ≤ 1 ∧ gv.num2 ≤ 1)
    ∨ (gv.best = (0, gv.num0) ∧ 1 < gv.num0 ∧ gv.num1 ≤ gv.num0 ∧ gv.num2 ≤ gv.num0)
    ∨ (gv.best = (1, gv.num1) ∧ 1 < gv.num1 ∧ gv.num0 < gv.num1 ∧ gv.num2 ≤ gv.num1)
    ∨ (gv.best = (2, gv.num2) ∧ 1 < gv.num2 ∧ gv.num0 < gv.num2 ∧ gv.num1 < gv.num2) := by
  obtain ⟨dim, n0, n1, n2, io⟩ := gv
  simp only [grid_volume.best, grid_volume.num, List.foldl]
  by_cases h0 : n0 > 1 <;> by_cases h1 : n1 > n0 <;> by_cases h1' : n1 > 1 <;>
    by_cases h2 : n2 > n1 <;> by_cases h2' : n2 > n0 <;> by_cases h2'' : n2 > 1 <;>
    simp [h0, h1, h1', h2, h2', h2''] <;> omega

/-- The loop of `split` computes the largest extent, or `0` when none is positive. -/
theorem biglen_eq (gv : grid_volume) : gv.biglen = max 0 (max gv.num0 (max gv.num1 gv.num2)) := by
  obtain ⟨dim, n0, n1, n2, io⟩ := gv
  simp only [grid_volume.biglen, grid_volume.num, List.foldl]
  by_cases h0 : n0 > 0 <;> by_cases h1 : n1 > n0 <;> by_cases h1' : n1 > 0 <;>
    by_cases h2 : n2 > n1 <;> by_cases h2' : n2 > n0 <;> by_cases h2'' : n2 > 0 <;>
    simp [h0, h1, h1', h2, h2', h2''] <;> omega

/-- No component owns more points than the array of the descriptor holds. -/
theorem nowned_le_ntot (gv : grid_volume) (c : component) (h : gv.wf) :
    gv.nowned c ≤ gv.ntot := by
  have hs := iyee_shift_dim gv c
  have h01 := iyee_shift_01 gv c
  simp only [grid_volume.nowned, grid_volume.little_owned_corner,
    grid_volume.little_owned_corner0, grid_volume.big_corner, grid_volume.little_corner]
  generalize gv.iyee_shift c = s at hs h01 ⊢
  obtain ⟨dim, n0, n1, n2, ⟨iod, ix, iy, iz, ir, ip⟩⟩ := gv
  obtain ⟨sd, sx, sy, sz, sr, sp⟩ := s
  obtain ⟨hd, h0', h1', h2', -, -, -⟩ := h
  simp only at hd hs h0' h1' h2'
  subst hd hs
  have hx := h01 .X
  have hy := h01 .Y
  have hz := h01 .Z
  have hr := h01 .R
  simp only [ivec.in_direction] at hx hy hz hr
  clear h01
  have fx := owned_factor n0 ix sx h0' hx
  have fy := owned_factor n1 iy sy h1' hy
  have fz := owned_factor n2 iz sz h2' hz
  have fr := owned_factor n0 ir sr h0' hr
  cases sd
  · simp only [loop_over_directions, ivec.add, ivec.sub, ivec.scale, ivec.set_direction,
      ivec.in_direction, zero_ivec, one_ivec, ivec_of_nums, grid_volume.ntot, grid_volume.nz,
      List.foldl, num_direction_Z, one_mul]
    exact fz.2
  · simp only [loop_over_directions, ivec.add, ivec.sub, ivec.scale, ivec.set_direction,
      ivec.in_direction, zero_ivec, one_ivec, ivec_of_nums, grid_volume.ntot, grid_volume.nx,
      grid_volume.ny, List.foldl, num_direction_X, num_direction_Y, one_mul]
    exact mul_le_mul fx.2 fy.2 fy.1 (by omega)
  · simp only [loop_over_directions, ivec.add, ivec.sub, ivec.scale, ivec.set_direction,
      ivec.in_direction, zero_ivec, one_ivec, ivec_of_nums, grid_volume.ntot, grid_volume.nx,
      grid_volume.ny, grid_volume.nz, List.foldl, num_direction_X, num_direction_Y,
      num_direction_Z, one_mul]
    exact mul_le_mul (mul_le_mul fx.2 fy.2 fy.1 (by omega)) fz.2 fz.1
      (mul_nonneg (by omega) (by omega))
  · simp only [loop_over_directions, ivec.add, ivec.sub, ivec.scale, ivec.set_direction,
      ivec.in_direction, zero_ivec, one_ivec, ivec_of_nums, grid_volume.ntot, grid_volume.nz,
      grid_volume.nr, List.foldl, num_direction_R, num_direction_Z, one_mul, true_and]
    split
    · next hc =>
      obtain ⟨rfl, -⟩ := hc
      have fa := axis_factor n0 h0'
      exact mul_le_mul fz.2 fa.2 fa.1 (by omega)
    · exact mul_le_mul fz.2 fr.2 fr.1 (by omega)

/-- The round trip holds for every index of the array. -/
theorem index_iloc_of_lt_ntot (gv : grid_volume) (c : component) (i : Int) (h : gv.wf)
    (h0 : 0 ≤ i) (h1 : i < gv.ntot) : gv.index c (gv.iloc c i) = i := by
  have hs := iyee_shift_dim gv c
  simp only [grid_volume.index, grid_volume.iloc]
  generalize gv.iyee_shift c = s at hs ⊢
  obtain ⟨dim, n0, n1, n2, ⟨iod, ix, iy, iz, ir, ip⟩⟩ := gv
  obtain ⟨sd, sx, sy, sz, sr, sp⟩ := s
  obtain ⟨hd, h0', h1', h2', hD1, hD2, hDc⟩ := h
  simp only at hd hs h0' h1' h2' hD1 hD2 hDc
  subst hd hs
  cases sd
  · simp [loop_over_directions, ivec.add, ivec.sub, ivec.set_direction, ivec.in_direction,
      zero_ivec, grid_volume.stride, grid_volume.ntot] at h1 ⊢
    rw [iloc_wrap_nonneg _ _ _ h0, Int.tmod_eq_emod h0 (by omega)]
    exact Int.emod_eq_of_lt h0 h1
  · obtain rfl : n2 = 0 := hD2 rfl
    simp [loop_over_directions, ivec.add, ivec.sub, ivec.set_direction, ivec.in_direction,
      zero_ivec, grid_volume.stride, grid_volume.ntot, grid_volume.nz, grid_volume.ny]
      at h1 ⊢
    have := digits2 i (n0 + 1) (n1 + 1) (by omega) (by omega) h0 h1
      (i.natAbs.div (n1 + 1).natAbs) 0
    simpa [iloc_wrap_nonneg _ _ _ h0, Int.tmod_eq_emod h0, Int.emod_one] using this
  · simp [loop_over_directions, ivec.add, ivec.sub, ivec.set_direction, ivec.in_direction,
      zero_ivec, grid_volume.stride, grid_volume.ntot, grid_volume.nz, grid_volume.ny]
      at h1 ⊢
    exact digits3 i (n0 + 1) (n1 + 1) (n2 + 1) (by omega) (by omega) (by omega) h0 h1 _ _ _
  · simp [loop_over_directions, ivec.add, ivec.sub, ivec.set_direction, ivec.in_direction,
      zero_ivec, grid_volume.stride, grid_volume.ntot, grid_volume.nz, grid_volume.ny]
      at h1 ⊢
    have := digits2 i (n0 + 1) (n2 + 1) (by omega) (by omega) h0 (by linarith)
      (i.natAbs.div (n2 + 1).natAbs) (i.natAbs.div 1)
    linarith

/-- C1: for a descriptor of `vol1d`/`vol2d`/`vol3d`/`volcyl`-style construction (extents
non-negative, zero on the inactive axes), every component `c` and every index `i` with
`0 ≤ i < nowned(c)`, `index(c, iloc(c, i)) = i`. -/
theorem index_iloc_round_trip (gv : grid_volume) (c : component) (i : Int) (h : gv.wf)
    (h0 : 0 ≤ i) (h1 : i < gv.nowned c) : gv.index c (gv.iloc c i) = i :=
  index_iloc_of_lt_ntot gv c i h h0 (lt_of_lt_of_le h1 (nowned_le_ntot gv c h))

/-- A cylindrical descriptor at `r = 0` with `nr = 2`, `nz = 3`, component `Hz`, index `5`. -/
theorem index_iloc_round_trip_witness :
    (⟨.Dcyl, 2, 0, 3, zero_ivec .Dcyl⟩ : grid_volume).wf
      ∧ (0 : Int) ≤ 5 ∧ (5 : Int) < (⟨.Dcyl, 2, 0, 3, zero_ivec .Dcyl⟩ : grid_volume).nowned .Hz
      ∧ (⟨.Dcyl, 2, 0, 3, zero_ivec .Dcyl⟩ : grid_volume).index .Hz
          ((⟨.Dcyl, 2, 0, 3, zero_ivec .Dcyl⟩ : grid_volume).iloc .Hz 5) = 5 :=
  ⟨by decide, by decide, by decide,
    index_iloc_round_trip ⟨.Dcyl, 2, 0, 3, zero_ivec .Dcyl⟩ .Hz 5 (by decide) (by decide)
      (by decide)⟩

/-- What `split_at_fraction` changes and what it keeps (the content of C7). -/
theorem split_retval_frame (gv : grid_volume) (numer : Int) (hwf : gv.wf)
    (hL : 1 < gv.biglen) (_h0 : 0 < numer) (h1 : numer < gv.biglen) :
    ∃ lo hi, gv.split_at_fraction false numer = .ok lo
      ∧ gv.split_at_fraction true numer = .ok hi
      ∧ (gv.best.1 = 0 ∨ gv.best.1 = 1 ∨ gv.best.1 = 2)
      ∧ gv.num gv.best.1 = gv.biglen
      ∧ gv.biglen = max gv.num0 (max gv.num1 gv.num2)
      ∧ (∀ j : Int, (j = 0 ∨ j = 1 ∨ j = 2) → j < gv.best.1 → gv.num j < gv.num gv.best.1)
      ∧ gv.split_direction ∈ loop_over_directions gv.dim
      ∧ gv.split_direction.toInt.tmod 3 = gv.best.1
      ∧ lo.dim = gv.dim ∧ hi.dim = gv.dim ∧ lo.io = gv.io ∧ hi.io.dim = gv.dim
      ∧ lo.num gv.best.1 = numer ∧ hi.num gv.best.1 = gv.biglen - numer
      ∧ (∀ j : Int, (j = 0 ∨ j = 1 ∨ j = 2) → j ≠ gv.best.1 →
          lo.num j = gv.num j ∧ hi.num j = gv.num j)
      ∧ hi.io.in_direction gv.split_direction
          = gv.io.in_direction gv.split_direction + 2 * numer
      ∧ (∀ e ∈ loop_over_directions gv.dim, e ≠ gv.split_direction →
          hi.io.in_direction e = gv.io.in_direction e)
      ∧ lo.big_corner.in_direction gv.split_direction
          = hi.little_corner.in_direction gv.split_direction := by
  have hbl := biglen_eq gv
  refine ⟨gv.split_retval false numer, gv.split_retval true numer, ?_⟩
  simp only [grid_volume.split_at_fraction, grid_volume.split_retval, grid_volume.split_direction]
  obtain ⟨dim, n0, n1, n2, ⟨iod, ix, iy, iz, ir, ip⟩⟩ := gv
  obtain ⟨hd, h0', h1', h2', hD1, hD2, hDc⟩ := hwf
  simp only at hd h0' h1' h2' hD1 hD2 hDc hbl
  subst hd
  rw [hbl] at hL h1 ⊢
  rcases best_cases ⟨iod, n0, n1, n2, ⟨iod, ix, iy, iz, ir, ip⟩⟩ with ⟨hb, h⟩ | ⟨hb, h⟩ | ⟨hb, h⟩ | ⟨hb, h⟩ <;> 
    simp only at h <;> rw [hb] <;> clear hb hbl
  · omega
  all_goals
    cases iod <;> simp only [reduceCtorEq, forall_true_left, false_implies] at hD1 hD2 hDc <;>
    first
    | (exfalso; omega)
    | (have e : max 0 (max n0 (max n1 n2)) = n0 := by omega
       rw [e] at h1 ⊢
       simp [grid_volume.num, grid_volume.set_num, grid_volume.set_origin, grid_volume.shift_origin, direction.ofInt, unit_ivec, zero_ivec, ivec.scale, ivec.add, ivec.in_direction, ivec.set_direction, loop_over_directions, grid_volume.big_corner, grid_volume.little_corner, ivec_of_nums, grid_volume.nx, grid_volume.ny, grid_volume.nz, grid_volume.nr, direction.toInt, not_le.mpr h1, show Int.tmod 1 3 = 1 from rfl, show Int.tmod 2 3 = 2 from rfl, show Int.tmod 3 3 = 0 from rfl]
       try omega)
    | (have e : max 0 (max n0 (max n1 n2)) = n1 := by omega
       rw [e] at h1 ⊢
       simp [grid_volume.num, grid_volume.set_num, grid_volume.set_origin, grid_volume.shift_origin, direction.ofInt, unit_ivec, zero_ivec, ivec.scale, ivec.add, ivec.in_direction, ivec.set_direction, loop_over_directions, grid_volume.big_corner, grid_volume.little_corner, ivec_of_nums, grid_volume.nx, grid_volume.ny, grid_volume.nz, grid_volume.nr, direction.toInt, not_le.mpr h1, show Int.tmod 1 3 = 1 from rfl, show Int.tmod 2 3 = 2 from rfl, show Int.tmod 3 3 = 0 from rfl]
       try omega)
    | (have e : max 0 (max n0 (max n1 n2)) = n2 := by omega
       rw [e] at h1 ⊢
       simp [grid_volume.num, grid_volume.set_num, grid_volume.set_origin, grid_volume.shift_origin, direction.ofInt, unit_ivec, zero_ivec, ivec.scale, ivec.add, ivec.in_direction, ivec.set_direction, loop_over_directions, grid_volume.big_corner, grid_volume.little_corner, ivec_of_nums, grid_volume.nx, grid_volume.ny, grid_volume.nz, grid_volume.nr, direction.toInt, not_le.mpr h1, show Int.tmod 1 3 = 1 from rfl, show Int.tmod 2 3 = 2 from rfl, show Int.tmod 3 3 = 0 from rfl]
       try omega)

/-- C7: for a descriptor whose longest extent `L` (the first maximal entry of `num[0..2]`)
exceeds `1` and every `numer` with `0 < numer < L`: `split_at_fraction(false, numer)` keeps
the origin index and has extent `numer` on the longest axis; `split_at_fraction(true, numer)`
has extent `L - numer` there and its origin index shifted by `2 * numer` along it; every other
extent and every other origin coordinate is unchanged, and the big corner of the low part
meets the little corner of the high part on the split axis. -/
theorem split_at_fraction_frame (gv : grid_volume) (numer : Int) (hwf : gv.wf)
    (hL : 1 < gv.biglen) (_h0 : 0 < numer) (h1 : numer < gv.biglen) :
    ∃ lo hi, gv.split_at_fraction false numer = .ok lo
      ∧ gv.split_at_fraction true numer = .ok hi
      ∧ (gv.best.1 = 0 ∨ gv.best.1 = 1 ∨ gv.best.1 = 2)
      ∧ gv.num gv.best.1 = gv.biglen
      ∧ gv.biglen = max gv.num0 (max gv.num1 gv.num2)
      ∧ (∀ j : Int, (j = 0 ∨ j = 1 ∨ j = 2) → j < gv.best.1 → gv.num j < gv.num gv.best.1)
      ∧ gv.split_direction ∈ loop_over_directions gv.dim
      ∧ gv.split_direction.toInt.tmod 3 = gv.best.1
      ∧ lo.dim = gv.dim ∧ hi.dim = gv.dim ∧ lo.io = gv.io ∧ hi.io.dim = gv.dim
      ∧ lo.num gv.best.1 = numer ∧ hi.num gv.best.1 = gv.biglen - numer
      ∧ (∀ j : Int, (j = 0 ∨ j = 1 ∨ j = 2) → j ≠ gv.best.1 →
          lo.num j = gv.num j ∧ hi.num j = gv.num j)
      ∧ hi.io.in_direction gv.split_direction
          = gv.io.in_direction gv.split_direction + 2 * numer
      ∧ (∀ e ∈ loop_over_directions gv.dim, e ≠ gv.split_direction →
          hi.io.in_direction e = gv.io.in_direction e)
      ∧ lo.big_corner.in_direction gv.split_direction
          = hi.little_corner.in_direction gv.split_direction :=
  split_retval_frame gv numer hwf hL _h0 h1

/-- The 2-D descriptor with extents `5 x 7` and `numer = 3`. -/
theorem split_at_fraction_frame_witness :
    ∃ lo hi, (⟨.D2, 5, 7, 0, zero_ivec .D2⟩ : grid_volume).split_at_fraction false 3 = .ok lo
      ∧ (⟨.D2, 5, 7, 0, zero_ivec .D2⟩ : grid_volume).split_at_fraction true 3 = .ok hi
      ∧ lo.num 1 = 3 ∧ hi.num 1 = 7 - 3 ∧ hi.io.in_direction .Y = 0 + 2 * 3 := by
  obtain ⟨lo, hi, h1, h2, -, -, -, -, -, -, -, -, -, -, h3, h4, -, h5, -⟩ :=
    split_at_fraction_frame ⟨.D2, 5, 7, 0, zero_ivec .D2⟩ 3 (by decide) (by decide) (by decide)
      (by decide)
  exact ⟨lo, hi, h1, h2, h3, h4, h5⟩

/-- C8 (as stated) fails: `numer = 0` is not strictly within range, yet on the 1-D descriptor
with `nz = 3` the call `split_at_fraction(false, 0)` returns a descriptor (of extent `0`). -/
theorem split_at_fraction_zero_numer_returns :
    (0 : Int) ≤ 0
      ∧ (⟨.D1, 0, 0, 3, zero_ivec .D1⟩ : grid_volume).split_at_fraction false 0
          = .ok ⟨.D1, 0, 0, 0, zero_ivec .D1⟩ := by
  decide

/-- C8 (amended): `split_at_fraction(want_high, numer)` fails fatally if and only if no extent
exceeds `1` or `numer` is at least the longest extent; in every other case, `numer ≤ 0`
included, it returns a descriptor. -/
theorem split_at_fraction_fatal_iff (gv : grid_volume) (want_high : Bool) (numer : Int) :
    (gv.split_at_fraction want_high numer = .fatal
        ↔ (gv.num0 ≤ 1 ∧ gv.num1 ≤ 1 ∧ gv.num2 ≤ 1)
          ∨ numer ≥ max gv.num0 (max gv.num1 gv.num2))
      ∧ (gv.split_at_fraction want_high numer ≠ .fatal
          → ∃ r, gv.split_at_fraction want_high numer = .ok r) := by
  simp only [grid_volume.split_at_fraction]
  generalize gv.split_retval want_high numer = rv
  rcases best_cases gv with ⟨hb, h⟩ | ⟨hb, h⟩ | ⟨hb, h⟩ | ⟨hb, h⟩ <;> rw [hb] <;> clear hb <;>
    simp only [grid_volume.num] <;> constructor
  all_goals (split_ifs <;> (try simp) <;> first | omega | contradiction)

/-- C6 (as stated) fails: the cylindrical descriptor with `nr = 5`, `nz = 3` and origin index
`r = -2` (a descriptor padded along `r`), cut at `numer = 1`, has a high part whose origin sits
at `r = 0`; the point `(r, z) = (0, 2)` is owned by the descriptor, by the low part and by the
high part. -/
theorem owns_both_parts_at_axis :
    (⟨.Dcyl, 5, 0, 3, ⟨.Dcyl, 0, 0, 0, -2, 0⟩⟩ : grid_volume).wf
      ∧ (0 : Int) < 1
      ∧ (1 : Int) < (⟨.Dcyl, 5, 0, 3, ⟨.Dcyl, 0, 0, 0, -2, 0⟩⟩ : grid_volume).biglen
      ∧ (⟨.Dcyl, 5, 0, 3, ⟨.Dcyl, 0, 0, 0, -2, 0⟩⟩ : grid_volume).split_at_fraction false 1
          = .ok ⟨.Dcyl, 1, 0, 3, ⟨.Dcyl, 0, 0, 0, -2, 0⟩⟩
      ∧ (⟨.Dcyl, 5, 0, 3, ⟨.Dcyl, 0, 0, 0, -2, 0⟩⟩ : grid_volume).split_at_fraction true 1
          = .ok ⟨.Dcyl, 4, 0, 3, ⟨.Dcyl, 0, 0, 0, 0, 0⟩⟩
      ∧ (⟨.Dcyl, 5, 0, 3, ⟨.Dcyl, 0, 0, 0, -2, 0⟩⟩ : grid_volume).owns ⟨.Dcyl, 0, 0, 2, 0, 0⟩
          = true
      ∧ (⟨.Dcyl, 1, 0, 3, ⟨.Dcyl, 0, 0, 0, -2, 0⟩⟩ : grid_volume).owns ⟨.Dcyl, 0, 0, 2, 0, 0⟩
          = true
      ∧ (⟨.Dcyl, 4, 0, 3, ⟨.Dcyl, 0, 0, 0, 0, 0⟩⟩ : grid_volume).owns ⟨.Dcyl, 0, 0, 2, 0, 0⟩
          = true := by
  decide

set_option maxHeartbeats 4000000 in
/-- C6 (amended): for a descriptor (extents non-negative, zero on the inactive axes) and
`0 < numer <` the longest extent, unless the descriptor is cylindrical and the cut along `r`
lands on the axis (`io.r + 2 * numer = 0`): of the two parts `split_at_fraction(false, numer)`
and `split_at_fraction(true, numer)` exactly one owns each lattice point the descriptor owns,
no point is owned by both, and every point of the descriptor on the shared plane is contained
by both. -/
theorem owns_partition (gv : grid_volume) (numer : Int) (hwf : gv.wf)
    (h0 : 0 < numer) (h1 : numer < gv.biglen)
    (hax : ¬ (gv.dim = .Dcyl ∧ gv.split_direction = .R ∧ gv.io.r + 2 * numer = 0)) :
    ∃ lo hi, gv.split_at_fraction false numer = .ok lo
      ∧ gv.split_at_fraction true numer = .ok hi
      ∧ ∀ p : ivec, p.dim = gv.dim →
          (gv.owns p = true →
            (lo.owns p = true ∧ hi.owns p = false) ∨ (lo.owns p = false ∧ hi.owns p = true))
          ∧ ¬ (lo.owns p = true ∧ hi.owns p = true)
          ∧ (gv.contains p = true →
              p.in_direction gv.split_direction
                = gv.io.in_direction gv.split_direction + 2 * numer →
              lo.contains p = true ∧ hi.contains p = true) := by
  have hbl := biglen_eq gv
  refine ⟨gv.split_retval false numer, gv.split_retval true numer, ?_⟩
  simp only [grid_volume.split_at_fraction, grid_volume.split_retval, grid_volume.split_direction] at hax ⊢
  obtain ⟨dim, n0, n1, n2, ⟨iod, ix, iy, iz, ir, ip⟩⟩ := gv
  obtain ⟨hd, h0', h1', h2', hD1, hD2, hDc⟩ := hwf
  simp only at hd h0' h1' h2' hD1 hD2 hDc hbl hax
  subst hd
  rw [hbl] at h1
  rcases best_cases ⟨iod, n0, n1, n2, ⟨iod, ix, iy, iz, ir, ip⟩⟩ with ⟨hb, h⟩ | ⟨hb, h⟩ | ⟨hb, h⟩ | ⟨hb, h⟩ <;> 
    simp only at h <;> rw [hb] at hax ⊢ <;> clear hb hbl
  · omega
  all_goals
    cases iod <;> simp only [reduceCtorEq, forall_true_left, false_implies] at hD1 hD2 hDc <;>
    first
    | (exfalso; omega)
    | (refine ⟨by simp [grid_volume.num]; omega, by simp [grid_volume.num]; omega, ?_⟩
       rintro ⟨pd, px, py, pz, pr, pp⟩ hp
       simp only at hp
       subst hp
       simp [grid_volume.num, grid_volume.set_num, grid_volume.set_origin, grid_volume.shift_origin, direction.ofInt, unit_ivec, zero_ivec, ivec.scale, ivec.add, ivec.sub, ivec.in_direction, ivec.set_direction, loop_over_directions, grid_volume.owns, grid_volume.contains, grid_volume.nx, grid_volume.ny, grid_volume.nz, grid_volume.nr, direction.toInt] at hax ⊢
       omega)

/-- The 2-D descriptor with extents `5 x 7` cut at `numer = 3`. -/
theorem owns_partition_witness :
    ∃ lo hi, (⟨.D2, 5, 7, 0, zero_ivec .D2⟩ : grid_volume).split_at_fraction false 3 = .ok lo
      ∧ (⟨.D2, 5, 7, 0, zero_ivec .D2⟩ : grid_volume).split_at_fraction true 3 = .ok hi
      ∧ ∀ p : ivec, p.dim = .D2 →
          ((⟨.D2, 5, 7, 0, zero_ivec .D2⟩ : grid_volume).owns p = true →
            (lo.owns p = true ∧ hi.owns p = false) ∨ (lo.owns p = false ∧ hi.owns p = true))
          ∧ ¬ (lo.owns p = true ∧ hi.owns p = true)
          ∧ ((⟨.D2, 5, 7, 0, zero_ivec .D2⟩ : grid_volume).contains p = true →
              p.in_direction .Y = 0 + 2 * 3 →
              lo.contains p = true ∧ hi.contains p = true) :=
  owns_partition ⟨.D2, 5, 7, 0, zero_ivec .D2⟩ 3 (by decide) (by decide) (by decide)
    (by decide)

/-! ## The domain splitter -/

set_option maxHeartbeats 4000000 in
/-- The two parts of a cut at `0 < numer < biglen`: both calls return, both parts are
descriptors of the same kind, and their point counts are the shares `numer / biglen` and
`(biglen - numer) / biglen` of the whole. -/
theorem split_parts (gv : grid_volume) (numer : Int) (hwf : gv.wf)
    (h0 : 0 < numer) (h1 : numer < gv.biglen) :
    gv.split_at_fraction false numer = .ok (gv.split_retval false numer)
      ∧ gv.split_at_fraction true numer = .ok (gv.split_retval true numer)
      ∧ (gv.split_retval false numer).wf ∧ (gv.split_retval true numer).wf
      ∧ (gv.split_retval false numer).nowned_min * gv.biglen = numer * gv.nowned_min
      ∧ (gv.split_retval true numer).nowned_min * gv.biglen
          = (gv.biglen - numer) * gv.nowned_min := by
  have hbl := biglen_eq gv
  simp only [grid_volume.split_at_fraction, grid_volume.split_retval, grid_volume.split_direction]
  obtain ⟨dim, n0, n1, n2, ⟨iod, ix, iy, iz, ir, ip⟩⟩ := gv
  obtain ⟨hd, h0', h1', h2', hD1, hD2, hDc⟩ := hwf
  simp only at hd h0' h1' h2' hD1 hD2 hDc hbl
  subst hd
  rw [hbl] at h1 ⊢
  rcases best_cases ⟨iod, n0, n1, n2, ⟨iod, ix, iy, iz, ir, ip⟩⟩ with ⟨hb, h⟩ | ⟨hb, h⟩ | ⟨hb, h⟩ | ⟨hb, h⟩ <;> 
    simp only at h <;> rw [hb] <;> clear hb hbl
  · omega
  all_goals
    cases iod <;> simp only [reduceCtorEq, forall_true_left, false_implies] at hD1 hD2 hDc <;>
    first
    | (exfalso; omega)
    | (have e : max 0 (max n0 (max n1 n2)) = n0 := by omega
       rw [e] at h1 ⊢
       simp [grid_volume.wf, grid_volume.nowned_min, grid_volume.num, grid_volume.set_num, grid_volume.set_origin, grid_volume.shift_origin, direction.ofInt, unit_ivec, zero_ivec, ivec.scale, ivec.add, ivec.in_direction, ivec.set_direction, loop_over_directions, not_le.mpr h1]
       refine ⟨?_, ?_, ?_, ?_⟩ <;> first | omega | ring)
    | (have e : max 0 (max n0 (max n1 n2)) = n1 := by omega
       rw [e] at h1 ⊢
       simp [grid_volume.wf, grid_volume.nowned_min, grid_volume.num, grid_volume.set_num, grid_volume.set_origin, grid_volume.shift_origin, direction.ofInt, unit_ivec, zero_ivec, ivec.scale, ivec.add, ivec.in_direction, ivec.set_direction, loop_over_directions, not_le.mpr h1]
       refine ⟨?_, ?_, ?_, ?_⟩ <;> first | omega | ring)
    | (have e : max 0 (max n0 (max n1 n2)) = n2 := by omega
       rw [e] at h1 ⊢
       simp [grid_volume.wf, grid_volume.nowned_min, grid_volume.num, grid_volume.set_num, grid_volume.set_origin, grid_volume.shift_origin, direction.ofInt, unit_ivec, zero_ivec, ivec.scale, ivec.add, ivec.in_direction, ivec.set_direction, loop_over_directions, not_le.mpr h1]
       refine ⟨?_, ?_, ?_, ?_⟩ <;> first | omega | ring)

/-- A descriptor with at least two points has an axis of extent at least two. -/
theorem biglen_ge_two (gv : grid_volume) (hwf : gv.wf) (h : 2 ≤ gv.nowned_min) :
    2 ≤ gv.biglen := by
  rw [biglen_eq]
  obtain ⟨dim, n0, n1, n2, io⟩ := gv
  obtain ⟨-, h0', h1', h2', hD1, hD2, hDc⟩ := hwf
  simp only at h0' h1' h2' hD1 hD2 hDc ⊢
  by_contra hc
  have a0 : n0 = 0 ∨ n0 = 1 := by omega
  have a1 : n1 = 0 ∨ n1 = 1 := by omega
  have a2 : n2 = 0 ∨ n2 = 1 := by omega
  cases dim <;> rcases a0 with rfl | rfl <;> rcases a1 with rfl | rfl <;>
    rcases a2 with rfl | rfl <;>
    simp [grid_volume.nowned_min, loop_over_directions] at h

/-- The rounded quotient `(int)(a/(double)b + 0.5)` lies within half of `a/b`. -/
theorem round_div_bounds (a b : Int) (ha : 0 ≤ a) (hb : 0 < b) :
    2 * b * ((2 * a + b).tdiv (2 * b)) ≤ 2 * a + b
      ∧ 2 * a + b < 2 * b * ((2 * a + b).tdiv (2 * b)) + 2 * b := by
  rw [Int.tdiv_eq_ediv (by omega) (by omega)]
  have h1 := Int.emod_add_ediv (2 * a + b) (2 * b)
  have h2 := Int.emod_nonneg (2 * a + b) (show (2 * b) ≠ 0 by omega)
  have h3 := Int.emod_lt_of_pos (2 * a + b) (show 0 < 2 * b by omega)
  constructor <;> nlinarith

/-- The arithmetic of one round of `split`: the split point lies strictly inside the longest
axis and both sides receive at least one part and at most as many parts as they have points. -/
theorem split_arith (L n P Plo Phi : Int) (hL : 2 ≤ L) (hn : 2 ≤ n) (hP : n ≤ P)
    (s nl : Int) (hs : s = (2 * (L * n.tdiv 2) + n).tdiv (2 * n))
    (hnl : nl = (2 * (s * n) + L).tdiv (2 * L))
    (hlo : Plo * L = s * P) (hhi : Phi * L = (L - s) * P) :
    0 < s ∧ s < L ∧ 1 ≤ nl ∧ nl ≤ Plo ∧ nl < n ∧ n - nl ≤ Phi := by
  have hh : n.tdiv 2 = n / 2 := Int.tdiv_eq_ediv (by omega) (by omega)
  rw [hh] at hs
  have hh1 : 2 * (n / 2) ≤ n := by omega
  have hh2 : n ≤ 2 * (n / 2) + 1 := by omega
  have hh3 : 1 ≤ n / 2 := by omega
  set h := n / 2 with hdef
  have hLh : 0 ≤ L * h := by positivity
  obtain ⟨s1, s2⟩ := round_div_bounds (L * h) n hLh (by omega)
  rw [← hs] at s1 s2
  have hs0 : 0 < s := by
    by_contra hc
    have : s ≤ 0 := by omega
    nlinarith
  have hsL : s < L := by
    by_contra hc
    have : L ≤ s := by omega
    nlinarith
  have hsn : 0 ≤ s * n := by positivity
  obtain ⟨l1, l2⟩ := round_div_bounds (s * n) L hsn (by omega)
  rw [← hnl] at l1 l2
  refine ⟨hs0, hsL, ?_, ?_, ?_, ?_⟩
  · by_contra hc
    have : nl ≤ 0 := by omega
    -- 2 s n + L < 2 L nl + 2L ≤ 2L → 2 s n < L
    have h2sn : 2 * (s * n) < L := by nlinarith
    by_cases hnL : L < 2 * n
    · nlinarith
    · nlinarith
  · by_contra hc
    have : Plo + 1 ≤ nl := by omega
    nlinarith
  · by_contra hc
    have : n ≤ nl := by omega
    nlinarith
  · by_contra hc
    have : Phi + 1 ≤ n - nl := by omega
    nlinarith

/-- The split point of `split` lies strictly inside the longest axis. -/
theorem split_point_bounds (L n : Int) (hL : 2 ≤ L) (hn : 2 ≤ n) :
    0 < (2 * (L * n.tdiv 2) + n).tdiv (2 * n) ∧ (2 * (L * n.tdiv 2) + n).tdiv (2 * n) < L := by
  have hh : n.tdiv 2 = n / 2 := Int.tdiv_eq_ediv (by omega) (by omega)
  rw [hh]
  have hh1 : 2 * (n / 2) ≤ n := by omega
  have hh2 : n ≤ 2 * (n / 2) + 1 := by omega
  have hh3 : 1 ≤ n / 2 := by omega
  have hLh : 0 ≤ L * (n / 2) := by positivity
  obtain ⟨s1, s2⟩ := round_div_bounds (L * (n / 2)) n hLh (by omega)
  generalize n / 2 = h at *
  generalize (2 * (L * h) + n).tdiv (2 * n) = s at *
  constructor
  · by_contra hc
    have : s ≤ 0 := by omega
    nlinarith
  · by_contra hc
    have : L ≤ s := by omega
    nlinarith

/-- One round of `split` with `2 ≤ n ≤ nowned_min()`. -/
theorem split_fuel_step (fuel : Nat) (gv : grid_volume) (n which : Int) (hwf : gv.wf)
    (hn : 2 ≤ n) (hP : n ≤ gv.nowned_min) :
    grid_volume.split_fuel (fuel + 1) gv n which
        = (if which < gv.num_low n then
            grid_volume.split_fuel fuel (gv.split_retval false (gv.split_point n))
              (gv.num_low n) which
          else
            grid_volume.split_fuel fuel (gv.split_retval true (gv.split_point n))
              (n - gv.num_low n) (which - gv.num_low n))
      ∧ (gv.split_retval false (gv.split_point n)).wf
      ∧ (gv.split_retval true (gv.split_point n)).wf
      ∧ 1 ≤ gv.num_low n ∧ gv.num_low n < n
      ∧ gv.num_low n ≤ (gv.split_retval false (gv.split_point n)).nowned_min
      ∧ n - gv.num_low n ≤ (gv.split_retval true (gv.split_point n)).nowned_min
      ∧ (gv.split_retval false (gv.split_point n)).nowned_min
          + (gv.split_retval true (gv.split_point n)).nowned_min = gv.nowned_min
      ∧ 0 < gv.split_point n ∧ gv.split_point n < gv.biglen ∧ 1 < gv.biglen
      ∧ gv.split_at_fraction false (gv.split_point n)
          = .ok (gv.split_retval false (gv.split_point n))
      ∧ gv.split_at_fraction true (gv.split_point n)
          = .ok (gv.split_retval true (gv.split_point n)) := by
  have hL := biglen_ge_two gv hwf (by omega)
  obtain ⟨s0, sL⟩ : 0 < gv.split_point n ∧ gv.split_point n < gv.biglen :=
    split_point_bounds gv.biglen n hL hn
  obtain ⟨p1, p2, p3, p4, p5, p6⟩ := split_parts gv (gv.split_point n) hwf s0 sL
  obtain ⟨-, -, a1, a2, a3, a4⟩ :=
    split_arith gv.biglen n gv.nowned_min _ _ hL hn hP (gv.split_point n) (gv.num_low n)
      rfl rfl p5 p6
  have hsum : (gv.split_retval false (gv.split_point n)).nowned_min
          + (gv.split_retval true (gv.split_point n)).nowned_min = gv.nowned_min := by
    have : ((gv.split_retval false (gv.split_point n)).nowned_min
          + (gv.split_retval true (gv.split_point n)).nowned_min) * gv.biglen
          = gv.nowned_min * gv.biglen := by
      rw [add_mul, p5, p6]; ring
    exact mul_right_cancel₀ (by omega) this
  refine ⟨?_, p3, p4, a1, a3, a2, a4, hsum, s0, sL, by omega, p1, p2⟩
  have hn1 : ¬ n = 1 := by omega
  have hn0 : ¬ (n = 0 ∨ gv.biglen = 0) := by omega
  have hgt : ¬ n > gv.nowned_min := by omega
  simp only [grid_volume.split_fuel, hgt, hn1, hn0, if_false]
  show (if which < gv.num_low n then _ else _) = _
  rw [show gv.split_at_fraction false (round_div (gv.biglen * n.tdiv 2) n) = _ from p1,
    show gv.split_at_fraction true (round_div (gv.biglen * n.tdiv 2) n) = _ from p2]
  rfl


/-- The terminal case `n = 1` of `split`. -/
theorem split_fuel_one (fuel : Nat) (gv : grid_volume) (which : Int)
    (hP : 1 ≤ gv.nowned_min) : grid_volume.split_fuel (fuel + 1) gv 1 which = .ok gv := by
  have hgt : ¬ (1 : Int) > gv.nowned_min := by omega
  simp [grid_volume.split_fuel, hgt]

/-- With `1 ≤ n ≤ nowned_min()` the call `split(n, which)` returns, and `n` rounds of fuel
(or more) all give the same descriptor. -/
theorem split_fuel_ok (m : Nat) : ∀ (gv : grid_volume) (n which : Int), gv.wf → 1 ≤ n →
    n ≤ gv.nowned_min → n.toNat ≤ m →
    ∃ r : grid_volume, r.wf ∧ ∀ fuel, m ≤ fuel → grid_volume.split_fuel fuel gv n which = .ok r := by
  induction m with
  | zero => intro gv n which _ h1 _ hm; omega
  | succ m ih =>
    intro gv n which hwf h1 hP hm
    by_cases hn1 : n = 1
    · subst hn1
      refine ⟨gv, hwf, fun fuel hf => ?_⟩
      obtain ⟨k, rfl⟩ : ∃ k, fuel = k + 1 := ⟨fuel - 1, by omega⟩
      exact split_fuel_one k gv which hP
    · have hn2 : 2 ≤ n := by omega
      obtain ⟨-, wlo, whi, l1, l2, l3, l4, -⟩ := split_fuel_step 0 gv n which hwf hn2 hP
      by_cases hw : which < gv.num_low n
      · obtain ⟨r, hr, hf⟩ := ih _ (gv.num_low n) which wlo l1 l3 (by omega)
        refine ⟨r, hr, fun fuel hfu => ?_⟩
        obtain ⟨k, rfl⟩ : ∃ k, fuel = k + 1 := ⟨fuel - 1, by omega⟩
        rw [(split_fuel_step k gv n which hwf hn2 hP).1, if_pos hw]
        exact hf k (by omega)
      · obtain ⟨r, hr, hf⟩ := ih _ (n - gv.num_low n) (which - gv.num_low n) whi (by omega) l4
          (by omega)
        refine ⟨r, hr, fun fuel hfu => ?_⟩
        obtain ⟨k, rfl⟩ : ∃ k, fuel = k + 1 := ⟨fuel - 1, by omega⟩
        rw [(split_fuel_step k gv n which hwf hn2 hP).1, if_neg hw]
        exact hf k (by omega)

/-- The point counts of the `n` parts add up to the point count of the whole. -/
theorem split_fuel_sum (m : Nat) : ∀ (gv : grid_volume) (n : Int), gv.wf → 1 ≤ n →
    n ≤ gv.nowned_min → n.toNat ≤ m →
    ∑ w in Finset.range n.toNat, point_count (grid_volume.split_fuel m gv n (w : Int))
      = gv.nowned_min := by
  induction m with
  | zero => intro gv n _ h1 _ hm; omega
  | succ m ih =>
    intro gv n hwf h1 hP hm
    by_cases hn1 : n = 1
    · subst hn1
      simp [split_fuel_one m gv _ hP, point_count]
    · have hn2 : 2 ≤ n := by omega
      obtain ⟨-, wlo, whi, l1, l2, l3, l4, hsum, -⟩ := split_fuel_step 0 gv n 0 hwf hn2 hP
      have e : n.toNat = (gv.num_low n).toNat + (n - gv.num_low n).toNat := by omega
      rw [e, Finset.sum_range_add]
      have h1' := ih _ (gv.num_low n) wlo l1 l3 (by omega)
      have h2' := ih _ (n - gv.num_low n) whi (by omega) l4 (by omega)
      rw [← hsum, ← h1', ← h2']
      congr 1
      · apply Finset.sum_congr rfl
        intro w hw
        rw [Finset.mem_range] at hw
        rw [(split_fuel_step m gv n w hwf hn2 hP).1, if_pos (by omega)]
      · apply Finset.sum_congr rfl
        intro w hw
        rw [(split_fuel_step m gv n _ hwf hn2 hP).1, if_neg (by push_cast; omega)]
        congr 2
        push_cast
        omega

/-- Every call made by `split(n, which)` with `1 ≤ n ≤ nowned_min()` meets the bounds. -/
theorem split_calls_valid (fuel : Nat) : ∀ (gv : grid_volume) (n which : Int), gv.wf → 1 ≤ n →
    n ≤ gv.nowned_min → ∀ c ∈ grid_volume.split_calls fuel gv n which, c.valid := by
  induction fuel with
  | zero => intro gv n which _ _ _ c hc; simp [grid_volume.split_calls] at hc
  | succ k ih =>
    intro gv n which hwf h1 hP c hc
    have hgt : ¬ n > gv.nowned_min := by omega
    by_cases hn1 : n = 1
    · subst hn1
      simp [grid_volume.split_calls, hgt] at hc
      subst hc
      exact ⟨le_refl _, hP⟩
    · have hn2 : 2 ≤ n := by omega
      obtain ⟨-, wlo, whi, l1, l2, l3, l4, -, s0, sL, hL, p1, p2⟩ :=
        split_fuel_step 0 gv n which hwf hn2 hP
      have hn0 : ¬ (n = 0 ∨ gv.biglen = 0) := by omega
      simp only [grid_volume.split_calls, hgt, hn1, hn0, if_false] at hc
      change c ∈ split_call.split gv n which ::
        (if which < gv.num_low n then
          split_call.at_fraction gv false (gv.split_point n) ::
            (match gv.split_at_fraction false (gv.split_point n) with
              | .ok lo => grid_volume.split_calls k lo (gv.num_low n) which
              | _ => [])
        else
          split_call.at_fraction gv true (gv.split_point n) ::
            (match gv.split_at_fraction true (gv.split_point n) with
              | .ok hi => grid_volume.split_calls k hi (n - gv.num_low n) (which - gv.num_low n)
              | _ => [])) at hc
      rw [p1, p2] at hc
      rcases List.mem_cons.mp hc with rfl | hc
      · exact ⟨h1, hP⟩
      · split at hc
        · rcases List.mem_cons.mp hc with rfl | hc
          · exact ⟨s0, sL, hL⟩
          · exact ih _ _ _ wlo l1 l3 c hc
        · rcases List.mem_cons.mp hc with rfl | hc
          · exact ⟨s0, sL, hL⟩
          · exact ih _ _ _ whi (by omega) l4 c hc


/-- C2: for every descriptor and every `n` with `1 ≤ n ≤ nowned_min()`, every part
`split(n, which)` with `0 ≤ which < n` is returned, and the point counts (products of the
extents over the active directions) of the `n` parts add up to the point count of the
descriptor. -/
theorem split_conserves_points (gv : grid_volume) (n : Int) (hwf : gv.wf) (h1 : 1 ≤ n)
    (hn : n ≤ gv.nowned_min) :
    (∀ which : Int, 0 ≤ which → which < n → (gv.split n which).isOk = true)
      ∧ ∑ w in Finset.range n.toNat, point_count (gv.split n (w : Int)) = gv.nowned_min := by
  constructor
  · intro which _ _
    obtain ⟨r, -, hr⟩ := split_fuel_ok n.toNat gv n which hwf h1 hn (le_refl _)
    simp [grid_volume.split, hr n.toNat (le_refl _), Res.isOk]
  · exact split_fuel_sum n.toNat gv n hwf h1 hn (le_refl _)

/-- The 2-D descriptor with extents `5 x 7` split into `6` parts. -/
theorem split_conserves_points_witness :
    (∀ which : Int, 0 ≤ which → which < 6 →
        ((⟨.D2, 5, 7, 0, zero_ivec .D2⟩ : grid_volume).split 6 which).isOk = true)
      ∧ ∑ w in Finset.range (6 : Int).toNat,
          point_count ((⟨.D2, 5, 7, 0, zero_ivec .D2⟩ : grid_volume).split 6 (w : Int))
        = (⟨.D2, 5, 7, 0, zero_ivec .D2⟩ : grid_volume).nowned_min :=
  split_conserves_points ⟨.D2, 5, 7, 0, zero_ivec .D2⟩ 6 (by decide) (by decide) (by decide)

/-- C3: for a descriptor with positive extents on its active axes and zero extents on the
others, `1 ≤ n ≤ nowned_min()` and `0 ≤ which < n`, the call `split(n, which)` ends with a
descriptor (for every amount of fuel from `n` on) and reaches no abort: every call of
`split` it makes has a part count between `1` and `nowned_min()` of its receiver, every call
of `split_at_fraction` has `0 < numer <` the longest extent; and `split(1, which)` returns the
descriptor unchanged. -/
theorem split_terminates_safely (gv : grid_volume) (n which : Int) (hwf : gv.wf) (h1 : 1 ≤ n)
    (hn : n ≤ gv.nowned_min) (_hw0 : 0 ≤ which) (_hw : which < n) :
    (∃ r, ∀ fuel, n.toNat ≤ fuel → grid_volume.split_fuel fuel gv n which = .ok r)
      ∧ (∀ c ∈ grid_volume.split_calls n.toNat gv n which, c.valid)
      ∧ gv.split 1 which = .ok gv := by
  refine ⟨?_, split_calls_valid _ gv n which hwf h1 hn, ?_⟩
  · obtain ⟨r, -, hr⟩ := split_fuel_ok n.toNat gv n which hwf h1 hn (le_refl _)
    exact ⟨r, hr⟩
  · exact split_fuel_one 0 gv which (by omega)

/-- The 2-D descriptor with extents `5 x 7`, part `3` of `6`. -/
theorem split_terminates_safely_witness :
    (∃ r, ∀ fuel, (6 : Int).toNat ≤ fuel →
        grid_volume.split_fuel fuel ⟨.D2, 5, 7, 0, zero_ivec .D2⟩ 6 3 = .ok r)
      ∧ (∀ c ∈ grid_volume.split_calls (6 : Int).toNat ⟨.D2, 5, 7, 0, zero_ivec .D2⟩ 6 3,
          c.valid)
      ∧ (⟨.D2, 5, 7, 0, zero_ivec .D2⟩ : grid_volume).split 1 3
          = .ok ⟨.D2, 5, 7, 0, zero_ivec .D2⟩ :=
  split_terminates_safely ⟨.D2, 5, 7, 0, zero_ivec .D2⟩ 6 3 (by decide) (by decide)
    (by decide) (by decide) (by decide)

/-! ## The effort-weighted splitter -/

set_option linter.unreachableTactic false in
set_option linter.unusedTactic false in
set_option maxHeartbeats 8000000 in
/-- The axis scanned by `split_by_effort` has the longest extent, and the array sizes of the
two candidate halves are proportional to `split_point + 1` and `biglen - split_point + 1`. -/
theorem effort_axis_ntot (gv : grid_volume) (hwf : gv.wf) (hL : 2 ≤ gv.biglen) :
    gv.effort_axis.1 = gv.biglen
      ∧ ∃ K : Int, 0 < K ∧ gv.ntot = (gv.biglen + 1) * K
        ∧ ∀ sp : Int,
          (gv.set_num_direction gv.effort_axis.2 sp).ntot = (sp + 1) * K
          ∧ ((gv.set_num_direction gv.effort_axis.2
                (gv.num_direction gv.effort_axis.2 - sp)).shift_origin gv.effort_axis.2
                  (sp * 2)).ntot = (gv.biglen - sp + 1) * K := by
  rw [biglen_eq] at hL ⊢
  obtain ⟨dim, n0, n1, n2, io⟩ := gv
  obtain ⟨-, h0', h1', h2', hD1, hD2, hDc⟩ := hwf
  simp only at h0' h1' h2' hD1 hD2 hDc hL ⊢
  cases dim <;> simp only [reduceCtorEq, forall_true_left, false_implies] at hD1 hD2 hDc
  · obtain ⟨z0, z1⟩ := hD1
    have c : n2 > 0 := by omega
    first
    | (have e : max 0 (max n0 (max n1 n2)) = n2 := by omega
       rw [e] at hL ⊢
       refine ⟨by simp [grid_volume.effort_axis, loop_over_directions, grid_volume.ntot,
        grid_volume.set_num_direction, grid_volume.set_num, grid_volume.shift_origin,
        grid_volume.set_origin, direction.toInt, show Int.tmod 2 3 = 2 from rfl,
        show Int.tmod 1 3 = 1 from rfl, show Int.tmod 3 3 = 0 from rfl, *], 1, by positivity, ?_⟩
       simp [grid_volume.effort_axis, loop_over_directions, grid_volume.ntot,
        grid_volume.set_num_direction, grid_volume.set_num, grid_volume.shift_origin,
        grid_volume.set_origin, direction.toInt, show Int.tmod 2 3 = 2 from rfl,
        show Int.tmod 1 3 = 1 from rfl, show Int.tmod 3 3 = 0 from rfl, *]
       try (first
       | (refine ⟨?_, fun sp => ⟨?_, ?_⟩⟩ <;> ring1)
       | (refine ⟨?_, fun sp => ?_⟩ <;> ring1)
       | (intro sp; constructor <;> ring1)
       | (intro sp; ring1)
       | ring1))
  · by_cases c0 : n0 > 0 <;> by_cases c1 : n1 > n0 <;> by_cases c2 : n1 > 0 <;>
      first
      | (exfalso; omega)
      | (have e : max 0 (max n0 (max n1 n2)) = n0 := by omega
         rw [e] at hL ⊢
         refine ⟨by simp [grid_volume.effort_axis, loop_over_directions, grid_volume.ntot,
        grid_volume.set_num_direction, grid_volume.set_num, grid_volume.shift_origin,
        grid_volume.set_origin, direction.toInt, show Int.tmod 2 3 = 2 from rfl,
        show Int.tmod 1 3 = 1 from rfl, show Int.tmod 3 3 = 0 from rfl, *], n1 + 1, by positivity, ?_⟩
         simp [grid_volume.effort_axis, loop_over_directions, grid_volume.ntot,
        grid_volume.set_num_direction, grid_volume.set_num, grid_volume.shift_origin,
        grid_volume.set_origin, direction.toInt, show Int.tmod 2 3 = 2 from rfl,
        show Int.tmod 1 3 = 1 from rfl, show Int.tmod 3 3 = 0 from rfl, *]
         try (first
           | (refine ⟨?_, fun sp => ⟨?_, ?_⟩⟩ <;> ring1)
           | (refine ⟨?_, fun sp => ?_⟩ <;> ring1)
           | (intro sp; constructor <;> ring1)
           | (intro sp; ring1)
           | ring1))
      | (have e : max 0 (max n0 (max n1 n2)) = n1 := by omega
         rw [e] at hL ⊢
         refine ⟨by simp [grid_volume.effort_axis, loop_over_directions, grid_volume.ntot,
        grid_volume.set_num_direction, grid_volume.set_num, grid_volume.shift_origin,
        grid_volume.set_origin, direction.toInt, show Int.tmod 2 3 = 2 from rfl,
        show Int.tmod 1 3 = 1 from rfl, show Int.tmod 3 3 = 0 from rfl, *], n0 + 1, by positivity, ?_⟩
         simp [grid_volume.effort_axis, loop_over_directions, grid_volume.ntot,
        grid_volume.set_num_direction, grid_volume.set_num, grid_volume.shift_origin,
        grid_volume.set_origin, direction.toInt, show Int.tmod 2 3 = 2 from rfl,
        show Int.tmod 1 3 = 1 from rfl, show Int.tmod 3 3 = 0 from rfl, *]
         try (first
           | (refine ⟨?_, fun sp => ⟨?_, ?_⟩⟩ <;> ring1)
           | (refine ⟨?_, fun sp => ?_⟩ <;> ring1)
           | (intro sp; constructor <;> ring1)
           | (intro sp; ring1)
           | ring1))
  · by_cases c0 : n0 > 0 <;> by_cases c1 : n1 > n0 <;> by_cases c2 : n1 > 0 <;> by_cases c3 : n2 > n1 <;> by_cases c4 : n2 > n0 <;> by_cases c5 : n2 > 0 <;>
      first
      | (exfalso; omega)
      | (have e : max 0 (max n0 (max n1 n2)) = n0 := by omega
         rw [e] at hL ⊢
         refine ⟨by simp [grid_volume.effort_axis, loop_over_directions, grid_volume.ntot,
        grid_volume.set_num_direction, grid_volume.set_num, grid_volume.shift_origin,
        grid_volume.set_origin, direction.toInt, show Int.tmod 2 3 = 2 from rfl,
        show Int.tmod 1 3 = 1 from rfl, show Int.tmod 3 3 = 0 from rfl, *], (n1 + 1) * (n2 + 1), by positivity, ?_⟩
         simp [grid_volume.effort_axis, loop_over_directions, grid_volume.ntot,
        grid_volume.set_num_direction, grid_volume.set_num, grid_volume.shift_origin,
        grid_volume.set_origin, direction.toInt, show Int.tmod 2 3 = 2 from rfl,
        show Int.tmod 1 3 = 1 from rfl, show Int.tmod 3 3 = 0 from rfl, *]
         try (first
           | (refine ⟨?_, fun sp => ⟨?_, ?_⟩⟩ <;> ring1)
           | (refine ⟨?_, fun sp => ?_⟩ <;> ring1)
           | (intro sp; constructor <;> ring1)
           | (intro sp; ring1)
           | ring1))
      | (have e : max 0 (max n0 (max n1 n2)) = n1 := by omega
         rw [e] at hL ⊢
         refine ⟨by simp [grid_volume.effort_axis, loop_over_directions, grid_volume.ntot,
        grid_volume.set_num_direction, grid_volume.set_num, grid_volume.shift_origin,
        grid_volume.set_origin, direction.toInt, show Int.tmod 2 3 = 2 from rfl,
        show Int.tmod 1 3 = 1 from rfl, show Int.tmod 3 3 = 0 from rfl, *], (n0 + 1) * (n2 + 1), by positivity, ?_⟩
         simp [grid_volume.effort_axis, loop_over_directions, grid_volume.ntot,
        grid_volume.set_num_direction, grid_volume.set_num, grid_volume.shift_origin,
        grid_volume.set_origin, direction.toInt, show Int.tmod 2 3 = 2 from rfl,
        show Int.tmod 1 3 = 1 from rfl, show Int.tmod 3 3 = 0 from rfl, *]
         try (first
           | (refine ⟨?_, fun sp => ⟨?_, ?_⟩⟩ <;> ring1)
           | (refine ⟨?_, fun sp => ?_⟩ <;> ring1)
           | (intro sp; constructor <;> ring1)
           | (intro sp; ring1)
           | ring1))
      | (have e : max 0 (max n0 (max n1 n2)) = n2 := by omega
         rw [e] at hL ⊢
         refine ⟨by simp [grid_volume.effort_axis, loop_over_directions, grid_volume.ntot,
        grid_volume.set_num_direction, grid_volume.set_num, grid_volume.shift_origin,
        grid_volume.set_origin, direction.toInt, show Int.tmod 2 3 = 2 from rfl,
        show Int.tmod 1 3 = 1 from rfl, show Int.tmod 3 3 = 0 from rfl, *], (n0 + 1) * (n1 + 1), by positivity, ?_⟩
         simp [grid_volume.effort_axis, loop_over_directions, grid_volume.ntot,
        grid_volume.set_num_direction, grid_volume.set_num, grid_volume.shift_origin,
        grid_volume.set_origin, direction.toInt, show Int.tmod 2 3 = 2 from rfl,
        show Int.tmod 1 3 = 1 from rfl, show Int.tmod 3 3 = 0 from rfl, *]
         try (first
           | (refine ⟨?_, fun sp => ⟨?_, ?_⟩⟩ <;> ring1)
           | (refine ⟨?_, fun sp => ?_⟩ <;> ring1)
           | (intro sp; constructor <;> ring1)
           | (intro sp; ring1)
           | ring1))
  · by_cases c0 : n2 > 0 <;> by_cases c1 : n0 > n2 <;> by_cases c2 : n0 > 0 <;>
      first
      | (exfalso; omega)
      | (have e : max 0 (max n0 (max n1 n2)) = n2 := by omega
         rw [e] at hL ⊢
         refine ⟨by simp [grid_volume.effort_axis, loop_over_directions, grid_volume.ntot,
        grid_volume.set_num_direction, grid_volume.set_num, grid_volume.shift_origin,
        grid_volume.set_origin, direction.toInt, show Int.tmod 2 3 = 2 from rfl,
        show Int.tmod 1 3 = 1 from rfl, show Int.tmod 3 3 = 0 from rfl, *], n0 + 1, by positivity, ?_⟩
         simp [grid_volume.effort_axis, loop_over_directions, grid_volume.ntot,
        grid_volume.set_num_direction, grid_volume.set_num, grid_volume.shift_origin,
        grid_volume.set_origin, direction.toInt, show Int.tmod 2 3 = 2 from rfl,
        show Int.tmod 1 3 = 1 from rfl, show Int.tmod 3 3 = 0 from rfl, *]
         try (first
           | (refine ⟨?_, fun sp => ⟨?_, ?_⟩⟩ <;> ring1)
           | (refine ⟨?_, fun sp => ?_⟩ <;> ring1)
           | (intro sp; constructor <;> ring1)
           | (intro sp; ring1)
           | ring1))
      | (have e : max 0 (max n0 (max n1 n2)) = n0 := by omega
         rw [e] at hL ⊢
         refine ⟨by simp [grid_volume.effort_axis, loop_over_directions, grid_volume.ntot,
        grid_volume.set_num_direction, grid_volume.set_num, grid_volume.shift_origin,
        grid_volume.set_origin, direction.toInt, show Int.tmod 2 3 = 2 from rfl,
        show Int.tmod 1 3 = 1 from rfl, show Int.tmod 3 3 = 0 from rfl, *], n2 + 1, by positivity, ?_⟩
         simp [grid_volume.effort_axis, loop_over_directions, grid_volume.ntot,
        grid_volume.set_num_direction, grid_volume.set_num, grid_volume.shift_origin,
        grid_volume.set_origin, direction.toInt, show Int.tmod 2 3 = 2 from rfl,
        show Int.tmod 1 3 = 1 from rfl, show Int.tmod 3 3 = 0 from rfl, *]
         try (first
           | (refine ⟨?_, fun sp => ⟨?_, ?_⟩⟩ <;> ring1)
           | (refine ⟨?_, fun sp => ?_⟩ <;> ring1)
           | (intro sp; constructor <;> ring1)
           | (intro sp; ring1)
           | ring1))


/-- One round of the scan for two parts and no effort table. -/
theorem scan_step_two (gv : grid_volume) (d : direction) (st : scan_state) (sp L K : Int)
    (hl : (gv.set_num_direction d sp).ntot = (sp + 1) * K)
    (hr : ((gv.set_num_direction d (gv.num_direction d - sp)).shift_origin d (sp * 2)).ntot
      = (L - sp + 1) * K) :
    gv.scan_step 2 d [] st sp
      = if ((max ((sp + 1) * K) ((L - sp + 1) * K) : Int) : Rat) < st.best_split_measure then
          ⟨((max ((sp + 1) * K) ((L - sp + 1) * K) : Int) : Rat), sp,
            if (((sp + 1) * K + (L - sp + 1) * K : Int) : Rat) = 0 then none
            else some ((((sp + 1) * K : Int) : Rat)
              / (((sp + 1) * K + (L - sp + 1) * K : Int) : Rat))⟩
        else st := by
  simp only [grid_volume.scan_step, hl, hr, List.length_nil, if_true]
  have e1 : ((2 : Int).tdiv 2) = 1 := rfl
  have e2 : ((2 : Int) - (2 : Int).tdiv 2) = 1 := rfl
  rw [e2, e1]
  simp only [Int.cast_one, div_one]
  have hmax : (if (((sp + 1) * K : Int) : Rat) > (((L - sp + 1) * K : Int) : Rat)
      then (((sp + 1) * K : Int) : Rat) else (((L - sp + 1) * K : Int) : Rat))
      = ((max ((sp + 1) * K) ((L - sp + 1) * K) : Int) : Rat) := by
    split
    · next h =>
      have h' : (L - sp + 1) * K < (sp + 1) * K := by exact_mod_cast h
      rw [max_eq_left h'.le]
    · next h =>
      have h' : (sp + 1) * K ≤ (L - sp + 1) * K := by
        have := not_lt.mp h
        exact_mod_cast this
      rw [max_eq_right h']
  rw [hmax]
  push_cast
  rfl

/-- Scaling a maximum by a positive factor. -/
theorem max_mul_K (a b K : Int) (hK : 0 < K) : max (a * K) (b * K) = max a b * K := by
  rcases le_total a b with h | h
  · rw [max_eq_right h, max_eq_right (mul_le_mul_of_nonneg_right h hK.le)]
  · rw [max_eq_left h, max_eq_left (mul_le_mul_of_nonneg_right h hK.le)]

/-- The scan for two parts and no effort table: after the candidates `1, ..., j` the best
split point is `min j (L / 2)`. -/
theorem scan_two_prefix (gv : grid_volume) (d : direction) (L K : Int) (hL : 2 ≤ L)
    (hK : 0 < K) (hbig : (L + 1) * K < 2 ^ 31)
    (hl : ∀ sp : Int, (gv.set_num_direction d sp).ntot = (sp + 1) * K)
    (hr : ∀ sp : Int,
      ((gv.set_num_direction d (gv.num_direction d - sp)).shift_origin d (sp * 2)).ntot
        = (L - sp + 1) * K) :
    ∀ j : Nat, 1 ≤ j → (j : Int) ≤ L - 1 →
      ((List.range j).map (fun k : Nat => (k : Int) + 1)).foldl (gv.scan_step 2 d [])
          ⟨(10 : Rat) ^ 20, 0, some 0⟩
        = scan_accept_two L K (min (j : Int) (L / 2)) := by
  have step : ∀ (st : scan_state) (sp : Int), gv.scan_step 2 d [] st sp
      = if ((max (sp + 1) (L - sp + 1) * K : Int) : Rat) < st.best_split_measure
        then scan_accept_two L K sp else st := by
    intro st sp
    rw [scan_step_two gv d st sp L K (hl sp) (hr sp)]
    simp only [scan_accept_two, max_mul_K _ _ _ hK]
  have hm : ∀ sp : Int, (scan_accept_two L K sp).best_split_measure
      = ((max (sp + 1) (L - sp + 1) * K : Int) : Rat) := by
    intro sp
    simp only [scan_accept_two, max_mul_K _ _ _ hK]
  intro j hj
  induction j, hj using Nat.le_induction with
  | base =>
    intro _
    have hr1 : List.range 1 = [0] := rfl
    simp only [hr1, List.map_cons, List.map_nil, List.foldl_cons, List.foldl_nil,
      Nat.cast_zero, zero_add, Nat.cast_one]
    rw [step]
    have h1 : min (1 : Int) (L / 2) = 1 := by omega
    rw [h1, if_pos]
    have : max (1 + 1) (L - 1 + 1) * K < 10 ^ 20 := by
      have : max (1 + 1) (L - 1 + 1) = L := by omega
      rw [this]
      nlinarith
    show ((max (1 + 1) (L - 1 + 1) * K : Int) : Rat) < (10 : Rat) ^ 20
    exact_mod_cast this
  | succ j hj ih =>
    intro hjL
    have ih' := ih (by push_cast at hjL; omega)
    rw [List.range_succ, List.map_append, List.foldl_append, ih']
    simp only [List.map_cons, List.map_nil, List.foldl_cons, List.foldl_nil]
    rw [step, hm]
    push_cast at hjL
    simp only [Nat.cast_add, Nat.cast_one]
    by_cases hc : (j : Int) + 1 ≤ L / 2
    · have e1 : min (j : Int) (L / 2) = j := by omega
      have e2 : min ((j : Int) + 1) (L / 2) = j + 1 := by omega
      rw [e1, e2, if_pos]
      have : max ((j : Int) + 1 + 1) (L - (j + 1) + 1) * K < max ((j : Int) + 1) (L - j + 1) * K := by
        apply mul_lt_mul_of_pos_right _ hK
        omega
      exact_mod_cast this
    · have e1 : min (j : Int) (L / 2) = L / 2 := by omega
      have e2 : min ((j : Int) + 1) (L / 2) = L / 2 := by omega
      rw [e1, e2, if_neg]
      have : max (L / 2 + 1) (L - L / 2 + 1) * K ≤ max ((j : Int) + 1 + 1) (L - (j + 1) + 1) * K := by
        apply mul_le_mul_of_nonneg_right _ hK.le
        omega
      rw [not_lt]
      exact_mod_cast this


/-- The cast `(int) q` of a rational between `1` and `2` is `1`. -/
theorem trunc_eq_one (q : Rat) (h1 : 1 ≤ q) (h2 : q < 2) : trunc q = 1 := by
  have hq : 0 ≤ q := by linarith
  have hn : 0 ≤ q.num := Rat.num_nonneg.mpr hq
  unfold trunc
  rw [Int.tdiv_eq_ediv hn (by positivity), ← Rat.floor_def, Int.floor_eq_iff]
  constructor
  · exact_mod_cast h1
  · norm_num; linarith

/-- The part `split_by_effort(2, which)` without an effort table: the cut is at half the
longest extent, rounded down. -/
theorem split_by_effort_two (k : Nat) (gv : grid_volume) (which : Int) (hwf : gv.wf)
    (hP : 2 ≤ gv.nowned_min) (hint : gv.ntot < 2 ^ 31) :
    grid_volume.split_by_effort_fuel (k + 2) gv 2 which []
      = .ok (gv.split_retval (decide (¬ which < 1)) (gv.biglen / 2)) := by
  have hL := biglen_ge_two gv hwf hP
  obtain ⟨hax, K, hK, hntot, hlr⟩ := effort_axis_ntot gv hwf hL
  -- the scan
  have hscan : gv.scan 2 [] = scan_accept_two gv.biglen K (gv.biglen / 2) := by
    have := scan_two_prefix gv gv.effort_axis.2 gv.biglen K hL hK (by rw [← hntot]; exact hint)
      (fun sp => (hlr sp).1) (fun sp => (hlr sp).2) (gv.biglen.toNat - 1) (by omega) (by omega)
    have e : min ((gv.biglen.toNat - 1 : Nat) : Int) (gv.biglen / 2) = gv.biglen / 2 := by omega
    rw [e] at this
    simp only [grid_volume.scan, hax]
    exact this
  have hb0 : 0 < gv.biglen / 2 := by omega
  have hbL : gv.biglen / 2 < gv.biglen := by omega
  obtain ⟨p1, p2, -, -, p5, p6⟩ := split_parts gv (gv.biglen / 2) hwf hb0 hbL
  obtain ⟨-, -, -, -, q5, -⟩ := split_parts gv 1 hwf one_pos (by omega)
  set M := (gv.split_retval false 1).nowned_min with hM
  have hgpo : gv.nowned_min = M * gv.biglen := by rw [q5]; ring
  have hM1 : 1 ≤ M := by
    by_contra hc
    have : M ≤ 0 := by omega
    nlinarith
  have hdiv : gv.nowned_min.tdiv gv.biglen = M := by
    rw [hgpo, Int.tdiv_eq_ediv (by positivity) (by omega)]
    exact Int.mul_ediv_cancel _ (by omega)
  have hlo : (gv.split_retval false (gv.biglen / 2)).nowned_min = gv.biglen / 2 * M := by
    have : (gv.split_retval false (gv.biglen / 2)).nowned_min * gv.biglen
        = (gv.biglen / 2 * M) * gv.biglen := by rw [p5, hgpo]; ring
    exact mul_right_cancel₀ (by omega) this
  have hhi : (gv.split_retval true (gv.biglen / 2)).nowned_min
      = (gv.biglen - gv.biglen / 2) * M := by
    have : (gv.split_retval true (gv.biglen / 2)).nowned_min * gv.biglen
        = ((gv.biglen - gv.biglen / 2) * M) * gv.biglen := by rw [p6, hgpo]; ring
    exact mul_right_cancel₀ (by omega) this
  have hbM : 1 ≤ gv.biglen / 2 * M := by nlinarith
  have hbM' : 1 ≤ (gv.biglen - gv.biglen / 2) * M := by
    have : 1 ≤ gv.biglen - gv.biglen / 2 := by omega
    nlinarith
  -- the effort fraction and the part count of the low side
  have hden : (((gv.biglen / 2 + 1) * K + (gv.biglen - gv.biglen / 2 + 1) * K : Int) : Rat)
      ≠ 0 := by
    have : 0 < (gv.biglen / 2 + 1) * K + (gv.biglen - gv.biglen / 2 + 1) * K := by
      have h1 : 0 < gv.biglen / 2 + 1 := by omega
      have h2 : 0 < gv.biglen - gv.biglen / 2 + 1 := by omega
      positivity
    exact_mod_cast this.ne'
  have hlow : trunc ((((gv.biglen / 2 + 1) * K : Int) : Rat)
      / (((gv.biglen / 2 + 1) * K + (gv.biglen - gv.biglen / 2 + 1) * K : Int) : Rat)
        * ((2 : Int) : Rat) + 1 / 2) = 1 := by
    have hpos : (0 : Rat) < (((gv.biglen / 2 + 1) * K
        + (gv.biglen - gv.biglen / 2 + 1) * K : Int) : Rat) := by
      have : 0 < (gv.biglen / 2 + 1) * K + (gv.biglen - gv.biglen / 2 + 1) * K := by
        have h1 : 0 < gv.biglen / 2 + 1 := by omega
        have h2 : 0 < gv.biglen - gv.biglen / 2 + 1 := by omega
        positivity
      exact_mod_cast this
    have i1 : 2 * ((gv.biglen / 2 + 1) * K)
        ≤ 2 * ((gv.biglen / 2 + 1) * K + (gv.biglen - gv.biglen / 2 + 1) * K) / 1 := by
      rw [Int.ediv_one]
      have : 0 ≤ (gv.biglen - gv.biglen / 2 + 1) * K := by
        have h2 : 0 < gv.biglen - gv.biglen / 2 + 1 := by omega
        positivity
      linarith
    have i2 : (gv.biglen / 2 + 1) * K + (gv.biglen - gv.biglen / 2 + 1) * K
        ≤ 4 * ((gv.biglen / 2 + 1) * K) := by
      have : (gv.biglen - gv.biglen / 2 + 1) * K ≤ (gv.biglen / 2 + 1 + 1) * K :=
        mul_le_mul_of_nonneg_right (by omega) hK.le
      nlinarith
    have i3 : (gv.biglen / 2 + 1) * K ≤ (gv.biglen - gv.biglen / 2 + 1) * K :=
      mul_le_mul_of_nonneg_right (by omega) hK.le
    have i2q : ((((gv.biglen / 2 + 1) * K + (gv.biglen - gv.biglen / 2 + 1) * K : Int)) : Rat)
        ≤ 4 * (((gv.biglen / 2 + 1) * K : Int) : Rat) := by exact_mod_cast i2
    have i3q : (((gv.biglen / 2 + 1) * K : Int) : Rat)
        ≤ (((gv.biglen - gv.biglen / 2 + 1) * K : Int) : Rat) := by exact_mod_cast i3
    apply trunc_eq_one
    · rw [div_mul_eq_mul_div, ← sub_nonneg]
      have : (1 : Rat) / 2 ≤ (((gv.biglen / 2 + 1) * K : Int) : Rat) * ((2 : Int) : Rat)
          / (((gv.biglen / 2 + 1) * K + (gv.biglen - gv.biglen / 2 + 1) * K : Int) : Rat) := by
        rw [le_div_iff₀ hpos]
        push_cast
        push_cast at i2q
        linarith
      linarith
    · have : (((gv.biglen / 2 + 1) * K : Int) : Rat)
          / (((gv.biglen / 2 + 1) * K + (gv.biglen - gv.biglen / 2 + 1) * K : Int) : Rat)
          ≤ 1 / 2 := by
        rw [div_le_iff₀ hpos]
        push_cast
        push_cast at i3q
        linarith
      push_cast
      push_cast at this
      linarith
  have hgt : ¬ (2 : Int) > gv.nowned_min := by omega
  have c1 : ¬ (1 > gv.biglen / 2 * M ∨ 2 - 1 > gv.nowned_min - gv.biglen / 2 * M) := by
    have : gv.nowned_min - gv.biglen / 2 * M = (gv.biglen - gv.biglen / 2) * M := by
      rw [hgpo]; ring
    rw [this]
    omega
  simp only [grid_volume.split_by_effort_fuel, hgt, if_false, hscan,
    show ¬ ((2 : Int) = 1) by decide, show ¬ ((2 : Int) ≤ 0) by decide, scan_accept_two, hden,
    hlow, hax, show ¬ (gv.biglen = 0) by omega, hdiv, c1, p1, p2, Res.bind]
  by_cases hw : which < 1
  · have : ¬ (1 > (gv.split_retval false (gv.biglen / 2)).nowned_min) := by rw [hlo]; omega
    simp [hw, this]
  · have : ¬ (2 - 1 > (gv.split_retval true (gv.biglen / 2)).nowned_min) := by rw [hhi]; omega
    have h1 : 1 ≤ (gv.split_retval true (gv.biglen / 2)).nowned_min := by rw [hhi]; exact hbM'
    simp [hw, h1]

/-- The part `split(2, which)`: the cut is at half the longest extent, rounded up. -/
theorem split_two (gv : grid_volume) (which : Int) (hwf : gv.wf) (hP : 2 ≤ gv.nowned_min) :
    gv.split 2 which = .ok (gv.split_retval (decide (¬ which < 1)) ((gv.biglen + 1) / 2)) := by
  have hL := biglen_ge_two gv hwf hP
  obtain ⟨e, -, -, l1, l2, l3, l4, -⟩ := split_fuel_step 1 gv 2 which hwf (le_refl _) hP
  have hsp : gv.split_point 2 = (gv.biglen + 1) / 2 := by
    simp only [grid_volume.split_point, round_div, show (2 : Int).tdiv 2 = 1 from rfl]
    rw [Int.tdiv_eq_ediv (by omega) (by omega)]
    omega
  have hnl : gv.num_low 2 = 1 := by omega
  rw [hnl, hsp] at l3 l4
  show grid_volume.split_fuel (1 + 1) gv 2 which = _
  rw [e, hnl, hsp]
  by_cases hw : which < 1
  · simp only [hw, if_true, not_true_eq_false, decide_False]
    exact split_fuel_one 0 _ which l3
  · simp only [hw, if_false, not_false_eq_true, decide_True]
    exact split_fuel_one 0 _ _ (by omega)

/-- A returned part is the descriptor `retval`. -/
theorem split_at_fraction_ok_eq (gv r : grid_volume) (want_high : Bool) (numer : Int)
    (h : gv.split_at_fraction want_high numer = .ok r) : r = gv.split_retval want_high numer := by
  simp only [grid_volume.split_at_fraction] at h
  split_ifs at h
  exact (Res.ok.inj h).symm

/-- The extent of the two parts along the cut axis. -/
theorem split_retval_num (gv : grid_volume) (numer : Int) (hwf : gv.wf) (hL : 1 < gv.biglen)
    (h0 : 0 < numer) (h1 : numer < gv.biglen) :
    (gv.split_retval false numer).num gv.best.1 = numer
      ∧ (gv.split_retval true numer).num gv.best.1 = gv.biglen - numer := by
  obtain ⟨lo, hi, e1, e2, -, -, -, -, -, -, -, -, -, -, f1, f2, -⟩ :=
    split_retval_frame gv numer hwf hL h0 h1
  rw [split_at_fraction_ok_eq gv lo false numer e1] at f1
  rw [split_at_fraction_ok_eq gv hi true numer e2] at f2
  exact ⟨f1, f2⟩

/-- C4 (amended): without an effort table, `split_by_effort(1, which)` and `split(1, which)`
both return the descriptor; for a descriptor with at least two points (and an array size
that fits a C `int`), `split_by_effort(2, which)` and `split(2, which)` return the same
descriptor exactly when the longest extent is even: the effort scan cuts at half the longest
extent rounded down, `split` at half rounded up. -/
theorem split_by_effort_vs_split (gv : grid_volume) (which : Int) (hwf : gv.wf)
    (hP : 2 ≤ gv.nowned_min) (hint : gv.ntot < 2 ^ 31) :
    gv.split_by_effort 1 which [] = gv.split 1 which
      ∧ (gv.split_by_effort 2 which [] = gv.split 2 which ↔ gv.biglen % 2 = 0) := by
  have hL := biglen_ge_two gv hwf hP
  constructor
  · have h1 : gv.split 1 which = .ok gv := split_fuel_one 0 gv which (by omega)
    rw [h1]
    have hgt : ¬ (1 : Int) > gv.nowned_min := by omega
    simp [grid_volume.split_by_effort, grid_volume.split_by_effort_fuel, hgt]
  · have hf : ((2 + gv.nowned_min).toNat + 1) = ((2 + gv.nowned_min).toNat - 1) + 2 := by omega
    rw [grid_volume.split_by_effort, hf, split_by_effort_two _ gv which hwf hP hint,
      split_two gv which hwf hP]
    obtain ⟨f1, f2⟩ := split_retval_num gv (gv.biglen / 2) hwf (by omega) (by omega) (by omega)
    obtain ⟨g1, g2⟩ :=
      split_retval_num gv ((gv.biglen + 1) / 2) hwf (by omega) (by omega) (by omega)
    constructor
    · intro h
      have h' := Res.ok.inj h
      by_cases hw : which < 1
      · simp only [hw, not_true_eq_false, decide_False] at h'
        rw [h'] at f1
        omega
      · simp only [hw, not_false_eq_true, decide_True] at h'
        rw [h'] at f2
        omega
    · intro h
      have : gv.biglen / 2 = (gv.biglen + 1) / 2 := by omega
      rw [this]

/-- The 2-D descriptor with extents `4 x 3`, part `0`. -/
theorem split_by_effort_vs_split_witness :
    (⟨.D2, 4, 3, 0, zero_ivec .D2⟩ : grid_volume).split_by_effort 1 0 []
        = (⟨.D2, 4, 3, 0, zero_ivec .D2⟩ : grid_volume).split 1 0
      ∧ ((⟨.D2, 4, 3, 0, zero_ivec .D2⟩ : grid_volume).split_by_effort 2 0 []
          = (⟨.D2, 4, 3, 0, zero_ivec .D2⟩ : grid_volume).split 2 0
        ↔ (⟨.D2, 4, 3, 0, zero_ivec .D2⟩ : grid_volume).biglen % 2 = 0) :=
  split_by_effort_vs_split ⟨.D2, 4, 3, 0, zero_ivec .D2⟩ 0 (by decide) (by decide) (by decide)

/-- C4 (as stated) fails: on the 1-D descriptor with `nz = 3`, for `n = 2` and `which = 0`,
`split_by_effort` without a table returns the part of extent `1` and `split` the part of
extent `2`. -/
theorem split_by_effort_differs_from_split :
    (⟨.D1, 0, 0, 3, zero_ivec .D1⟩ : grid_volume).wf
      ∧ (1 : Int) ≤ 2 ∧ 2 ≤ (⟨.D1, 0, 0, 3, zero_ivec .D1⟩ : grid_volume).nowned_min
      ∧ (0 : Int) ≤ 0 ∧ (0 : Int) < 2
      ∧ (⟨.D1, 0, 0, 3, zero_ivec .D1⟩ : grid_volume).split_by_effort 2 0 []
          = .ok ⟨.D1, 0, 0, 1, zero_ivec .D1⟩
      ∧ (⟨.D1, 0, 0, 3, zero_ivec .D1⟩ : grid_volume).split 2 0
          = .ok ⟨.D1, 0, 0, 2, zero_ivec .D1⟩ := by
  decide!

/-- C5 fails on the code: the 1-D descriptor with `nz = 4`, `n = 2` and the effort table with
the single region `[6, 8]` of effort `1`. The scan keeps `split_point = 1` with a left effort
fraction `0`, so `num_low = 0`, no side fails the fallback test, and both parts are cut from
the high side and then from its high side: the two parts have one point each, the descriptor
has four. -/
theorem split_by_effort_loses_points :
    (⟨.D1, 0, 0, 4, zero_ivec .D1⟩ : grid_volume).wf
      ∧ (1 : Int) ≤ 2 ∧ 2 ≤ (⟨.D1, 0, 0, 4, zero_ivec .D1⟩ : grid_volume).nowned_min
      ∧ (⟨.D1, 0, 0, 4, zero_ivec .D1⟩ : grid_volume).split_by_effort 2 0
            [(⟨.D1, 0, 0, 1, ⟨.D1, 0, 0, 6, 0, 0⟩⟩, 1)]
          = .ok ⟨.D1, 0, 0, 1, ⟨.D1, 0, 0, 4, 0, 0⟩⟩
      ∧ (⟨.D1, 0, 0, 4, zero_ivec .D1⟩ : grid_volume).split_by_effort 2 1
            [(⟨.D1, 0, 0, 1, ⟨.D1, 0, 0, 6, 0, 0⟩⟩, 1)]
          = .ok ⟨.D1, 0, 0, 1, ⟨.D1, 0, 0, 6, 0, 0⟩⟩
      ∧ ∑ w in Finset.range (2 : Int).toNat,
          point_count ((⟨.D1, 0, 0, 4, zero_ivec .D1⟩ : grid_volume).split_by_effort 2 (w : Int)
            [(⟨.D1, 0, 0, 1, ⟨.D1, 0, 0, 6, 0, 0⟩⟩, 1)]) = 2
      ∧ (⟨.D1, 0, 0, 4, zero_ivec .D1⟩ : grid_volume).nowned_min = 4 := by
  decide!

/-- The same loss with a table that covers the whole descriptor: the 2-D descriptor `4 x 2`,
`n = 2`, the descriptor itself with effort `1` and its first column with effort `100`. Both
parts are cut from the first column (two points of eight). -/
theorem split_by_effort_loses_points_full_table :
    (⟨.D2, 4, 2, 0, zero_ivec .D2⟩ : grid_volume).split_by_effort 2 0
          [(⟨.D2, 4, 2, 0, zero_ivec .D2⟩, 1), (⟨.D2, 1, 2, 0, zero_ivec .D2⟩, 100)]
        = .ok ⟨.D2, 1, 1, 0, zero_ivec .D2⟩
      ∧ (⟨.D2, 4, 2, 0, zero_ivec .D2⟩ : grid_volume).split_by_effort 2 1
          [(⟨.D2, 4, 2, 0, zero_ivec .D2⟩, 1), (⟨.D2, 1, 2, 0, zero_ivec .D2⟩, 100)]
        = .ok ⟨.D2, 1, 1, 0, ⟨.D2, 0, 2, 0, 0, 0⟩⟩
      ∧ (⟨.D2, 4, 2, 0, zero_ivec .D2⟩ : grid_volume).nowned_min = 8 := by
  decide!

/-! ## The symmetry engine -/


/-- Every symmetry gets at least one round of fuel. -/
theorem symmetry_fuel_pos {α : Type} (s : symmetry α) : 1 ≤ s.fuel := by
  cases s <;> simp only [symmetry.fuel] <;> omega

/-- Applying one link fewer than `g` times: the call returns, within `m + 1` rounds. -/
theorem transform_fuel_inner {α : Type} [Mul α] [One α] (s : symmetry α) (hg : 0 < s.head.g) (m : Nat) :
    ∀ d : direction, (m : Int) < s.head.g →
      ∃ r : signed_direction α, ∀ fuel, m + 1 ≤ fuel →
        symmetry.transform_fuel fuel s d (m : Int) = .ok r := by
  induction m with
  | zero =>
    intro d _
    refine ⟨signed_direction.of d, fun fuel hf => ?_⟩
    obtain ⟨k, rfl⟩ : ∃ k, fuel = k + 1 := ⟨fuel - 1, by omega⟩
    simp [symmetry.transform_fuel]
  | succ m ih =>
    intro d hm
    by_cases hd : d = .NO_DIRECTION
    · refine ⟨signed_direction.of d, fun fuel hf => ?_⟩
      obtain ⟨k, rfl⟩ : ∃ k, fuel = k + 1 := ⟨fuel - 1, by omega⟩
      simp [symmetry.transform_fuel, hd]
    · push_cast at hm
      obtain ⟨r, hr⟩ := ih (s.head.S d).d (by omega)
      have hn0 : ¬ (((m + 1 : Nat) : Int) = 0 ∨ d = .NO_DIRECTION) := by
        push_cast; simp [hd]; omega
      have hnme : ((m + 1 : Nat) : Int).tmod s.head.g = m + 1 := by
        rw [Int.tmod_eq_emod (by positivity) hg.le]
        push_cast
        exact Int.emod_eq_of_lt (by positivity) hm
      have hnrest : ((m + 1 : Nat) : Int).tdiv s.head.g = 0 := by
        rw [Int.tdiv_eq_ediv (by positivity) hg.le]
        push_cast
        exact Int.ediv_eq_zero_of_lt (by positivity) hm
      refine ⟨(if (s.head.S d).flipped then flip r else r).mul s.head.ph, fun fuel hf => ?_⟩
      obtain ⟨k, rfl⟩ : ∃ k, fuel = k + 1 := ⟨fuel - 1, by omega⟩
      have hk := hr k (by omega)
      have hlt : ¬ (((m + 1 : Nat) : Int) < 0) := by push_cast; omega
      simp only [symmetry.transform_fuel, hn0, if_false, hg.ne', hlt, hnme, hnrest]
      have e : ((m : Int) + 1 - 1) = m := by ring
      simp only [show ¬ ((m : Int) + 1 = 0) by omega, if_false, e, hk, Res.bind]
      cases hnx : s.next <;> by_cases hf : (s.head.S d).flipped <;> simp [hf]


/-- The residue `nme` of `transform` is the non-negative remainder of `n` by `g`. -/
theorem nme_eq_emod (g n : Int) (hg : 0 < g) :
    (if n < 0 then (g - (-n).tmod g).tmod g else n.tmod g) = n % g := by
  split
  · next h =>
    have h1 : (-n).tmod g = (-n) % g := Int.tmod_eq_emod (by omega) hg.le
    have t0 := Int.emod_nonneg (-n) hg.ne'
    have t1 := Int.emod_lt_of_pos (-n) hg
    rw [h1, Int.tmod_eq_emod (by omega) hg.le]
    have e : g - (-n) % g = n + g * ((-n) / g + 1) := by
      have := Int.emod_add_ediv (-n) g
      linarith
    rw [e, Int.add_mul_emod_self_left]
  · next h => exact Int.tmod_eq_emod (by omega) hg.le

/-- The residue of `0` at the last link is `0`. -/
theorem last_residue_zero {α : Type} (s : symmetry α) : s.last_residue 0 = 0 := by
  induction s with
  | last l => simp [symmetry.last_residue]
  | link l nx ih => simpa [symmetry.last_residue] using ih

/-- The multiplicity of a chain of links of positive order is positive. -/
theorem multiplicity_pos {α : Type} (s : symmetry α) (h : s.pos) : 0 < s.multiplicity := by
  induction s with
  | last l => exact h
  | link l nx ih => exact mul_pos h.1 (ih h.2)

/-- Periodicity of `transform` where the residue at the last link is not zero. -/
theorem transform_fuel_periodic {α : Type} [Mul α] [One α] (s : symmetry α) :
    s.pos → ∀ (d : direction) (n : Int), (0 ≤ n ∨ s.next = none) → s.last_residue n ≠ 0 →
      ∃ r : signed_direction α, ∀ fuel, s.fuel ≤ fuel →
        symmetry.transform_fuel fuel s d n = .ok r
          ∧ symmetry.transform_fuel fuel s d (n + s.multiplicity) = .ok r := by
  induction s with
  | last l =>
    intro hg d n _ hres
    simp only [symmetry.pos] at hg
    simp only [symmetry.last_residue] at hres
    by_cases hd : d = .NO_DIRECTION
    · refine ⟨signed_direction.of d, fun fuel hf => ?_⟩
      obtain ⟨k, rfl⟩ : ∃ k, fuel = k + 1 := ⟨fuel - 1, by simp [symmetry.fuel] at hf; omega⟩
      simp [symmetry.transform_fuel, hd]
    · have hdvd : ¬ l.g ∣ n := fun h => hres (Int.tmod_eq_zero_of_dvd h)
      have he : n % l.g ≠ 0 := fun h => hdvd (Int.dvd_of_emod_eq_zero h)
      have e0 := Int.emod_nonneg n hg.ne'
      have e1 := Int.emod_lt_of_pos n hg
      have hn0 : ¬ (n = 0 ∨ d = .NO_DIRECTION) := by
        rintro (h | h)
        · exact hdvd (h ▸ dvd_zero _)
        · exact hd h
      have hn1 : ¬ (n + l.g = 0 ∨ d = .NO_DIRECTION) := by
        rintro (h | h)
        · exact hdvd ⟨-1, by linarith⟩
        · exact hd h
      obtain ⟨r, hr⟩ := transform_fuel_inner (.last l) hg (n % l.g - 1).toNat (l.S d).d
        (by simp only [symmetry.head]; omega)
      have hm : (((n % l.g - 1).toNat : Nat) : Int) = n % l.g - 1 := by omega
      rw [hm] at hr
      refine ⟨(if (l.S d).flipped then flip r else r).mul l.ph, fun fuel hf => ?_⟩
      obtain ⟨k, rfl⟩ : ∃ k, fuel = k + 1 := ⟨fuel - 1, by simp [symmetry.fuel] at hf; omega⟩
      have hk := hr k (by simp [symmetry.fuel] at hf; omega)
      have p1 := nme_eq_emod l.g n hg
      have p2 := nme_eq_emod l.g (n + l.g) hg
      rw [Int.add_emod_self] at p2
      simp only [symmetry.multiplicity, symmetry.transform_fuel, hn0, hn1, if_false,
        symmetry.head, hg.ne', p1, p2, he, hk, Res.bind, symmetry.next]
      by_cases hf : (l.S d).flipped <;> simp [hf]
  | link l nx ih =>
    intro hpos d n hn hres
    obtain ⟨hg, hnx⟩ := hpos
    have hn : 0 ≤ n := by
      rcases hn with h | h
      · exact h
      · simp [symmetry.next] at h
    simp only [symmetry.last_residue] at hres
    have hq : n.tdiv l.g = n / l.g := Int.tdiv_eq_ediv hn hg.le
    rw [hq] at hres
    have hq0 : 0 ≤ n / l.g := Int.ediv_nonneg hn hg.le
    have hqne : n / l.g ≠ 0 := fun h => hres (h ▸ last_residue_zero nx)
    have hG := multiplicity_pos nx hnx
    by_cases hd : d = .NO_DIRECTION
    · refine ⟨signed_direction.of d, fun fuel hf => ?_⟩
      obtain ⟨k, rfl⟩ : ∃ k, fuel = k + 1 := ⟨fuel - 1, by simp [symmetry.fuel] at hf; omega⟩
      simp [symmetry.transform_fuel, hd]
    · have e0 := Int.emod_nonneg n hg.ne'
      have e1 := Int.emod_lt_of_pos n hg
      have hnn : n ≠ 0 := fun h => hqne (by rw [h]; simp)
      have hn0 : ¬ (n = 0 ∨ d = .NO_DIRECTION) := by
        rintro (h | h)
        · exact hnn h
        · exact hd h
      have hpos' : 0 < n + l.g * nx.multiplicity := by positivity
      have hn1 : ¬ (n + l.g * nx.multiplicity = 0 ∨ d = .NO_DIRECTION) := by
        rintro (h | h)
        · omega
        · exact hd h
      have p1 : (if n < 0 then (l.g - (-n).tmod l.g).tmod l.g else n.tmod l.g) = n % l.g :=
        nme_eq_emod l.g n hg
      have p2 : (if n + l.g * nx.multiplicity < 0
          then (l.g - (-(n + l.g * nx.multiplicity)).tmod l.g).tmod l.g
          else (n + l.g * nx.multiplicity).tmod l.g) = n % l.g := by
        rw [nme_eq_emod l.g _ hg, Int.add_mul_emod_self_left]
      have q1 : (if n < 0 then -((-n).tdiv l.g) else n.tdiv l.g) = n / l.g := by
        rw [if_neg (by omega), hq]
      have q2 : (if n + l.g * nx.multiplicity < 0
          then -((-(n + l.g * nx.multiplicity)).tdiv l.g)
          else (n + l.g * nx.multiplicity).tdiv l.g) = n / l.g + nx.multiplicity := by
        rw [if_neg (by omega), Int.tdiv_eq_ediv hpos'.le hg.le,
          Int.add_mul_ediv_left _ _ hg.ne']
      have hq2ne : n / l.g + nx.multiplicity ≠ 0 := by omega
      by_cases he : n % l.g = 0
      · obtain ⟨r, hr⟩ := ih hnx d (n / l.g) (Or.inl hq0) hres
        refine ⟨r, fun fuel hf => ?_⟩
        obtain ⟨k, rfl⟩ : ∃ k, fuel = k + 1 := ⟨fuel - 1, by simp [symmetry.fuel] at hf; omega⟩
        have hk := hr k (by simp [symmetry.fuel] at hf; omega)
        simp only [symmetry.multiplicity, symmetry.transform_fuel, hn0, hn1, if_false,
          symmetry.head, hg.ne', p1, p2, q1, q2, he, if_true, hqne, hq2ne, symmetry.next]
        exact hk
      · obtain ⟨r0, hr0⟩ := transform_fuel_inner (.link l nx) hg (n % l.g - 1).toNat (l.S d).d
          (by simp only [symmetry.head]; omega)
        have hm : (((n % l.g - 1).toNat : Nat) : Int) = n % l.g - 1 := by omega
        rw [hm] at hr0
        obtain ⟨r, hr⟩ := ih hnx (if (l.S d).flipped then flip r0 else r0).d (n / l.g)
          (Or.inl hq0) hres
        refine ⟨if (if (l.S d).flipped then flip r0 else r0).flipped
          then (flip r).mul l.ph else r.mul l.ph, fun fuel hf => ?_⟩
        obtain ⟨k, rfl⟩ : ∃ k, fuel = k + 1 := ⟨fuel - 1, by simp [symmetry.fuel] at hf; omega⟩
        have hk0 := hr0 k (by simp [symmetry.fuel] at hf; omega)
        have hk := hr k (by simp [symmetry.fuel] at hf; omega)
        simp only [symmetry.multiplicity, symmetry.transform_fuel, hn0, hn1, if_false,
          symmetry.head, hg.ne', p1, p2, q1, q2, he, hk0, Res.bind, symmetry.next]
        by_cases hf1 : (l.S d).flipped
        · simp only [hf1, if_true] at hk ⊢
          by_cases hf2 : (flip r0).flipped <;>
            simp [hf2, hqne, hq2ne, hk.1, hk.2, Res.bind]
        · simp only [hf1, Bool.false_eq_true, if_false] at hk ⊢
          by_cases hf2 : r0.flipped <;>
            simp [hf2, hqne, hq2ne, hk.1, hk.2, Res.bind]

/-- C9 (as stated) fails: for the chain `mirror(X) + mirror(Y)` of multiplicity `4` and
`n = -3`, `transform(Y, -3)` flips `Y` while `transform(Y, -3 + 4)` does not; and for the single
generator `mirror(X)` and `n = 0`, `transform(X, 0)` is the identity while `transform(X, 0 + 2)`
calls `next->transform` through a null `next`. -/
theorem transform_not_periodic :
    ((mirror .X ⟨.D2, 4, 4, 0, zero_ivec .D2⟩ : symmetry Int).add
        (mirror .Y ⟨.D2, 4, 4, 0, zero_ivec .D2⟩)).multiplicity = 4
      ∧ ((mirror .X ⟨.D2, 4, 4, 0, zero_ivec .D2⟩ : symmetry Int).add
          (mirror .Y ⟨.D2, 4, 4, 0, zero_ivec .D2⟩)).transform .Y (-3)
        = .ok ⟨.Y, true, 1⟩
      ∧ ((mirror .X ⟨.D2, 4, 4, 0, zero_ivec .D2⟩ : symmetry Int).add
          (mirror .Y ⟨.D2, 4, 4, 0, zero_ivec .D2⟩)).transform .Y (-3 + 4)
        = .ok ⟨.Y, false, 1⟩
      ∧ (mirror .X ⟨.D2, 4, 4, 0, zero_ivec .D2⟩ : symmetry Int).multiplicity = 2
      ∧ (mirror .X ⟨.D2, 4, 4, 0, zero_ivec .D2⟩ : symmetry Int).transform .X 0
        = .ok ⟨.X, false, 1⟩
      ∧ (mirror .X ⟨.D2, 4, 4, 0, zero_ivec .D2⟩ : symmetry Int).transform .X (0 + 2)
        = .undef := by
  decide

/-- C9 (amended): for a symmetry whose links have positive order, with multiplicity `g`,
every direction `d` and every integer `n` whose residue at the last link of the chain is not
zero, where `n ≥ 0` or the symmetry is a single generator (then `n` may be negative):
`transform(d, n)` and `transform(d, n + g)` return the same direction, flip and phase. -/
theorem transform_periodic {α : Type} [Mul α] [One α] (s : symmetry α) (d : direction)
    (n : Int) (hpos : s.pos) (hn : 0 ≤ n ∨ s.next = none) (hres : s.last_residue n ≠ 0) :
    ∃ r : signed_direction α,
      s.transform d n = .ok r ∧ s.transform d (n + s.multiplicity) = .ok r := by
  obtain ⟨r, hr⟩ := transform_fuel_periodic s hpos d n hn hres
  exact ⟨r, hr s.fuel (le_refl _)⟩

/-- The chain `mirror(X) + mirror(Y)`, direction `X` and `n = 3`. -/
theorem transform_periodic_witness :
    ∃ r : signed_direction Int,
      ((mirror .X ⟨.D2, 4, 4, 0, zero_ivec .D2⟩ : symmetry Int).add
          (mirror .Y ⟨.D2, 4, 4, 0, zero_ivec .D2⟩)).transform .X 3 = .ok r
      ∧ ((mirror .X ⟨.D2, 4, 4, 0, zero_ivec .D2⟩ : symmetry Int).add
          (mirror .Y ⟨.D2, 4, 4, 0, zero_ivec .D2⟩)).transform .X
            (3 + ((mirror .X ⟨.D2, 4, 4, 0, zero_ivec .D2⟩ : symmetry Int).add
              (mirror .Y ⟨.D2, 4, 4, 0, zero_ivec .D2⟩)).multiplicity) = .ok r :=
  transform_periodic _ .X 3 (by decide) (Or.inl (by decide)) (by decide)

/-- C10 fails on the code: for the chain `rotate4(Z) + mirror(X)` of multiplicity `8`, `n = 5`
and `d = X`, `transform(X, 5)` is `Y` flipped, and `transform(Y, -5)` is `X` not flipped: the
direction returns but the flips do not cancel, so `transform(., -5)` is not the inverse of
`transform(., 5)`. -/
theorem transform_inverse_fails :
    ((rotate4 .Z ⟨.D2, 4, 4, 0, zero_ivec .D2⟩ : Res (symmetry Int)).bind
        (fun r4 => .ok (r4.add (mirror .X ⟨.D2, 4, 4, 0, zero_ivec .D2⟩)).multiplicity)) = .ok 8
      ∧ ((rotate4 .Z ⟨.D2, 4, 4, 0, zero_ivec .D2⟩ : Res (symmetry Int)).bind
        (fun r4 => (r4.add (mirror .X ⟨.D2, 4, 4, 0, zero_ivec .D2⟩)).transform .X 5))
          = .ok ⟨.Y, true, 1⟩
      ∧ ((rotate4 .Z ⟨.D2, 4, 4, 0, zero_ivec .D2⟩ : Res (symmetry Int)).bind
        (fun r4 => (r4.add (mirror .X ⟨.D2, 4, 4, 0, zero_ivec .D2⟩)).transform .Y (-5)))
          = .ok ⟨.X, false, 1⟩ := by
  decide

/-! ## Volumes -/

/-- The tag `NO_DIRECTION` is never an active direction. -/
theorem no_direction_not_mem (dim : ndim) :
    direction.NO_DIRECTION ∉ loop_over_directions dim := by
  cases dim <;> simp [loop_over_directions]

/-- The active slots of `min(vec1, vec2)` and `max(vec1, vec2)`. -/
theorem vec_min_max_in_direction (v1 v2 : vec) (d : direction)
    (hd : d ∈ loop_over_directions v1.dim) :
    (vec_min v1 v2).in_direction d = min (v1.in_direction d) (v2.in_direction d)
      ∧ (vec_max v1 v2).in_direction d = max (v1.in_direction d) (v2.in_direction d) := by
  obtain ⟨dim, x, y, z, r, p⟩ := v1
  cases dim <;> simp [loop_over_directions] at hd <;>
    rcases hd with rfl | rfl | rfl <;>
    simp [vec_min, vec_max, loop_over_directions, vec.set_direction, vec.in_direction, zero_vec]

/-- The dimension tags of `min(vec1, vec2)` and `max(vec1, vec2)`. -/
theorem vec_min_max_dim (v1 v2 : vec) :
    (vec_min v1 v2).dim = v1.dim ∧ (vec_max v1 v2).dim = v1.dim := by
  obtain ⟨dim, x, y, z, r, p⟩ := v1
  cases dim <;> exact ⟨rfl, rfl⟩

/-- The volume `volume(zero_vec(dim), zero_vec(dim))` has both corners zero. -/
theorem of_corners_zero (dim : ndim) :
    volume.of_corners (zero_vec dim) (zero_vec dim) = ⟨dim, zero_vec dim, zero_vec dim⟩ := by
  cases dim <;>
    simp [volume.of_corners, vec_min, vec_max, zero_vec, loop_over_directions,
      vec.set_direction, vec.in_direction]

/-- The test `contains(p)`, axis by axis. -/
theorem contains_iff (v : volume) (p : vec) :
    v.contains p = true ↔
        ∀ d ∈ loop_over_directions v.dim,
          v.in_direction_min d ≤ p.in_direction d ∧ p.in_direction d ≤ v.in_direction_max d := by
  simp only [volume.contains, List.all_eq_true, Bool.not_eq_true', Bool.or_eq_false_iff,
    decide_eq_false_iff_not, not_lt]
  exact forall₂_congr (fun d _ => And.comm)

/-- C17: `v.contains(p)` is true exactly when `min_d <= p_d <= max_d` on every active
direction `d` of `v`, bounds included; `contains(volume a)` is true exactly when both corners
of `a` are contained; and for the volume with corners `(0,0)` and `(2,1)` the points `(0,0)`,
`(2,1)`, `(1,0.5)` are contained and `(2.0001,0.5)`, `(-0.0001,0.5)` are not. -/
theorem volume_contains_iff (v a : volume) (p : vec) :
    (v.contains p = true ↔
        ∀ d ∈ loop_over_directions v.dim,
          v.in_direction_min d ≤ p.in_direction d ∧ p.in_direction d ≤ v.in_direction_max d)
      ∧ (v.contains_volume a = true ↔
          v.contains a.min_corner = true ∧ v.contains a.max_corner = true)
      ∧ (volume.of_corners ⟨.D2, 0, 0, 0, 0, 0⟩ ⟨.D2, 2, 1, 0, 0, 0⟩).contains
          ⟨.D2, 0, 0, 0, 0, 0⟩ = true
      ∧ (volume.of_corners ⟨.D2, 0, 0, 0, 0, 0⟩ ⟨.D2, 2, 1, 0, 0, 0⟩).contains
          ⟨.D2, 2, 1, 0, 0, 0⟩ = true
      ∧ (volume.of_corners ⟨.D2, 0, 0, 0, 0, 0⟩ ⟨.D2, 2, 1, 0, 0, 0⟩).contains
          ⟨.D2, 1, 1 / 2, 0, 0, 0⟩ = true
      ∧ (volume.of_corners ⟨.D2, 0, 0, 0, 0, 0⟩ ⟨.D2, 2, 1, 0, 0, 0⟩).contains
          ⟨.D2, 20001 / 10000, 1 / 2, 0, 0, 0⟩ = false
      ∧ (volume.of_corners ⟨.D2, 0, 0, 0, 0, 0⟩ ⟨.D2, 2, 1, 0, 0, 0⟩).contains
          ⟨.D2, -1 / 10000, 1 / 2, 0, 0, 0⟩ = false := by
  refine ⟨contains_iff v p, ?_, by decide!, by decide!, by decide!, by decide!, by decide!⟩
  simp [volume.contains_volume]

/-- The value of `intersect_with` on volumes of one dimension. -/
theorem intersect_with_eq (a b : volume) (h : b.dim = a.dim) :
    a.intersect_with b
      = .ok (if a.separated b then ⟨a.dim, zero_vec a.dim, zero_vec a.dim⟩ else a.meet b) := by
  obtain ⟨dim, amin, amax⟩ := a
  obtain ⟨bdim, bmin, bmax⟩ := b
  simp only at h
  subst h
  simp only [volume.intersect_with, ne_eq, not_true_eq_false, if_false, Res.ok.injEq,
    volume.separated, volume.meet]
  cases bdim <;>
    simp only [loop_over_directions, volume.intersect_loop, List.mem_cons, List.mem_singleton,
      exists_eq_or_imp, exists_eq_left, List.not_mem_nil, false_and, exists_false, or_false,
      of_corners_zero, List.foldl, vec_min, vec_max] <;>
    split_ifs <;>
    first
      | rfl
      | (exfalso; tauto)

/-- The corners of `volume.meet` on an active axis. -/
theorem meet_in_direction (a b : volume) (d : direction)
    (hd : d ∈ loop_over_directions a.dim) :
    (a.meet b).in_direction_min d = max (a.in_direction_min d) (b.in_direction_min d)
      ∧ (a.meet b).in_direction_max d
          = min (a.in_direction_max d) (b.in_direction_max d) := by
  obtain ⟨dim, amin, amax⟩ := a
  cases dim <;> simp [loop_over_directions] at hd <;>
    rcases hd with rfl | rfl | rfl <;>
    simp [volume.meet, vec_min, vec_max, loop_over_directions, vec.set_direction,
      vec.in_direction, zero_vec, volume.in_direction_min, volume.in_direction_max]

/-- The volume `volume.meet` does not depend on the order of two volumes of one dimension. -/
theorem meet_comm (a b : volume) (h : b.dim = a.dim) : a.meet b = b.meet a := by
  obtain ⟨dim, amin, amax⟩ := a
  obtain ⟨bdim, bmin, bmax⟩ := b
  simp only at h
  subst h
  cases bdim <;>
    simp [volume.meet, vec_min, vec_max, loop_over_directions, vec.set_direction,
      vec.in_direction, zero_vec, max_comm, min_comm]

/-- Separation does not depend on the order of two volumes of one dimension. -/
theorem separated_comm (a b : volume) (h : b.dim = a.dim) :
    a.separated b ↔ b.separated a := by
  unfold volume.separated
  rw [h]
  constructor <;> rintro ⟨d, hd, hlt⟩ <;> exact ⟨d, hd, by rwa [max_comm, min_comm]⟩

/-- The volume with both corners zero has `computational_volume` zero. -/
theorem computational_volume_zero (dim : ndim) :
    (⟨dim, zero_vec dim, zero_vec dim⟩ : volume).computational_volume = 0 := by
  cases dim <;>
    simp [volume.computational_volume, loop_over_directions, volume.in_direction,
      volume.in_direction_min, volume.in_direction_max, vec.in_direction, zero_vec]

/-- Two volumes are not separated when the intervals overlap on every active axis. -/
theorem not_separated_iff (a b : volume) :
    ¬ a.separated b ↔ ∀ d ∈ loop_over_directions a.dim,
      max (a.in_direction_min d) (b.in_direction_min d)
        ≤ min (a.in_direction_max d) (b.in_direction_max d) := by
  simp only [volume.separated, not_exists, not_and, gt_iff_lt, not_lt]

/-- C19: for volumes `a`, `b` of one dimension: if on some active axis
`max(min_a, min_b) > min(max_a, max_b)`, then `a.intersect_with(b)` returns
`volume(zero_vec(dim), zero_vec(dim))`, whose corners are both zero and whose
`computational_volume` is zero; otherwise it returns a volume whose corners are
`max(min_a, min_b)` and `min(max_a, max_b)` on every active axis; and
`a.intersect_with(b) = b.intersect_with(a)`. -/
theorem intersect_with_spec (a b : volume) (h : b.dim = a.dim) :
    (a.separated b →
        a.intersect_with b = .ok (volume.of_corners (zero_vec a.dim) (zero_vec a.dim))
          ∧ volume.of_corners (zero_vec a.dim) (zero_vec a.dim)
              = ⟨a.dim, zero_vec a.dim, zero_vec a.dim⟩
          ∧ (volume.of_corners (zero_vec a.dim) (zero_vec a.dim)).computational_volume = 0)
      ∧ (¬ a.separated b →
          ∃ r, a.intersect_with b = .ok r ∧ r.dim = a.dim
            ∧ ∀ d ∈ loop_over_directions a.dim,
                r.in_direction_min d = max (a.in_direction_min d) (b.in_direction_min d)
                  ∧ r.in_direction_max d
                      = min (a.in_direction_max d) (b.in_direction_max d))
      ∧ a.intersect_with b = b.intersect_with a := by
  refine ⟨fun hs => ?_, fun hs => ?_, ?_⟩
  · rw [intersect_with_eq a b h, if_pos hs, of_corners_zero]
    exact ⟨rfl, rfl, computational_volume_zero a.dim⟩
  · refine ⟨a.meet b, ?_, rfl, fun d hd => meet_in_direction a b d hd⟩
    rw [intersect_with_eq a b h, if_neg hs]
  · rw [intersect_with_eq a b h, intersect_with_eq b a h.symm, meet_comm a b h, h]
    by_cases hs : a.separated b
    · rw [if_pos hs, if_pos ((separated_comm a b h).1 hs)]
    · rw [if_neg hs, if_neg (fun h2 => hs ((separated_comm a b h).2 h2))]

/-- The squares `[0,1] x [0,1]` and `[2,3] x [0,1]`, which the axis `x` separates, and the
squares `[0,2] x [0,2]` and `[1,3] x [1,3]`, which overlap in `[1,2] x [1,2]`. -/
theorem intersect_with_spec_witness :
    (⟨.D2, ⟨.D2, 2, 0, 0, 0, 0⟩, ⟨.D2, 3, 1, 0, 0, 0⟩⟩ : volume).dim
        = (⟨.D2, ⟨.D2, 0, 0, 0, 0, 0⟩, ⟨.D2, 1, 1, 0, 0, 0⟩⟩ : volume).dim
      ∧ (⟨.D2, ⟨.D2, 0, 0, 0, 0, 0⟩, ⟨.D2, 1, 1, 0, 0, 0⟩⟩ : volume).separated
          ⟨.D2, ⟨.D2, 2, 0, 0, 0, 0⟩, ⟨.D2, 3, 1, 0, 0, 0⟩⟩
      ∧ (⟨.D2, ⟨.D2, 0, 0, 0, 0, 0⟩, ⟨.D2, 1, 1, 0, 0, 0⟩⟩ : volume).intersect_with
          ⟨.D2, ⟨.D2, 2, 0, 0, 0, 0⟩, ⟨.D2, 3, 1, 0, 0, 0⟩⟩
        = .ok (volume.of_corners (zero_vec .D2) (zero_vec .D2))
      ∧ ¬ (⟨.D2, ⟨.D2, 0, 0, 0, 0, 0⟩, ⟨.D2, 2, 2, 0, 0, 0⟩⟩ : volume).separated
          ⟨.D2, ⟨.D2, 1, 1, 0, 0, 0⟩, ⟨.D2, 3, 3, 0, 0, 0⟩⟩
      ∧ (⟨.D2, ⟨.D2, 0, 0, 0, 0, 0⟩, ⟨.D2, 2, 2, 0, 0, 0⟩⟩ : volume).intersect_with
          ⟨.D2, ⟨.D2, 1, 1, 0, 0, 0⟩, ⟨.D2, 3, 3, 0, 0, 0⟩⟩
        = (⟨.D2, ⟨.D2, 1, 1, 0, 0, 0⟩, ⟨.D2, 3, 3, 0, 0, 0⟩⟩ : volume).intersect_with
          ⟨.D2, ⟨.D2, 0, 0, 0, 0, 0⟩, ⟨.D2, 2, 2, 0, 0, 0⟩⟩ :=
  ⟨rfl, by decide!,
    ((intersect_with_spec ⟨.D2, ⟨.D2, 0, 0, 0, 0, 0⟩, ⟨.D2, 1, 1, 0, 0, 0⟩⟩
      ⟨.D2, ⟨.D2, 2, 0, 0, 0, 0⟩, ⟨.D2, 3, 1, 0, 0, 0⟩⟩ rfl).1 (by decide!)).1,
    by decide!,
    (intersect_with_spec ⟨.D2, ⟨.D2, 0, 0, 0, 0, 0⟩, ⟨.D2, 2, 2, 0, 0, 0⟩⟩
      ⟨.D2, ⟨.D2, 1, 1, 0, 0, 0⟩, ⟨.D2, 3, 3, 0, 0, 0⟩⟩ rfl).2.2⟩

/-- The value of `intersects` on volumes of one dimension. -/
theorem intersects_eq (a b : volume) (h : b.dim = a.dim) :
    a.intersects b = .ok (decide (¬ a.separated b)) := by
  simp only [volume.intersects, h, ne_eq, not_true_eq_false, if_false, Res.ok.injEq,
    volume.separated]
  rw [Bool.eq_iff_iff]
  simp

/-- C20: for volumes `a`, `b` of one dimension `a.intersects(b)` returns `true` or `false`;
it is `true` exactly when some point (of that dimension) is contained in both `a` and `b`,
and any point contained in both makes it `true`; and when it is `true`,
`a.intersect_with(b)` returns a volume that contains a point `p` exactly when `a` and `b`
both contain `p`. -/
theorem intersects_iff (a b : volume) (h : b.dim = a.dim) :
    (a.intersects b = .ok true ∨ a.intersects b = .ok false)
      ∧ (a.intersects b = .ok true ↔
          ∃ p : vec, p.dim = a.dim ∧ a.contains p = true ∧ b.contains p = true)
      ∧ (∀ p : vec, a.contains p = true → b.contains p = true → a.intersects b = .ok true)
      ∧ (a.intersects b = .ok true →
          ∃ r, a.intersect_with b = .ok r
            ∧ ∀ p : vec, r.contains p = true ↔ (a.contains p = true ∧ b.contains p = true)) := by
  have key : ∀ p : vec, a.contains p = true → b.contains p = true → ¬ a.separated b := by
    intro p ha hb
    rw [contains_iff] at ha hb
    rw [h] at hb
    rw [not_separated_iff]
    intro d hd
    have h1 := ha d hd
    have h2 := hb d hd
    exact le_trans (max_le h1.1 h2.1) (le_min h1.2 h2.2)
  rw [intersects_eq a b h]
  refine ⟨?_, ⟨fun hi => ?_, fun ⟨p, _, ha, hb⟩ => ?_⟩, fun p ha hb => ?_, fun hi => ?_⟩
  · by_cases hs : a.separated b <;> simp [hs]
  · have hs : ¬ a.separated b := by simpa using hi
    rw [not_separated_iff] at hs
    refine ⟨⟨a.dim, max (a.in_direction_min .X) (b.in_direction_min .X),
      max (a.in_direction_min .Y) (b.in_direction_min .Y),
      max (a.in_direction_min .Z) (b.in_direction_min .Z),
      max (a.in_direction_min .R) (b.in_direction_min .R),
      max (a.in_direction_min .P) (b.in_direction_min .P)⟩, rfl, ?_, ?_⟩
    · rw [contains_iff]
      intro d hd
      have := hs d hd
      cases d <;>
        first
          | exact ⟨le_max_left _ _, le_trans this (min_le_left _ _)⟩
          | exact absurd hd (no_direction_not_mem a.dim)
    · rw [contains_iff, h]
      intro d hd
      have := hs d hd
      cases d <;>
        first
          | exact ⟨le_max_right _ _, le_trans this (min_le_right _ _)⟩
          | exact absurd hd (no_direction_not_mem a.dim)
  · simpa using key p ha hb
  · simpa using key p ha hb
  · have hs : ¬ a.separated b := by simpa using hi
    refine ⟨a.meet b, by rw [intersect_with_eq a b h, if_neg hs], fun p => ?_⟩
    rw [contains_iff, contains_iff, contains_iff, h]
    show (∀ d ∈ loop_over_directions a.dim, _) ↔ _
    have hm : ∀ d ∈ loop_over_directions a.dim,
        ((a.meet b).in_direction_min d ≤ p.in_direction d
            ∧ p.in_direction d ≤ (a.meet b).in_direction_max d)
          ↔ ((a.in_direction_min d ≤ p.in_direction d
                ∧ p.in_direction d ≤ a.in_direction_max d)
              ∧ (b.in_direction_min d ≤ p.in_direction d
                ∧ p.in_direction d ≤ b.in_direction_max d)) := by
      intro d hd
      rw [(meet_in_direction a b d hd).1, (meet_in_direction a b d hd).2, max_le_iff,
        le_min_iff]
      tauto
    constructor
    · intro hp
      exact ⟨fun d hd => ((hm d hd).1 (hp d hd)).1, fun d hd => ((hm d hd).1 (hp d hd)).2⟩
    · rintro ⟨ha, hb⟩ d hd
      exact (hm d hd).2 ⟨ha d hd, hb d hd⟩

/-- The squares `[0,2] x [0,2]` and `[1,3] x [1,3]` intersect, and the point `(1,1)` is in
both. -/
theorem intersects_iff_witness :
    (⟨.D2, ⟨.D2, 1, 1, 0, 0, 0⟩, ⟨.D2, 3, 3, 0, 0, 0⟩⟩ : volume).dim
        = (⟨.D2, ⟨.D2, 0, 0, 0, 0, 0⟩, ⟨.D2, 2, 2, 0, 0, 0⟩⟩ : volume).dim
      ∧ (⟨.D2, ⟨.D2, 0, 0, 0, 0, 0⟩, ⟨.D2, 2, 2, 0, 0, 0⟩⟩ : volume).contains
          ⟨.D2, 1, 1, 0, 0, 0⟩ = true
      ∧ (⟨.D2, ⟨.D2, 1, 1, 0, 0, 0⟩, ⟨.D2, 3, 3, 0, 0, 0⟩⟩ : volume).contains
          ⟨.D2, 1, 1, 0, 0, 0⟩ = true
      ∧ (⟨.D2, ⟨.D2, 0, 0, 0, 0, 0⟩, ⟨.D2, 2, 2, 0, 0, 0⟩⟩ : volume).intersects
          ⟨.D2, ⟨.D2, 1, 1, 0, 0, 0⟩, ⟨.D2, 3, 3, 0, 0, 0⟩⟩ = .ok true :=
  ⟨rfl, by decide!, by decide!,
    (intersects_iff ⟨.D2, ⟨.D2, 0, 0, 0, 0, 0⟩, ⟨.D2, 2, 2, 0, 0, 0⟩⟩
      ⟨.D2, ⟨.D2, 1, 1, 0, 0, 0⟩, ⟨.D2, 3, 3, 0, 0, 0⟩⟩ rfl).2.2.1 ⟨.D2, 1, 1, 0, 0, 0⟩
      (by decide!) (by decide!)⟩

/-- The volume built from two vecs is normalised. -/
theorem of_corners_normalised (v1 v2 : vec) : (volume.of_corners v1 v2).normalised := by
  intro d hd
  have h := vec_min_max_in_direction v1 v2 d hd
  show (vec_min v1 v2).in_direction d ≤ (vec_max v1 v2).in_direction d
  rw [h.1, h.2]
  exact min_le_max

/-- The volume built from two vecs of one dimension does not depend on their order. -/
theorem of_corners_comm (v1 v2 : vec) (h : v2.dim = v1.dim) :
    volume.of_corners v1 v2 = volume.of_corners v2 v1 := by
  obtain ⟨dim, x, y, z, r, p⟩ := v1
  obtain ⟨dim2, x2, y2, z2, r2, p2⟩ := v2
  simp only at h
  subst h
  cases dim2 <;>
    simp [volume.of_corners, vec_min, vec_max, loop_over_directions, vec.set_direction,
      vec.in_direction, zero_vec, min_comm, max_comm]

/-- The result of `intersect_with` is normalised. -/
theorem intersect_with_normalised (a b : volume) (h : b.dim = a.dim) :
    ∃ r, a.intersect_with b = .ok r ∧ r.normalised := by
  rw [intersect_with_eq a b h]
  by_cases hs : a.separated b
  · rw [if_pos hs]
    refine ⟨_, rfl, fun d _ => ?_⟩
    cases d <;> exact le_refl _
  · rw [if_neg hs]
    refine ⟨_, rfl, fun d hd => ?_⟩
    have hd2 : d ∈ loop_over_directions a.dim := hd
    rw [(meet_in_direction a b d hd2).1, (meet_in_direction a b d hd2).2]
    exact (not_separated_iff a b).1 hs d hd2

/-! ## Multiplicity and primitive points -/

/-- The multiplicity of two chains hung together is the product of their multiplicities. -/
theorem multiplicity_append {α : Type} (a b : symmetry α) :
    (a.append b).multiplicity = a.multiplicity * b.multiplicity := by
  induction a with
  | last l => simp [symmetry.append, symmetry.multiplicity]
  | link l nx ih => simp [symmetry.append, symmetry.multiplicity, ih, mul_assoc]

/-- The result of `operator+` has the product of the multiplicities. -/
theorem multiplicity_add_eq {α : Type} (a b : symmetry α) :
    (a.add b).multiplicity = a.multiplicity * b.multiplicity := by
  unfold symmetry.add
  split_ifs with h1 h2
  · rw [h1, one_mul]
  · rw [h2, mul_one]
  · exact multiplicity_append a b

/-- The multiplicity is the product of the orders of the links. -/
theorem multiplicity_links {α : Type} (s : symmetry α) :
    s.multiplicity = (s.links.map (fun l => l.g)).prod := by
  induction s with
  | last l => simp [symmetry.multiplicity, symmetry.links]
  | link l nx ih => simp [symmetry.multiplicity, symmetry.links, ih]

/-- C11: `(a + b).multiplicity() = a.multiplicity() * b.multiplicity()` for all symmetries
`a` and `b`; `identity() + b` has the multiplicity of `b` and `a + identity()` the one of `a`;
and the multiplicity of a chain is the product of the orders `g` of its links. -/
theorem multiplicity_add {α : Type} [One α] (a b : symmetry α) :
    (a.add b).multiplicity = a.multiplicity * b.multiplicity
      ∧ ((identity : symmetry α).add b).multiplicity = b.multiplicity
      ∧ (a.add identity).multiplicity = a.multiplicity
      ∧ a.multiplicity = (a.links.map (fun l => l.g)).prod := by
  refine ⟨multiplicity_add_eq a b, ?_, ?_, multiplicity_links a⟩
  · rw [multiplicity_add_eq]
    show 1 * b.multiplicity = b.multiplicity
    rw [one_mul]
  · rw [multiplicity_add_eq]
    show a.multiplicity * 1 = a.multiplicity
    rw [mul_one]

/-- C12 fails on the code: on the 2-D grid of `4 x 12` cells with origin `0`, whose
`icenter()` is `(4, 12)`, the symmetry `rotate2(Z, gv)` has multiplicity `2` and the orbit of
the lattice point `(6, 10)` is `(6, 10)`, `(2, 14)`. Both points are owned by the grid and
lie on the Yee lattice of `Ez` (even coordinates), the sums of their coordinates are equal,
and `is_primitive` returns `true` for both: the
tie-break `p.y() > p.x() && pp.y() <= pp.x()` compares coordinates that are not taken relative
to the symmetry point. -/
theorem is_primitive_two_in_orbit :
    ((rotate2 .Z ⟨.D2, 4, 12, 0, zero_ivec .D2⟩ : Res (symmetry Int)).bind
        (fun s => .ok s.multiplicity)) = .ok 2
      ∧ (⟨.D2, 4, 12, 0, zero_ivec .D2⟩ : grid_volume).icenter = ⟨.D2, 4, 12, 0, 0, 0⟩
      ∧ (⟨.D2, 4, 12, 0, zero_ivec .D2⟩ : grid_volume).iyee_shift .Ez = zero_ivec .D2
      ∧ ((rotate2 .Z ⟨.D2, 4, 12, 0, zero_ivec .D2⟩ : Res (symmetry Int)).bind
          (fun s => s.transform_ivec ⟨.D2, 6, 10, 0, 0, 0⟩ 0)) = .ok ⟨.D2, 6, 10, 0, 0, 0⟩
      ∧ ((rotate2 .Z ⟨.D2, 4, 12, 0, zero_ivec .D2⟩ : Res (symmetry Int)).bind
          (fun s => s.transform_ivec ⟨.D2, 6, 10, 0, 0, 0⟩ 1)) = .ok ⟨.D2, 2, 14, 0, 0, 0⟩
      ∧ (⟨.D2, 4, 12, 0, zero_ivec .D2⟩ : grid_volume).owns ⟨.D2, 6, 10, 0, 0, 0⟩ = true
      ∧ (⟨.D2, 4, 12, 0, zero_ivec .D2⟩ : grid_volume).owns ⟨.D2, 2, 14, 0, 0, 0⟩ = true
      ∧ ((rotate2 .Z ⟨.D2, 4, 12, 0, zero_ivec .D2⟩ : Res (symmetry Int)).bind
          (fun s => s.is_primitive ⟨.D2, 6, 10, 0, 0, 0⟩)) = .ok true
      ∧ ((rotate2 .Z ⟨.D2, 4, 12, 0, zero_ivec .D2⟩ : Res (symmetry Int)).bind
          (fun s => s.is_primitive ⟨.D2, 2, 14, 0, 0, 0⟩)) = .ok true := by
  decide

/-! ## The sign of a component under a symmetry -/

/-- The table of `mirror(axis, gv)` applied once. -/
theorem mirror_transform_one {α : Type} [Mul α] [One α] (axis : direction) (gv : grid_volume)
    (d : direction) :
    (mirror axis gv : symmetry α).transform d 1
      = .ok ⟨d, decide (d ≠ .NO_DIRECTION ∧ d = axis), if d = .NO_DIRECTION then 1 else 1 * 1⟩ := by
  cases d <;> cases axis <;>
    simp [symmetry.transform, symmetry.transform_fuel, symmetry.fuel, mirror, symmetry.head,
      symmetry.next, set_S, direction.toInt, signed_direction.of, flip, signed_direction.mul,
      Res.bind, Int.tmod, Int.tdiv]

set_option maxHeartbeats 4000000 in
/-- The value of `phase_shift(c, 1)` under `mirror(axis, gv)` for a field component `c` along
a Cartesian direction. -/
theorem mirror_phase_shift {α : Type} [Ring α] (axis : direction) (gv : grid_volume)
    (c : component) (ha : axis ≠ .NO_DIRECTION) (hc : (component_direction c).toInt ≤ 2) :
    (mirror axis gv : symmetry α).phase_shift c 1
      = .ok (if (is_magnetic c || is_B c) = decide (component_direction c = axis)
              then 1 else -1) := by
  cases axis <;> first | exact absurd rfl ha | skip
  all_goals
    cases c <;> first | (exfalso; revert hc; decide) | skip
  all_goals
    simp [symmetry.phase_shift, symmetry.phase_shift_loop, for_directions, phase_shift_step,
      mirror_transform_one, component_direction, is_magnetic, is_B, Res.bind, direction.toInt,
      Int.tmod]

set_option maxHeartbeats 4000000 in
/-- The values of `phase_shift(c, 1)` under `rotate2(axis, gv)`. -/
theorem rotate2_phase_shift {α : Type} [Ring α] (axis : direction) (gv : grid_volume)
    (c : component) (ha : axis.toInt ≤ 2) (hc : (component_direction c).toInt ≤ 2) :
    ∃ s : symmetry α, rotate2 axis gv = .ok s ∧
      s.phase_shift c 1 = .ok (if component_direction c = axis then 1 else -1) := by
  cases axis <;> first | (exfalso; revert ha; decide) | skip
  all_goals
    cases c <;> first | (exfalso; revert hc; decide) | skip
  all_goals
    refine ⟨_, rfl, ?_⟩
    simp [symmetry.phase_shift, symmetry.phase_shift_loop, for_directions, phase_shift_step,
      component_direction, is_magnetic, is_B, Res.bind, direction.toInt,
      symmetry.transform, symmetry.transform_fuel, symmetry.fuel, symmetry.head,
      symmetry.next, set_S, signed_direction.of, flip, signed_direction.mul, direction.ofInt,
      Int.tmod, Int.tdiv]

set_option maxHeartbeats 8000000 in
/-- The values of `phase_shift(c, n)` under `rotate4(axis, gv)` for `n = 1, 2, 3`. -/
theorem rotate4_phase_shift {α : Type} [Ring α] (axis : direction) (gv : grid_volume)
    (c : component) (n : Int) (ha : axis.toInt ≤ 2) (hc : (component_direction c).toInt ≤ 2)
    (h1 : 1 ≤ n) (h4 : n < 4) :
    ∃ s : symmetry α, rotate4 axis gv = .ok s ∧
      s.phase_shift c n
        = .ok (if component_direction c = axis then 1
               else if (component_direction c).toInt = (axis.toInt + 1).tmod 3
                 then (if n = 3 then 1 else -1)
                 else (if n = 1 then 1 else -1)) := by
  cases axis <;> first | (exfalso; revert ha; decide) | skip
  all_goals
    cases c <;> first | (exfalso; revert hc; decide) | skip
  all_goals
    refine ⟨_, rfl, ?_⟩
    interval_cases n
  all_goals
    simp [symmetry.phase_shift, symmetry.phase_shift_loop, for_directions, phase_shift_step,
      component_direction, is_magnetic, is_B, Res.bind, direction.toInt,
      symmetry.transform, symmetry.transform_fuel, symmetry.fuel, symmetry.head,
      symmetry.next, set_S, signed_direction.of, flip, signed_direction.mul, direction.ofInt,
      Int.tmod, Int.tdiv]

/-- C16: for a Cartesian axis, a vector component `cv` (electric or `D`) and a pseudovector
component `cp` (magnetic or `B`) along one Cartesian direction `d`, and unit phase: under
`mirror(axis)`, `phase_shift(cv, 1)` is `-1` when `d` is the axis and `1` otherwise, and
`phase_shift(cp, 1)` is its negative; under `rotate2(axis)` (multiplicity `2`) and under
`rotate4(axis)` (multiplicity `4`), for every `1 <= n < g`, `phase_shift(cp, n)` and
`phase_shift(cv, n)` return the same value. -/
theorem phase_shift_pseudovector {α : Type} [Ring α] (gv : grid_volume) (axis : direction)
    (cv cp : component) (hv : is_electric cv = true ∨ is_D cv = true)
    (hp : is_magnetic cp = true ∨ is_B cp = true)
    (hd : component_direction cp = component_direction cv)
    (hc : (component_direction cv).toInt ≤ 2) (ha : axis.toInt ≤ 2) :
    ((mirror axis gv : symmetry α).phase_shift cv 1
          = .ok (if component_direction cv = axis then -1 else 1)
        ∧ (mirror axis gv : symmetry α).phase_shift cp 1
          = .ok (-(if component_direction cv = axis then -1 else 1)))
      ∧ (∃ (s : symmetry α) (e : α), rotate2 axis gv = .ok s ∧ s.multiplicity = 2
          ∧ s.phase_shift cv 1 = .ok e ∧ s.phase_shift cp 1 = .ok e)
      ∧ (∃ s : symmetry α, rotate4 axis gv = .ok s ∧ s.multiplicity = 4
          ∧ ∀ n : Int, 1 ≤ n → n < 4 →
              ∃ e : α, s.phase_shift cv n = .ok e ∧ s.phase_shift cp n = .ok e) := by
  have hax : axis ≠ .NO_DIRECTION := by
    rintro rfl
    revert ha
    decide
  have kv : (is_magnetic cv || is_B cv) = false := by
    cases cv <;> simp_all [is_electric, is_D, is_magnetic, is_B]
  have kp : (is_magnetic cp || is_B cp) = true := by
    cases cp <;> simp_all [is_electric, is_D, is_magnetic, is_B]
  have hc2 : (component_direction cp).toInt ≤ 2 := hd ▸ hc
  refine ⟨⟨?_, ?_⟩, ?_, ?_⟩
  · rw [mirror_phase_shift axis gv cv hax hc, kv]
    by_cases h : component_direction cv = axis <;> simp [h]
  · rw [mirror_phase_shift axis gv cp hax hc2, kp, hd]
    by_cases h : component_direction cv = axis <;> simp [h]
  · obtain ⟨s, hs, e1⟩ := @rotate2_phase_shift α _ axis gv cv ha hc
    obtain ⟨s2, hs2, e2⟩ := @rotate2_phase_shift α _ axis gv cp ha hc2
    have : s2 = s := by
      rw [hs] at hs2
      exact (Res.ok.inj hs2).symm
    subst this
    refine ⟨s2, _, hs, ?_, e1, by rw [e2, hd]⟩
    unfold rotate2 at hs
    rw [if_neg (by omega)] at hs
    rw [← Res.ok.inj hs]
    rfl
  · obtain ⟨s, hs, -⟩ := @rotate4_phase_shift α _ axis gv cv 1 ha hc le_rfl (by norm_num)
    refine ⟨s, hs, ?_, fun n h1 h4 => ?_⟩
    · unfold rotate4 at hs
      rw [if_neg (by omega)] at hs
      rw [← Res.ok.inj hs]
      rfl
    · obtain ⟨s1, hs1, e1⟩ := @rotate4_phase_shift α _ axis gv cv n ha hc h1 h4
      obtain ⟨s2, hs2, e2⟩ := @rotate4_phase_shift α _ axis gv cp n ha hc2 h1 h4
      have t1 : s1 = s := by
        rw [hs] at hs1
        exact (Res.ok.inj hs1).symm
      have t2 : s2 = s := by
        rw [hs] at hs2
        exact (Res.ok.inj hs2).symm
      subst t1
      subst t2
      exact ⟨_, e1, by rw [e2, hd]⟩

/-- The symmetry `rotate4(Z)` on a 2-D grid and the components `Ex`, `Hx`. -/
theorem phase_shift_pseudovector_witness :
    ∃ (s : symmetry Int), rotate4 .Z ⟨.D2, 4, 4, 0, zero_ivec .D2⟩ = .ok s
      ∧ s.multiplicity = 4
      ∧ ∀ n : Int, 1 ≤ n → n < 4 →
          ∃ e : Int, s.phase_shift .Ex n = .ok e ∧ s.phase_shift .Hx n = .ok e :=
  (phase_shift_pseudovector ⟨.D2, 4, 4, 0, zero_ivec .D2⟩ .Z .Ex .Hx (Or.inl rfl) (Or.inl rfl)
    rfl (by decide) (by decide)).2.2

/-! ## Calls that return -/

/-- A normal return is passed on to the rest of the computation. -/
theorem bind_ok {β γ : Type} (a : β) (f : β → Res γ) : (Res.ok a).bind f = f a := rfl

/-- A sequence of two calls returns normally only if both do. -/
theorem bind_eq_ok {β γ : Type} {x : Res β} {f : β → Res γ} {r : γ} (h : x.bind f = .ok r) :
    ∃ a, x = .ok a ∧ f a = .ok r := by
  cases x with
  | ok a => exact ⟨a, rfl, h⟩
  | fatal => simp [Res.bind] at h
  | undef => simp [Res.bind] at h
  | nofuel => simp [Res.bind] at h

/-- A sequence of two calls returns normally if both do. -/
theorem bind_defined {β γ : Type} {x : Res β} {f : β → Res γ} (hx : ∃ a, x = .ok a)
    (hf : ∀ a, x = .ok a → ∃ b, f a = .ok b) : ∃ b, x.bind f = .ok b := by
  obtain ⟨a, ha⟩ := hx
  obtain ⟨b, hb⟩ := hf a ha
  exact ⟨b, by rw [ha, bind_ok, hb]⟩

/-- The values of a loop `for (i = 0; i < m; i++)`. -/
theorem mem_loop_from_zero (m sn : Int) (h : sn ∈ loop_from_zero m) : 0 ≤ sn ∧ sn < m := by
  simp only [loop_from_zero, List.mem_map, List.mem_range] at h
  obtain ⟨k, hk, rfl⟩ := h
  omega

/-- The values of a loop `for (i = 1; i < m; i++)`. -/
theorem mem_loop_from_one (m sn : Int) (h : sn ∈ loop_from_one m) : 0 ≤ sn ∧ sn < m := by
  simp only [loop_from_one, List.mem_map, List.mem_range] at h
  obtain ⟨k, hk, rfl⟩ := h
  omega

/-- A conditional between two normal returns is a normal return. -/
theorem ite_ok {β : Type} (c : Prop) [Decidable c] (a b : β) :
    (if c then Res.ok a else Res.ok b) = Res.ok (if c then a else b) := by
  split <;> rfl

/-- The call `transform(d, 0)` returns `signed_direction(d)`. -/
theorem transform_zero {α : Type} [Mul α] [One α] (s : symmetry α) (d : direction) :
    s.transform d 0 = .ok (signed_direction.of d) := by
  unfold symmetry.transform
  obtain ⟨k, hk⟩ : ∃ k, s.fuel = k + 1 := ⟨s.fuel - 1, by have := symmetry_fuel_pos s; omega⟩
  rw [hk]
  simp [symmetry.transform_fuel]

/-- The call `transform(NO_DIRECTION, n)` returns `signed_direction(NO_DIRECTION)`. -/
theorem transform_no_direction {α : Type} [Mul α] [One α] (s : symmetry α) (n : Int) :
    s.transform .NO_DIRECTION n = .ok (signed_direction.of .NO_DIRECTION) := by
  unfold symmetry.transform
  obtain ⟨k, hk⟩ : ∃ k, s.fuel = k + 1 := ⟨s.fuel - 1, by have := symmetry_fuel_pos s; omega⟩
  rw [hk]
  simp [symmetry.transform_fuel]

/-- The table of the first link of a closed chain. -/
theorem closed_head {α : Type} (s : symmetry α) (h : s.closed) (d : direction)
    (hd : d ≠ .NO_DIRECTION) : (s.head.S d).d ≠ .NO_DIRECTION := by
  cases s with
  | last l => exact h d hd
  | link l nx => exact h.1 d hd

/-- The tail of a closed chain is closed. -/
theorem closed_next {α : Type} (s nx : symmetry α) (h : s.closed) (hn : s.next = some nx) :
    nx.closed := by
  cases s with
  | last l => simp [symmetry.next] at hn
  | link l nx2 =>
    simp only [symmetry.next, Option.some.injEq] at hn
    subst hn
    exact h.2

/-- On a closed chain `transform` maps a direction among `X, ..., P` to such a direction. -/
theorem transform_fuel_dir {α : Type} [Mul α] [One α] (fuel : Nat) :
    ∀ (s : symmetry α) (d : direction) (n : Int) (r : signed_direction α), s.closed →
      symmetry.transform_fuel fuel s d n = .ok r → d ≠ .NO_DIRECTION →
        r.d ≠ .NO_DIRECTION := by
  induction fuel with
  | zero =>
    intro s d n r _ h
    simp [symmetry.transform_fuel] at h
  | succ k ih =>
    intro s d n r hc h hd
    rw [symmetry.transform_fuel] at h
    by_cases h0 : n = 0 ∨ d = .NO_DIRECTION
    · rw [if_pos h0] at h
      rw [← Res.ok.inj h]
      exact hd
    · rw [if_neg h0] at h
      by_cases hg : s.head.g = 0
      · rw [if_pos hg] at h
        exact absurd h (by simp)
      · rw [if_neg hg] at h
        simp only at h
        generalize (if n < 0 then (s.head.g - (-n).tmod s.head.g).tmod s.head.g
          else n.tmod s.head.g) = nme at h
        generalize (if n < 0 then -((-n).tdiv s.head.g) else n.tdiv s.head.g) = nrest at h
        by_cases hm : nme = 0
        · rw [if_pos hm] at h
          by_cases hq : nrest = 0
          · rw [if_pos hq] at h
            rw [← Res.ok.inj h]
            exact hd
          · rw [if_neg hq] at h
            cases hnx : s.next with
            | none => rw [hnx] at h; exact absurd h (by simp)
            | some nx =>
              rw [hnx] at h
              exact ih nx d nrest r (closed_next s nx hc hnx) h hd
        · rw [if_neg hm] at h
          obtain ⟨sd, hsd, h⟩ := bind_eq_ok h
          have hsdd : sd.d ≠ .NO_DIRECTION := by
            by_cases hf : (s.head.S d).flipped = true
            · rw [if_pos hf] at hsd
              obtain ⟨r0, e1, e2⟩ := bind_eq_ok hsd
              rw [← Res.ok.inj e2]
              exact ih s _ _ r0 hc e1 (closed_head s hc d hd)
            · rw [if_neg hf] at hsd
              exact ih s _ _ sd hc hsd (closed_head s hc d hd)
          cases hnx : s.next with
          | none =>
            rw [hnx] at h
            rw [← Res.ok.inj h]
            exact hsdd
          | some nx =>
            rw [hnx] at h
            simp only at h
            by_cases hq : nrest ≠ 0
            · rw [if_pos hq] at h
              by_cases hf : sd.flipped = true
              · rw [if_pos hf] at h
                obtain ⟨r1, e1, e2⟩ := bind_eq_ok h
                rw [← Res.ok.inj e2]
                exact ih nx _ _ r1 (closed_next s nx hc hnx) e1 hsdd
              · rw [if_neg hf] at h
                obtain ⟨r1, e1, e2⟩ := bind_eq_ok h
                rw [← Res.ok.inj e2]
                exact ih nx _ _ r1 (closed_next s nx hc hnx) e1 hsdd
            · rw [if_neg hq] at h
              rw [← Res.ok.inj h]
              exact hsdd

/-- The call `transform(d, n)` returns for `0 <= n < multiplicity()` when every link has a
positive order. -/
theorem transform_fuel_defined {α : Type} [Mul α] [One α] (s : symmetry α) :
    s.pos → ∀ (d : direction) (n : Int), 0 ≤ n → n < s.multiplicity →
      ∃ r : signed_direction α, ∀ fuel, s.fuel ≤ fuel →
        symmetry.transform_fuel fuel s d n = .ok r := by
  induction s with
  | last l =>
    intro hg d n hn hlt
    simp only [symmetry.pos] at hg
    simp only [symmetry.multiplicity] at hlt
    by_cases h0 : n = 0 ∨ d = .NO_DIRECTION
    · refine ⟨signed_direction.of d, fun fuel hf => ?_⟩
      obtain ⟨k, rfl⟩ : ∃ k, fuel = k + 1 := ⟨fuel - 1, by simp [symmetry.fuel] at hf; omega⟩
      simp [symmetry.transform_fuel, h0]
    · have hn0 : n ≠ 0 := fun h => h0 (Or.inl h)
      have hd0 : d ≠ .NO_DIRECTION := fun h => h0 (Or.inr h)
      obtain ⟨r, hr⟩ := transform_fuel_inner (.last l) hg (n - 1).toNat (l.S d).d
        (by simp only [symmetry.head]; omega)
      have hm : (((n - 1).toNat : Nat) : Int) = n - 1 := by omega
      rw [hm] at hr
      refine ⟨(if (l.S d).flipped then flip r else r).mul l.ph, fun fuel hf => ?_⟩
      obtain ⟨k, rfl⟩ : ∃ k, fuel = k + 1 := ⟨fuel - 1, by simp [symmetry.fuel] at hf; omega⟩
      have hk := hr k (by simp [symmetry.fuel] at hf; omega)
      have p1 := nme_eq_emod l.g n hg
      have e1 : n % l.g = n := Int.emod_eq_of_lt hn hlt
      rw [e1] at p1
      simp only [symmetry.transform_fuel, h0, if_false, symmetry.head, hg.ne', p1, hn0, hk,
        Res.bind, symmetry.next]
      by_cases hf : (l.S d).flipped <;> simp [hf, hd0]
  | link l nx ih =>
    intro hpos d n hn hlt
    obtain ⟨hg, hnx⟩ := hpos
    simp only [symmetry.multiplicity] at hlt
    have hG := multiplicity_pos nx hnx
    have hq : n.tdiv l.g = n / l.g := Int.tdiv_eq_ediv hn hg.le
    have hq0 : 0 ≤ n / l.g := Int.ediv_nonneg hn hg.le
    have hq1 : n / l.g < nx.multiplicity := Int.ediv_lt_of_lt_mul hg (by linarith)
    by_cases h0 : n = 0 ∨ d = .NO_DIRECTION
    · refine ⟨signed_direction.of d, fun fuel hf => ?_⟩
      obtain ⟨k, rfl⟩ : ∃ k, fuel = k + 1 := ⟨fuel - 1, by simp [symmetry.fuel] at hf; omega⟩
      simp [symmetry.transform_fuel, h0]
    · have e0 := Int.emod_nonneg n hg.ne'
      have e1 := Int.emod_lt_of_pos n hg
      have p1 : (if n < 0 then (l.g - (-n).tmod l.g).tmod l.g else n.tmod l.g) = n % l.g :=
        nme_eq_emod l.g n hg
      have q1 : (if n < 0 then -((-n).tdiv l.g) else n.tdiv l.g) = n / l.g := by
        rw [if_neg (by omega), hq]
      by_cases he : n % l.g = 0
      · by_cases hqz : n / l.g = 0
        · refine ⟨signed_direction.of d, fun fuel hf => ?_⟩
          obtain ⟨k, rfl⟩ : ∃ k, fuel = k + 1 :=
            ⟨fuel - 1, by simp [symmetry.fuel] at hf; omega⟩
          simp only [symmetry.transform_fuel, h0, if_false, symmetry.head, hg.ne', p1, q1, he,
            if_true, hqz]
        · obtain ⟨r, hr⟩ := ih hnx d (n / l.g) hq0 hq1
          refine ⟨r, fun fuel hf => ?_⟩
          obtain ⟨k, rfl⟩ : ∃ k, fuel = k + 1 :=
            ⟨fuel - 1, by simp [symmetry.fuel] at hf; omega⟩
          have hk := hr k (by simp [symmetry.fuel] at hf; omega)
          simp only [symmetry.transform_fuel, h0, if_false, symmetry.head, hg.ne', p1, q1, he,
            if_true, hqz, symmetry.next]
          exact hk
      · obtain ⟨r0, hr0⟩ := transform_fuel_inner (.link l nx) hg (n % l.g - 1).toNat (l.S d).d
          (by simp only [symmetry.head]; omega)
        have hm : (((n % l.g - 1).toNat : Nat) : Int) = n % l.g - 1 := by omega
        rw [hm] at hr0
        obtain ⟨r, hr⟩ := ih hnx (if (l.S d).flipped then flip r0 else r0).d (n / l.g) hq0 hq1
        refine ⟨if n / l.g ≠ 0 then
            (if (if (l.S d).flipped then flip r0 else r0).flipped
              then (flip r).mul l.ph else r.mul l.ph)
          else (if (l.S d).flipped then flip r0 else r0).mul l.ph, fun fuel hf => ?_⟩
        obtain ⟨k, rfl⟩ : ∃ k, fuel = k + 1 := ⟨fuel - 1, by simp [symmetry.fuel] at hf; omega⟩
        have hk0 := hr0 k (by simp [symmetry.fuel] at hf; omega)
        have hk := hr k (by simp [symmetry.fuel] at hf; omega)
        simp only [symmetry.transform_fuel, h0, if_false, symmetry.head, hg.ne', p1, q1, he,
          hk0, Res.bind, symmetry.next]
        by_cases hqz : n / l.g = 0
        · by_cases hf1 : (l.S d).flipped <;> simp [hf1, hqz]
        · by_cases hf1 : (l.S d).flipped
          · simp only [hf1, if_true] at hk ⊢
            by_cases hf2 : (flip r0).flipped <;> simp [hf2, hqz, hk, Res.bind]
          · simp only [hf1, Bool.false_eq_true, if_false] at hk ⊢
            by_cases hf2 : r0.flipped <;> simp [hf2, hqz, hk, Res.bind]

/-- The call `transform(d, n)` returns for `0 <= n < multiplicity()` when every link has a
positive order, and on a closed chain it maps a direction among `X, ..., P` to one of them. -/
theorem transform_defined {α : Type} [Mul α] [One α] (s : symmetry α) (hp : s.pos)
    (d : direction) (n : Int) (hn : 0 ≤ n) (hlt : n < s.multiplicity) :
    ∃ r : signed_direction α, s.transform d n = .ok r
      ∧ (s.closed → d ≠ .NO_DIRECTION → r.d ≠ .NO_DIRECTION) := by
  obtain ⟨r, hr⟩ := transform_fuel_defined s hp d n hn hlt
  exact ⟨r, hr s.fuel le_rfl, fun hc hd => transform_fuel_dir s.fuel s d n r hc (hr s.fuel le_rfl) hd⟩

/-- The call `transform(ov, n)` on a `vec` returns for `0 <= n < multiplicity()`. -/
theorem transform_vec_defined {α : Type} [Mul α] [One α] (s : symmetry α) (hp : s.pos)
    (inva : Rat) (ov : vec) (n : Int) (hn : 0 ≤ n) (hlt : n < s.multiplicity) :
    ∃ r, s.transform_vec inva ov n = .ok r := by
  unfold symmetry.transform_vec
  by_cases h0 : n = 0
  · rw [if_pos h0]
    exact ⟨_, rfl⟩
  · rw [if_neg h0]
    refine bind_defined ?_ (fun a _ => ⟨_, rfl⟩)
    generalize loop_over_directions ov.dim = l
    generalize ov = init at *
    suffices h : ∀ (l : List direction) (init0 : vec), ∃ r,
        l.foldl (fun (delta : Res vec) d =>
          delta.bind (fun delta =>
            (s.transform d n).bind (fun sd =>
              if sd.flipped then
                .ok (delta.set_direction sd.d
                  (-(init.in_direction d - (s.symmetry_point inva).in_direction d)))
              else
                .ok (delta.set_direction sd.d
                  (init.in_direction d - (s.symmetry_point inva).in_direction d)))))
          (.ok init0) = .ok r from h l init
    intro l
    induction l with
    | nil => exact fun init0 => ⟨init0, rfl⟩
    | cons d ds ih =>
      intro init0
      obtain ⟨sd, hsd, -⟩ := transform_defined s hp d n hn hlt
      simp only [List.foldl, bind_ok, hsd]
      by_cases hf : sd.flipped = true
      · rw [if_pos hf]
        exact ih _
      · rw [if_neg hf]
        exact ih _

/-- The call `transform(v, n)` on a volume returns for `0 <= n < multiplicity()`. -/
theorem transform_volume_defined {α : Type} [Mul α] [One α] (s : symmetry α) (hp : s.pos)
    (inva : Rat) (v : volume) (n : Int) (hn : 0 ≤ n) (hlt : n < s.multiplicity) :
    ∃ r, s.transform_volume inva v n = .ok r := by
  obtain ⟨lo, hlo⟩ := transform_vec_defined s hp inva v.min_corner n hn hlt
  obtain ⟨hi, hhi⟩ := transform_vec_defined s hp inva v.max_corner n hn hlt
  exact ⟨volume.of_corners lo hi, by simp only [symmetry.transform_volume, hlo, hhi, bind_ok]⟩

/-- The call `transform(c, n)` on a tag returns for `0 <= n < multiplicity()` on a closed
chain. -/
theorem transform_tag_defined {α : Type} [Mul α] [One α] (s : symmetry α) (hp : s.pos)
    (hc : s.closed) (c : component_tag) (n : Int) (hn : 0 ≤ n) (hlt : n < s.multiplicity) :
    ∃ r, s.transform_tag c n = .ok r := by
  rcases c with c | c
  · simp only [symmetry.transform_tag, symmetry.transform_component]
    refine bind_defined (bind_defined ?_ ?_) (fun a _ => ⟨_, rfl⟩)
    · obtain ⟨r, hr, -⟩ := transform_defined s hp (component_direction c) n hn hlt
      exact ⟨r, hr⟩
    · intro r hr
      by_cases hd : component_direction c = .NO_DIRECTION
      · rw [hd, transform_no_direction] at hr
        rw [← Res.ok.inj hr]
        revert hd
        cases c <;> simp [component_direction, direction_component, signed_direction.of,
          is_electric, is_magnetic, is_D, is_B]
      · obtain ⟨r2, hr2, hdir⟩ := transform_defined s hp (component_direction c) n hn hlt
        rw [hr] at hr2
        have hrd : r.d ≠ .NO_DIRECTION := by
          rw [Res.ok.inj hr2]
          exact hdir hc hd
        revert hd hrd
        generalize r.d = rd
        cases c <;> cases rd <;>
          simp [component_direction, direction_component, is_electric, is_magnetic, is_D, is_B]
  · simp only [symmetry.transform_tag, symmetry.transform_derived]
    refine bind_defined (bind_defined ?_ ?_) (fun a _ => ⟨_, rfl⟩)
    · obtain ⟨r, hr, -⟩ := transform_defined s hp (derived_component_direction c) n hn hlt
      exact ⟨r, hr⟩
    · intro r hr
      by_cases hd : derived_component_direction c = .NO_DIRECTION
      · rw [hd, transform_no_direction] at hr
        rw [← Res.ok.inj hr]
        revert hd
        cases c <;> simp [derived_component_direction, direction_derived_component,
          signed_direction.of, is_poynting]
      · obtain ⟨r2, hr2, hdir⟩ := transform_defined s hp (derived_component_direction c) n hn hlt
        rw [hr] at hr2
        have hrd : r.d ≠ .NO_DIRECTION := by
          rw [Res.ok.inj hr2]
          exact hdir hc hd
        revert hd hrd
        generalize r.d = rd
        cases c <;> cases rd <;>
          simp [derived_component_direction, direction_derived_component, is_poynting]

/-- The loop of `phase_shift` returns for `0 <= n < multiplicity()`. -/
theorem phase_shift_loop_defined {α : Type} [Mul α] [One α] (s : symmetry α) (hp : s.pos)
    (n : Int) (hn : 0 ≤ n) (hlt : n < s.multiplicity) (l : List direction)
    (st : Bool × Bool × Bool) : ∃ r, s.phase_shift_loop n l st = .ok r := by
  induction l generalizing st with
  | nil => exact ⟨st, rfl⟩
  | cons d ds ih =>
    obtain ⟨td, htd, -⟩ := transform_defined s hp d n hn hlt
    simp only [symmetry.phase_shift_loop, htd, bind_ok]
    exact ih _

/-- The call `phase_shift(c, n)` on a tag returns for `0 <= n < multiplicity()`. -/
theorem phase_shift_tag_defined {α : Type} [Mul α] [One α] [Neg α] [Star α] (s : symmetry α)
    (hp : s.pos) (c : component_tag) (n : Int) (hn : 0 ≤ n) (hlt : n < s.multiplicity) :
    ∃ ps : α, s.phase_shift_tag c n = .ok ps := by
  rcases c with c | c
  · simp only [symmetry.phase_shift_tag, symmetry.phase_shift]
    by_cases h0 : c = .Dielectric ∨ c = .Permeability
    · rw [if_pos h0]
      exact ⟨_, rfl⟩
    · rw [if_neg h0]
      obtain ⟨t, ht, -⟩ := transform_defined s hp (component_direction c) n hn hlt
      rw [ht, bind_ok]
      by_cases hm : (is_magnetic c || is_B c) = true
      · rw [if_pos hm]
        obtain ⟨r, hr⟩ := phase_shift_loop_defined s hp n hn hlt for_directions
          (t.flipped, false, false)
        rw [hr]
        simp only [bind_ok, ite_ok]
        exact ⟨_, rfl⟩
      · rw [if_neg hm, ite_ok]
        exact ⟨_, rfl⟩
  · simp only [symmetry.phase_shift_tag, symmetry.phase_shift_derived]
    by_cases h0 : is_poynting c = true
    · rw [if_pos h0]
      obtain ⟨t, ht, -⟩ := transform_defined s hp (derived_component_direction c) n hn hlt
      rw [ht, bind_ok, ite_ok]
      exact ⟨_, rfl⟩
    · rw [if_neg h0]
      exact ⟨_, rfl⟩

/-- The search for the first flipped direction returns for `0 <= n < multiplicity()`. -/
theorem first_flipped_defined {α : Type} [Mul α] [One α] (s : symmetry α) (hp : s.pos)
    (n : Int) (hn : 0 ≤ n) (hlt : n < s.multiplicity) (l : List direction) :
    ∃ r, s.first_flipped n l = .ok r := by
  induction l with
  | nil => exact ⟨none, rfl⟩
  | cons d ds ih =>
    obtain ⟨td, htd, -⟩ := transform_defined s hp d n hn hlt
    simp only [symmetry.first_flipped, htd, bind_ok]
    by_cases hf : td.flipped = true
    · rw [if_pos hf]
      exact ⟨_, rfl⟩
    · rw [if_neg hf]
      exact ih

/-- The table of `mirror(axis, gv)` is closed and its order is positive. -/
theorem mirror_pos_closed {α : Type} [One α] (axis : direction) (gv : grid_volume) :
    (mirror axis gv : symmetry α).pos ∧ (mirror axis gv : symmetry α).closed := by
  refine ⟨by simp [mirror, symmetry.pos], ?_⟩
  intro d hd
  by_cases h : d.toInt = axis.toInt <;> simpa [set_S, signed_direction.of, h] using hd

/-- The tables of `rotate2(axis, gv)` and `rotate4(axis, gv)` are closed and their orders are
positive. -/
theorem rotate_pos_closed {α : Type} [One α] (axis : direction) (gv : grid_volume)
    (s : symmetry α) (h : rotate2 axis gv = .ok s ∨ rotate4 axis gv = .ok s) :
    s.pos ∧ s.closed := by
  rcases h with h | h
  · unfold rotate2 at h
    split_ifs at h
    rw [← Res.ok.inj h]
    refine ⟨by simp [symmetry.pos], ?_⟩
    intro d hd
    cases axis <;> cases d <;>
      simp_all [set_S, signed_direction.of, direction.toInt, Int.tmod]
  · unfold rotate4 at h
    split_ifs at h
    rw [← Res.ok.inj h]
    refine ⟨by simp [symmetry.pos], ?_⟩
    intro d hd
    cases axis <;> cases d <;>
      simp_all [set_S, signed_direction.of, direction.toInt, direction.ofInt, Int.tmod]

/-- Chains with positive orders and closed tables stay so under `operator+`. -/
theorem add_pos_closed {α : Type} (a b : symmetry α) (ha : a.pos ∧ a.closed)
    (hb : b.pos ∧ b.closed) : (a.add b).pos ∧ (a.add b).closed := by
  have happ : ∀ a : symmetry α, a.pos ∧ a.closed → (a.append b).pos ∧ (a.append b).closed := by
    intro a
    induction a with
    | last l => exact fun h => ⟨⟨h.1, hb.1⟩, ⟨h.2, hb.2⟩⟩
    | link l nx ih =>
      intro h
      have := ih ⟨h.1.2, h.2.2⟩
      exact ⟨⟨h.1.1, this.1⟩, ⟨h.2.1, this.2⟩⟩
  unfold symmetry.add
  split_ifs
  · exact hb
  · exact ha
  · exact happ a ha

/-- C18: for vecs `v1`, `v2` of one dimension `volume(v1, v2)` has `min_d <= max_d` on every
active axis and equals `volume(v2, v1)`; the result of `intersect_with` on volumes of one
dimension has `min_d <= max_d` on every active axis; and so has every result of
`symmetry::transform(volume, n)`, which returns for `0 <= n < multiplicity()` when every link
of the symmetry has a positive order. -/
theorem corners_normalised {α : Type} [Mul α] [One α] (v1 v2 : vec) (h : v2.dim = v1.dim) :
    (volume.of_corners v1 v2).normalised
      ∧ volume.of_corners v1 v2 = volume.of_corners v2 v1
      ∧ (∀ a b : volume, b.dim = a.dim → ∃ r, a.intersect_with b = .ok r ∧ r.normalised)
      ∧ (∀ (s : symmetry α) (inva : Rat) (v : volume) (n : Int) (r : volume),
          s.transform_volume inva v n = .ok r → r.normalised)
      ∧ (∀ (s : symmetry α) (inva : Rat) (v : volume) (n : Int),
          s.pos → 0 ≤ n → n < s.multiplicity →
            ∃ r, s.transform_volume inva v n = .ok r ∧ r.normalised) := by
  have key : ∀ (s : symmetry α) (inva : Rat) (v : volume) (n : Int) (r : volume),
      s.transform_volume inva v n = .ok r → r.normalised := by
    intro s inva v n r hr
    simp only [symmetry.transform_volume] at hr
    obtain ⟨lo, -, hr⟩ := bind_eq_ok hr
    obtain ⟨hi, -, hr⟩ := bind_eq_ok hr
    rw [← Res.ok.inj hr]
    exact of_corners_normalised lo hi
  refine ⟨of_corners_normalised v1 v2, of_corners_comm v1 v2 h,
    fun a b hab => intersect_with_normalised a b hab, key, fun s inva v n hp hn hlt => ?_⟩
  obtain ⟨r, hr⟩ := transform_volume_defined s hp inva v n hn hlt
  exact ⟨r, hr, key s inva v n r hr⟩

/-- The vecs `(3, 0)` and `(1, 2)`. -/
theorem corners_normalised_witness :
    (⟨.D2, 1, 2, 0, 0, 0⟩ : vec).dim = (⟨.D2, 3, 0, 0, 0, 0⟩ : vec).dim
      ∧ (volume.of_corners ⟨.D2, 3, 0, 0, 0, 0⟩ ⟨.D2, 1, 2, 0, 0, 0⟩).normalised
      ∧ volume.of_corners ⟨.D2, 3, 0, 0, 0, 0⟩ ⟨.D2, 1, 2, 0, 0, 0⟩
          = volume.of_corners ⟨.D2, 1, 2, 0, 0, 0⟩ ⟨.D2, 3, 0, 0, 0, 0⟩ :=
  ⟨rfl, (@corners_normalised Int _ _ ⟨.D2, 3, 0, 0, 0, 0⟩ ⟨.D2, 1, 2, 0, 0, 0⟩ rfl).1,
    (@corners_normalised Int _ _ ⟨.D2, 3, 0, 0, 0, 0⟩ ⟨.D2, 1, 2, 0, 0, 0⟩ rfl).2.1⟩


/-! ## Reduction of a volume list -/

/-- The search loop of `reduce` returns when every `sn` is in `0 .. multiplicity() - 1`. -/
theorem reduce_match_loop_defined {α : Type} [Mul α] [One α] [Neg α] [Star α] [Add α]
    (s : symmetry α) (hp : s.pos) (hc : s.closed) (inva : Rat) (rf : Rat → Rat)
    (g : volume_list α) (glnew : List (volume_list α)) (l : List Int)
    (hl : ∀ sn ∈ l, 0 ≤ sn ∧ sn < s.multiplicity) :
    ∃ r, s.reduce_match_loop inva rf g glnew l = .ok r := by
  induction l with
  | nil => exact ⟨none, rfl⟩
  | cons sn rest ih =>
    have hsn := hl sn (List.mem_cons_self _ _)
    obtain ⟨gS, hgS⟩ := transform_volume_defined s hp inva g.v sn hsn.1 hsn.2
    obtain ⟨cS, hcS⟩ := transform_tag_defined s hp hc g.c sn hsn.1 hsn.2
    obtain ⟨ps, hps⟩ := @phase_shift_tag_defined α _ _ _ _ s hp g.c sn hsn.1 hsn.2
    simp only [symmetry.reduce_match_loop, hgS, hcS, bind_ok]
    by_cases hm : glnew.any (reduce_matches rf cS gS) = true
    · rw [if_pos hm, hps, bind_ok]
      exact ⟨_, rfl⟩
    · rw [if_neg hm]
      exact ih (fun x hx => hl x (List.mem_cons_of_mem _ hx))

/-- The first loop of `reduce` returns. -/
theorem reduce_fold_defined {α : Type} [Mul α] [One α] [Neg α] [Star α] [Add α] [Zero α]
    [DecidableEq α] (s : symmetry α) (hp : s.pos) (hc : s.closed) (inva : Rat)
    (rf : Rat → Rat) (gl : List (volume_list α)) :
    ∀ glnew, ∃ r, s.reduce_fold inva rf gl glnew = .ok r := by
  induction gl with
  | nil => exact fun glnew => ⟨glnew, rfl⟩
  | cons g gl ih =>
    intro glnew
    obtain ⟨r, hr⟩ := reduce_match_loop_defined s hp hc inva rf g glnew
      (loop_from_zero s.multiplicity) (fun sn h => mem_loop_from_zero _ sn h)
    simp only [symmetry.reduce_fold, hr, bind_ok]
    cases r with
    | some glnew2 => exact ih glnew2
    | none =>
      simp only
      by_cases hw : 0 ≤ s.multiplicity ∧ g.weight ≠ 0
      · rw [if_pos hw]
        exact ih _
      · rw [if_neg hw]
        exact ih _

/-- The self-symmetry loop of `reduce` returns when every `sn` is in
`0 .. multiplicity() - 1`. -/
theorem reduce_self_loop_defined {α : Type} [Mul α] [One α] [Neg α] [Star α] [Add α]
    (s : symmetry α) (hp : s.pos) (hc : s.closed) (inva : Rat) (rf : Rat → Rat)
    (g : volume_list α) (l : List Int) (hl : ∀ sn ∈ l, 0 ≤ sn ∧ sn < s.multiplicity) :
    ∀ st, ∃ r, s.reduce_self_loop inva rf g l st = .ok r := by
  induction l with
  | nil => exact fun st => ⟨st, rfl⟩
  | cons sn rest ih =>
    intro st
    have hsn := hl sn (List.mem_cons_self _ _)
    have ih2 := ih (fun x hx => hl x (List.mem_cons_of_mem _ hx))
    obtain ⟨gS, hgS⟩ := transform_volume_defined s hp inva g.v sn hsn.1 hsn.2
    obtain ⟨cS, hcS⟩ := transform_tag_defined s hp hc g.c sn hsn.1 hsn.2
    obtain ⟨ps, hps⟩ := @phase_shift_tag_defined α _ _ _ _ s hp g.c sn hsn.1 hsn.2
    obtain ⟨fd, hfd⟩ := first_flipped_defined s hp sn hsn.1 hsn.2
      (loop_over_directions g.v.dim)
    simp only [symmetry.reduce_self_loop, hcS, bind_ok]
    by_cases h1 : g.c = cS
    · rw [if_pos h1, hgS, bind_ok]
      by_cases h2 : (g.v.round_float rf).beq (gS.round_float rf) = true
      · rw [if_pos h2, hfd, bind_ok, hps, bind_ok]
        exact ih2 _
      · rw [if_neg h2]
        exact ih2 _
    · rw [if_neg h1]
      exact ih2 _

/-- The second loop of `reduce` returns, and no node it keeps has weight zero. -/
theorem reduce_prune_defined {α : Type} [Mul α] [One α] [Neg α] [Star α] [Add α] [Zero α]
    [DecidableEq α] (s : symmetry α) (hp : s.pos) (hc : s.closed) (inva : Rat)
    (rf : Rat → Rat) (glnew : List (volume_list α)) :
    ∃ r, s.reduce_prune inva rf glnew = .ok r := by
  induction glnew with
  | nil => exact ⟨[], rfl⟩
  | cons g rest ih =>
    obtain ⟨st, hst⟩ := reduce_self_loop_defined s hp hc inva rf g
      (loop_from_one s.multiplicity) (fun sn h => mem_loop_from_one _ sn h) ([], g.weight)
    obtain ⟨rs, hrs⟩ := ih
    simp only [symmetry.reduce_prune, symmetry.reduce_self, hst, bind_ok, hrs]
    by_cases hz : st.2 = 0
    · rw [if_pos hz, bind_ok]
      exact ⟨_, rfl⟩
    · rw [if_neg hz, bind_ok]
      exact ⟨_, rfl⟩

/-- No node that the second loop of `reduce` keeps has weight zero. -/
theorem reduce_prune_nonzero {α : Type} [Mul α] [One α] [Neg α] [Star α] [Add α] [Zero α]
    [DecidableEq α] (s : symmetry α) (inva : Rat) (rf : Rat → Rat)
    (glnew : List (volume_list α)) :
    ∀ L, s.reduce_prune inva rf glnew = .ok L → ∀ e ∈ L, e.weight ≠ 0 := by
  induction glnew with
  | nil =>
    intro L h e he
    simp only [symmetry.reduce_prune, Res.ok.injEq] at h
    subst h
    simp at he
  | cons g rest ih =>
    intro L h e he
    simp only [symmetry.reduce_prune] at h
    obtain ⟨r, hr, h⟩ := bind_eq_ok h
    obtain ⟨rs, hrs, h⟩ := bind_eq_ok h
    have ihr := ih rs hrs
    simp only [symmetry.reduce_self] at hr
    obtain ⟨st, -, hr⟩ := bind_eq_ok hr
    by_cases hz : st.2 = 0
    · rw [if_pos hz] at hr
      rw [← Res.ok.inj hr] at h
      simp only [Res.ok.injEq] at h
      subst h
      exact ihr e he
    · rw [if_neg hz] at hr
      rw [← Res.ok.inj hr] at h
      simp only [Res.ok.injEq] at h
      subst h
      rcases List.mem_cons.1 he with rfl | he2
      · exact hz
      · exact ihr e he2

/-- C15: no node of a list that `reduce` returns has weight zero, for every symmetry, every
input list, every resolution and every rounding; and `reduce` returns when every link of the
symmetry has a positive order and a closed table. -/
theorem reduce_no_zero_weight {α : Type} [Mul α] [One α] [Neg α] [Star α] [Add α] [Zero α]
    [DecidableEq α] (s : symmetry α) (inva : Rat) (rf : Rat → Rat)
    (gl : List (volume_list α)) :
    (∀ L, s.reduce inva rf gl = .ok L → ∀ e ∈ L, e.weight ≠ 0)
      ∧ (s.pos → s.closed → ∃ L, s.reduce inva rf gl = .ok L) := by
  refine ⟨fun L h e he => ?_, fun hp hc => ?_⟩
  · simp only [symmetry.reduce] at h
    obtain ⟨glnew, -, h⟩ := bind_eq_ok h
    exact reduce_prune_nonzero s inva rf glnew L h e he
  · obtain ⟨glnew, h1⟩ := reduce_fold_defined s hp hc inva rf gl []
    obtain ⟨L, h2⟩ := reduce_prune_defined s hp hc inva rf glnew
    exact ⟨L, by simp only [symmetry.reduce, h1, bind_ok, h2]⟩

/-- The mirror of `x` about `x = 0` on a 2-D grid and a list of two nodes on the square
`[-1,1] x [0,1]`, which is its own mirror image: the node with `Ex`, whose sign under the
mirror is `-1`, is removed; the node with `Ez` is kept with weight `2`. -/
theorem reduce_no_zero_weight_witness :
    (mirror .X ⟨.D2, 2, 1, 0, ⟨.D2, -2, 0, 0, 0, 0⟩⟩ : symmetry Rat).reduce 1 (fun q => q)
        [⟨⟨.D2, ⟨.D2, -1, 0, 0, 0, 0⟩, ⟨.D2, 1, 1, 0, 0, 0⟩⟩, .field .Ex, 1⟩,
          ⟨⟨.D2, ⟨.D2, -1, 0, 0, 0, 0⟩, ⟨.D2, 1, 1, 0, 0, 0⟩⟩, .field .Ez, 1⟩]
      = .ok [⟨⟨.D2, ⟨.D2, -1, 0, 0, 0, 0⟩, ⟨.D2, 0, 1, 0, 0, 0⟩⟩, .field .Ez, 2⟩]
    ∧ (∀ e ∈ [(⟨⟨.D2, ⟨.D2, -1, 0, 0, 0, 0⟩, ⟨.D2, 0, 1, 0, 0, 0⟩⟩, .field .Ez, 2⟩ :
          volume_list Rat)], e.weight ≠ 0)
    ∧ ∃ L, (mirror .X ⟨.D2, 2, 1, 0, ⟨.D2, -2, 0, 0, 0, 0⟩⟩ : symmetry Rat).reduce 1
        (fun q => q)
        [⟨⟨.D2, ⟨.D2, -1, 0, 0, 0, 0⟩, ⟨.D2, 1, 1, 0, 0, 0⟩⟩, .field .Ex, 1⟩,
          ⟨⟨.D2, ⟨.D2, -1, 0, 0, 0, 0⟩, ⟨.D2, 1, 1, 0, 0, 0⟩⟩, .field .Ez, 1⟩] = .ok L :=
  ⟨by decide!,
    (reduce_no_zero_weight (mirror .X ⟨.D2, 2, 1, 0, ⟨.D2, -2, 0, 0, 0, 0⟩⟩ : symmetry Rat) 1
      (fun q => q)
      [⟨⟨.D2, ⟨.D2, -1, 0, 0, 0, 0⟩, ⟨.D2, 1, 1, 0, 0, 0⟩⟩, .field .Ex, 1⟩,
        ⟨⟨.D2, ⟨.D2, -1, 0, 0, 0, 0⟩, ⟨.D2, 1, 1, 0, 0, 0⟩⟩, .field .Ez, 1⟩]).1 _ (by decide!),
    (reduce_no_zero_weight (mirror .X ⟨.D2, 2, 1, 0, ⟨.D2, -2, 0, 0, 0, 0⟩⟩ : symmetry Rat) 1
      (fun q => q)
      [⟨⟨.D2, ⟨.D2, -1, 0, 0, 0, 0⟩, ⟨.D2, 1, 1, 0, 0, 0⟩⟩, .field .Ex, 1⟩,
        ⟨⟨.D2, ⟨.D2, -1, 0, 0, 0, 0⟩, ⟨.D2, 1, 1, 0, 0, 0⟩⟩, .field .Ez, 1⟩]).2
      (mirror_pos_closed .X _).1 (mirror_pos_closed .X _).2⟩

/-! ## Reduction under a mirror -/

/-- The dimension tag of `icenter()` is the one of the grid. -/
theorem icenter_dim (gv : grid_volume) : gv.icenter.dim = gv.dim := by
  obtain ⟨dim, n0, n1, n2, io⟩ := gv
  obtain ⟨idim, x, y, z, r, p⟩ := io
  cases dim <;> cases idim <;> rfl

/-- The dimension tag of the symmetry point of `mirror(axis, gv)`. -/
theorem mirror_symmetry_point_dim {α : Type} [One α] (axis : direction) (gv : grid_volume)
    (inva : Rat) : ((mirror axis gv : symmetry α).symmetry_point inva).dim = gv.dim := by
  have h : ∀ (v : ivec) (s : Rat), (v.scale_double s).dim = v.dim := by
    intro v s
    obtain ⟨dim, x, y, z, r, p⟩ := v
    cases dim <;> rfl
  show (gv.icenter.scale_double _).dim = _
  rw [h, icenter_dim]

/-- The image of a point under `mirror(axis, gv)`, slot by slot. -/
theorem mirror_transform_vec {α : Type} [Mul α] [One α] (axis : direction) (gv : grid_volume)
    (inva : Rat) (ov : vec) (h : ov.dim = gv.dim) :
    ∃ r : vec, (mirror axis gv : symmetry α).transform_vec inva ov 1 = .ok r
      ∧ r.dim = ov.dim
      ∧ ∀ d ∈ loop_over_directions ov.dim,
          r.in_direction d
            = mirror_slot axis d
                (((mirror axis gv : symmetry α).symmetry_point inva).in_direction d)
                (ov.in_direction d) := by
  have hsp := @mirror_symmetry_point_dim α _ axis gv inva
  rw [← h] at hsp
  simp only [symmetry.transform_vec, one_ne_zero, if_false, mirror_transform_one]
  generalize (mirror axis gv : symmetry α).symmetry_point inva = sp at *
  obtain ⟨spdim, sx, sy, sz, sr, sp⟩ := sp
  obtain ⟨dim, x, y, z, r, p⟩ := ov
  simp only at hsp
  subst hsp
  clear h
  cases spdim <;> cases axis <;>
    simp [loop_over_directions, Res.bind, vec.set_direction, vec.in_direction, vec.add,
      mirror_slot] <;>
    (try ring)

/-- The active slots and the dimension tag of a rounded `vec`. -/
theorem round_float_in_direction (rf : Rat → Rat) (v : vec) :
    (v.round_float rf).dim = v.dim
      ∧ ∀ d ∈ loop_over_directions v.dim,
          (v.round_float rf).in_direction d = rf (v.in_direction d) := by
  obtain ⟨dim, x, y, z, r, p⟩ := v
  cases dim <;>
    simp [vec.round_float, loop_over_directions, vec.set_direction, vec.in_direction]

/-- The corners of a rounded volume, slot by slot. -/
theorem volume_round_float_corners (rf : Rat → Rat) (v : volume)
    (hm : v.max_corner.dim = v.min_corner.dim) :
    (v.round_float rf).min_corner.dim = v.min_corner.dim
      ∧ (v.round_float rf).max_corner.dim = v.min_corner.dim
      ∧ ∀ d ∈ loop_over_directions v.min_corner.dim,
          (v.round_float rf).min_corner.in_direction d
              = min (rf (v.min_corner.in_direction d)) (rf (v.max_corner.in_direction d))
            ∧ (v.round_float rf).max_corner.in_direction d
              = max (rf (v.min_corner.in_direction d)) (rf (v.max_corner.in_direction d)) := by
  have h1 := round_float_in_direction rf v.min_corner
  have h2 := round_float_in_direction rf v.max_corner
  have hd := vec_min_max_dim (v.min_corner.round_float rf) (v.max_corner.round_float rf)
  refine ⟨by rw [← h1.1]; exact hd.1, by rw [← h1.1]; exact hd.2, fun d hd => ?_⟩
  have hd1 : d ∈ loop_over_directions (v.min_corner.round_float rf).dim := by rw [h1.1]; exact hd
  have := vec_min_max_in_direction (v.min_corner.round_float rf) (v.max_corner.round_float rf)
    d hd1
  rw [h1.2 d hd, h2.2 d (by rw [hm]; exact hd)] at this
  exact this

/-- The test `operator==` on two vecs, slot by slot. -/
theorem vec_beq_iff (v a : vec) :
    v.beq a = true ↔ ∀ d ∈ loop_over_directions v.dim, v.in_direction d = a.in_direction d := by
  simp [vec.beq]

/-- The unordered pair `{a, b}` is not changed by one of the two maps of `mirror_slot` applied
to it twice, each time followed by sorting; so the rounded sorted pairs agree. -/
theorem mirror_slot_pair (rf : Rat → Rat) (axis d : direction) (c a b : Rat) :
    min (rf (min (mirror_slot axis d c (min (mirror_slot axis d c a) (mirror_slot axis d c b)))
              (mirror_slot axis d c (max (mirror_slot axis d c a) (mirror_slot axis d c b)))))
        (rf (max (mirror_slot axis d c (min (mirror_slot axis d c a) (mirror_slot axis d c b)))
              (mirror_slot axis d c (max (mirror_slot axis d c a) (mirror_slot axis d c b)))))
      = min (rf a) (rf b)
    ∧ max (rf (min (mirror_slot axis d c (min (mirror_slot axis d c a) (mirror_slot axis d c b)))
              (mirror_slot axis d c (max (mirror_slot axis d c a) (mirror_slot axis d c b)))))
        (rf (max (mirror_slot axis d c (min (mirror_slot axis d c a) (mirror_slot axis d c b)))
              (mirror_slot axis d c (max (mirror_slot axis d c a) (mirror_slot axis d c b)))))
      = max (rf a) (rf b) := by
  unfold mirror_slot
  by_cases h : d = axis
  · simp only [h, if_true]
    rcases le_total a b with hab | hab
    · have e1 : min (2 * c - a) (2 * c - b) = 2 * c - b := min_eq_right (by linarith)
      have e2 : max (2 * c - a) (2 * c - b) = 2 * c - a := max_eq_left (by linarith)
      rw [e1, e2, sub_sub_cancel, sub_sub_cancel, min_eq_right hab, max_eq_left hab]
      exact ⟨rfl, rfl⟩
    · have e1 : min (2 * c - a) (2 * c - b) = 2 * c - a := min_eq_left (by linarith)
      have e2 : max (2 * c - a) (2 * c - b) = 2 * c - b := max_eq_right (by linarith)
      rw [e1, e2, sub_sub_cancel, sub_sub_cancel, min_eq_right hab, max_eq_left hab]
      exact ⟨min_comm _ _, max_comm _ _⟩
  · simp only [h, if_false]
    rcases le_total a b with hab | hab
    · rw [min_eq_left hab, max_eq_right hab, min_eq_left hab, max_eq_right hab]
      exact ⟨rfl, rfl⟩
    · rw [min_eq_right hab, max_eq_left hab, min_eq_left hab, max_eq_right hab]
      exact ⟨min_comm _ _, max_comm _ _⟩

/-- The image of a volume under `mirror(axis, gv)`: it is `volume(lo, hi)` for the images
`lo`, `hi` of the two corners, given slot by slot. -/
theorem mirror_transform_volume {α : Type} [Mul α] [One α] (axis : direction)
    (gv : grid_volume) (inva : Rat) (v : volume) (h1 : v.min_corner.dim = gv.dim)
    (h2 : v.max_corner.dim = gv.dim) :
    ∃ lo hi : vec, (mirror axis gv : symmetry α).transform_volume inva v 1
        = .ok (volume.of_corners lo hi)
      ∧ lo.dim = gv.dim ∧ hi.dim = gv.dim
      ∧ ∀ d ∈ loop_over_directions gv.dim,
          lo.in_direction d
              = mirror_slot axis d
                  (((mirror axis gv : symmetry α).symmetry_point inva).in_direction d)
                  (v.min_corner.in_direction d)
            ∧ hi.in_direction d
              = mirror_slot axis d
                  (((mirror axis gv : symmetry α).symmetry_point inva).in_direction d)
                  (v.max_corner.in_direction d) := by
  obtain ⟨lo, e1, d1, c1⟩ := @mirror_transform_vec α _ _ axis gv inva v.min_corner h1
  obtain ⟨hi, e2, d2, c2⟩ := @mirror_transform_vec α _ _ axis gv inva v.max_corner h2
  refine ⟨lo, hi, ?_, d1.trans h1, d2.trans h2, fun d hd => ⟨?_, ?_⟩⟩
  · simp only [symmetry.transform_volume, e1, e2, Res.bind]
  · exact c1 d (by rw [h1]; exact hd)
  · exact c2 d (by rw [h2]; exact hd)

/-- Under `mirror(axis, gv)` the image of the image of a volume passes the test of `reduce`
against the volume itself, whatever the rounding. -/
theorem mirror_volume_round_trip {α : Type} [Mul α] [One α] (axis : direction)
    (gv : grid_volume) (inva : Rat) (rf : Rat → Rat) (v : volume)
    (h1 : v.min_corner.dim = gv.dim) (h2 : v.max_corner.dim = gv.dim) :
    ∃ v' gS : volume, (mirror axis gv : symmetry α).transform_volume inva v 1 = .ok v'
      ∧ (mirror axis gv : symmetry α).transform_volume inva v' 1 = .ok gS
      ∧ volume.of_corners v'.min_corner v'.max_corner = v'
      ∧ v'.min_corner.dim = gv.dim ∧ v'.max_corner.dim = gv.dim
      ∧ (v.round_float rf).beq (gS.round_float rf) = true := by
  obtain ⟨lo, hi, e, dlo, dhi, c⟩ := @mirror_transform_volume α _ _ axis gv inva v h1 h2
  have hvd := vec_min_max_dim lo hi
  have m1 : (volume.of_corners lo hi).min_corner.dim = gv.dim := hvd.1.trans dlo
  have m2 : (volume.of_corners lo hi).max_corner.dim = gv.dim := hvd.2.trans dlo
  obtain ⟨lo', hi', e', dlo', dhi', c'⟩ :=
    @mirror_transform_volume α _ _ axis gv inva (volume.of_corners lo hi) m1 m2
  refine ⟨_, _, e, e', ?_, m1, m2, ?_⟩
  · obtain ⟨dim, x, y, z, r, p⟩ := lo
    cases dim <;>
      simp [volume.of_corners, vec_min, vec_max, loop_over_directions, vec.set_direction,
        vec.in_direction, zero_vec]
  · have r1 := volume_round_float_corners rf v (h2.trans h1.symm)
    have hvd' := vec_min_max_dim lo' hi'
    have r2 := volume_round_float_corners rf (volume.of_corners lo' hi')
      (hvd'.2.trans hvd'.1.symm)
    simp only [volume.beq, Bool.and_eq_true, vec_beq_iff]
    rw [r1.1, r1.2.1, h1]
    have key : ∀ d ∈ loop_over_directions gv.dim,
        (v.round_float rf).min_corner.in_direction d
            = ((volume.of_corners lo' hi').round_float rf).min_corner.in_direction d
          ∧ (v.round_float rf).max_corner.in_direction d
            = ((volume.of_corners lo' hi').round_float rf).max_corner.in_direction d := by
      intro d hd
      have q1 := r1.2.2 d (by rw [h1]; exact hd)
      have q2 := r2.2.2 d (by
        show d ∈ loop_over_directions (vec_min lo' hi').dim
        rw [hvd'.1, dlo']; exact hd)
      have q3 := vec_min_max_in_direction lo' hi' d (by rw [dlo']; exact hd)
      have q4 := vec_min_max_in_direction lo hi d (by rw [dlo]; exact hd)
      have q5 := c' d hd
      have q6 := c d hd
      have k := mirror_slot_pair rf axis d
        (((mirror axis gv : symmetry α).symmetry_point inva).in_direction d)
        (v.min_corner.in_direction d) (v.max_corner.in_direction d)
      rw [q1.1, q1.2, q2.1, q2.2]
      show _ = min (rf ((vec_min lo' hi').in_direction d)) (rf ((vec_max lo' hi').in_direction d))
        ∧ _ = max (rf ((vec_min lo' hi').in_direction d)) (rf ((vec_max lo' hi').in_direction d))
      rw [q3.1, q3.2, q5.1, q5.2]
      show _ = min (rf (min (mirror_slot axis d _ ((vec_min lo hi).in_direction d))
                  (mirror_slot axis d _ ((vec_max lo hi).in_direction d))))
                (rf (max (mirror_slot axis d _ ((vec_min lo hi).in_direction d))
                  (mirror_slot axis d _ ((vec_max lo hi).in_direction d))))
        ∧ _ = max (rf (min (mirror_slot axis d _ ((vec_min lo hi).in_direction d))
                  (mirror_slot axis d _ ((vec_max lo hi).in_direction d))))
                (rf (max (mirror_slot axis d _ ((vec_min lo hi).in_direction d))
                  (mirror_slot axis d _ ((vec_max lo hi).in_direction d))))
      rw [q4.1, q4.2, q6.1, q6.2]
      exact ⟨k.1.symm, k.2.symm⟩
    exact ⟨fun d hd => (key d hd).1, fun d hd => (key d hd).2⟩

/-- The call `transform(c, 0)` returns the tag `c`. -/
theorem transform_tag_zero {α : Type} [Mul α] [One α] (s : symmetry α) (c : component_tag) :
    s.transform_tag c 0 = .ok c := by
  rcases c with c | c <;> cases c <;>
    simp [symmetry.transform_tag, symmetry.transform_component, symmetry.transform_derived,
      transform_zero, Res.bind, signed_direction.of, component_direction,
      derived_component_direction, direction_component, direction_derived_component,
      is_electric, is_magnetic, is_D, is_B, is_poynting]

/-- A mirror maps every tag to itself. -/
theorem mirror_transform_tag {α : Type} [Mul α] [One α] (axis : direction) (gv : grid_volume)
    (c : component_tag) : (mirror axis gv : symmetry α).transform_tag c 1 = .ok c := by
  rcases c with c | c <;> cases c <;>
    simp [symmetry.transform_tag, symmetry.transform_component, symmetry.transform_derived,
      mirror_transform_one, Res.bind, component_direction,
      derived_component_direction, direction_component, direction_derived_component,
      is_electric, is_magnetic, is_D, is_B, is_poynting]

/-- The loop of `phase_shift` returns under a mirror. -/
theorem mirror_phase_shift_loop {α : Type} [Mul α] [One α] (axis : direction)
    (gv : grid_volume) (l : List direction) (st : Bool × Bool × Bool) :
    ∃ r, (mirror axis gv : symmetry α).phase_shift_loop 1 l st = .ok r := by
  induction l generalizing st with
  | nil => exact ⟨st, rfl⟩
  | cons d ds ih =>
    simp only [symmetry.phase_shift_loop, mirror_transform_one, Res.bind]
    exact ih _

/-- The call `phase_shift(c, 1)` returns under a mirror. -/
theorem mirror_phase_shift_tag {α : Type} [Mul α] [One α] [Neg α] [Star α] (axis : direction)
    (gv : grid_volume) (c : component_tag) :
    ∃ ps : α, (mirror axis gv : symmetry α).phase_shift_tag c 1 = .ok ps := by
  rcases c with c | c
  · simp only [symmetry.phase_shift_tag, symmetry.phase_shift, mirror_transform_one, Res.bind]
    by_cases h0 : c = .Dielectric ∨ c = .Permeability
    · rw [if_pos h0]
      exact ⟨_, rfl⟩
    · rw [if_neg h0]
      by_cases hm : (is_magnetic c || is_B c) = true
      · rw [if_pos hm]
        obtain ⟨r, hr⟩ := @mirror_phase_shift_loop α _ _ axis gv for_directions
          (decide (component_direction c ≠ .NO_DIRECTION ∧ component_direction c = axis),
            false, false)
        rw [hr]
        simp only [Res.bind, ite_ok]
        exact ⟨_, rfl⟩
      · rw [if_neg hm, ite_ok]
        exact ⟨_, rfl⟩
  · simp only [symmetry.phase_shift_tag, symmetry.phase_shift_derived, mirror_transform_one,
      Res.bind, ite_ok]
    exact ⟨_, rfl⟩

/-- Halving along no direction leaves the volume as it is. -/
theorem halve_nil (v : volume) : v.halve [] = v := by
  obtain ⟨dim, lo, hi⟩ := v
  cases dim <;> simp [volume.halve, loop_over_directions]

/-- The call `transform(v, 0)` on a volume returns `volume(min_corner, max_corner)`. -/
theorem transform_volume_zero {α : Type} [Mul α] [One α] (s : symmetry α) (inva : Rat)
    (v : volume) :
    s.transform_volume inva v 0 = .ok (volume.of_corners v.min_corner v.max_corner) := by
  simp [symmetry.transform_volume, symmetry.transform_vec, Res.bind]

/-- Under `mirror(axis, gv)`, for a volume `v` of the dimension of the grid, a tag `c` and
weights `w1 != 0` and `w2`: the image `v'` of `v`, the image `c'` of `c` and
`ps = phase_shift(c', 1)` exist, and if the rounded `v` and `v'` differ, `reduce` of
`[(v, c, w1), (v', c', w2)]` is the single node `(v, c, w1 + w2 * ps)`, or the empty list when
that weight is zero. -/
theorem reduce_mirror_pair_exists {α : Type} [Ring α] [Star α] [DecidableEq α] (axis : direction)
    (gv : grid_volume) (inva : Rat) (rf : Rat → Rat) (v : volume) (c : component_tag)
    (w1 w2 : α) (h1 : v.min_corner.dim = gv.dim) (h2 : v.max_corner.dim = gv.dim)
    (hw : w1 ≠ 0) :
    ∃ (v' : volume) (c' : component_tag) (ps : α),
      (mirror axis gv : symmetry α).transform_volume inva v 1 = .ok v'
        ∧ (mirror axis gv : symmetry α).transform_tag c 1 = .ok c'
        ∧ (mirror axis gv : symmetry α).phase_shift_tag c' 1 = .ok ps
        ∧ ((v.round_float rf).beq (v'.round_float rf) = false →
            (mirror axis gv : symmetry α).reduce inva rf [⟨v, c, w1⟩, ⟨v', c', w2⟩]
              = .ok (if w1 + w2 * ps = 0 then [] else [⟨v, c, w1 + w2 * ps⟩])) := by
  obtain ⟨v', gS, e1, e2, idem, -, -, hb⟩ :=
    @mirror_volume_round_trip α _ _ axis gv inva rf v h1 h2
  obtain ⟨ps, hps⟩ := @mirror_phase_shift_tag α _ _ _ _ axis gv c
  refine ⟨v', c, ps, e1, mirror_transform_tag axis gv c, hps, fun hne => ?_⟩
  have mult : (mirror axis gv : symmetry α).multiplicity = 2 := rfl
  have hl0 : loop_from_zero 2 = [0, 1] := rfl
  have hl1 : loop_from_one 2 = [1] := rfl
  have t0 : (mirror axis gv : symmetry α).transform_volume inva v' 0 = .ok v' := by
    rw [transform_volume_zero, idem]
  simp only [symmetry.reduce, symmetry.reduce_fold, mult, hl0]
  simp only [symmetry.reduce_match_loop,
    transform_volume_zero, e1, t0, e2, transform_tag_zero, mirror_transform_tag, bind_ok,
    List.any_nil, List.any_cons, Bool.false_eq_true, if_false, reduce_matches, hne, hb, hps,
    reduce_add_weight, decide_True, Bool.and_false, Bool.and_true, Bool.or_false, if_true,
    hw, ne_eq, not_false_eq_true, and_true, Bool.true_and, decide_eq_true_eq]
  rw [if_pos (by norm_num), bind_ok]
  simp only [symmetry.reduce_prune, symmetry.reduce_self, mult, hl1]
  simp only [symmetry.reduce_self_loop, mirror_transform_tag, bind_ok, if_true, e1, hne,
    Bool.false_eq_true, if_false, halve_nil]
  by_cases hz : w1 + w2 * ps = 0
  · rw [if_pos hz, if_pos hz, bind_ok]
  · rw [if_neg hz, if_neg hz, bind_ok]

/-- C14 (amended): for every mirror `mirror(axis, gv)`, every volume `v` of the dimension of
the grid, every tag `c` and weights `w1`, `w2` with `w1 != 0`: the image `v'` of `v`, the
image `c'` of `c` and `ps = phase_shift(c', 1)` exist; and if the rounded `v` and `v'` differ,
`reduce` of the list `[(v, c, w1), (v', c', w2)]` returns the single node
`(v, c, w1 + w2 * ps)` when that weight is not zero, and the empty list when it is zero. -/
theorem reduce_mirror_pair {α : Type} [Ring α] [Star α] [DecidableEq α] (axis : direction)
    (gv : grid_volume) (inva : Rat) (rf : Rat → Rat) (v : volume) (c : component_tag)
    (w1 w2 : α) (h1 : v.min_corner.dim = gv.dim) (h2 : v.max_corner.dim = gv.dim)
    (hw : w1 ≠ 0) :
    (∃ (v' : volume) (c' : component_tag) (ps : α),
        (mirror axis gv : symmetry α).transform_volume inva v 1 = .ok v'
          ∧ (mirror axis gv : symmetry α).transform_tag c 1 = .ok c'
          ∧ (mirror axis gv : symmetry α).phase_shift_tag c' 1 = .ok ps)
      ∧ ∀ (v' : volume) (c' : component_tag) (ps : α),
          (mirror axis gv : symmetry α).transform_volume inva v 1 = .ok v' →
          (mirror axis gv : symmetry α).transform_tag c 1 = .ok c' →
          (mirror axis gv : symmetry α).phase_shift_tag c' 1 = .ok ps →
          (v.round_float rf).beq (v'.round_float rf) = false →
            (mirror axis gv : symmetry α).reduce inva rf [⟨v, c, w1⟩, ⟨v', c', w2⟩]
              = .ok (if w1 + w2 * ps = 0 then [] else [⟨v, c, w1 + w2 * ps⟩]) := by
  obtain ⟨v0, c0, ps0, e1, e2, e3, h⟩ :=
    @reduce_mirror_pair_exists α _ _ _ axis gv inva rf v c w1 w2 h1 h2 hw
  refine ⟨⟨v0, c0, ps0, e1, e2, e3⟩, fun v' c' ps a1 a2 a3 hne => ?_⟩
  have q1 : v' = v0 := Res.ok.inj (a1.symm.trans e1)
  have q2 : c' = c0 := Res.ok.inj (a2.symm.trans e2)
  subst q1
  subst q2
  have q3 : ps = ps0 := Res.ok.inj (a3.symm.trans e3)
  subst q3
  exact h hne

/-- The mirror of `x` about `x = 0` on a 2-D grid, the square `[0,1] x [0,1]`, the component
`Ex` and the weights `3` and `5`: the image of the square is `[-1,0] x [0,1]`, the sign of
`Ex` is `-1`. -/
theorem reduce_mirror_pair_witness :
    (3 : Rat) ≠ 0
      ∧ (mirror .X ⟨.D2, 2, 1, 0, ⟨.D2, -2, 0, 0, 0, 0⟩⟩ : symmetry Rat).reduce 1 (fun q => q)
          [⟨⟨.D2, ⟨.D2, 0, 0, 0, 0, 0⟩, ⟨.D2, 1, 1, 0, 0, 0⟩⟩, .field .Ex, 3⟩,
            ⟨⟨.D2, ⟨.D2, -1, 0, 0, 0, 0⟩, ⟨.D2, 0, 1, 0, 0, 0⟩⟩, .field .Ex, 5⟩]
        = .ok (if (3 : Rat) + 5 * (-1) = 0 then []
            else [⟨⟨.D2, ⟨.D2, 0, 0, 0, 0, 0⟩, ⟨.D2, 1, 1, 0, 0, 0⟩⟩, .field .Ex,
              3 + 5 * (-1)⟩]) :=
  ⟨by decide!,
    (reduce_mirror_pair .X ⟨.D2, 2, 1, 0, ⟨.D2, -2, 0, 0, 0, 0⟩⟩ 1 (fun q => q)
      ⟨.D2, ⟨.D2, 0, 0, 0, 0, 0⟩, ⟨.D2, 1, 1, 0, 0, 0⟩⟩ (.field .Ex) (3 : Rat) 5 rfl rfl
      (by decide!)).2 ⟨.D2, ⟨.D2, -1, 0, 0, 0, 0⟩, ⟨.D2, 0, 1, 0, 0, 0⟩⟩ (.field .Ex) (-1)
      (by decide!) (by decide!) (by decide!) (by decide!)⟩

/-- C14 (as stated) fails for `w1 = 0`: under the mirror of `x` about `x = 0` on a 2-D grid,
with `v` the square `[0,1] x [0,1]`, whose image is `[-1,0] x [0,1]`, the component `Ex`,
whose image is `Ex` and whose sign is `-1`, and the weights `0` and `5`, `reduce` returns the
second node `(v', Ex, 5)` as it is and not `(v, Ex, 0 + 5 * (-1))`: a node of weight zero is
never put on the list, so the second node finds nothing to fold into. -/
theorem reduce_mirror_pair_zero_weight :
    (mirror .X ⟨.D2, 2, 1, 0, ⟨.D2, -2, 0, 0, 0, 0⟩⟩ : symmetry Rat).transform_volume 1
        ⟨.D2, ⟨.D2, 0, 0, 0, 0, 0⟩, ⟨.D2, 1, 1, 0, 0, 0⟩⟩ 1
      = .ok ⟨.D2, ⟨.D2, -1, 0, 0, 0, 0⟩, ⟨.D2, 0, 1, 0, 0, 0⟩⟩
    ∧ (mirror .X ⟨.D2, 2, 1, 0, ⟨.D2, -2, 0, 0, 0, 0⟩⟩ : symmetry Rat).transform_tag
        (.field .Ex) 1 = .ok (.field .Ex)
    ∧ (mirror .X ⟨.D2, 2, 1, 0, ⟨.D2, -2, 0, 0, 0, 0⟩⟩ : symmetry Rat).phase_shift_tag
        (.field .Ex) 1 = .ok (-1)
    ∧ (mirror .X ⟨.D2, 2, 1, 0, ⟨.D2, -2, 0, 0, 0, 0⟩⟩ : symmetry Rat).reduce 1 (fun q => q)
        [⟨⟨.D2, ⟨.D2, 0, 0, 0, 0, 0⟩, ⟨.D2, 1, 1, 0, 0, 0⟩⟩, .field .Ex, 0⟩,
          ⟨⟨.D2, ⟨.D2, -1, 0, 0, 0, 0⟩, ⟨.D2, 0, 1, 0, 0, 0⟩⟩, .field .Ex, 5⟩]
      = .ok [⟨⟨.D2, ⟨.D2, -1, 0, 0, 0, 0⟩, ⟨.D2, 0, 1, 0, 0, 0⟩⟩, .field .Ex, 5⟩]
    ∧ (mirror .X ⟨.D2, 2, 1, 0, ⟨.D2, -2, 0, 0, 0, 0⟩⟩ : symmetry Rat).reduce 1 (fun q => q)
        [⟨⟨.D2, ⟨.D2, 0, 0, 0, 0, 0⟩, ⟨.D2, 1, 1, 0, 0, 0⟩⟩, .field .Ex, 0⟩,
          ⟨⟨.D2, ⟨.D2, -1, 0, 0, 0, 0⟩, ⟨.D2, 0, 1, 0, 0, 0⟩⟩, .field .Ex, 5⟩]
      ≠ .ok [⟨⟨.D2, ⟨.D2, 0, 0, 0, 0, 0⟩, ⟨.D2, 1, 1, 0, 0, 0⟩⟩, .field .Ex, 0 + 5 * (-1)⟩] := by
  decide!

/-- The symmetry point of `mirror(axis, gv)` on a 2-D grid. -/
theorem mirror_symmetry_point_D2 {α : Type} [One α] (axis : direction) (gv : grid_volume)
    (inva : Rat) (hd : gv.dim = .D2) :
    (mirror axis gv : symmetry α).symmetry_point inva
      = ⟨.D2, (gv.icenter.x : Rat) * ((1 / 2) * inva), (gv.icenter.y : Rat) * ((1 / 2) * inva),
          0, 0, 0⟩ := by
  have h := icenter_dim gv
  rw [hd] at h
  show gv.icenter.scale_double _ = _
  generalize gv.icenter = ic at *
  obtain ⟨dim, x, y, z, r, p⟩ := ic
  simp only at h
  subst h
  simp [ivec.scale_double, loop_over_directions, vec.set_direction, zero_vec,
    ivec.in_direction]

/-- A volume passes the test `operator==` against itself. -/
theorem volume_beq_self (a : volume) : a.beq a = true := by
  simp [volume.beq, vec.beq]

/-- C13 (amended): for the mirror of `x` about `x = 0` on a 2-D grid (`icenter().x = 0`),
at every resolution and with every rounding, `reduce` of the one-node list {volume
`x in [-1,1]`, `y in [0,1]`; component `Ez`; weight `1`} returns exactly one node, with
component `Ez`, weight `2` and the volume `x in [-1,0]`, `y in [0,1]`: the halving keeps
`min` and moves `max` to the middle. -/
theorem reduce_mirror_example (gv : grid_volume) (inva : Rat) (rf : Rat → Rat)
    (hd : gv.dim = .D2) (hx : gv.icenter.x = 0) :
    (mirror .X gv : symmetry Rat).reduce inva rf
        [⟨volume.of_corners ⟨.D2, -1, 0, 0, 0, 0⟩ ⟨.D2, 1, 1, 0, 0, 0⟩, .field .Ez, 1⟩]
      = .ok [⟨⟨.D2, ⟨.D2, -1, 0, 0, 0, 0⟩, ⟨.D2, 0, 1, 0, 0, 0⟩⟩, .field .Ez, 2⟩] := by
  have hv : volume.of_corners ⟨.D2, -1, 0, 0, 0, 0⟩ ⟨.D2, 1, 1, 0, 0, 0⟩
      = ⟨.D2, ⟨.D2, -1, 0, 0, 0, 0⟩, ⟨.D2, 1, 1, 0, 0, 0⟩⟩ := by decide!
  have hv0 : volume.of_corners ⟨.D2, -1, 0, 0, 0, 0⟩ ⟨.D2, 1, 1, 0, 0, 0⟩
      = volume.of_corners (⟨.D2, ⟨.D2, -1, 0, 0, 0, 0⟩, ⟨.D2, 1, 1, 0, 0, 0⟩⟩ : volume).min_corner
          (⟨.D2, ⟨.D2, -1, 0, 0, 0, 0⟩, ⟨.D2, 1, 1, 0, 0, 0⟩⟩ : volume).max_corner := rfl
  have e1 : (mirror .X gv : symmetry Rat).transform_volume inva
      ⟨.D2, ⟨.D2, -1, 0, 0, 0, 0⟩, ⟨.D2, 1, 1, 0, 0, 0⟩⟩ 1
        = .ok ⟨.D2, ⟨.D2, -1, 0, 0, 0, 0⟩, ⟨.D2, 1, 1, 0, 0, 0⟩⟩ := by
    simp only [symmetry.transform_volume, symmetry.transform_vec, one_ne_zero, if_false,
      mirror_transform_one, mirror_symmetry_point_D2 .X gv inva hd, hx]
    simp [loop_over_directions, bind_ok, vec.set_direction, vec.in_direction, vec.add,
      volume.of_corners, vec_min, vec_max, zero_vec]
  have mult : (mirror .X gv : symmetry Rat).multiplicity = 2 := rfl
  have hl0 : loop_from_zero 2 = [0, 1] := rfl
  have hl1 : loop_from_one 2 = [1] := rfl
  have hps : (mirror .X gv : symmetry Rat).phase_shift_tag (.field .Ez) 1 = .ok 1 := by
    simp [symmetry.phase_shift_tag, symmetry.phase_shift, mirror_transform_one, bind_ok,
      component_direction, is_magnetic, is_B]
  have hff : (mirror .X gv : symmetry Rat).first_flipped 1 (loop_over_directions .D2)
      = .ok (some .X) := by
    simp [symmetry.first_flipped, loop_over_directions, mirror_transform_one, bind_ok]
  have hh : (⟨.D2, ⟨.D2, -1, 0, 0, 0, 0⟩, ⟨.D2, 1, 1, 0, 0, 0⟩⟩ : volume).halve [.X]
      = ⟨.D2, ⟨.D2, -1, 0, 0, 0, 0⟩, ⟨.D2, 0, 1, 0, 0, 0⟩⟩ := by decide!
  rw [hv]
  simp only [symmetry.reduce, symmetry.reduce_fold, mult, hl0]
  simp only [symmetry.reduce_match_loop, transform_volume_zero, ← hv0, hv, e1,
    transform_tag_zero, mirror_transform_tag, bind_ok, List.any_nil, Bool.false_eq_true,
    if_false]
  rw [if_pos (by norm_num), bind_ok]
  simp only [symmetry.reduce_prune, symmetry.reduce_self, mult, hl1]
  simp only [symmetry.reduce_self_loop, mirror_transform_tag, bind_ok, if_true, e1,
    volume_beq_self, hff, hps, hh]
  norm_num [bind_ok]

/-- The 2-D grid of `2 x 1` cells whose origin is `(-2, 0)`: its `icenter()` is `(0, 2)`. -/
theorem reduce_mirror_example_witness :
    (⟨.D2, 2, 1, 0, ⟨.D2, -2, 0, 0, 0, 0⟩⟩ : grid_volume).dim = .D2
      ∧ (⟨.D2, 2, 1, 0, ⟨.D2, -2, 0, 0, 0, 0⟩⟩ : grid_volume).icenter.x = 0
      ∧ (mirror .X ⟨.D2, 2, 1, 0, ⟨.D2, -2, 0, 0, 0, 0⟩⟩ : symmetry Rat).reduce 1 (fun q => q)
          [⟨volume.of_corners ⟨.D2, -1, 0, 0, 0, 0⟩ ⟨.D2, 1, 1, 0, 0, 0⟩, .field .Ez, 1⟩]
        = .ok [⟨⟨.D2, ⟨.D2, -1, 0, 0, 0, 0⟩, ⟨.D2, 0, 1, 0, 0, 0⟩⟩, .field .Ez, 2⟩] :=
  ⟨rfl, by decide,
    reduce_mirror_example ⟨.D2, 2, 1, 0, ⟨.D2, -2, 0, 0, 0, 0⟩⟩ 1 (fun q => q) rfl (by decide)⟩

/-- C13 (as stated) fails: for the mirror of `x` about `x = 0` on the 2-D grid of `2 x 1`
cells with origin `(-2, 0)`, `reduce` of the one-node list {volume `x in [-1,1]`,
`y in [0,1]`; component `Ez`; weight `1`} does not return the node with the volume
`x in [0,1]`, `y in [0,1]`. -/
theorem reduce_mirror_example_not_upper_half :
    (mirror .X ⟨.D2, 2, 1, 0, ⟨.D2, -2, 0, 0, 0, 0⟩⟩ : symmetry Rat).reduce 1 (fun q => q)
        [⟨volume.of_corners ⟨.D2, -1, 0, 0, 0, 0⟩ ⟨.D2, 1, 1, 0, 0, 0⟩, .field .Ez, 1⟩]
      ≠ .ok [⟨⟨.D2, ⟨.D2, 0, 0, 0, 0, 0⟩, ⟨.D2, 1, 1, 0, 0, 0⟩⟩, .field .Ez, 2⟩] := by
  decide!

/-! ## Normal direction, measures and traversal order -/

/-- The value of `normal_direction` in 2-D, 3-D and cylindrical coordinates, for a
normalised volume in 3-D: the active direction of zero extent when the extents along the
other active directions are positive, `NO_DIRECTION` when there is no such direction. -/
theorem normal_direction_codim_one (v : volume) (h1 : v.dim ≠ .D1)
    (h3 : v.dim = .D3 → v.normalised) :
    (∀ d ∈ loop_over_directions v.dim,
        (v.in_direction d = 0
          ∧ ∀ d2 ∈ loop_over_directions v.dim, d2 ≠ d → 0 < v.in_direction d2) →
        v.normal_direction = d)
      ∧ ((¬ ∃ d ∈ loop_over_directions v.dim,
            v.in_direction d = 0
              ∧ ∀ d2 ∈ loop_over_directions v.dim, d2 ≠ d → 0 < v.in_direction d2) →
          v.normal_direction = .NO_DIRECTION) := by
  obtain ⟨dim, lo, hi⟩ := v
  cases dim
  · exact absurd rfl h1
  · simp only [loop_over_directions, volume.normal_direction, List.mem_cons,
      List.mem_singleton, List.not_mem_nil, or_false, forall_eq_or_imp, forall_eq,
      exists_eq_or_imp, exists_eq_left, ne_eq, reduceCtorEq, not_false_eq_true, true_implies,
      not_true_eq_false, false_implies, true_and, and_true]
    refine ⟨⟨fun h => ?_, fun h => ?_⟩, fun h => ?_⟩
    · rw [if_pos ⟨h.1, h.2⟩]
    · rw [if_neg (fun q => by linarith [q.2, h.1]), if_pos ⟨h.2, h.1⟩]
    · rw [if_neg (fun q => h (Or.inl q)), if_neg (fun q => h (Or.inr ⟨q.2, q.1⟩))]
  · have hn := h3 rfl
    have hx := hn .X (by simp [loop_over_directions])
    have hy := hn .Y (by simp [loop_over_directions])
    have hz := hn .Z (by simp [loop_over_directions])
    simp only [volume.in_direction_min, volume.in_direction_max] at hx hy hz
    simp only [loop_over_directions, volume.normal_direction, List.mem_cons,
      List.mem_singleton, List.not_mem_nil, or_false, forall_eq_or_imp, forall_eq,
      exists_eq_or_imp, exists_eq_left, ne_eq, reduceCtorEq, not_false_eq_true, true_implies,
      not_true_eq_false, false_implies, true_and, and_true, volume.in_direction,
      volume.in_direction_min, volume.in_direction_max] at *
    have ex : hi.in_direction .X - lo.in_direction .X = 0
        ∨ (0 < hi.in_direction .X - lo.in_direction .X
          ∧ hi.in_direction .X - lo.in_direction .X ≠ 0) := by
      rcases eq_or_lt_of_le hx with h | h
      · left; linarith
      · right; exact ⟨by linarith, fun q => by linarith⟩
    have ey : hi.in_direction .Y - lo.in_direction .Y = 0
        ∨ (0 < hi.in_direction .Y - lo.in_direction .Y
          ∧ hi.in_direction .Y - lo.in_direction .Y ≠ 0) := by
      rcases eq_or_lt_of_le hy with h | h
      · left; linarith
      · right; exact ⟨by linarith, fun q => by linarith⟩
    have ez : hi.in_direction .Z - lo.in_direction .Z = 0
        ∨ (0 < hi.in_direction .Z - lo.in_direction .Z
          ∧ hi.in_direction .Z - lo.in_direction .Z ≠ 0) := by
      rcases eq_or_lt_of_le hz with h | h
      · left; linarith
      · right; exact ⟨by linarith, fun q => by linarith⟩
    rcases ex with ex | ex <;> rcases ey with ey | ey <;> rcases ez with ez | ez <;>
      simp [ex, ey, ez]
  · simp only [loop_over_directions, volume.normal_direction, List.mem_cons,
      List.mem_singleton, List.not_mem_nil, or_false, forall_eq_or_imp, forall_eq,
      exists_eq_or_imp, exists_eq_left, ne_eq, reduceCtorEq, not_false_eq_true, true_implies,
      not_true_eq_false, false_implies, true_and, and_true]
    refine ⟨⟨fun h => ?_, fun h => ?_⟩, fun h => ?_⟩
    · rw [if_neg (fun q => by linarith [q.2, h.1]), if_pos ⟨h.2, h.1⟩]
    · rw [if_pos ⟨h.1, h.2⟩]
    · rw [if_neg (fun q => h (Or.inr q)), if_neg (fun q => h (Or.inl ⟨q.2, q.1⟩))]

/-- The value of `normal_direction` in every dimension. The case `D1` of the switch is the
assignment `d = Z` with no test of the extent. In 2-D and in cylindrical coordinates, and in
3-D for a volume whose corners are ordered, the method returns the active direction `d` of
zero extent when the extent along every other active direction is positive, and
`NO_DIRECTION` when there is no such direction. -/
theorem normal_direction_spec (v : volume) (h3 : v.dim = .D3 → v.normalised) :
    (v.dim = .D1 → v.normal_direction = .Z)
      ∧ (v.dim ≠ .D1 →
          (∀ d ∈ loop_over_directions v.dim,
              (v.in_direction d = 0
                ∧ ∀ d2 ∈ loop_over_directions v.dim, d2 ≠ d → 0 < v.in_direction d2) →
              v.normal_direction = d)
            ∧ ((¬ ∃ d ∈ loop_over_directions v.dim,
                  v.in_direction d = 0
                    ∧ ∀ d2 ∈ loop_over_directions v.dim, d2 ≠ d → 0 < v.in_direction d2) →
                v.normal_direction = .NO_DIRECTION)) := by
  refine ⟨fun h => ?_, fun h1 => normal_direction_codim_one v h1 h3⟩
  obtain ⟨dim, lo, hi⟩ := v
  cases h
  rfl

/-- The 2-D volume with corners `(0, 0)` and `(0, 3)` has normal direction `X`. -/
theorem normal_direction_spec_witness :
    (volume.of_corners ⟨.D2, 0, 0, 0, 0, 0⟩ ⟨.D2, 0, 3, 0, 0, 0⟩).normal_direction = .X :=
  ((normal_direction_spec (volume.of_corners ⟨.D2, 0, 0, 0, 0, 0⟩ ⟨.D2, 0, 3, 0, 0, 0⟩)
    (fun h => absurd h (by decide))).2 (by decide)).1 .X (by decide)
    ⟨by decide!, by
      intro d2 hd2 hne
      simp only [volume.of_corners, loop_over_directions, List.mem_cons, List.mem_singleton,
        List.not_mem_nil, or_false] at hd2
      rcases hd2 with rfl | rfl
      · exact absurd rfl hne
      · decide!⟩

/-- C21 fails in 1-D, where the code departs from the claim and from the comment above the
method ("Return normal direction to grid_volume, if the grid_volume is dim-1 dimensional;
otherwise, return NO_DIRECTION"): the 1-D volume `[0, 1]` has the positive extent `1` along
its only active direction `Z`, so no active direction has zero extent, and
`normal_direction` returns `Z`, not `NO_DIRECTION`. The branches for 2-D, 3-D and
cylindrical coordinates test the extents; the branch `case D1: d = Z` does not. -/
theorem normal_direction_one_dimension :
    (volume.of_corners ⟨.D1, 0, 0, 0, 0, 0⟩ ⟨.D1, 0, 0, 1, 0, 0⟩).in_direction .Z = 1
      ∧ loop_over_directions (volume.of_corners ⟨.D1, 0, 0, 0, 0, 0⟩ ⟨.D1, 0, 0, 1, 0, 0⟩).dim
          = [.Z]
      ∧ (volume.of_corners ⟨.D1, 0, 0, 0, 0, 0⟩ ⟨.D1, 0, 0, 1, 0, 0⟩).normal_direction = .Z
      ∧ (volume.of_corners ⟨.D1, 0, 0, 0, 0, 0⟩ ⟨.D1, 0, 0, 1, 0, 0⟩).normal_direction
          ≠ .NO_DIRECTION := by
  refine ⟨by decide!, rfl, rfl, by decide⟩

theorem computational_volume_prod (v : volume) :
    v.computational_volume = ((loop_over_directions v.dim).map v.in_direction).prod := by
  obtain ⟨dim, lo, hi⟩ := v
  cases dim <;>
    simp [volume.computational_volume, loop_over_directions, List.foldl, mul_assoc]

theorem integral_volume_nonzero (v : volume) :
    (loop_over_directions v.dim).foldl
      (fun vol d => if v.in_direction d ≠ 0 then vol * v.in_direction d else vol) (1 : Rat)
      ≠ 0 := by
  obtain ⟨dim, lo, hi⟩ := v
  cases dim <;> simp only [loop_over_directions, List.foldl] <;>
    (repeat' split) <;> simp_all

/-- C22 (corrected): `computational_volume` is the product of the extents over the active
directions and `full_volume` is that product, times `pi * (rmax + rmin)` in cylindrical
coordinates. When no active extent is zero `integral_volume` equals `full_volume`; outside
cylindrical coordinates `integral_volume` equals `computational_volume` only then. -/
theorem measures_spec (v : volume) :
    v.computational_volume = ((loop_over_directions v.dim).map v.in_direction).prod
      ∧ (v.dim ≠ .Dcyl → v.full_volume = v.computational_volume)
      ∧ (v.dim = .Dcyl → v.full_volume
          = ((loop_over_directions v.dim).map v.in_direction).prod
            * (pi * (v.in_direction_max .R + v.in_direction_min .R)))
      ∧ ((∀ d ∈ loop_over_directions v.dim, v.in_direction d ≠ 0) →
          v.integral_volume = v.full_volume)
      ∧ (v.dim ≠ .Dcyl →
          (v.integral_volume = v.computational_volume
            ↔ ∀ d ∈ loop_over_directions v.dim, v.in_direction d ≠ 0)) := by
  have hall : (∀ d ∈ loop_over_directions v.dim, v.in_direction d ≠ 0) →
      (loop_over_directions v.dim).foldl
        (fun vol d => if v.in_direction d ≠ 0 then vol * v.in_direction d else vol) (1 : Rat)
        = v.computational_volume := by
    intro h
    obtain ⟨dim, lo, hi⟩ := v
    cases dim <;>
      simp only [loop_over_directions, List.mem_cons, List.mem_singleton, List.not_mem_nil,
        or_false, forall_eq_or_imp, forall_eq] at h <;>
      simp [volume.computational_volume, loop_over_directions, List.foldl, h]
  refine ⟨computational_volume_prod v, fun h => ?_, fun h => ?_, fun h => ?_, fun h => ?_⟩
  · simp [volume.full_volume, h]
  · rw [← computational_volume_prod]
    simp only [volume.full_volume, if_pos h]
  · simp only [volume.integral_volume, volume.full_volume, hall h]
  · constructor
    · intro he
      by_contra hne
      have h0 : v.computational_volume = 0 := by
        rw [computational_volume_prod]
        push_neg at hne
        obtain ⟨d, hd, hz⟩ := hne
        exact List.prod_eq_zero (List.mem_map.mpr ⟨d, hd, hz⟩)
      have h1 := integral_volume_nonzero v
      simp only [volume.integral_volume, if_neg h] at he
      exact h1 (he.trans h0)
    · intro ha
      simp only [volume.integral_volume, if_neg h, hall ha]

/-- C22, an instance: the 3-D box with corners `(0, 0, 0)` and `(1, 2, 3)` has the three
measures equal to `6`. -/
theorem measures_spec_witness :
    (volume.of_corners ⟨.D3, 0, 0, 0, 0, 0⟩ ⟨.D3, 1, 2, 3, 0, 0⟩).integral_volume
        = (volume.of_corners ⟨.D3, 0, 0, 0, 0, 0⟩ ⟨.D3, 1, 2, 3, 0, 0⟩).full_volume
      ∧ (volume.of_corners ⟨.D3, 0, 0, 0, 0, 0⟩ ⟨.D3, 1, 2, 3, 0, 0⟩).full_volume
        = (volume.of_corners ⟨.D3, 0, 0, 0, 0, 0⟩ ⟨.D3, 1, 2, 3, 0, 0⟩).computational_volume
      ∧ (volume.of_corners ⟨.D3, 0, 0, 0, 0, 0⟩ ⟨.D3, 1, 2, 3, 0, 0⟩).computational_volume
        = 6 :=
  ⟨(measures_spec (volume.of_corners ⟨.D3, 0, 0, 0, 0, 0⟩ ⟨.D3, 1, 2, 3, 0, 0⟩)).2.2.2.1
      (by decide!),
    (measures_spec (volume.of_corners ⟨.D3, 0, 0, 0, 0, 0⟩ ⟨.D3, 1, 2, 3, 0, 0⟩)).2.1
      (by decide),
    by decide!⟩

/-- C22, the counterexample: the 2-D volume with corners `(0, 0)` and `(0, 3)` has
`computational_volume` and `full_volume` equal to `0`, the product of its extents, and
`integral_volume` equal to `3`. -/
theorem integral_volume_degenerate :
    (volume.of_corners ⟨.D2, 0, 0, 0, 0, 0⟩ ⟨.D2, 0, 3, 0, 0, 0⟩).computational_volume = 0
      ∧ (volume.of_corners ⟨.D2, 0, 0, 0, 0, 0⟩ ⟨.D2, 0, 3, 0, 0, 0⟩).full_volume = 0
      ∧ (volume.of_corners ⟨.D2, 0, 0, 0, 0, 0⟩ ⟨.D2, 0, 3, 0, 0, 0⟩).integral_volume = 3 := by
  refine ⟨by decide!, by decide!, by decide!⟩

/-- C23: `yucky_direction(n)` for `n = 0, 1, 2` is `P, R, Z` in cylindrical coordinates,
`Z, X, Y` in 2-D and `X, Y, Z` in 3-D (and in 1-D); the product of the three `yucky_num` is
the product of `num_direction(d)` over the active directions; a slot whose direction is not
active has `yucky_num` equal to `1` and `yucky_val` equal to `0`. -/
theorem yucky_spec (gv : grid_volume) (p : ivec) :
    [0, 1, 2].map gv.yucky_direction =
        (match gv.dim with
          | .Dcyl => [.P, .R, .Z]
          | .D2 => [.Z, .X, .Y]
          | .D3 => [.X, .Y, .Z]
          | .D1 => [.X, .Y, .Z])
      ∧ gv.yucky_num 0 * gv.yucky_num 1 * gv.yucky_num 2
          = ((loop_over_directions gv.dim).map gv.num_direction).prod
      ∧ (∀ n : Int, has_direction gv.dim (gv.yucky_direction n) = false → gv.yucky_num n = 1)
      ∧ (∀ n : Int, has_direction p.dim (yucky_dir p.dim n) = false → p.yucky_val n = 0)
      ∧ (∀ n : Int, has_direction gv.dim (gv.yucky_direction n) = true →
          gv.yucky_num n = gv.num_direction (gv.yucky_direction n))
      ∧ (∀ n : Int, has_direction p.dim (yucky_dir p.dim n) = true →
          p.yucky_val n = p.in_direction (yucky_dir p.dim n)) := by
  refine ⟨?_, ?_, fun n h => ?_, fun n h => ?_, fun n h => ?_, fun n h => ?_⟩
  · obtain ⟨dim, n0, n1, n2, io⟩ := gv
    cases dim <;> rfl
  · obtain ⟨dim, n0, n1, n2, io⟩ := gv
    cases dim <;>
      simp [grid_volume.yucky_num, yucky_dir, has_direction, loop_over_directions,
        direction.ofInt, Int.tmod] <;> ring
  · simp only [grid_volume.yucky_direction] at h
    simp [grid_volume.yucky_num, h]
  · simp [ivec.yucky_val, h]
  · simp only [grid_volume.yucky_direction] at h
    simp [grid_volume.yucky_num, grid_volume.yucky_direction, h]
  · simp [ivec.yucky_val, h]

/-- C23, an instance: in 2-D the slot `n = 0` is the inactive direction `Z`. -/
theorem yucky_spec_witness :
    (⟨.D2, 3, 5, 0, zero_ivec .D2⟩ : grid_volume).yucky_num 0 = 1 :=
  (yucky_spec ⟨.D2, 3, 5, 0, zero_ivec .D2⟩ (zero_ivec .D2)).2.2.1 0 (by decide)


/-! ## Ownership, containment and halving -/

/-- C24: for a descriptor with non-negative extents an owned lattice point is contained;
the little corner `io` is contained and not owned (when `io` has the dimension of the
descriptor). -/
theorem owns_contains (gv : grid_volume) (p : ivec)
    (hn : ∀ d ∈ loop_over_directions gv.dim, 0 ≤ gv.num_direction d) :
    (gv.owns p = true → gv.contains p = true)
      ∧ (gv.io.dim = gv.dim → gv.contains gv.io = true ∧ gv.owns gv.io = false) := by
  obtain ⟨dim, n0, n1, n2, ⟨idim, ix, iy, iz, ir, ip⟩⟩ := gv
  obtain ⟨pdim, px, py, pz, pr, pp⟩ := p
  constructor
  · cases dim <;> cases pdim <;>
      simp only [loop_over_directions, List.mem_cons, List.mem_singleton, List.not_mem_nil,
        or_false, forall_eq_or_imp, forall_eq, num_direction_X, num_direction_Y,
        num_direction_Z, num_direction_R] at hn <;>
      simp [grid_volume.owns, grid_volume.contains, ivec.sub, loop_over_directions,
        ivec.set_direction, ivec.in_direction, grid_volume.nx, grid_volume.ny,
        grid_volume.nz, grid_volume.nr] <;>
      intros <;> omega
  · intro hio
    simp only at hio
    subst hio
    cases idim <;>
      simp only [loop_over_directions, List.mem_cons, List.mem_singleton, List.not_mem_nil,
        or_false, forall_eq_or_imp, forall_eq, num_direction_X, num_direction_Y,
        num_direction_Z, num_direction_R] at hn <;>
      simp [grid_volume.owns, grid_volume.contains, ivec.sub, loop_over_directions,
        ivec.set_direction, ivec.in_direction, grid_volume.nx, grid_volume.ny,
        grid_volume.nz, grid_volume.nr] <;> omega

/-- C24, an instance: in the 1-D descriptor of `4` cells at the origin the point `z = 2` is
owned, hence contained, and the little corner is contained and not owned. -/
theorem owns_contains_witness :
    (⟨.D1, 0, 0, 4, zero_ivec .D1⟩ : grid_volume).contains ⟨.D1, 0, 0, 2, 0, 0⟩ = true
      ∧ (⟨.D1, 0, 0, 4, zero_ivec .D1⟩ : grid_volume).contains (zero_ivec .D1) = true
      ∧ (⟨.D1, 0, 0, 4, zero_ivec .D1⟩ : grid_volume).owns (zero_ivec .D1) = false :=
  ⟨(owns_contains ⟨.D1, 0, 0, 4, zero_ivec .D1⟩ ⟨.D1, 0, 0, 2, 0, 0⟩ (by decide)).1
      (by decide),
    (owns_contains ⟨.D1, 0, 0, 4, zero_ivec .D1⟩ ⟨.D1, 0, 0, 2, 0, 0⟩ (by decide)).2 rfl⟩

/-- C26: for a descriptor with non-negative extents whose origin has its dimension, and an
active direction `d`: `icenter() - io` is even along `d`, `halve(d)` sets the extent along
`d` to exactly half of it, the big corner of the halved descriptor along `d` is `icenter_d`,
and the halved descriptor contains `icenter()`. -/
theorem halve_spec (gv : grid_volume) (d : direction) (hio : gv.io.dim = gv.dim)
    (hn : ∀ d2 ∈ loop_over_directions gv.dim, 0 ≤ gv.num_direction d2)
    (hd : d ∈ loop_over_directions gv.dim) :
    (gv.icenter.in_direction d - gv.io.in_direction d) % 2 = 0
      ∧ (gv.halve d).num_direction d * 2 = gv.icenter.in_direction d - gv.io.in_direction d
      ∧ (gv.halve d).big_corner.in_direction d = gv.icenter.in_direction d
      ∧ (gv.halve d).contains gv.icenter = true := by
  obtain ⟨dim, n0, n1, n2, ⟨idim, ix, iy, iz, ir, ip⟩⟩ := gv
  simp only at hio
  subst hio
  have e2 : ∀ t : Int, 0 ≤ t → (t + t.tmod 2).tdiv 2 * 2 = t + t.tmod 2 := by
    intro t ht
    rw [Int.tmod_eq_emod ht (by decide), Int.tdiv_eq_ediv (by omega) (by decide)]
    omega
  have e3 : ∀ t : Int, 0 ≤ t → (t + t.tmod 2) % 2 = 0 ∧ 0 ≤ t.tmod 2 ∧ t.tmod 2 ≤ 1 := by
    intro t ht
    rw [Int.tmod_eq_emod ht (by decide)]
    omega
  have t0 : Int.tmod 0 3 = 0 := rfl
  have t1 : Int.tmod 1 3 = 1 := rfl
  have t2 : Int.tmod 2 3 = 2 := rfl
  have t3 : Int.tmod 3 3 = 0 := rfl
  cases idim <;>
    simp only [loop_over_directions, List.mem_cons, List.mem_singleton, List.not_mem_nil,
      or_false, forall_eq_or_imp, forall_eq, num_direction_X, num_direction_Y,
      num_direction_Z, num_direction_R] at hn hd <;>
    (try obtain ⟨hn0, hn1, hn2⟩ := hn) <;> (try obtain ⟨hn0, hn1⟩ := hn) <;>
    (try have a0 := e2 n0 (by assumption)) <;> (try have b0 := e3 n0 (by assumption)) <;>
    (try have a1 := e2 n1 (by assumption)) <;> (try have b1 := e3 n1 (by assumption)) <;>
    (try have a2 := e2 n2 (by assumption)) <;> (try have b2 := e3 n2 (by assumption)) <;>
    rcases hd with rfl | rfl | rfl <;>
    simp [grid_volume.halve, grid_volume.icenter, grid_volume.big_corner,
      grid_volume.contains, grid_volume.set_num_direction, grid_volume.set_num,
      grid_volume.num_direction, grid_volume.num, direction.toInt,
      ivec.add, ivec.sub, ivec.scale, ivec.round_up_to_even, ivec_of_nums, zero_ivec,
      loop_over_directions, ivec.set_direction, ivec.in_direction, grid_volume.nx,
      grid_volume.ny, grid_volume.nz, grid_volume.nr, t0, t1, t2, t3, *] <;>
    omega


/-- C26, an instance: the 3-D descriptor `3 x 4 x 5` halved along `X` has `2` cells along
`X`. -/
theorem halve_spec_witness :
    ((⟨.D3, 3, 4, 5, zero_ivec .D3⟩ : grid_volume).icenter.in_direction .X
        - (⟨.D3, 3, 4, 5, zero_ivec .D3⟩ : grid_volume).io.in_direction .X) % 2 = 0
      ∧ ((⟨.D3, 3, 4, 5, zero_ivec .D3⟩ : grid_volume).halve .X).num_direction .X * 2
        = (⟨.D3, 3, 4, 5, zero_ivec .D3⟩ : grid_volume).icenter.in_direction .X
          - (⟨.D3, 3, 4, 5, zero_ivec .D3⟩ : grid_volume).io.in_direction .X
      ∧ ((⟨.D3, 3, 4, 5, zero_ivec .D3⟩ : grid_volume).halve .X).big_corner.in_direction .X
        = (⟨.D3, 3, 4, 5, zero_ivec .D3⟩ : grid_volume).icenter.in_direction .X
      ∧ ((⟨.D3, 3, 4, 5, zero_ivec .D3⟩ : grid_volume).halve .X).contains
          (⟨.D3, 3, 4, 5, zero_ivec .D3⟩ : grid_volume).icenter = true :=
  halve_spec ⟨.D3, 3, 4, 5, zero_ivec .D3⟩ .X rfl (by decide) (by decide)


/-! ## The scan axis and the cut axis of the effort-weighted splitter -/

theorem effort_axis_cases (gv : grid_volume) :
    gv.effort_axis.2 =
      match gv.dim with
      | .D1 => if gv.num2 > 0 then .Z else .NO_DIRECTION
      | .D2 => if gv.num1 > max gv.num0 0 then .Y
          else if gv.num0 > 0 then .X else .NO_DIRECTION
      | .D3 => if gv.num2 > max (max gv.num0 gv.num1) 0 then .Z
          else if gv.num1 > max gv.num0 0 then .Y
          else if gv.num0 > 0 then .X else .NO_DIRECTION
      | .Dcyl => if gv.num0 > max gv.num2 0 then .R
          else if gv.num2 > 0 then .Z else .NO_DIRECTION := by
  obtain ⟨dim, n0, n1, n2, io⟩ := gv
  cases dim <;>
    simp only [grid_volume.effort_axis, loop_over_directions, List.foldl, num_direction_X,
      num_direction_Y, num_direction_Z, num_direction_R]
  · split_ifs <;> rfl
  · by_cases h0 : n0 > 0 <;> by_cases h1 : n1 > n0 <;> by_cases h1' : n1 > 0 <;>
      simp [h0, h1, h1'] <;> omega
  · by_cases h0 : n0 > 0 <;> by_cases h1 : n1 > n0 <;> by_cases h1' : n1 > 0 <;>
      by_cases h2 : n2 > n1 <;> by_cases h2' : n2 > n0 <;> by_cases h2'' : n2 > 0 <;>
      simp [h0, h1, h1', h2, h2', h2''] <;> omega
  · by_cases h0 : n0 > 0 <;> by_cases h1 : n0 > n2 <;> by_cases h1' : n2 > 0 <;>
      simp [h0, h1, h1'] <;> omega

/-- C30 (code_bug): for a descriptor of `vol1d`/`vol2d`/`vol3d`/`volcyl`-style construction
whose longest extent is at least `2`, the axis `split_by_effort` scans is the axis
`split_at_fraction` cuts, except for a cylindrical descriptor with equal `r` and `z`
extents: there the scan runs along `Z` and the cut is made along `R`. -/
theorem effort_axis_split_direction (gv : grid_volume) (hwf : gv.wf) (h2 : 2 ≤ gv.biglen) :
    (gv.dim = .Dcyl ∧ gv.num0 = gv.num2 →
        gv.effort_axis.2 = .Z ∧ gv.split_direction = .R)
      ∧ (¬ (gv.dim = .Dcyl ∧ gv.num0 = gv.num2) →
          gv.effort_axis.2 = gv.split_direction) := by
  have hb := best_cases gv
  have he := effort_axis_cases gv
  rw [biglen_eq] at h2
  simp only [grid_volume.split_direction]
  obtain ⟨dim, n0, n1, n2, io⟩ := gv
  obtain ⟨-, h0, h1, h2n, hd1, hd2, hdc⟩ := hwf
  simp only at h0 h1 h2n hd1 hd2 hdc h2 hb he ⊢
  rw [he]
  have hm : 2 ≤ n0 ∨ 2 ≤ n1 ∨ 2 ≤ n2 := by
    rcases le_max_iff.mp h2 with h | h
    · omega
    · rcases le_max_iff.mp h with h | h
      · exact Or.inl h
      · rcases le_max_iff.mp h with h | h
        · exact Or.inr (Or.inl h)
        · exact Or.inr (Or.inr h)
  cases dim <;>
    simp only [reduceCtorEq, false_implies, true_implies, false_and, true_and,
      not_false_eq_true, and_true] at hd1 hd2 hdc ⊢ <;>
    (try obtain ⟨rfl, rfl⟩ := hd1) <;> (try subst hd2) <;> (try subst hdc) <;>
    rcases hb with ⟨hb, q⟩ | ⟨hb, q⟩ | ⟨hb, q⟩ | ⟨hb, q⟩ <;> rw [hb] <;>
    simp only [max_def] <;>
    (try constructor) <;> (try intro hq) <;>
    split_ifs <;>
    first
      | omega
      | rfl
      | (exfalso; omega)
      | (simp [direction.ofInt] at *)

/-- C30, an instance: in the cylindrical descriptor with `nr = nz = 4` the scan runs along
`Z` and the cut is made along `R`. -/
theorem effort_axis_split_direction_witness :
    (⟨.Dcyl, 4, 0, 4, zero_ivec .Dcyl⟩ : grid_volume).effort_axis.2 = .Z
      ∧ (⟨.Dcyl, 4, 0, 4, zero_ivec .Dcyl⟩ : grid_volume).split_direction = .R :=
  (effort_axis_split_direction ⟨.Dcyl, 4, 0, 4, zero_ivec .Dcyl⟩ (by decide) (by decide)).1
    ⟨rfl, rfl⟩


/-- With an effort of `1e20` on every point no candidate split point of `split_by_effort`
beats the initial measure `1e20`: the high part for the split point `0` is the descriptor
itself and the call repeats itself with the same arguments. -/
theorem split_by_effort_huge_effort (fuel : Nat) :
    grid_volume.split_by_effort_fuel fuel ⟨.D1, 0, 0, 4, zero_ivec .D1⟩ 2 0
      [(⟨.D1, 0, 0, 4, zero_ivec .D1⟩, (10 : Rat) ^ 20)] = .nofuel := by
  induction fuel with
  | zero => rfl
  | succ k ih =>
    have hs : (⟨.D1, 0, 0, 4, zero_ivec .D1⟩ : grid_volume).scan 2
        [(⟨.D1, 0, 0, 4, zero_ivec .D1⟩, (10 : Rat) ^ 20)] = ⟨(10 : Rat) ^ 20, 0, some 0⟩ := by
      decide!
    have hn : (⟨.D1, 0, 0, 4, zero_ivec .D1⟩ : grid_volume).nowned_min = 4 := by decide
    have ha : (⟨.D1, 0, 0, 4, zero_ivec .D1⟩ : grid_volume).effort_axis.1 = 4 := by decide
    have hf : (⟨.D1, 0, 0, 4, zero_ivec .D1⟩ : grid_volume).split_at_fraction true 0
        = .ok ⟨.D1, 0, 0, 4, zero_ivec .D1⟩ := by decide
    have ht : trunc ((0 : Rat) * ((2 : Int) : Rat) + 1 / 2) = 0 := by decide!
    rw [grid_volume.split_by_effort_fuel]
    simp only [hs, hn, ha, hf, ht]
    norm_num [bind_ok]
    exact ih

/-- C29 (code_bug): the cylindrical descriptor with `nr = nz = 4` has `16` grid points and
the effort table with the single region `nr = 1, nz = 2` of effort `1` overlaps it; the scan
of `split_by_effort` for `n = 4` runs along `Z` and picks the split point `1` with
`num_low = 2`, the cut is made along `R`, so the high part has no overlap with the table, its
scan divides `0` by `0`, and the calls for `which = 2` and `which = 3` end in the undefined
cast of that quotient to `int`; the call for `which = 0` returns. Moreover, for the 1-D
descriptor of `4` cells and the table with that descriptor at effort `1e20`, no candidate
beats the initial measure `1e20`, the split point stays `0` and the call for `n = 2` repeats
itself: no amount of fuel gives a result. -/
theorem split_by_effort_cylindrical :
    (⟨.Dcyl, 4, 0, 4, zero_ivec .Dcyl⟩ : grid_volume).wf
      ∧ (⟨.Dcyl, 4, 0, 4, zero_ivec .Dcyl⟩ : grid_volume).nowned_min = 16
      ∧ ((⟨.Dcyl, 4, 0, 4, zero_ivec .Dcyl⟩ : grid_volume).intersect_with
          ⟨.Dcyl, 1, 0, 2, zero_ivec .Dcyl⟩).isSome = true
      ∧ (⟨.Dcyl, 4, 0, 4, zero_ivec .Dcyl⟩ : grid_volume).scan 4
          [(⟨.Dcyl, 1, 0, 2, zero_ivec .Dcyl⟩, 1)] = ⟨2, 1, some (1 / 2)⟩
      ∧ (⟨.Dcyl, 4, 0, 4, zero_ivec .Dcyl⟩ : grid_volume).split_at_fraction true 1
          = .ok ⟨.Dcyl, 3, 0, 4, ⟨.Dcyl, 0, 0, 0, 2, 0⟩⟩
      ∧ (⟨.Dcyl, 3, 0, 4, ⟨.Dcyl, 0, 0, 0, 2, 0⟩⟩ : grid_volume).intersect_with
          ⟨.Dcyl, 1, 0, 2, zero_ivec .Dcyl⟩ = none
      ∧ ((⟨.Dcyl, 3, 0, 4, ⟨.Dcyl, 0, 0, 0, 2, 0⟩⟩ : grid_volume).scan 2
          [(⟨.Dcyl, 1, 0, 2, zero_ivec .Dcyl⟩, 1)]).left_effort_fraction = none
      ∧ (⟨.Dcyl, 4, 0, 4, zero_ivec .Dcyl⟩ : grid_volume).split_by_effort 4 2
          [(⟨.Dcyl, 1, 0, 2, zero_ivec .Dcyl⟩, 1)] = .undef
      ∧ (⟨.Dcyl, 4, 0, 4, zero_ivec .Dcyl⟩ : grid_volume).split_by_effort 4 3
          [(⟨.Dcyl, 1, 0, 2, zero_ivec .Dcyl⟩, 1)] = .undef
      ∧ (⟨.Dcyl, 4, 0, 4, zero_ivec .Dcyl⟩ : grid_volume).split_by_effort 4 0
          [(⟨.Dcyl, 1, 0, 2, zero_ivec .Dcyl⟩, 1)]
          = .ok ⟨.Dcyl, 1, 0, 1, zero_ivec .Dcyl⟩
      ∧ ∀ fuel : Nat,
          grid_volume.split_by_effort_fuel fuel ⟨.D1, 0, 0, 4, zero_ivec .D1⟩ 2 0
            [(⟨.D1, 0, 0, 4, zero_ivec .D1⟩, (10 : Rat) ^ 20)] = .nofuel := by
  refine ⟨by decide, by decide, by decide, by decide!, by decide!, by decide!, by decide!,
    by decide!, by decide!, by decide!, split_by_effort_huge_effort⟩

/-! ## Intersection of descriptors with the remainder slices -/

/-- The big corner along an active direction is the origin plus twice the extent. -/
theorem big_corner_in_direction (g : grid_volume) (d : direction) (hio : g.io.dim = g.dim)
    (hd : d ∈ loop_over_directions g.dim) :
    g.big_corner.in_direction d = g.io.in_direction d + 2 * g.num_direction d := by
  obtain ⟨dim, n0, n1, n2, ⟨idim, ix, iy, iz, ir, ip⟩⟩ := g
  simp only at hio
  subst hio
  cases idim <;>
    simp only [loop_over_directions, List.mem_cons, List.mem_singleton, List.not_mem_nil,
      or_false] at hd <;>
    rcases hd with rfl | rfl | rfl <;>
    simp [grid_volume.big_corner, ivec.add, ivec.scale, ivec_of_nums, loop_over_directions,
      ivec.set_direction, ivec.in_direction, grid_volume.nx, grid_volume.ny, grid_volume.nz,
      grid_volume.nr] <;> ring

/-- The point count depends on the dimension and the extents along the active directions
only. -/
theorem nowned_min_congr (g h : grid_volume) (hdim : h.dim = g.dim)
    (hnum : ∀ d ∈ loop_over_directions g.dim, h.num_direction d = g.num_direction d) :
    h.nowned_min = g.nowned_min := by
  simp only [grid_volume.nowned_min, hdim]
  generalize loop_over_directions g.dim = l at hnum
  generalize (1 : Int) = acc
  induction l generalizing acc with
  | nil => rfl
  | cons a t ih =>
    simp only [List.foldl]
    rw [hnum a (List.mem_cons_self a t)]
    exact ih (fun d hd => hnum d (List.mem_cons_of_mem a hd)) _

theorem set_num_direction_dim (g : grid_volume) (d : direction) (v : Int) :
    (g.set_num_direction d v).dim = g.dim := by
  simp only [grid_volume.set_num_direction, grid_volume.set_num]
  split_ifs <;> rfl

theorem set_num_direction_io (g : grid_volume) (d : direction) (v : Int) :
    (g.set_num_direction d v).io = g.io := by
  simp only [grid_volume.set_num_direction, grid_volume.set_num]
  split_ifs <;> rfl

theorem set_num_direction_same (g : grid_volume) (d : direction) (v : Int) :
    (g.set_num_direction d v).num_direction d = v := by
  cases d <;> rfl

theorem set_num_direction_other (g : grid_volume) (d e : direction) (v : Int)
    (hd : d ∈ loop_over_directions g.dim) (he : e ∈ loop_over_directions g.dim)
    (hne : e ≠ d) : (g.set_num_direction d v).num_direction e = g.num_direction e := by
  obtain ⟨dim, n0, n1, n2, io⟩ := g
  cases dim <;>
    simp only [loop_over_directions, List.mem_cons, List.mem_singleton, List.not_mem_nil,
      or_false] at hd he <;>
    rcases hd with rfl | rfl | rfl <;> rcases he with rfl | rfl | rfl <;>
    first
      | exact absurd rfl hne
      | rfl

theorem shift_origin_dim (g : grid_volume) (d : direction) (s : Int) :
    (g.shift_origin d s).dim = g.dim := rfl

theorem shift_origin_num (g : grid_volume) (d e : direction) (s : Int) :
    (g.shift_origin d s).num_direction e = g.num_direction e := rfl

theorem shift_origin_io (g : grid_volume) (d : direction) (s : Int) (hio : g.io.dim = g.dim)
    (hd : d ∈ loop_over_directions g.dim) :
    (g.shift_origin d s).io.dim = g.dim
      ∧ (g.shift_origin d s).io.in_direction d = g.io.in_direction d + s
      ∧ ∀ e ∈ loop_over_directions g.dim, e ≠ d →
          (g.shift_origin d s).io.in_direction e = g.io.in_direction e := by
  obtain ⟨dim, n0, n1, n2, ⟨idim, ix, iy, iz, ir, ip⟩⟩ := g
  simp only at hio
  subst hio
  cases idim <;>
    simp only [loop_over_directions, List.mem_cons, List.mem_singleton, List.not_mem_nil,
      or_false] at hd <;>
    rcases hd with rfl | rfl | rfl <;>
    simp [grid_volume.shift_origin, grid_volume.set_origin, unit_ivec, zero_ivec, ivec.add,
      ivec.scale, loop_over_directions, ivec.set_direction, ivec.in_direction] <;>
    ring

/-- The point count is linear in the extent along an active direction: there is a factor
`K`, the product of the extents along the other active directions, that serves every
descriptor which agrees on those. -/
theorem nowned_min_axis (g : grid_volume) (d : direction)
    (hd : d ∈ loop_over_directions g.dim) :
    ∃ K : Int, ∀ h : grid_volume, h.dim = g.dim →
      (∀ e ∈ loop_over_directions g.dim, e ≠ d → h.num_direction e = g.num_direction e) →
      h.nowned_min = h.num_direction d * K := by
  obtain ⟨dim, n0, n1, n2, io⟩ := g
  cases dim <;>
    simp only [loop_over_directions, List.mem_cons, List.mem_singleton, List.not_mem_nil,
      or_false] at hd
  · subst hd
    refine ⟨1, fun h hdim _ => ?_⟩
    simp only at hdim
    simp [grid_volume.nowned_min, hdim, loop_over_directions]
  · rcases hd with rfl | rfl
    · refine ⟨n1, fun h hdim hn => ?_⟩
      simp only at hdim
      have := hn .Y (by simp [loop_over_directions]) (by decide)
      simp only [num_direction_Y] at this
      simp [grid_volume.nowned_min, hdim, loop_over_directions, this]
    · refine ⟨n0, fun h hdim hn => ?_⟩
      simp only at hdim
      have := hn .X (by simp [loop_over_directions]) (by decide)
      simp only [num_direction_X] at this
      simp [grid_volume.nowned_min, hdim, loop_over_directions, this, mul_comm]
  · rcases hd with rfl | rfl | rfl
    · refine ⟨n1 * n2, fun h hdim hn => ?_⟩
      simp only at hdim
      have a := hn .Y (by simp [loop_over_directions]) (by decide)
      have b := hn .Z (by simp [loop_over_directions]) (by decide)
      simp only [num_direction_Y, num_direction_Z] at a b
      simp [grid_volume.nowned_min, hdim, loop_over_directions, a, b, mul_assoc]
    · refine ⟨n0 * n2, fun h hdim hn => ?_⟩
      simp only at hdim
      have a := hn .X (by simp [loop_over_directions]) (by decide)
      have b := hn .Z (by simp [loop_over_directions]) (by decide)
      simp only [num_direction_X, num_direction_Z] at a b
      simp [grid_volume.nowned_min, hdim, loop_over_directions, a, b]
      ring
    · refine ⟨n0 * n1, fun h hdim hn => ?_⟩
      simp only at hdim
      have a := hn .X (by simp [loop_over_directions]) (by decide)
      have b := hn .Y (by simp [loop_over_directions]) (by decide)
      simp only [num_direction_X, num_direction_Y] at a b
      simp [grid_volume.nowned_min, hdim, loop_over_directions, a, b]
      ring
  · rcases hd with rfl | rfl
    · refine ⟨n0, fun h hdim hn => ?_⟩
      simp only at hdim
      have := hn .R (by simp [loop_over_directions]) (by decide)
      simp only [num_direction_R] at this
      simp [grid_volume.nowned_min, hdim, loop_over_directions, this]
    · refine ⟨n2, fun h hdim hn => ?_⟩
      simp only at hdim
      have := hn .Z (by simp [loop_over_directions]) (by decide)
      simp only [num_direction_Z] at this
      simp [grid_volume.nowned_min, hdim, loop_over_directions, this, mul_comm]


/-- The first block of a round of the slicing loop, for an active direction `d` along which
the little corners differ by an even integer: no abort, at most one new slice, the little
corner along `d` becomes the larger one, the big corner is kept, the other active
directions are untouched, and the point counts add up. -/
theorem shave_low_step (vol_in vc : grid_volume) (os : List grid_volume) (d : direction)
    (hd : d ∈ loop_over_directions vc.dim) (hio : vc.io.dim = vc.dim)
    (hlo : (vol_in.little_corner.in_direction d - vc.io.in_direction d) % 2 = 0) :
    ∃ s : grid_volume × List grid_volume,
      grid_volume.shave_low vol_in d (vc, os) = .ok s
        ∧ s.2.length ≤ os.length + 1
        ∧ s.1.dim = vc.dim ∧ s.1.io.dim = vc.dim
        ∧ s.1.io.in_direction d
            = max (vc.io.in_direction d) (vol_in.little_corner.in_direction d)
        ∧ s.1.io.in_direction d + 2 * s.1.num_direction d
            = vc.io.in_direction d + 2 * vc.num_direction d
        ∧ (∀ e ∈ loop_over_directions vc.dim, e ≠ d →
            s.1.io.in_direction e = vc.io.in_direction e
              ∧ s.1.num_direction e = vc.num_direction e)
        ∧ s.1.nowned_min + (s.2.map grid_volume.nowned_min).sum
            = vc.nowned_min + (os.map grid_volume.nowned_min).sum := by
  generalize hl : vol_in.little_corner.in_direction d = l at hlo
  by_cases h : vc.io.in_direction d < l
  · have ht : (l - vc.io.in_direction d).tdiv 2 * 2 = l - vc.io.in_direction d := by
      rw [Int.tdiv_eq_ediv (by omega) (by decide)]
      omega
    generalize hT : (l - vc.io.in_direction d).tdiv 2 = t at ht
    obtain ⟨s1, s2, s3⟩ := shift_origin_io vc d (t * 2) hio hd
    have e : grid_volume.shave_low vol_in d (vc, os)
        = if vc.io.in_direction d < l then
            (if ((vc.shift_origin d (t * 2)).set_num_direction d
                  ((vc.shift_origin d (t * 2)).num_direction d - t)).io.in_direction d < l
              then .fatal
              else .ok ((vc.shift_origin d (t * 2)).set_num_direction d
                  ((vc.shift_origin d (t * 2)).num_direction d - t),
                os ++ [vc.set_num_direction d t]))
          else .ok (vc, os) := by
      rw [← hl, ← hT, ← hl]
      rfl
    have hio2 : ((vc.shift_origin d (t * 2)).set_num_direction d
        ((vc.shift_origin d (t * 2)).num_direction d - t)).io.in_direction d = l := by
      rw [set_num_direction_io, s2]
      omega
    obtain ⟨K, hK⟩ := nowned_min_axis vc d hd
    refine ⟨_, by rw [e, if_pos h, if_neg (by rw [hio2]; exact lt_irrefl l)], ?_, ?_, ?_, ?_,
      ?_, ?_, ?_⟩
    · simp
    · rw [set_num_direction_dim, shift_origin_dim]
    · rw [set_num_direction_io, s1]
    · rw [hio2, max_eq_right (le_of_lt h)]
    · rw [hio2, set_num_direction_same, shift_origin_num]
      omega
    · intro e2 he hne
      simp only
      rw [set_num_direction_io,
        set_num_direction_other (vc.shift_origin d (t * 2)) d e2 _ hd he hne, shift_origin_num]
      exact ⟨s3 e2 he hne, rfl⟩
    · have k0 := hK vc rfl (fun _ _ _ => rfl)
      have k1 := hK ((vc.shift_origin d (t * 2)).set_num_direction d
          ((vc.shift_origin d (t * 2)).num_direction d - t))
        (by rw [set_num_direction_dim, shift_origin_dim])
        (fun e2 he hne => by
          rw [set_num_direction_other (vc.shift_origin d (t * 2)) d e2 _ hd he hne,
            shift_origin_num])
      have k2 := hK (vc.set_num_direction d t) (set_num_direction_dim _ _ _)
        (fun e2 he hne => set_num_direction_other _ _ _ _ hd he hne)
      rw [set_num_direction_same] at k1 k2
      have hs : (vc.shift_origin d (t * 2)).num_direction d = vc.num_direction d := rfl
      simp only [List.map_append, List.sum_append, List.map_cons, List.map_nil, List.sum_cons,
        List.sum_nil, add_zero]
      rw [k0, k1, k2, hs]
      ring
  · have e : grid_volume.shave_low vol_in d (vc, os)
        = if vc.io.in_direction d < l then
            (if ((vc.shift_origin d ((l - vc.io.in_direction d).tdiv 2 * 2)).set_num_direction d
                  ((vc.shift_origin d ((l - vc.io.in_direction d).tdiv 2 * 2)).num_direction d
                    - (l - vc.io.in_direction d).tdiv 2)).io.in_direction d < l
              then .fatal
              else .ok ((vc.shift_origin d
                  ((l - vc.io.in_direction d).tdiv 2 * 2)).set_num_direction d
                  ((vc.shift_origin d ((l - vc.io.in_direction d).tdiv 2 * 2)).num_direction d
                    - (l - vc.io.in_direction d).tdiv 2),
                os ++ [vc.set_num_direction d ((l - vc.io.in_direction d).tdiv 2)]))
          else .ok (vc, os) := by
      rw [← hl]
      rfl
    refine ⟨(vc, os), by rw [e, if_neg h], by simp, rfl, hio, ?_, rfl,
      fun _ _ _ => ⟨rfl, rfl⟩, rfl⟩
    exact (max_eq_left (not_lt.mp h)).symm

/-- The second block of a round of the slicing loop, for an active direction `d` along
which the big corners differ by an even integer: no abort, at most one new slice, the big
corner along `d` becomes the smaller one, the origin and the other active directions are
untouched, and the point counts add up. -/
theorem shave_high_step (vol_in vc : grid_volume) (os : List grid_volume) (d : direction)
    (hd : d ∈ loop_over_directions vc.dim) (hio : vc.io.dim = vc.dim)
    (hhi : (vc.io.in_direction d + 2 * vc.num_direction d
      - vol_in.big_corner.in_direction d) % 2 = 0) :
    ∃ s : grid_volume × List grid_volume,
      grid_volume.shave_high vol_in d (vc, os) = .ok s
        ∧ s.2.length ≤ os.length + 1
        ∧ s.1.dim = vc.dim ∧ s.1.io = vc.io
        ∧ s.1.io.in_direction d + 2 * s.1.num_direction d
            = min (vc.io.in_direction d + 2 * vc.num_direction d)
                (vol_in.big_corner.in_direction d)
        ∧ (∀ e ∈ loop_over_directions vc.dim, e ≠ d →
            s.1.num_direction e = vc.num_direction e)
        ∧ s.1.nowned_min + (s.2.map grid_volume.nowned_min).sum
            = vc.nowned_min + (os.map grid_volume.nowned_min).sum := by
  generalize hb : vol_in.big_corner.in_direction d = b at hhi
  have hbc := big_corner_in_direction vc d hio hd
  by_cases h : vc.big_corner.in_direction d > b
  · have ht : (vc.big_corner.in_direction d - b).tdiv 2 * 2
        = vc.big_corner.in_direction d - b := by
      rw [Int.tdiv_eq_ediv (by omega) (by decide)]
      omega
    generalize hT : (vc.big_corner.in_direction d - b).tdiv 2 = t at ht
    have e : grid_volume.shave_high vol_in d (vc, os)
        = if vc.big_corner.in_direction d > b then
            (if (vc.set_num_direction d (vc.num_direction d - t)).big_corner.in_direction d < b
              then .fatal
              else .ok (vc.set_num_direction d (vc.num_direction d - t),
                os ++ [(vc.set_num_direction d t).shift_origin d
                  ((vc.num_direction d - t) * 2)]))
          else .ok (vc, os) := by
      rw [← hb, ← hT, ← hb]
      rfl
    have hbc2 := big_corner_in_direction (vc.set_num_direction d (vc.num_direction d - t)) d
      (by rw [set_num_direction_io, set_num_direction_dim]; exact hio)
      (by rw [set_num_direction_dim]; exact hd)
    rw [set_num_direction_io, set_num_direction_same] at hbc2
    obtain ⟨K, hK⟩ := nowned_min_axis vc d hd
    refine ⟨_, by rw [e, if_pos h, if_neg (by rw [hbc2]; omega)], ?_, ?_, ?_, ?_, ?_, ?_⟩
    · simp
    · rw [set_num_direction_dim]
    · rw [set_num_direction_io]
    · rw [set_num_direction_io, set_num_direction_same, min_eq_right (by omega)]
      omega
    · intro e2 he hne
      exact set_num_direction_other _ _ _ _ hd he hne
    · have k0 := hK vc rfl (fun _ _ _ => rfl)
      have k1 := hK (vc.set_num_direction d (vc.num_direction d - t))
        (set_num_direction_dim _ _ _)
        (fun e2 he hne => set_num_direction_other _ _ _ _ hd he hne)
      have k2 := hK ((vc.set_num_direction d t).shift_origin d ((vc.num_direction d - t) * 2))
        (by rw [shift_origin_dim, set_num_direction_dim])
        (fun e2 he hne => by
          rw [shift_origin_num, set_num_direction_other _ _ _ _ hd he hne])
      rw [set_num_direction_same] at k1
      rw [shift_origin_num, set_num_direction_same] at k2
      simp only [List.map_append, List.sum_append, List.map_cons, List.map_nil, List.sum_cons,
        List.sum_nil, add_zero]
      rw [k0, k1, k2]
      ring
  · have e : grid_volume.shave_high vol_in d (vc, os)
        = if vc.big_corner.in_direction d > b then
            (if (vc.set_num_direction d (vc.num_direction d
                  - (vc.big_corner.in_direction d - b).tdiv 2)).big_corner.in_direction d < b
              then .fatal
              else .ok (vc.set_num_direction d (vc.num_direction d
                  - (vc.big_corner.in_direction d - b).tdiv 2),
                os ++ [(vc.set_num_direction d
                  ((vc.big_corner.in_direction d - b).tdiv 2)).shift_origin d
                  ((vc.num_direction d - (vc.big_corner.in_direction d - b).tdiv 2) * 2)]))
          else .ok (vc, os) := by
      rw [← hb]
      rfl
    refine ⟨(vc, os), by rw [e, if_neg h], by simp, rfl, rfl, ?_, fun _ _ _ => rfl, rfl⟩
    rw [min_eq_left (by omega)]

/-- One round of the slicing loop for an active direction `d`, under the parity and overlap
conditions along `d`: no abort, at most two new slices, along `d` the remaining descriptor
runs from the larger little corner to the smaller big corner, the other active directions
are untouched, and the point counts add up. -/
theorem shave_step (vol_in vc : grid_volume) (os : List grid_volume) (d : direction)
    (hd : d ∈ loop_over_directions vc.dim) (hio : vc.io.dim = vc.dim)
    (hlo : (vol_in.little_corner.in_direction d - vc.io.in_direction d) % 2 = 0)
    (hhi : (vol_in.big_corner.in_direction d - vc.io.in_direction d) % 2 = 0) :
    ∃ s : grid_volume × List grid_volume,
      grid_volume.shave vol_in (.ok (vc, os)) d = .ok s
        ∧ s.2.length ≤ os.length + 2
        ∧ s.1.dim = vc.dim ∧ s.1.io.dim = vc.dim
        ∧ s.1.io.in_direction d
            = max (vc.io.in_direction d) (vol_in.little_corner.in_direction d)
        ∧ s.1.io.in_direction d + 2 * s.1.num_direction d
            = min (vc.io.in_direction d + 2 * vc.num_direction d)
                (vol_in.big_corner.in_direction d)
        ∧ (∀ e ∈ loop_over_directions vc.dim, e ≠ d →
            s.1.io.in_direction e = vc.io.in_direction e
              ∧ s.1.num_direction e = vc.num_direction e)
        ∧ s.1.nowned_min + (s.2.map grid_volume.nowned_min).sum
            = vc.nowned_min + (os.map grid_volume.nowned_min).sum := by
  obtain ⟨⟨v1, o1⟩, a1, a2, a3, a4, a5, a6, a7, a8⟩ := shave_low_step vol_in vc os d hd hio hlo
  simp only at a2 a3 a4 a5 a6 a7 a8
  obtain ⟨⟨v2, o2⟩, b1, b2, b3, b4, b5, b6, b7⟩ :=
    shave_high_step vol_in v1 o1 d (by rw [a3]; exact hd) (by rw [a4, a3]) (by omega)
  simp only at b2 b3 b4 b5 b6 b7
  refine ⟨(v2, o2), ?_, by simp only; omega, by simp only; rw [b3, a3],
    by simp only; rw [b4, a4], by simp only; rw [b4, a5], by simp only; rw [b5, a6], ?_, ?_⟩
  · simp only [grid_volume.shave, bind_ok, a1, b1]
  · intro e he hne
    simp only
    rw [b4, b6 e (by rw [a3]; exact he) hne]
    exact a7 e he hne
  · simp only
    rw [b7, a8]


/-- The first loop of `grid_volume::intersect_with` when the descriptors overlap with
positive extent along every active direction: the intersection is returned, its little
corner is the larger little corner and its extent half the distance to the smaller big
corner. -/
theorem grid_intersect_with_some (gv vol_in : grid_volume)
    (hov : ∀ d ∈ loop_over_directions gv.dim,
      max (gv.little_corner.in_direction d) (vol_in.little_corner.in_direction d)
        < min (gv.big_corner.in_direction d) (vol_in.big_corner.in_direction d)) :
    ∃ I : grid_volume, gv.intersect_with vol_in = some I ∧ I.dim = gv.dim
      ∧ I.io.dim = gv.dim
      ∧ ∀ d ∈ loop_over_directions gv.dim,
          I.io.in_direction d
              = max (gv.little_corner.in_direction d) (vol_in.little_corner.in_direction d)
            ∧ I.num_direction d
              = (min (gv.big_corner.in_direction d) (vol_in.big_corner.in_direction d)
                - max (gv.little_corner.in_direction d)
                    (vol_in.little_corner.in_direction d)).tdiv 2 := by
  simp only [grid_volume.intersect_with]
  generalize gv.little_corner = la at hov ⊢
  generalize gv.big_corner = ba at hov ⊢
  generalize vol_in.little_corner = lb at hov ⊢
  generalize vol_in.big_corner = bb at hov ⊢
  have t0 : Int.tmod 0 3 = 0 := rfl
  have t2 : Int.tmod 2 3 = 2 := rfl
  have t3 : Int.tmod 3 3 = 0 := rfl
  have t1 : Int.tmod 1 3 = 1 := rfl
  cases hdim : gv.dim <;> rw [hdim] at hov <;>
    simp only [loop_over_directions, List.mem_cons, List.mem_singleton, List.not_mem_nil,
      or_false, forall_eq_or_imp, forall_eq] at hov ⊢
  · simp only [List.foldl, ge_iff_le, if_neg (not_le.mpr hov)]
    refine ⟨_, rfl, rfl, rfl, ?_⟩
    simp [grid_volume.set_origin, grid_volume.num_direction, grid_volume.num,
      direction.toInt, zero_ivec, ivec.set_direction, ivec.in_direction, t0, t1, t2, t3]
  · obtain ⟨h1, h2⟩ := hov
    simp only [List.foldl, ge_iff_le, if_neg (not_le.mpr h1), if_neg (not_le.mpr h2)]
    refine ⟨_, rfl, rfl, rfl, ?_⟩
    simp [grid_volume.set_origin, grid_volume.num_direction, grid_volume.num,
      direction.toInt, zero_ivec, ivec.set_direction, ivec.in_direction, t0, t1, t2, t3]
  · obtain ⟨h1, h2, h3⟩ := hov
    simp only [List.foldl, ge_iff_le, if_neg (not_le.mpr h1), if_neg (not_le.mpr h2),
      if_neg (not_le.mpr h3)]
    refine ⟨_, rfl, rfl, rfl, ?_⟩
    simp [grid_volume.set_origin, grid_volume.num_direction, grid_volume.num,
      direction.toInt, zero_ivec, ivec.set_direction, ivec.in_direction, t0, t1, t2, t3]
  · obtain ⟨h1, h2⟩ := hov
    simp only [List.foldl, ge_iff_le, if_neg (not_le.mpr h1), if_neg (not_le.mpr h2)]
    refine ⟨_, rfl, rfl, rfl, ?_⟩
    simp [grid_volume.set_origin, grid_volume.num_direction, grid_volume.num,
      direction.toInt, zero_ivec, ivec.set_direction, ivec.in_direction, t0, t1, t2, t3]


/-- The slicing loop over a list of distinct active directions on which the running
descriptor still agrees with the receiver. -/
theorem shave_fold (vol_in A : grid_volume)
    (hlo : ∀ d ∈ loop_over_directions A.dim,
      (vol_in.little_corner.in_direction d - A.io.in_direction d) % 2 = 0)
    (hhi : ∀ d ∈ loop_over_directions A.dim,
      (vol_in.big_corner.in_direction d - A.io.in_direction d) % 2 = 0) :
    ∀ (ds : List direction), ds.Nodup → (∀ d ∈ ds, d ∈ loop_over_directions A.dim) →
      ∀ (vc : grid_volume) (os : List grid_volume), vc.dim = A.dim → vc.io.dim = A.dim →
        (∀ d ∈ ds, vc.io.in_direction d = A.io.in_direction d
          ∧ vc.num_direction d = A.num_direction d) →
        ∃ s : grid_volume × List grid_volume,
          ds.foldl (grid_volume.shave vol_in) (.ok (vc, os)) = .ok s
            ∧ s.2.length ≤ os.length + 2 * ds.length
            ∧ s.1.dim = A.dim ∧ s.1.io.dim = A.dim
            ∧ (∀ d ∈ ds,
                s.1.io.in_direction d
                    = max (A.io.in_direction d) (vol_in.little_corner.in_direction d)
                  ∧ s.1.io.in_direction d + 2 * s.1.num_direction d
                    = min (A.io.in_direction d + 2 * A.num_direction d)
                        (vol_in.big_corner.in_direction d))
            ∧ (∀ e ∈ loop_over_directions A.dim, e ∉ ds →
                s.1.io.in_direction e = vc.io.in_direction e
                  ∧ s.1.num_direction e = vc.num_direction e)
            ∧ s.1.nowned_min + (s.2.map grid_volume.nowned_min).sum
                = vc.nowned_min + (os.map grid_volume.nowned_min).sum := by
  intro ds
  induction ds with
  | nil =>
    intro _ _ vc os hdim hio _
    exact ⟨(vc, os), rfl, by simp, hdim, hio, fun _ h => absurd h (List.not_mem_nil _),
      fun _ _ _ => ⟨rfl, rfl⟩, rfl⟩
  | cons d t ih =>
    intro hnd hact vc os hdim hio hsame
    have hd := hact d (List.mem_cons_self d t)
    obtain ⟨hs1, hs2⟩ := hsame d (List.mem_cons_self d t)
    obtain ⟨⟨v1, o1⟩, a1, a2, a3, a4, a5, a6, a7, a8⟩ :=
      shave_step vol_in vc os d (by rw [hdim]; exact hd) (by rw [hio, hdim])
        (by rw [hs1]; exact hlo d hd) (by rw [hs1]; exact hhi d hd)
    simp only at a2 a3 a4 a5 a6 a7 a8
    rw [hdim] at a3 a4 a7
    have hdt : d ∉ t := (List.nodup_cons.mp hnd).1
    obtain ⟨s, b1, b2, b3, b4, b5, b6, b7⟩ :=
      ih (List.nodup_cons.mp hnd).2 (fun e he => hact e (List.mem_cons_of_mem d he)) v1 o1
        a3 a4
        (fun e he => by
          have hne : e ≠ d := fun q => hdt (q ▸ he)
          obtain ⟨c1, c2⟩ := a7 e (hact e (List.mem_cons_of_mem d he)) hne
          obtain ⟨c3, c4⟩ := hsame e (List.mem_cons_of_mem d he)
          exact ⟨c1.trans c3, c2.trans c4⟩)
    refine ⟨s, ?_, ?_, b3, b4, ?_, ?_, ?_⟩
    · simp only [List.foldl]
      rw [a1]
      exact b1
    · simp only [List.length_cons]
      omega
    · intro e he
      rcases List.mem_cons.mp he with rfl | he
      · obtain ⟨c1, c2⟩ := b6 e hd hdt
        rw [hs1, hs2] at a6
        rw [hs1] at a5
        rw [c1, c2]
        exact ⟨a5, a6⟩
      · exact b5 e he
    · intro e he hne
      have hne2 : e ≠ d := fun q => hne (q ▸ List.mem_cons_self d t)
      have hnt : e ∉ t := fun q => hne (List.mem_cons_of_mem d q)
      obtain ⟨c1, c2⟩ := b6 e he hnt
      obtain ⟨c3, c4⟩ := a7 e he hne2
      exact ⟨c1.trans c3, c2.trans c4⟩
    · rw [b7, a8]

theorem loop_over_directions_nodup (dim : ndim) : (loop_over_directions dim).Nodup := by
  cases dim <;> decide

/-- C28: for descriptors `A` and `B` of the same dimension (origins of that dimension)
whose little corners differ by an even integer along every active direction and which
overlap with positive extent along every active direction, `A.intersect_with(B, &I, others,
&k)` returns true with no abort; along every active direction the little corner of `I` is
the larger little corner and its big corner the smaller big corner; `k` is at most twice
the number of active directions; the point count of `A` is the point count of `I` plus the
point counts of the `k` slices. -/
theorem intersect_with_others_spec (A B : grid_volume) (hdim : B.dim = A.dim)
    (hA : A.io.dim = A.dim) (hB : B.io.dim = B.dim)
    (hpar : ∀ d ∈ loop_over_directions A.dim,
      (B.little_corner.in_direction d - A.little_corner.in_direction d) % 2 = 0)
    (hov : ∀ d ∈ loop_over_directions A.dim,
      max (A.little_corner.in_direction d) (B.little_corner.in_direction d)
        < min (A.big_corner.in_direction d) (B.big_corner.in_direction d)) :
    ∃ (I : grid_volume) (others : List grid_volume),
      A.intersect_with_others B = .ok (some (I, others))
        ∧ (∀ d ∈ loop_over_directions A.dim,
            I.little_corner.in_direction d
                = max (A.little_corner.in_direction d) (B.little_corner.in_direction d)
              ∧ I.big_corner.in_direction d
                = min (A.big_corner.in_direction d) (B.big_corner.in_direction d))
        ∧ others.length ≤ 2 * (loop_over_directions A.dim).length
        ∧ A.nowned_min = I.nowned_min + (others.map grid_volume.nowned_min).sum := by
  obtain ⟨I, i1, i2, i3, i4⟩ := grid_intersect_with_some A B hov
  have hbA := fun d hd => big_corner_in_direction A d hA hd
  have hbB := fun d (hd : d ∈ loop_over_directions A.dim) =>
    big_corner_in_direction B d hB (by rw [hdim]; exact hd)
  have hlo : ∀ d ∈ loop_over_directions A.dim,
      (B.little_corner.in_direction d - A.io.in_direction d) % 2 = 0 := hpar
  have hhi : ∀ d ∈ loop_over_directions A.dim,
      (B.big_corner.in_direction d - A.io.in_direction d) % 2 = 0 := by
    intro d hd
    have := hpar d hd
    rw [hbB d hd]
    simp only [grid_volume.little_corner] at this
    omega
  obtain ⟨⟨v, os⟩, f1, f2, f3, f4, f5, f6, f7⟩ :=
    shave_fold B A hlo hhi (loop_over_directions A.dim) (loop_over_directions_nodup A.dim)
      (fun _ h => h) A [] rfl hA (fun _ _ => ⟨rfl, rfl⟩)
  simp only [List.length_nil, zero_add, List.map_nil, List.sum_nil, add_zero] at f2 f3 f4 f5 f7
  have key : ∀ d ∈ loop_over_directions A.dim,
      I.io.in_direction d
          = max (A.little_corner.in_direction d) (B.little_corner.in_direction d)
        ∧ I.io.in_direction d + 2 * I.num_direction d
          = min (A.big_corner.in_direction d) (B.big_corner.in_direction d)
        ∧ I.num_direction d = v.num_direction d := by
    intro d hd
    obtain ⟨j1, j2⟩ := i4 d hd
    obtain ⟨g1, g2⟩ := f5 d hd
    have o1 := hov d hd
    have b1 := hbA d hd
    simp only [grid_volume.little_corner] at j1 j2 g1 o1 ⊢
    rw [← b1] at g2
    generalize max (A.io.in_direction d) (B.io.in_direction d) = M at j1 j2 g1 o1 ⊢
    generalize min (A.big_corner.in_direction d) (B.big_corner.in_direction d) = m
      at j2 g2 o1 ⊢
    rw [Int.tdiv_eq_ediv (by omega) (by decide)] at j2
    omega
  have hI : I.nowned_min = v.nowned_min := by
    refine (nowned_min_congr I v (f3.trans i2.symm) (fun d hd => ?_)).symm
    rw [i2] at hd
    exact ((key d hd).2.2).symm
  refine ⟨I, os, ?_, ?_, f2, ?_⟩
  · simp only [grid_volume.intersect_with_others, i1, f1, bind_ok]
    rw [if_neg]
    rw [hI, f7]
    exact fun h => h rfl
  · intro d hd
    obtain ⟨k1, k2, -⟩ := key d hd
    refine ⟨k1, ?_⟩
    rw [big_corner_in_direction I d (by rw [i3, i2]) (by rw [i2]; exact hd)]
    exact k2
  · rw [hI, f7]


/-- C28, an instance: two 3-D descriptors that overlap; `A` has `120` points, split into
the intersection and two slices. -/
theorem intersect_with_others_spec_witness :
    ∃ (I : grid_volume) (others : List grid_volume),
      (⟨.D3, 4, 5, 6, ⟨.D3, 0, 2, 4, 0, 0⟩⟩ : grid_volume).intersect_with_others
          ⟨.D3, 3, 3, 10, ⟨.D3, 4, 0, 2, 0, 0⟩⟩ = .ok (some (I, others))
        ∧ (∀ d ∈ loop_over_directions (⟨.D3, 4, 5, 6, ⟨.D3, 0, 2, 4, 0, 0⟩⟩ : grid_volume).dim,
            I.little_corner.in_direction d
                = max ((⟨.D3, 4, 5, 6, ⟨.D3, 0, 2, 4, 0, 0⟩⟩ :
                      grid_volume).little_corner.in_direction d)
                    ((⟨.D3, 3, 3, 10, ⟨.D3, 4, 0, 2, 0, 0⟩⟩ :
                      grid_volume).little_corner.in_direction d)
              ∧ I.big_corner.in_direction d
                = min ((⟨.D3, 4, 5, 6, ⟨.D3, 0, 2, 4, 0, 0⟩⟩ :
                      grid_volume).big_corner.in_direction d)
                    ((⟨.D3, 3, 3, 10, ⟨.D3, 4, 0, 2, 0, 0⟩⟩ :
                      grid_volume).big_corner.in_direction d))
        ∧ others.length
            ≤ 2 * (loop_over_directions
                (⟨.D3, 4, 5, 6, ⟨.D3, 0, 2, 4, 0, 0⟩⟩ : grid_volume).dim).length
        ∧ (⟨.D3, 4, 5, 6, ⟨.D3, 0, 2, 4, 0, 0⟩⟩ : grid_volume).nowned_min
            = I.nowned_min + (others.map grid_volume.nowned_min).sum :=
  intersect_with_others_spec ⟨.D3, 4, 5, 6, ⟨.D3, 0, 2, 4, 0, 0⟩⟩
    ⟨.D3, 3, 3, 10, ⟨.D3, 4, 0, 2, 0, 0⟩⟩ rfl rfl rfl (by decide) (by decide)


/-! ## The boundary patches of a descriptor -/

theorem exists_three (P : Int → Prop)
    (h : ∀ ib : Int, ib ≠ 0 → ib ≠ 1 → ib ≠ 2 → ¬ P ib) :
    (∃ ib, P ib) ↔ P 0 ∨ P 1 ∨ P 2 := by
  constructor
  · rintro ⟨ib, hib⟩
    by_cases e0 : ib = 0
    · exact Or.inl (e0 ▸ hib)
    · by_cases e1 : ib = 1
      · exact Or.inr (Or.inl (e1 ▸ hib))
      · by_cases e2 : ib = 2
        · exact Or.inr (Or.inr (e2 ▸ hib))
        · exact absurd hib (h ib e0 e1 e2)
  · rintro (h0 | h1 | h2)
    · exact ⟨0, h0⟩
    · exact ⟨1, h1⟩
    · exact ⟨2, h2⟩

/-- The offset `iyee_shift(c)` has the dimension of the descriptor, `0` or `1` in each
active slot and `0` in the other slots. -/
theorem iyee_shift_bits (gv : grid_volume) (c : component) :
    ∃ bx by_ bz br : Int, (bx = 0 ∨ bx = 1) ∧ (by_ = 0 ∨ by_ = 1) ∧ (bz = 0 ∨ bz = 1)
      ∧ (br = 0 ∨ br = 1)
      ∧ (.X ∉ loop_over_directions gv.dim → bx = 0)
      ∧ (.Y ∉ loop_over_directions gv.dim → by_ = 0)
      ∧ (.Z ∉ loop_over_directions gv.dim → bz = 0)
      ∧ (.R ∉ loop_over_directions gv.dim → br = 0)
      ∧ gv.iyee_shift c = ⟨gv.dim, bx, by_, bz, br, 0⟩ := by
  obtain ⟨dim, n0, n1, n2, io⟩ := gv
  cases dim <;> simp only [grid_volume.iyee_shift, loop_over_directions, List.foldl] <;>
    (repeat' split) <;>
    exact ⟨_, _, _, _, by decide, by decide, by decide, by decide, by decide, by decide,
      by decide, by decide, rfl⟩

theorem int_three_cases (ib : Int) :
    ib = 0 ∨ ib = 1 ∨ ib = 2 ∨ (ib ≠ 0 ∧ ib ≠ 1 ∧ ib ≠ 2) := by omega

theorem three_disjoint (P : Int → Prop)
    (ho : ∀ ib : Int, ib ≠ 0 → ib ≠ 1 → ib ≠ 2 → ¬ P ib)
    (h01 : P 0 → P 1 → False) (h02 : P 0 → P 2 → False) (h12 : P 1 → P 2 → False)
    (ib jb : Int) (hi : P ib) (hj : P jb) : ib = jb := by
  rcases int_three_cases ib with rfl | rfl | rfl | ⟨i0, i1, i2⟩ <;>
    rcases int_three_cases jb with rfl | rfl | rfl | ⟨j0, j1, j2⟩ <;>
    first
      | rfl
      | exact absurd hi (ho _ i0 i1 i2)
      | exact absurd hj (ho _ j0 j1 j2)
      | exact absurd (h01 hi hj) id
      | exact absurd (h01 hj hi) id
      | exact absurd (h02 hi hj) id
      | exact absurd (h02 hj hi) id
      | exact absurd (h12 hi hj) id
      | exact absurd (h12 hj hi) id


theorem boundary_loop_low_hit (cl cb clo cbo : ivec) (ib : Int) (d : direction)
    (ds : List direction) (cs ce : ivec)
    (hl : cl.in_direction d < clo.in_direction d) :
    boundary_loop cl cb clo cbo ib (d :: ds) ib cs ce
      = (true, cs, ce.set_direction d (cs.in_direction d)) := by
  simp only [boundary_loop, if_pos hl, if_true]

theorem boundary_loop_low_pass (cl cb clo cbo : ivec) (ib : Int) (d : direction)
    (ds : List direction) (jb : Int) (cs ce : ivec)
    (hl : cl.in_direction d < clo.in_direction d) (hj : jb ≠ ib)
    (hh : cb.in_direction d ≤ cbo.in_direction d) :
    boundary_loop cl cb clo cbo ib (d :: ds) jb cs ce
      = boundary_loop cl cb clo cbo ib ds (jb + 1)
          (cs.set_direction d (clo.in_direction d)) ce := by
  simp only [boundary_loop, boundary_high, if_pos hl, if_neg hj, if_neg (not_lt.mpr hh),
    gt_iff_lt]

theorem boundary_loop_high_hit (cl cb clo cbo : ivec) (ib : Int) (d : direction)
    (ds : List direction) (cs ce : ivec)
    (hl : clo.in_direction d ≤ cl.in_direction d)
    (hh : cbo.in_direction d < cb.in_direction d) :
    boundary_loop cl cb clo cbo ib (d :: ds) ib cs ce
      = (true, cs.set_direction d (ce.in_direction d), ce) := by
  simp only [boundary_loop, boundary_high, if_neg (not_lt.mpr hl), if_pos hh, if_true,
    gt_iff_lt]

theorem boundary_loop_high_pass (cl cb clo cbo : ivec) (ib : Int) (d : direction)
    (ds : List direction) (jb : Int) (cs ce : ivec)
    (hl : clo.in_direction d ≤ cl.in_direction d)
    (hh : cbo.in_direction d < cb.in_direction d) (hj : jb ≠ ib) :
    boundary_loop cl cb clo cbo ib (d :: ds) jb cs ce
      = boundary_loop cl cb clo cbo ib ds (jb + 1) cs
          (ce.set_direction d (cbo.in_direction d)) := by
  simp only [boundary_loop, boundary_high, if_neg (not_lt.mpr hl), if_pos hh, if_neg hj,
    gt_iff_lt]

theorem boundary_loop_none (cl cb clo cbo : ivec) (ib : Int) (d : direction)
    (ds : List direction) (jb : Int) (cs ce : ivec)
    (hl : clo.in_direction d ≤ cl.in_direction d)
    (hh : cb.in_direction d ≤ cbo.in_direction d) :
    boundary_loop cl cb clo cbo ib (d :: ds) jb cs ce
      = boundary_loop cl cb clo cbo ib ds jb cs ce := by
  simp only [boundary_loop, boundary_high, if_neg (not_lt.mpr hl), if_neg (not_lt.mpr hh),
    gt_iff_lt]

theorem boundary_loop_nil (cl cb clo cbo : ivec) (ib : Int) (jb : Int) (cs ce : ivec) :
    boundary_loop cl cb clo cbo ib [] jb cs ce = (false, cs, ce) := rfl

set_option linter.unreachableTactic false in
set_option linter.unusedTactic false in
set_option linter.unnecessarySeqFocus false in
set_option maxHeartbeats 16000000 in
theorem get_boundary_icorners_D1 (gv : grid_volume) (c : component) (hwf : gv.wf)
    (hdim : gv.dim = .D1) :
    (∀ p : ivec, p.dim = gv.dim → gv.on_lattice c p = true →
        ((gv.contains p = true ∧ gv.owns p = false) ↔
          ∃ ib : Int, gv.in_boundary_patch c ib p = true))
      ∧ (∀ (p : ivec) (ib jb : Int), gv.in_boundary_patch c ib p = true →
          gv.in_boundary_patch c jb p = true → ib = jb)
      ∧ (∃ k : Int, 0 ≤ k ∧ k ≤ 2 * (loop_over_directions gv.dim).length
          ∧ ∀ ib : Int, (gv.get_boundary_icorners c ib).1 = true ↔ (0 ≤ ib ∧ ib < k))
      ∧ (∀ ib : Int, (gv.get_boundary_icorners c ib).1 = false →
          gv.get_boundary_icorners c ib
            = (false, one_ivec gv.dim, (one_ivec gv.dim).neg))
      ∧ (∀ ib : Int, (gv.get_boundary_icorners c ib).1 = true →
          (gv.get_boundary_icorners c ib).2.1.dim = gv.dim
            ∧ gv.on_lattice c (gv.get_boundary_icorners c ib).2.1 = true) := by
  obtain ⟨bx, by_, bz, br, hx, hy, hz, hr, ax, ay, az, ar, hs⟩ := iyee_shift_bits gv c
  have e0 : gv.get_boundary_icorners c 0 = gv.get_boundary_icorners c 0 := rfl
  have e1 : gv.get_boundary_icorners c 1 = gv.get_boundary_icorners c 1 := rfl
  have e2 : gv.get_boundary_icorners c 2 = gv.get_boundary_icorners c 2 := rfl
  obtain ⟨dim, n0, n1, n2, ⟨idim, ix, iy, iz, ir, ip⟩⟩ := gv
  obtain ⟨hio, h0, h1, h2, -, -, -⟩ := hwf
  simp only at hio hdim h0 h1 h2
  subst hio hdim
  obtain rfl := ax (by simp [loop_over_directions])
  obtain rfl := ay (by simp [loop_over_directions])
  obtain rfl := ar (by simp [loop_over_directions])
  clear ax ay az ar
  rcases hz with rfl | rfl
  all_goals
    have eo : ∀ ib : Int, ib ≠ 0 → ib ≠ 1 → ib ≠ 2 →
        (⟨.D1, n0, n1, n2, ⟨.D1, ix, iy, iz, ir, ip⟩⟩ :
          grid_volume).get_boundary_icorners c ib
          = (false, one_ivec .D1, (one_ivec .D1).neg) := by
      intro ib i0 i1 i2
      simp only [grid_volume.get_boundary_icorners, grid_volume.little_owned_corner,
        grid_volume.little_owned_corner0, hs,
        grid_volume.little_corner, grid_volume.big_corner, one_ivec, zero_ivec, ivec.neg,
        ivec.add, ivec.sub, ivec.scale, ivec_of_nums, loop_over_directions, List.foldl,
        ivec.set_direction, ivec.in_direction, grid_volume.nx, grid_volume.ny,
        grid_volume.nz, grid_volume.nr, num_direction_X, num_direction_Y, num_direction_Z,
        num_direction_R, reduceCtorEq, false_and, true_and, and_true, if_false, if_true]
      try simp (disch := omega) only [if_pos, if_neg]
      simp (disch := ((try simp only [ivec.in_direction]); omega)) only [boundary_loop_low_hit,
        boundary_loop_low_pass, boundary_loop_high_hit, boundary_loop_high_pass,
        boundary_loop_none, boundary_loop_nil, ivec.set_direction, ivec.in_direction,
        Int.reduceAdd, zero_add]
      simp
    conv at e0 =>
      rhs
      simp only [grid_volume.get_boundary_icorners, grid_volume.little_owned_corner,
        grid_volume.little_owned_corner0, hs,
        grid_volume.little_corner, grid_volume.big_corner, one_ivec, zero_ivec, ivec.neg,
        ivec.add, ivec.sub, ivec.scale, ivec_of_nums, loop_over_directions, List.foldl,
        ivec.set_direction, ivec.in_direction, grid_volume.nx, grid_volume.ny,
        grid_volume.nz, grid_volume.nr, num_direction_X, num_direction_Y, num_direction_Z,
        num_direction_R, reduceCtorEq, false_and, true_and, and_true, if_false, if_true]
      try simp (disch := omega) only [if_pos, if_neg]
      simp (disch := ((try simp only [ivec.in_direction]); omega)) only [boundary_loop_low_hit,
        boundary_loop_low_pass, boundary_loop_high_hit, boundary_loop_high_pass,
        boundary_loop_none, boundary_loop_nil, ivec.set_direction, ivec.in_direction,
        Int.reduceAdd, zero_add]
      simp
    conv at e1 =>
      rhs
      simp only [grid_volume.get_boundary_icorners, grid_volume.little_owned_corner,
        grid_volume.little_owned_corner0, hs,
        grid_volume.little_corner, grid_volume.big_corner, one_ivec, zero_ivec, ivec.neg,
        ivec.add, ivec.sub, ivec.scale, ivec_of_nums, loop_over_directions, List.foldl,
        ivec.set_direction, ivec.in_direction, grid_volume.nx, grid_volume.ny,
        grid_volume.nz, grid_volume.nr, num_direction_X, num_direction_Y, num_direction_Z,
        num_direction_R, reduceCtorEq, false_and, true_and, and_true, if_false, if_true]
      try simp (disch := omega) only [if_pos, if_neg]
      simp (disch := ((try simp only [ivec.in_direction]); omega)) only [boundary_loop_low_hit,
        boundary_loop_low_pass, boundary_loop_high_hit, boundary_loop_high_pass,
        boundary_loop_none, boundary_loop_nil, ivec.set_direction, ivec.in_direction,
        Int.reduceAdd, zero_add]
      simp
    conv at e2 =>
      rhs
      simp only [grid_volume.get_boundary_icorners, grid_volume.little_owned_corner,
        grid_volume.little_owned_corner0, hs,
        grid_volume.little_corner, grid_volume.big_corner, one_ivec, zero_ivec, ivec.neg,
        ivec.add, ivec.sub, ivec.scale, ivec_of_nums, loop_over_directions, List.foldl,
        ivec.set_direction, ivec.in_direction, grid_volume.nx, grid_volume.ny,
        grid_volume.nz, grid_volume.nr, num_direction_X, num_direction_Y, num_direction_Z,
        num_direction_R, reduceCtorEq, false_and, true_and, and_true, if_false, if_true]
      try simp (disch := omega) only [if_pos, if_neg]
      simp (disch := ((try simp only [ivec.in_direction]); omega)) only [boundary_loop_low_hit,
        boundary_loop_low_pass, boundary_loop_high_hit, boundary_loop_high_pass,
        boundary_loop_none, boundary_loop_nil, ivec.set_direction, ivec.in_direction,
        Int.reduceAdd, zero_add]
      simp
    refine ⟨fun p hp hl => ?_, fun p ib jb => ?_, ?_, fun ib => ?_, fun ib => ?_⟩
    · obtain ⟨pdim, px, py, pz, pr, pp⟩ := p
      simp only at hp
      subst hp
      simp only [grid_volume.in_boundary_patch]
      rw [exists_three _ (fun ib i0 i1 i2 => by rw [eo ib i0 i1 i2]; simp)]
      simp only [e0, e1, e2]
      simp only [grid_volume.on_lattice, hs, loop_over_directions, List.all_cons,
        List.all_nil, ivec.in_direction, Bool.and_true, Bool.and_eq_true,
        decide_eq_true_eq] at hl
      simp [grid_volume.contains, grid_volume.owns, ivec.between, ivec.sub,
        loop_over_directions, ivec.set_direction, ivec.in_direction, grid_volume.nx,
        grid_volume.ny, grid_volume.nz, grid_volume.nr]
      omega
    · refine three_disjoint (fun k => grid_volume.in_boundary_patch _ c k p = true)
        (fun ib i0 i1 i2 => by
          simp only [grid_volume.in_boundary_patch]
          rw [eo ib i0 i1 i2]
          simp) ?_ ?_ ?_ ib jb <;>
        simp only [grid_volume.in_boundary_patch, e0, e1, e2] <;>
        simp [ivec.between, loop_over_directions, ivec.in_direction] <;>
        omega
    · refine ⟨1, by decide, by simp [loop_over_directions], fun ib => ?_⟩
      rcases int_three_cases ib with rfl | rfl | rfl | ⟨i0, i1, i2⟩ <;>
        (try rw [eo ib i0 i1 i2]) <;> simp only [e0, e1, e2] <;> simp <;> omega
    · rcases int_three_cases ib with rfl | rfl | rfl | ⟨i0, i1, i2⟩ <;>
        (try rw [eo ib i0 i1 i2]) <;> simp only [e0, e1, e2] <;>
        simp [one_ivec, zero_ivec, ivec.neg, loop_over_directions, ivec.set_direction,
          ivec.in_direction]
    · rcases int_three_cases ib with rfl | rfl | rfl | ⟨i0, i1, i2⟩ <;>
        (try rw [eo ib i0 i1 i2]) <;> simp only [e0, e1, e2] <;>
        simp [grid_volume.on_lattice, hs, loop_over_directions, ivec.in_direction] <;>
        omega

set_option linter.unreachableTactic false in
set_option linter.unusedTactic false in
set_option linter.unnecessarySeqFocus false in
set_option maxHeartbeats 16000000 in
theorem get_boundary_icorners_D2 (gv : grid_volume) (c : component) (hwf : gv.wf)
    (hdim : gv.dim = .D2) :
    (∀ p : ivec, p.dim = gv.dim → gv.on_lattice c p = true →
        ((gv.contains p = true ∧ gv.owns p = false) ↔
          ∃ ib : Int, gv.in_boundary_patch c ib p = true))
      ∧ (∀ (p : ivec) (ib jb : Int), gv.in_boundary_patch c ib p = true →
          gv.in_boundary_patch c jb p = true → ib = jb)
      ∧ (∃ k : Int, 0 ≤ k ∧ k ≤ 2 * (loop_over_directions gv.dim).length
          ∧ ∀ ib : Int, (gv.get_boundary_icorners c ib).1 = true ↔ (0 ≤ ib ∧ ib < k))
      ∧ (∀ ib : Int, (gv.get_boundary_icorners c ib).1 = false →
          gv.get_boundary_icorners c ib
            = (false, one_ivec gv.dim, (one_ivec gv.dim).neg))
      ∧ (∀ ib : Int, (gv.get_boundary_icorners c ib).1 = true →
          (gv.get_boundary_icorners c ib).2.1.dim = gv.dim
            ∧ gv.on_lattice c (gv.get_boundary_icorners c ib).2.1 = true) := by
  obtain ⟨bx, by_, bz, br, hx, hy, hz, hr, ax, ay, az, ar, hs⟩ := iyee_shift_bits gv c
  have e0 : gv.get_boundary_icorners c 0 = gv.get_boundary_icorners c 0 := rfl
  have e1 : gv.get_boundary_icorners c 1 = gv.get_boundary_icorners c 1 := rfl
  have e2 : gv.get_boundary_icorners c 2 = gv.get_boundary_icorners c 2 := rfl
  obtain ⟨dim, n0, n1, n2, ⟨idim, ix, iy, iz, ir, ip⟩⟩ := gv
  obtain ⟨hio, h0, h1, h2, -, -, -⟩ := hwf
  simp only at hio hdim h0 h1 h2
  subst hio hdim
  obtain rfl := az (by simp [loop_over_directions])
  obtain rfl := ar (by simp [loop_over_directions])
  clear ax ay az ar
  rcases hx with rfl | rfl <;> rcases hy with rfl | rfl
  all_goals
    have eo : ∀ ib : Int, ib ≠ 0 → ib ≠ 1 → ib ≠ 2 →
        (⟨.D2, n0, n1, n2, ⟨.D2, ix, iy, iz, ir, ip⟩⟩ :
          grid_volume).get_boundary_icorners c ib
          = (false, one_ivec .D2, (one_ivec .D2).neg) := by
      intro ib i0 i1 i2
      simp only [grid_volume.get_boundary_icorners, grid_volume.little_owned_corner,
        grid_volume.little_owned_corner0, hs,
        grid_volume.little_corner, grid_volume.big_corner, one_ivec, zero_ivec, ivec.neg,
        ivec.add, ivec.sub, ivec.scale, ivec_of_nums, loop_over_directions, List.foldl,
        ivec.set_direction, ivec.in_direction, grid_volume.nx, grid_volume.ny,
        grid_volume.nz, grid_volume.nr, num_direction_X, num_direction_Y, num_direction_Z,
        num_direction_R, reduceCtorEq, false_and, true_and, and_true, if_false, if_true]
      try simp (disch := omega) only [if_pos, if_neg]
      simp (disch := ((try simp only [ivec.in_direction]); omega)) only [boundary_loop_low_hit,
        boundary_loop_low_pass, boundary_loop_high_hit, boundary_loop_high_pass,
        boundary_loop_none, boundary_loop_nil, ivec.set_direction, ivec.in_direction,
        Int.reduceAdd, zero_add]
      simp
    conv at e0 =>
      rhs
      simp only [grid_volume.get_boundary_icorners, grid_volume.little_owned_corner,
        grid_volume.little_owned_corner0, hs,
        grid_volume.little_corner, grid_volume.big_corner, one_ivec, zero_ivec, ivec.neg,
        ivec.add, ivec.sub, ivec.scale, ivec_of_nums, loop_over_directions, List.foldl,
        ivec.set_direction, ivec.in_direction, grid_volume.nx, grid_volume.ny,
        grid_volume.nz, grid_volume.nr, num_direction_X, num_direction_Y, num_direction_Z,
        num_direction_R, reduceCtorEq, false_and, true_and, and_true, if_false, if_true]
      try simp (disch := omega) only [if_pos, if_neg]
      simp (disch := ((try simp only [ivec.in_direction]); omega)) only [boundary_loop_low_hit,
        boundary_loop_low_pass, boundary_loop_high_hit, boundary_loop_high_pass,
        boundary_loop_none, boundary_loop_nil, ivec.set_direction, ivec.in_direction,
        Int.reduceAdd, zero_add]
      simp
    conv at e1 =>
      rhs
      simp only [grid_volume.get_boundary_icorners, grid_volume.little_owned_corner,
        grid_volume.little_owned_corner0, hs,
        grid_volume.little_corner, grid_volume.big_corner, one_ivec, zero_ivec, ivec.neg,
        ivec.add, ivec.sub, ivec.scale, ivec_of_nums, loop_over_directions, List.foldl,
        ivec.set_direction, ivec.in_direction, grid_volume.nx, grid_volume.ny,
        grid_volume.nz, grid_volume.nr, num_direction_X, num_direction_Y, num_direction_Z,
        num_direction_R, reduceCtorEq, false_and, true_and, and_true, if_false, if_true]
      try simp (disch := omega) only [if_pos, if_neg]
      simp (disch := ((try simp only [ivec.in_direction]); omega)) only [boundary_loop_low_hit,
        boundary_loop_low_pass, boundary_loop_high_hit, boundary_loop_high_pass,
        boundary_loop_none, boundary_loop_nil, ivec.set_direction, ivec.in_direction,
        Int.reduceAdd, zero_add]
      simp
    conv at e2 =>
      rhs
      simp only [grid_volume.get_boundary_icorners, grid_volume.little_owned_corner,
        grid_volume.little_owned_corner0, hs,
        grid_volume.little_corner, grid_volume.big_corner, one_ivec, zero_ivec, ivec.neg,
        ivec.add, ivec.sub, ivec.scale, ivec_of_nums, loop_over_directions, List.foldl,
        ivec.set_direction, ivec.in_direction, grid_volume.nx, grid_volume.ny,
        grid_volume.nz, grid_volume.nr, num_direction_X, num_direction_Y, num_direction_Z,
        num_direction_R, reduceCtorEq, false_and, true_and, and_true, if_false, if_true]
      try simp (disch := omega) only [if_pos, if_neg]
      simp (disch := ((try simp only [ivec.in_direction]); omega)) only [boundary_loop_low_hit,
        boundary_loop_low_pass, boundary_loop_high_hit, boundary_loop_high_pass,
        boundary_loop_none, boundary_loop_nil, ivec.set_direction, ivec.in_direction,
        Int.reduceAdd, zero_add]
      simp
    refine ⟨fun p hp hl => ?_, fun p ib jb => ?_, ?_, fun ib => ?_, fun ib => ?_⟩
    · obtain ⟨pdim, px, py, pz, pr, pp⟩ := p
      simp only at hp
      subst hp
      simp only [grid_volume.in_boundary_patch]
      rw [exists_three _ (fun ib i0 i1 i2 => by rw [eo ib i0 i1 i2]; simp)]
      simp only [e0, e1, e2]
      simp only [grid_volume.on_lattice, hs, loop_over_directions, List.all_cons,
        List.all_nil, ivec.in_direction, Bool.and_true, Bool.and_eq_true,
        decide_eq_true_eq] at hl
      simp [grid_volume.contains, grid_volume.owns, ivec.between, ivec.sub,
        loop_over_directions, ivec.set_direction, ivec.in_direction, grid_volume.nx,
        grid_volume.ny, grid_volume.nz, grid_volume.nr]
      omega
    · refine three_disjoint (fun k => grid_volume.in_boundary_patch _ c k p = true)
        (fun ib i0 i1 i2 => by
          simp only [grid_volume.in_boundary_patch]
          rw [eo ib i0 i1 i2]
          simp) ?_ ?_ ?_ ib jb <;>
        simp only [grid_volume.in_boundary_patch, e0, e1, e2] <;>
        simp [ivec.between, loop_over_directions, ivec.in_direction] <;>
        omega
    · refine ⟨2, by decide, by simp [loop_over_directions], fun ib => ?_⟩
      rcases int_three_cases ib with rfl | rfl | rfl | ⟨i0, i1, i2⟩ <;>
        (try rw [eo ib i0 i1 i2]) <;> simp only [e0, e1, e2] <;> simp <;> omega
    · rcases int_three_cases ib with rfl | rfl | rfl | ⟨i0, i1, i2⟩ <;>
        (try rw [eo ib i0 i1 i2]) <;> simp only [e0, e1, e2] <;>
        simp [one_ivec, zero_ivec, ivec.neg, loop_over_directions, ivec.set_direction,
          ivec.in_direction]
    · rcases int_three_cases ib with rfl | rfl | rfl | ⟨i0, i1, i2⟩ <;>
        (try rw [eo ib i0 i1 i2]) <;> simp only [e0, e1, e2] <;>
        simp [grid_volume.on_lattice, hs, loop_over_directions, ivec.in_direction] <;>
        omega

set_option linter.unreachableTactic false in
set_option linter.unusedTactic false in
set_option linter.unnecessarySeqFocus false in
set_option maxHeartbeats 16000000 in
theorem get_boundary_icorners_D3 (gv : grid_volume) (c : component) (hwf : gv.wf)
    (hdim : gv.dim = .D3) :
    (∀ p : ivec, p.dim = gv.dim → gv.on_lattice c p = true →
        ((gv.contains p = true ∧ gv.owns p = false) ↔
          ∃ ib : Int, gv.in_boundary_patch c ib p = true))
      ∧ (∀ (p : ivec) (ib jb : Int), gv.in_boundary_patch c ib p = true →
          gv.in_boundary_patch c jb p = true → ib = jb)
      ∧ (∃ k : Int, 0 ≤ k ∧ k ≤ 2 * (loop_over_directions gv.dim).length
          ∧ ∀ ib : Int, (gv.get_boundary_icorners c ib).1 = true ↔ (0 ≤ ib ∧ ib < k))
      ∧ (∀ ib : Int, (gv.get_boundary_icorners c ib).1 = false →
          gv.get_boundary_icorners c ib
            = (false, one_ivec gv.dim, (one_ivec gv.dim).neg))
      ∧ (∀ ib : Int, (gv.get_boundary_icorners c ib).1 = true →
          (gv.get_boundary_icorners c ib).2.1.dim = gv.dim
            ∧ gv.on_lattice c (gv.get_boundary_icorners c ib).2.1 = true) := by
  obtain ⟨bx, by_, bz, br, hx, hy, hz, hr, ax, ay, az, ar, hs⟩ := iyee_shift_bits gv c
  have e0 : gv.get_boundary_icorners c 0 = gv.get_boundary_icorners c 0 := rfl
  have e1 : gv.get_boundary_icorners c 1 = gv.get_boundary_icorners c 1 := rfl
  have e2 : gv.get_boundary_icorners c 2 = gv.get_boundary_icorners c 2 := rfl
  obtain ⟨dim, n0, n1, n2, ⟨idim, ix, iy, iz, ir, ip⟩⟩ := gv
  obtain ⟨hio, h0, h1, h2, -, -, -⟩ := hwf
  simp only at hio hdim h0 h1 h2
  subst hio hdim
  obtain rfl := ar (by simp [loop_over_directions])
  clear ax ay az ar
  rcases hx with rfl | rfl <;> rcases hy with rfl | rfl <;> rcases hz with rfl | rfl
  all_goals
    have eo : ∀ ib : Int, ib ≠ 0 → ib ≠ 1 → ib ≠ 2 →
        (⟨.D3, n0, n1, n2, ⟨.D3, ix, iy, iz, ir, ip⟩⟩ :
          grid_volume).get_boundary_icorners c ib
          = (false, one_ivec .D3, (one_ivec .D3).neg) := by
      intro ib i0 i1 i2
      simp only [grid_volume.get_boundary_icorners, grid_volume.little_owned_corner,
        grid_volume.little_owned_corner0, hs,
        grid_volume.little_corner, grid_volume.big_corner, one_ivec, zero_ivec, ivec.neg,
        ivec.add, ivec.sub, ivec.scale, ivec_of_nums, loop_over_directions, List.foldl,
        ivec.set_direction, ivec.in_direction, grid_volume.nx, grid_volume.ny,
        grid_volume.nz, grid_volume.nr, num_direction_X, num_direction_Y, num_direction_Z,
        num_direction_R, reduceCtorEq, false_and, true_and, and_true, if_false, if_true]
      try simp (disch := omega) only [if_pos, if_neg]
      simp (disch := ((try simp only [ivec.in_direction]); omega)) only [boundary_loop_low_hit,
        boundary_loop_low_pass, boundary_loop_high_hit, boundary_loop_high_pass,
        boundary_loop_none, boundary_loop_nil, ivec.set_direction, ivec.in_direction,
        Int.reduceAdd, zero_add]
      simp
    conv at e0 =>
      rhs
      simp only [grid_volume.get_boundary_icorners, grid_volume.little_owned_corner,
        grid_volume.little_owned_corner0, hs,
        grid_volume.little_corner, grid_volume.big_corner, one_ivec, zero_ivec, ivec.neg,
        ivec.add, ivec.sub, ivec.scale, ivec_of_nums, loop_over_directions, List.foldl,
        ivec.set_direction, ivec.in_direction, grid_volume.nx, grid_volume.ny,
        grid_volume.nz, grid_volume.nr, num_direction_X, num_direction_Y, num_direction_Z,
        num_direction_R, reduceCtorEq, false_and, true_and, and_true, if_false, if_true]
      try simp (disch := omega) only [if_pos, if_neg]
      simp (disch := ((try simp only [ivec.in_direction]); omega)) only [boundary_loop_low_hit,
        boundary_loop_low_pass, boundary_loop_high_hit, boundary_loop_high_pass,
        boundary_loop_none, boundary_loop_nil, ivec.set_direction, ivec.in_direction,
        Int.reduceAdd, zero_add]
      simp
    conv at e1 =>
      rhs
      simp only [grid_volume.get_boundary_icorners, grid_volume.little_owned_corner,
        grid_volume.little_owned_corner0, hs,
        grid_volume.little_corner, grid_volume.big_corner, one_ivec, zero_ivec, ivec.neg,
        ivec.add, ivec.sub, ivec.scale, ivec_of_nums, loop_over_directions, List.foldl,
        ivec.set_direction, ivec.in_direction, grid_volume.nx, grid_volume.ny,
        grid_volume.nz, grid_volume.nr, num_direction_X, num_direction_Y, num_direction_Z,
        num_direction_R, reduceCtorEq, false_and, true_and, and_true, if_false, if_true]
      try simp (disch := omega) only [if_pos, if_neg]
      simp (disch := ((try simp only [ivec.in_direction]); omega)) only [boundary_loop_low_hit,
        boundary_loop_low_pass, boundary_loop_high_hit, boundary_loop_high_pass,
        boundary_loop_none, boundary_loop_nil, ivec.set_direction, ivec.in_direction,
        Int.reduceAdd, zero_add]
      simp
    conv at e2 =>
      rhs
      simp only [grid_volume.get_boundary_icorners, grid_volume.little_owned_corner,
        grid_volume.little_owned_corner0, hs,
        grid_volume.little_corner, grid_volume.big_corner, one_ivec, zero_ivec, ivec.neg,
        ivec.add, ivec.sub, ivec.scale, ivec_of_nums, loop_over_directions, List.foldl,
        ivec.set_direction, ivec.in_direction, grid_volume.nx, grid_volume.ny,
        grid_volume.nz, grid_volume.nr, num_direction_X, num_direction_Y, num_direction_Z,
        num_direction_R, reduceCtorEq, false_and, true_and, and_true, if_false, if_true]
      try simp (disch := omega) only [if_pos, if_neg]
      simp (disch := ((try simp only [ivec.in_direction]); omega)) only [boundary_loop_low_hit,
        boundary_loop_low_pass, boundary_loop_high_hit, boundary_loop_high_pass,
        boundary_loop_none, boundary_loop_nil, ivec.set_direction, ivec.in_direction,
        Int.reduceAdd, zero_add]
      simp
    refine ⟨fun p hp hl => ?_, fun p ib jb => ?_, ?_, fun ib => ?_, fun ib => ?_⟩
    · obtain ⟨pdim, px, py, pz, pr, pp⟩ := p
      simp only at hp
      subst hp
      simp only [grid_volume.in_boundary_patch]
      rw [exists_three _ (fun ib i0 i1 i2 => by rw [eo ib i0 i1 i2]; simp)]
      simp only [e0, e1, e2]
      simp only [grid_volume.on_lattice, hs, loop_over_directions, List.all_cons,
        List.all_nil, ivec.in_direction, Bool.and_true, Bool.and_eq_true,
        decide_eq_true_eq] at hl
      simp [grid_volume.contains, grid_volume.owns, ivec.between, ivec.sub,
        loop_over_directions, ivec.set_direction, ivec.in_direction, grid_volume.nx,
        grid_volume.ny, grid_volume.nz, grid_volume.nr]
      omega
    · refine three_disjoint (fun k => grid_volume.in_boundary_patch _ c k p = true)
        (fun ib i0 i1 i2 => by
          simp only [grid_volume.in_boundary_patch]
          rw [eo ib i0 i1 i2]
          simp) ?_ ?_ ?_ ib jb <;>
        simp only [grid_volume.in_boundary_patch, e0, e1, e2] <;>
        simp [ivec.between, loop_over_directions, ivec.in_direction] <;>
        omega
    · refine ⟨3, by decide, by simp [loop_over_directions], fun ib => ?_⟩
      rcases int_three_cases ib with rfl | rfl | rfl | ⟨i0, i1, i2⟩ <;>
        (try rw [eo ib i0 i1 i2]) <;> simp only [e0, e1, e2] <;> simp <;> omega
    · rcases int_three_cases ib with rfl | rfl | rfl | ⟨i0, i1, i2⟩ <;>
        (try rw [eo ib i0 i1 i2]) <;> simp only [e0, e1, e2] <;>
        simp [one_ivec, zero_ivec, ivec.neg, loop_over_directions, ivec.set_direction,
          ivec.in_direction]
    · rcases int_three_cases ib with rfl | rfl | rfl | ⟨i0, i1, i2⟩ <;>
        (try rw [eo ib i0 i1 i2]) <;> simp only [e0, e1, e2] <;>
        simp [grid_volume.on_lattice, hs, loop_over_directions, ivec.in_direction] <;>
        omega

set_option linter.unreachableTactic false in
set_option linter.unusedTactic false in
set_option linter.unnecessarySeqFocus false in
set_option maxHeartbeats 16000000 in
theorem get_boundary_icorners_Dcyl (gv : grid_volume) (c : component) (hwf : gv.wf)
    (hdim : gv.dim = .Dcyl) :
    (∀ p : ivec, p.dim = gv.dim → gv.on_lattice c p = true →
        ((gv.contains p = true ∧ gv.owns p = false) ↔
          ∃ ib : Int, gv.in_boundary_patch c ib p = true))
      ∧ (∀ (p : ivec) (ib jb : Int), gv.in_boundary_patch c ib p = true →
          gv.in_boundary_patch c jb p = true → ib = jb)
      ∧ (∃ k : Int, 0 ≤ k ∧ k ≤ 2 * (loop_over_directions gv.dim).length
          ∧ ∀ ib : Int, (gv.get_boundary_icorners c ib).1 = true ↔ (0 ≤ ib ∧ ib < k))
      ∧ (∀ ib : Int, (gv.get_boundary_icorners c ib).1 = false →
          gv.get_boundary_icorners c ib
            = (false, one_ivec gv.dim, (one_ivec gv.dim).neg))
      ∧ (∀ ib : Int, (gv.get_boundary_icorners c ib).1 = true →
          (gv.get_boundary_icorners c ib).2.1.dim = gv.dim
            ∧ gv.on_lattice c (gv.get_boundary_icorners c ib).2.1 = true) := by
  obtain ⟨bx, by_, bz, br, hx, hy, hz, hr, ax, ay, az, ar, hs⟩ := iyee_shift_bits gv c
  have e0 : gv.get_boundary_icorners c 0 = gv.get_boundary_icorners c 0 := rfl
  have e1 : gv.get_boundary_icorners c 1 = gv.get_boundary_icorners c 1 := rfl
  have e2 : gv.get_boundary_icorners c 2 = gv.get_boundary_icorners c 2 := rfl
  obtain ⟨dim, n0, n1, n2, ⟨idim, ix, iy, iz, ir, ip⟩⟩ := gv
  obtain ⟨hio, h0, h1, h2, -, -, -⟩ := hwf
  simp only at hio hdim h0 h1 h2
  subst hio hdim
  obtain rfl := ax (by simp [loop_over_directions])
  obtain rfl := ay (by simp [loop_over_directions])
  clear ax ay az ar
  by_cases hir : ir = 0 <;>
  rcases hz with rfl | rfl <;> rcases hr with rfl | rfl
  all_goals
    have eo : ∀ ib : Int, ib ≠ 0 → ib ≠ 1 → ib ≠ 2 →
        (⟨.Dcyl, n0, n1, n2, ⟨.Dcyl, ix, iy, iz, ir, ip⟩⟩ :
          grid_volume).get_boundary_icorners c ib
          = (false, one_ivec .Dcyl, (one_ivec .Dcyl).neg) := by
      intro ib i0 i1 i2
      simp only [grid_volume.get_boundary_icorners, grid_volume.little_owned_corner,
        grid_volume.little_owned_corner0, hs,
        grid_volume.little_corner, grid_volume.big_corner, one_ivec, zero_ivec, ivec.neg,
        ivec.add, ivec.sub, ivec.scale, ivec_of_nums, loop_over_directions, List.foldl,
        ivec.set_direction, ivec.in_direction, grid_volume.nx, grid_volume.ny,
        grid_volume.nz, grid_volume.nr, num_direction_X, num_direction_Y, num_direction_Z,
        num_direction_R, reduceCtorEq, false_and, true_and, and_true, if_false, if_true]
      try simp (disch := omega) only [if_pos, if_neg]
      simp (disch := ((try simp only [ivec.in_direction]); omega)) only [boundary_loop_low_hit,
        boundary_loop_low_pass, boundary_loop_high_hit, boundary_loop_high_pass,
        boundary_loop_none, boundary_loop_nil, ivec.set_direction, ivec.in_direction,
        Int.reduceAdd, zero_add]
      simp
    conv at e0 =>
      rhs
      simp only [grid_volume.get_boundary_icorners, grid_volume.little_owned_corner,
        grid_volume.little_owned_corner0, hs,
        grid_volume.little_corner, grid_volume.big_corner, one_ivec, zero_ivec, ivec.neg,
        ivec.add, ivec.sub, ivec.scale, ivec_of_nums, loop_over_directions, List.foldl,
        ivec.set_direction, ivec.in_direction, grid_volume.nx, grid_volume.ny,
        grid_volume.nz, grid_volume.nr, num_direction_X, num_direction_Y, num_direction_Z,
        num_direction_R, reduceCtorEq, false_and, true_and, and_true, if_false, if_true]
      try simp (disch := omega) only [if_pos, if_neg]
      simp (disch := ((try simp only [ivec.in_direction]); omega)) only [boundary_loop_low_hit,
        boundary_loop_low_pass, boundary_loop_high_hit, boundary_loop_high_pass,
        boundary_loop_none, boundary_loop_nil, ivec.set_direction, ivec.in_direction,
        Int.reduceAdd, zero_add]
      simp
    conv at e1 =>
      rhs
      simp only [grid_volume.get_boundary_icorners, grid_volume.little_owned_corner,
        grid_volume.little_owned_corner0, hs,
        grid_volume.little_corner, grid_volume.big_corner, one_ivec, zero_ivec, ivec.neg,
        ivec.add, ivec.sub, ivec.scale, ivec_of_nums, loop_over_directions, List.foldl,
        ivec.set_direction, ivec.in_direction, grid_volume.nx, grid_volume.ny,
        grid_volume.nz, grid_volume.nr, num_direction_X, num_direction_Y, num_direction_Z,
        num_direction_R, reduceCtorEq, false_and, true_and, and_true, if_false, if_true]
      try simp (disch := omega) only [if_pos, if_neg]
      simp (disch := ((try simp only [ivec.in_direction]); omega)) only [boundary_loop_low_hit,
        boundary_loop_low_pass, boundary_loop_high_hit, boundary_loop_high_pass,
        boundary_loop_none, boundary_loop_nil, ivec.set_direction, ivec.in_direction,
        Int.reduceAdd, zero_add]
      simp
    conv at e2 =>
      rhs
      simp only [grid_volume.get_boundary_icorners, grid_volume.little_owned_corner,
        grid_volume.little_owned_corner0, hs,
        grid_volume.little_corner, grid_volume.big_corner, one_ivec, zero_ivec, ivec.neg,
        ivec.add, ivec.sub, ivec.scale, ivec_of_nums, loop_over_directions, List.foldl,
        ivec.set_direction, ivec.in_direction, grid_volume.nx, grid_volume.ny,
        grid_volume.nz, grid_volume.nr, num_direction_X, num_direction_Y, num_direction_Z,
        num_direction_R, reduceCtorEq, false_and, true_and, and_true, if_false, if_true]
      try simp (disch := omega) only [if_pos, if_neg]
      simp (disch := ((try simp only [ivec.in_direction]); omega)) only [boundary_loop_low_hit,
        boundary_loop_low_pass, boundary_loop_high_hit, boundary_loop_high_pass,
        boundary_loop_none, boundary_loop_nil, ivec.set_direction, ivec.in_direction,
        Int.reduceAdd, zero_add]
      simp
    refine ⟨fun p hp hl => ?_, fun p ib jb => ?_, ?_, fun ib => ?_, fun ib => ?_⟩
    · obtain ⟨pdim, px, py, pz, pr, pp⟩ := p
      simp only at hp
      subst hp
      simp only [grid_volume.in_boundary_patch]
      rw [exists_three _ (fun ib i0 i1 i2 => by rw [eo ib i0 i1 i2]; simp)]
      simp only [e0, e1, e2]
      simp only [grid_volume.on_lattice, hs, loop_over_directions, List.all_cons,
        List.all_nil, ivec.in_direction, Bool.and_true, Bool.and_eq_true,
        decide_eq_true_eq] at hl
      simp [grid_volume.contains, grid_volume.owns, ivec.between, ivec.sub,
        loop_over_directions, ivec.set_direction, ivec.in_direction, grid_volume.nx,
        grid_volume.ny, grid_volume.nz, grid_volume.nr]
      omega
    · refine three_disjoint (fun k => grid_volume.in_boundary_patch _ c k p = true)
        (fun ib i0 i1 i2 => by
          simp only [grid_volume.in_boundary_patch]
          rw [eo ib i0 i1 i2]
          simp) ?_ ?_ ?_ ib jb <;>
        simp only [grid_volume.in_boundary_patch, e0, e1, e2] <;>
        simp [ivec.between, loop_over_directions, ivec.in_direction] <;>
        omega
    · first
        | (refine ⟨2, by decide, by simp [loop_over_directions], fun ib => ?_⟩
           rcases int_three_cases ib with rfl | rfl | rfl | ⟨i0, i1, i2⟩ <;>
             (try rw [eo ib i0 i1 i2]) <;> simp only [e0, e1, e2] <;> simp <;> omega)
        | (refine ⟨1, by decide, by simp [loop_over_directions], fun ib => ?_⟩
           rcases int_three_cases ib with rfl | rfl | rfl | ⟨i0, i1, i2⟩ <;>
             (try rw [eo ib i0 i1 i2]) <;> simp only [e0, e1, e2] <;> simp <;> omega)
    · rcases int_three_cases ib with rfl | rfl | rfl | ⟨i0, i1, i2⟩ <;>
        (try rw [eo ib i0 i1 i2]) <;> simp only [e0, e1, e2] <;>
        simp [one_ivec, zero_ivec, ivec.neg, loop_over_directions, ivec.set_direction,
          ivec.in_direction]
    · rcases int_three_cases ib with rfl | rfl | rfl | ⟨i0, i1, i2⟩ <;>
        (try rw [eo ib i0 i1 i2]) <;> simp only [e0, e1, e2] <;>
        simp [grid_volume.on_lattice, hs, loop_over_directions, ivec.in_direction] <;>
        omega

/-- C25: for a descriptor with non-negative extents whose origin has its dimension, and a
component `c`: a point of the sub-lattice of `c` (of the dimension of the descriptor) is
contained and not owned exactly when it lies in the patch `[cs, ce]` of a valid index `ib`;
no point lies in the patches of two valid indices; the valid indices are `0, ..., k - 1`
for a `k` of at most twice the number of active directions; for every other `ib` the
function returns false with `cs = one_ivec` and `ce = -one_ivec`; the corner `cs` of a
valid index is a point of the sub-lattice of `c`. -/
theorem get_boundary_icorners_spec (gv : grid_volume) (c : component) (hwf : gv.wf) :
    (∀ p : ivec, p.dim = gv.dim → gv.on_lattice c p = true →
        ((gv.contains p = true ∧ gv.owns p = false) ↔
          ∃ ib : Int, gv.in_boundary_patch c ib p = true))
      ∧ (∀ (p : ivec) (ib jb : Int), gv.in_boundary_patch c ib p = true →
          gv.in_boundary_patch c jb p = true → ib = jb)
      ∧ (∃ k : Int, 0 ≤ k ∧ k ≤ 2 * (loop_over_directions gv.dim).length
          ∧ ∀ ib : Int, (gv.get_boundary_icorners c ib).1 = true ↔ (0 ≤ ib ∧ ib < k))
      ∧ (∀ ib : Int, (gv.get_boundary_icorners c ib).1 = false →
          gv.get_boundary_icorners c ib
            = (false, one_ivec gv.dim, (one_ivec gv.dim).neg))
      ∧ (∀ ib : Int, (gv.get_boundary_icorners c ib).1 = true →
          (gv.get_boundary_icorners c ib).2.1.dim = gv.dim
            ∧ gv.on_lattice c (gv.get_boundary_icorners c ib).2.1 = true) := by
  have h : gv.dim = .D1 ∨ gv.dim = .D2 ∨ gv.dim = .D3 ∨ gv.dim = .Dcyl := by
    cases gv.dim <;> simp
  rcases h with h | h | h | h
  · exact get_boundary_icorners_D1 gv c hwf h
  · exact get_boundary_icorners_D2 gv c hwf h
  · exact get_boundary_icorners_D3 gv c hwf h
  · exact get_boundary_icorners_Dcyl gv c hwf h

/-- C25, an instance: the 3-D descriptor `2 x 3 x 4` and the component `Ex` have three
boundary patches. -/
theorem get_boundary_icorners_spec_witness :
    ∃ k : Int, 0 ≤ k
      ∧ k ≤ 2 * (loop_over_directions
          (⟨.D3, 2, 3, 4, ⟨.D3, 10, 20, 30, 0, 0⟩⟩ : grid_volume).dim).length
      ∧ ∀ ib : Int,
          ((⟨.D3, 2, 3, 4, ⟨.D3, 10, 20, 30, 0, 0⟩⟩ : grid_volume).get_boundary_icorners
            .Ex ib).1 = true ↔ (0 ≤ ib ∧ ib < k) :=
  (get_boundary_icorners_spec ⟨.D3, 2, 3, 4, ⟨.D3, 10, 20, 30, 0, 0⟩⟩ .Ex (by decide)).2.2.1

/-! ## Interpolation weights -/

theorem floor_le (q : Rat) : (floor q : Rat) ≤ q ∧ q < (floor q : Rat) + 1 := by
  have h : floor q = ⌊q⌋ := (Rat.floor_def' q).symm
  rw [h]
  exact ⟨Int.floor_le q, Int.lt_floor_add_one q⟩

/-- The offset of a point from the middle of its cell, in half-cell units, lies between
`-1` and `1`. -/
theorem dv_bound (a pc : Rat) (s : Int) (ha : 0 < a) :
    -1 ≤ (pc - (((floor ((pc - (s : Rat) * (1 / 2 * (1 / a))) * a) * 2 + 1 + s : Int) : Rat)
        * (1 / 2 * (1 / a)))) * (2 * a)
      ∧ (pc - (((floor ((pc - (s : Rat) * (1 / 2 * (1 / a))) * a) * 2 + 1 + s : Int) : Rat)
        * (1 / 2 * (1 / a)))) * (2 * a) ≤ 1 := by
  obtain ⟨h1, h2⟩ := floor_le ((pc - (s : Rat) * (1 / 2 * (1 / a))) * a)
  generalize floor ((pc - (s : Rat) * (1 / 2 * (1 / a))) * a) = f at h1 h2 ⊢
  have ha0 : a ≠ 0 := ne_of_gt ha
  have e1 : (pc - (s : Rat) * (1 / 2 * (1 / a))) * a = a * pc - (s : Rat) / 2 := by
    field_simp
    ring
  have e2 : (pc - (((f * 2 + 1 + s : Int) : Rat) * (1 / 2 * (1 / a)))) * (2 * a)
      = 2 * (a * pc - (s : Rat) / 2 - (f : Rat)) - 1 := by
    push_cast
    field_simp
    ring
  rw [e1] at h1 h2
  rw [e2]
  constructor <;> linarith

theorem interpolate_dv_bounds (gv : grid_volume) (a : Rat) (c : component) (pc : vec)
    (ha : 0 < a) (hpc : pc.dim = gv.dim) :
    ∀ d ∈ loop_over_directions gv.dim,
      -1 ≤ (gv.interpolate_dv a c pc).in_direction d
        ∧ (gv.interpolate_dv a c pc).in_direction d ≤ 1 := by
  have hsd := iyee_shift_dim gv c
  simp only [grid_volume.interpolate_dv, grid_volume.interpolate_middle,
    grid_volume.yee_shift, grid_volume.at_ivec]
  generalize gv.iyee_shift c = s at hsd ⊢
  obtain ⟨dim, n0, n1, n2, io⟩ := gv
  obtain ⟨sdim, sx, sy, sz, sr, sp⟩ := s
  obtain ⟨pdim, px, py, pz, pr, pp⟩ := pc
  simp only at hsd hpc
  subst hsd hpc
  intro d hd
  cases pdim <;>
    simp only [loop_over_directions, List.mem_cons, List.mem_singleton, List.not_mem_nil,
      or_false] at hd <;>
    rcases hd with rfl | rfl | rfl <;>
    simp only [vec.sub, vec.scale, ivec.scale_double, ivec.add_assign, loop_over_directions,
      List.foldl, vec.set_direction, vec.in_direction, ivec.set_direction, ivec.in_direction,
      zero_ivec, zero_vec] <;>
    first
      | exact dv_bound a px sx ha
      | exact dv_bound a py sy ha
      | exact dv_bound a pz sz ha
      | exact dv_bound a pr sr ha


theorem interpolate_step_spec (middle : ivec) (dv : vec) (xs : List (ivec × Rat))
    (d : direction) (h1 : -1 ≤ dv.in_direction d) (h2 : dv.in_direction d ≤ 1)
    (hx : ∀ x ∈ xs, 0 ≤ x.2) :
    (∀ x ∈ interpolate_step middle dv xs d, 0 ≤ x.2)
      ∧ ((interpolate_step middle dv xs d).map (fun x => x.2)).sum
          = (xs.map (fun x => x.2)).sum
      ∧ (interpolate_step middle dv xs d).length = 2 * xs.length := by
  refine ⟨?_, ?_, ?_⟩
  · intro x hxm
    simp only [interpolate_step, List.mem_append, List.mem_map] at hxm
    rcases hxm with ⟨y, hy, rfl⟩ | ⟨y, hy, rfl⟩
    · exact mul_nonneg (hx y hy) (by linarith)
    · exact mul_nonneg (hx y hy) (by linarith)
  · simp only [interpolate_step, List.map_append, List.map_map, List.sum_append]
    have e : ∀ (k : Rat) (l : List (ivec × Rat)),
        (l.map ((fun x : ivec × Rat => x.2)
          ∘ fun x => (x.1.set_direction d (middle.in_direction d - 1), x.2 * k))).sum
          = (l.map (fun x => x.2)).sum * k := by
      intro k l
      induction l with
      | nil => simp
      | cons a t ih =>
        simp only [List.map_cons, List.sum_cons, Function.comp_apply] at ih ⊢
        rw [ih]
        ring
    have e2 : ∀ (k : Rat) (l : List (ivec × Rat)),
        (l.map ((fun x : ivec × Rat => x.2)
          ∘ fun x => (x.1.set_direction d (middle.in_direction d + 1), x.2 * k))).sum
          = (l.map (fun x => x.2)).sum * k := by
      intro k l
      induction l with
      | nil => simp
      | cons a t ih =>
        simp only [List.map_cons, List.sum_cons, Function.comp_apply] at ih ⊢
        rw [ih]
        ring
    rw [e, e2]
    ring
  · simp only [interpolate_step, List.length_append, List.length_map]
    ring

theorem interpolate_fold_spec (middle : ivec) (dv : vec) :
    ∀ (ds : List direction) (xs : List (ivec × Rat)),
      (∀ d ∈ ds, -1 ≤ dv.in_direction d ∧ dv.in_direction d ≤ 1) →
      (∀ x ∈ xs, 0 ≤ x.2) →
      (∀ x ∈ ds.foldl (interpolate_step middle dv) xs, 0 ≤ x.2)
        ∧ ((ds.foldl (interpolate_step middle dv) xs).map (fun x => x.2)).sum
            = (xs.map (fun x => x.2)).sum
        ∧ (ds.foldl (interpolate_step middle dv) xs).length = 2 ^ ds.length * xs.length := by
  intro ds
  induction ds with
  | nil =>
    intro xs _ hx
    exact ⟨hx, rfl, by simp⟩
  | cons d t ih =>
    intro xs hd hx
    obtain ⟨a1, a2, a3⟩ := interpolate_step_spec middle dv xs d
      (hd d (List.mem_cons_self d t)).1 (hd d (List.mem_cons_self d t)).2 hx
    obtain ⟨b1, b2, b3⟩ := ih (interpolate_step middle dv xs d)
      (fun e he => hd e (List.mem_cons_of_mem d he)) a1
    refine ⟨b1, b2.trans a2, ?_⟩
    simp only [List.foldl, List.length_cons]
    rw [b3, a3]
    ring

theorem sum_set_weight {α : Type} (v : α × Rat) :
    ∀ (xs : List (α × Rat)) (i : Nat), i < xs.length →
      ((xs.set i v).map (fun x => x.2)).sum
        = (xs.map (fun x => x.2)).sum - (xs.getD i v).2 + v.2 := by
  intro xs
  induction xs with
  | nil => intro i hi; exact absurd hi (Nat.not_lt_zero _)
  | cons a t ih =>
    intro i hi
    cases i with
    | zero =>
      simp only [List.set_cons_zero, List.map_cons, List.sum_cons, List.getD_cons_zero]
      ring
    | succ j =>
      simp only [List.set_cons_succ, List.map_cons, List.sum_cons, List.getD_cons_succ]
      rw [ih j (Nat.lt_of_succ_lt_succ hi)]
      ring

theorem drop_set_same {β : Type} (z : β) :
    ∀ (t : List β) (k : Nat), k < t.length → (t.set k z).drop k = z :: t.drop (k + 1) := by
  intro t
  induction t with
  | nil => intro k hk; exact absurd hk (Nat.not_lt_zero _)
  | cons a t ih =>
    intro k hk
    cases k with
    | zero => rfl
    | succ j =>
      simp only [List.set_cons_succ, List.drop_succ_cons]
      exact ih j (Nat.lt_of_succ_lt_succ hk)

/-- The function `stupidsort` on a list whose weights are `0` or at least `1e-13` and are
`0` from the position `l` on: the result has the weights of at least `1e-13` in front and
zeros behind, the same total weight and the same length. -/
theorem stupidsort_spec {α : Type} (zero : α) :
    ∀ (l : Nat) (xs : List (α × Rat)), l ≤ xs.length →
      (∀ x ∈ xs.drop l, x.2 = 0) →
      (∀ x ∈ xs, x.2 = 0 ∨ (1 : Rat) / 10 ^ 13 ≤ x.2) →
      ∃ A B : List (α × Rat), stupidsort zero l xs = A ++ B
        ∧ (∀ x ∈ A, (1 : Rat) / 10 ^ 13 ≤ x.2) ∧ (∀ x ∈ B, x.2 = 0)
        ∧ ((A ++ B).map (fun x => x.2)).sum = (xs.map (fun x => x.2)).sum
        ∧ (A ++ B).length = xs.length := by
  intro l
  induction l with
  | zero =>
    intro xs _ hz _
    exact ⟨[], xs, rfl, fun _ h => absurd h (List.not_mem_nil _), hz, rfl, rfl⟩
  | succ l ih =>
    intro xs hl hz hw
    cases xs with
    | nil => exact absurd hl (by simp)
    | cons x t =>
      have hlt : l ≤ t.length := Nat.le_of_succ_le_succ hl
      by_cases hs : |x.2| < 2 / 10 ^ 15
      · have hx0 : x.2 = 0 := by
          rcases hw x (List.mem_cons_self x t) with h | h
          · exact h
          · exfalso
            have : |x.2| = x.2 := abs_of_nonneg (le_trans (by norm_num) h)
            rw [this] at hs
            have : (2 : Rat) / 10 ^ 15 < 1 / 10 ^ 13 := by norm_num
            linarith
        have e : stupidsort zero (l + 1) (x :: t)
            = stupidsort zero l
                (((x :: t).set 0 ((x :: t).getD l (zero, 0))).set l (zero, 0)) := by
          simp only [stupidsort, if_pos hs]
        have hlen : (((x :: t).set 0 ((x :: t).getD l (zero, 0))).set l (zero, 0)).length
            = (x :: t).length := by simp
        have hmem : ∀ y ∈ ((x :: t).set 0 ((x :: t).getD l (zero, 0))).set l (zero, 0),
            y.2 = 0 ∨ (1 : Rat) / 10 ^ 13 ≤ y.2 := by
          intro y hy
          rcases List.mem_or_eq_of_mem_set hy with h | h
          · rcases List.mem_or_eq_of_mem_set h with h2 | h2
            · exact hw y h2
            · rw [h2]
              by_cases hll : l < (x :: t).length
              · rw [List.getD_eq_getElem _ _ hll]
                exact hw _ (List.getElem_mem _)
              · rw [List.getD_eq_default _ _ (not_lt.mp hll)]
                exact Or.inl rfl
          · rw [h]
            exact Or.inl rfl
        have hdrop : ∀ y ∈ (((x :: t).set 0 ((x :: t).getD l (zero, 0))).set l
            (zero, 0)).drop l, y.2 = 0 := by
          intro y hy
          rw [List.set_cons_zero, drop_set_same _ _ _
            (by simp only [List.length_cons]; omega)] at hy
          rcases List.mem_cons.mp hy with h | h
          · rw [h]
          · exact hz y (by simpa using h)
        have hsum : ((((x :: t).set 0 ((x :: t).getD l (zero, 0))).set l (zero, 0)).map
            (fun y => y.2)).sum = ((x :: t).map (fun y => y.2)).sum := by
          rw [List.set_cons_zero]
          cases l with
          | zero =>
            simp only [List.set_cons_zero, List.map_cons, List.sum_cons, hx0]
          | succ k =>
            simp only [List.set_cons_succ, List.map_cons, List.sum_cons, List.getD_cons_succ,
              hx0]
            rw [sum_set_weight (zero, 0) t k hlt]
            ring
        obtain ⟨A, B, r1, r2, r3, r4, r5⟩ := ih _ (by rw [hlen]; exact Nat.le_of_succ_le hl)
          hdrop hmem
        exact ⟨A, B, e.trans r1, r2, r3, r4.trans hsum, r5.trans hlen⟩
      · have hx1 : (1 : Rat) / 10 ^ 13 ≤ x.2 := by
          rcases hw x (List.mem_cons_self x t) with h | h
          · exfalso
            apply hs
            rw [h]
            norm_num
          · exact h
        have e : stupidsort zero (l + 1) (x :: t) = x :: stupidsort zero l t := by
          simp only [stupidsort, if_neg hs]
        obtain ⟨A, B, r1, r2, r3, r4, r5⟩ := ih t hlt
          (by simpa using hz) (fun y hy => hw y (List.mem_cons_of_mem x hy))
        refine ⟨x :: A, B, by rw [e, r1]; rfl, ?_, r3, ?_, ?_⟩
        · intro y hy
          rcases List.mem_cons.mp hy with rfl | h
          · exact hx1
          · exact r2 y h
        · simp only [List.cons_append, List.map_cons, List.sum_cons]
          rw [r4]
        · simp only [List.cons_append, List.length_cons]
          rw [r5]


theorem weight_run_append {α : Type} (B : List (α × Rat)) (hB : ∀ x ∈ B, x.2 = 0) :
    ∀ A : List (α × Rat), (∀ x ∈ A, x.2 ≠ 0) →
      weight_run (A ++ B) = A.length ∧ (A ++ B).take A.length = A
        ∧ (A ++ B).drop A.length = B := by
  intro A
  induction A with
  | nil =>
    intro _
    refine ⟨?_, rfl, rfl⟩
    cases B with
    | nil => rfl
    | cons b t =>
      have : b.2 = 0 := hB b (List.mem_cons_self b t)
      simp [weight_run, List.takeWhile, this]
  | cons a t ih =>
    intro hA
    obtain ⟨i1, i2, i3⟩ := ih (fun x hx => hA x (List.mem_cons_of_mem a hx))
    have ha : a.2 ≠ 0 := hA a (List.mem_cons_self a t)
    refine ⟨?_, ?_, ?_⟩
    · simp only [weight_run] at i1 ⊢
      simp only [List.cons_append, List.takeWhile, ha, ne_eq, not_false_eq_true, decide_True,
        List.length_cons]
      exact congrArg (· + 1) i1
    · simp only [List.cons_append, List.length_cons, List.take_succ_cons]
      rw [i2]
    · simp only [List.cons_append, List.length_cons, List.drop_succ_cons]
      exact i3

theorem threshold_spec (pts : List (ivec × Rat)) (h0 : ∀ x ∈ pts, 0 ≤ x.2) :
    (∀ x ∈ pts.map (fun x : ivec × Rat =>
        if x.2 < 0 then (x.1, (0 : Rat)) else if x.2 < 1 / 10 ^ 13 then (x.1, 0) else x),
        x.2 = 0 ∨ (1 : Rat) / 10 ^ 13 ≤ x.2)
      ∧ ((pts.map (fun x : ivec × Rat =>
          if x.2 < 0 then (x.1, (0 : Rat)) else if x.2 < 1 / 10 ^ 13 then (x.1, 0)
          else x)).map (fun x => x.2)).sum ≤ (pts.map (fun x => x.2)).sum
      ∧ (pts.map (fun x => x.2)).sum - (pts.length : Rat) * (1 / 10 ^ 13)
          ≤ ((pts.map (fun x : ivec × Rat =>
              if x.2 < 0 then (x.1, (0 : Rat)) else if x.2 < 1 / 10 ^ 13 then (x.1, 0)
              else x)).map (fun x => x.2)).sum := by
  induction pts with
  | nil => simp
  | cons a t ih =>
    obtain ⟨i1, i2, i3⟩ := ih (fun x hx => h0 x (List.mem_cons_of_mem a hx))
    have ha := h0 a (List.mem_cons_self a t)
    simp only [List.map_cons, List.sum_cons, List.mem_cons, forall_eq_or_imp,
      List.length_cons, Nat.cast_add, Nat.cast_one]
    rw [if_neg (not_lt.mpr ha)]
    by_cases hs : a.2 < 1 / 10 ^ 13
    · rw [if_pos hs]
      refine ⟨⟨Or.inl rfl, i1⟩, by simp only; linarith, by simp only; linarith⟩
    · rw [if_neg hs]
      refine ⟨⟨Or.inr (not_lt.mp hs), i1⟩, by linarith, by linarith⟩

/-- The second half of `interpolate` on non-negative weights of total `1`: no abort, eight
weights, each `0` or at least `1e-13`, of a total between `1 - 8e-13` and `1`. -/
theorem interpolate_normalise_spec (fill : ivec) (pts : List (ivec × Rat))
    (h0 : ∀ x ∈ pts, 0 ≤ x.2) (hsum : (pts.map (fun x => x.2)).sum = 1)
    (hlen : pts.length ≤ 8) :
    ∃ r : List (ivec × Rat), interpolate_normalise fill pts = .ok r ∧ r.length = 8
      ∧ (∀ x ∈ r, x.2 = 0 ∨ (1 : Rat) / 10 ^ 13 ≤ x.2)
      ∧ 1 - 8 / 10 ^ 13 ≤ (r.map (fun x => x.2)).sum
      ∧ (r.map (fun x => x.2)).sum ≤ 1 := by
  have hcorr : pts.map (fun x : ivec × Rat =>
      (x.1, x.2 + (1 - (pts.map (fun x => x.2)).sum) * (1 / (pts.length : Rat)))) = pts := by
    rw [hsum]
    simp
  have hany : pts.any (fun x => decide (x.2 < 0 ∧ -x.2 ≥ (1 : Rat) / 10 ^ 13 * 10 ^ 5))
      = false := by
    rw [List.any_eq_false]
    intro x hx
    have := h0 x hx
    simp only [decide_eq_true_eq, not_and]
    intro h
    linarith
  obtain ⟨t1, t2, t3⟩ := threshold_spec pts h0
  generalize hT : pts.map (fun x : ivec × Rat =>
      if x.2 < 0 then (x.1, (0 : Rat)) else if x.2 < 1 / 10 ^ 13 then (x.1, 0) else x) = T
    at t1 t2 t3
  have hTlen : T.length = pts.length := by rw [← hT, List.length_map]
  have harr_len : (T ++ List.replicate (8 - pts.length) (fill, (0 : Rat))).length = 8 := by
    rw [List.length_append, List.length_replicate, hTlen]
    omega
  obtain ⟨A, B, s1, s2, s3, s4, s5⟩ := stupidsort_spec (zero_ivec .D1) pts.length
    (T ++ List.replicate (8 - pts.length) (fill, (0 : Rat)))
    (by rw [harr_len]; exact hlen)
    (by
      intro x hx
      rw [← hTlen, List.drop_left] at hx
      exact (List.eq_of_mem_replicate hx) ▸ rfl)
    (by
      intro x hx
      rcases List.mem_append.mp hx with h | h
      · exact t1 x h
      · exact Or.inl ((List.eq_of_mem_replicate h) ▸ rfl))
  have hsumarr : ((T ++ List.replicate (8 - pts.length) (fill, (0 : Rat))).map
      (fun x => x.2)).sum = (T.map (fun x => x.2)).sum := by
    simp
  obtain ⟨w1, w2, w3⟩ := weight_run_append B s3 A (fun x hx => by
    have := s2 x hx
    intro h
    rw [h] at this
    norm_num at this)
  have hAB : ((A ++ B).map (fun x => x.2)).sum = (T.map (fun x => x.2)).sum :=
    s4.trans hsumarr
  have hlo : (1 : Rat) - 8 / 10 ^ 13 ≤ (T.map (fun x => x.2)).sum := by
    have : (pts.length : Rat) ≤ 8 := by exact_mod_cast hlen
    rw [hsum] at t3
    have h8 : (pts.length : Rat) * (1 / 10 ^ 13) ≤ 8 / 10 ^ 13 := by
      rw [div_eq_mul_one_div (8 : Rat)]
      exact mul_le_mul_of_nonneg_right this (by norm_num)
    linarith
  have hhi : (T.map (fun x => x.2)).sum ≤ 1 := by rw [hsum] at t2; exact t2
  have e : interpolate_normalise fill pts
      = if (A.all (fun x => decide (x.2 = ((A ++ B).getD 0 (zero_ivec .D1, 0)).2))) = true
        then .ok (A.map (fun x => (x.1, 1 / (A.length : Rat))) ++ B)
        else .ok (A ++ B) := by
    simp only [interpolate_normalise, hcorr, hany, Bool.false_eq_true, if_false, hT, s1, w1,
      w2, w3]
  rw [e]
  by_cases hall : (A.all (fun x => decide (x.2 = ((A ++ B).getD 0 (zero_ivec .D1, 0)).2)))
      = true
  · rw [if_pos hall]
    have hBsum : (B.map (fun x => x.2)).sum = 0 := by
      apply List.sum_eq_zero
      intro y hy
      obtain ⟨b, hb, rfl⟩ := List.mem_map.mp hy
      exact s3 b hb
    have hApos : 0 < A.length := by
      rcases Nat.eq_zero_or_pos A.length with h | h
      · exfalso
        have hA : A = [] := List.length_eq_zero.mp h
        rw [hA, List.nil_append, hBsum] at hAB
        rw [← hAB] at hlo
        norm_num at hlo
      · exact h
    have hA8 : A.length ≤ 8 := by
      have := s5
      rw [List.length_append, harr_len] at this
      omega
    have hAsum : ((A.map (fun x : ivec × Rat => (x.1, 1 / (A.length : Rat)))).map
        (fun x => x.2)).sum = 1 := by
      simp only [List.map_map]
      have : ((fun x : ivec × Rat => x.2) ∘ fun x : ivec × Rat => (x.1, 1 / (A.length : Rat)))
          = fun _ => 1 / (A.length : Rat) := rfl
      rw [this, List.map_const', List.sum_replicate, nsmul_eq_mul]
      field_simp
    refine ⟨_, rfl, ?_, ?_, ?_, ?_⟩
    · rw [List.length_append, List.length_map, ← List.length_append, s5, harr_len]
    · intro x hx
      rcases List.mem_append.mp hx with h | h
      · obtain ⟨y, -, rfl⟩ := List.mem_map.mp h
        right
        simp only
        have h8 : (A.length : Rat) ≤ 8 := by exact_mod_cast hA8
        have hp : (0 : Rat) < A.length := by exact_mod_cast hApos
        rw [div_le_div_iff₀ (by norm_num) hp]
        norm_num
        linarith
      · exact Or.inl (s3 x h)
    · rw [List.map_append, List.sum_append, hAsum, hBsum]
      norm_num
    · rw [List.map_append, List.sum_append, hAsum, hBsum]
      norm_num
  · rw [if_neg hall]
    refine ⟨_, rfl, by rw [s5, harr_len], ?_, by rw [hAB]; exact hlo, by rw [hAB]; exact hhi⟩
    intro x hx
    rcases List.mem_append.mp hx with h | h
    · exact Or.inr (s2 x h)
    · exact Or.inl (s3 x h)


/-- The overload of `interpolate` that returns lattice points, for a point of the dimension
of the descriptor and a positive resolution: no abort, eight weights, each `0` or at least
`1e-13`, of a total between `1 - 8e-13` and `1`. -/
theorem interpolate_locs_ok (gv : grid_volume) (rnd : Rat → Int) (a : Rat) (c : component)
    (pc : vec) (ha : 0 < a) (hpc : pc.dim = gv.dim) :
    ∃ r : List (ivec × Rat), gv.interpolate_locs rnd a c pc = .ok r ∧ r.length = 8
      ∧ (∀ x ∈ r, x.2 = 0 ∨ (1 : Rat) / 10 ^ 13 ≤ x.2)
      ∧ 1 - 8 / 10 ^ 13 ≤ (r.map (fun x => x.2)).sum
      ∧ (r.map (fun x => x.2)).sum ≤ 1 := by
  obtain ⟨f1, f2, f3⟩ := interpolate_fold_spec (gv.interpolate_middle a c pc)
    (gv.interpolate_dv a c pc) (loop_over_directions gv.dim)
    [(gv.round_vec rnd a (grid_volume.at_ivec a (gv.interpolate_middle a c pc)), 1)]
    (interpolate_dv_bounds gv a c pc ha hpc)
    (fun x hx => by
      rw [List.mem_singleton.mp hx]
      norm_num)
  exact interpolate_normalise_spec _ _ f1 (by rw [f2]; simp)
    (by
      rw [f3]
      cases gv.dim <;> simp [loop_over_directions])

theorem stupidsort_weights {α : Type} (zero : α) (l : Nat) (xs : List (α × Rat))
    (hl : l ≤ xs.length) (hz : ∀ x ∈ xs.drop l, x.2 = 0)
    (hw : ∀ x ∈ xs, x.2 = 0 ∨ (1 : Rat) / 10 ^ 13 ≤ x.2) :
    (∀ x ∈ stupidsort zero l xs, x.2 = 0 ∨ (1 : Rat) / 10 ^ 13 ≤ x.2)
      ∧ ((stupidsort zero l xs).map (fun x => x.2)).sum = (xs.map (fun x => x.2)).sum
      ∧ (stupidsort zero l xs).length = xs.length := by
  obtain ⟨A, B, s1, s2, s3, s4, s5⟩ := stupidsort_spec zero l xs hl hz hw
  rw [s1]
  refine ⟨fun x hx => ?_, s4, s5⟩
  rcases List.mem_append.mp hx with h | h
  · exact Or.inr (s2 x h)
  · exact Or.inl (s3 x h)

theorem map_weights {α β : Type} (f : α × Rat → β × Rat)
    (hf : ∀ x, (f x).2 = x.2 ∨ (f x).2 = 0) :
    ∀ xs : List (α × Rat), (∀ x ∈ xs, x.2 = 0 ∨ (1 : Rat) / 10 ^ 13 ≤ x.2) →
      (∀ y ∈ xs.map f, y.2 = 0 ∨ (1 : Rat) / 10 ^ 13 ≤ y.2)
        ∧ ((xs.map f).map (fun x => x.2)).sum ≤ (xs.map (fun x => x.2)).sum
        ∧ 0 ≤ ((xs.map f).map (fun x => x.2)).sum := by
  intro xs
  induction xs with
  | nil => intro _; simp
  | cons a t ih =>
    intro hw
    obtain ⟨i1, i2, i3⟩ := ih (fun x hx => hw x (List.mem_cons_of_mem a hx))
    have ha := hw a (List.mem_cons_self a t)
    have ha0 : 0 ≤ a.2 := by
      rcases ha with h | h
      · rw [h]
      · exact le_trans (by norm_num) h
    simp only [List.map_cons, List.sum_cons, List.mem_cons, forall_eq_or_imp]
    rcases hf a with h | h
    · rw [h]
      exact ⟨⟨ha, i1⟩, by linarith, by linarith⟩
    · rw [h]
      exact ⟨⟨Or.inl rfl, i1⟩, by linarith, by linarith⟩

theorem take_drop_weights {α β : Type} (f g : α × Rat → β × Rat)
    (hf : ∀ x, (f x).2 = x.2 ∨ (f x).2 = 0) (hg : ∀ x, (g x).2 = x.2 ∨ (g x).2 = 0)
    (xs : List (α × Rat)) (k : Nat)
    (hw : ∀ x ∈ xs, x.2 = 0 ∨ (1 : Rat) / 10 ^ 13 ≤ x.2) :
    (∀ y ∈ (xs.take k).map f ++ (xs.drop k).map g, y.2 = 0 ∨ (1 : Rat) / 10 ^ 13 ≤ y.2)
      ∧ (((xs.take k).map f ++ (xs.drop k).map g).map (fun x => x.2)).sum
          ≤ (xs.map (fun x => x.2)).sum
      ∧ 0 ≤ (((xs.take k).map f ++ (xs.drop k).map g).map (fun x => x.2)).sum
      ∧ ((xs.take k).map f ++ (xs.drop k).map g).length = xs.length := by
  obtain ⟨a1, a2, a3⟩ := map_weights f hf (xs.take k)
    (fun x hx => hw x (List.mem_of_mem_take hx))
  obtain ⟨b1, b2, b3⟩ := map_weights g hg (xs.drop k)
    (fun x hx => hw x (List.mem_of_mem_drop hx))
  have e : (xs.map (fun x => x.2)).sum
      = ((xs.take k).map (fun x => x.2)).sum + ((xs.drop k).map (fun x => x.2)).sum := by
    rw [← List.sum_append, ← List.map_append, List.take_append_drop]
  refine ⟨fun y hy => ?_, ?_, ?_, ?_⟩
  · rcases List.mem_append.mp hy with h | h
    · exact a1 y h
    · exact b1 y h
  · rw [List.map_append, List.sum_append, e]
    linarith
  · rw [List.map_append, List.sum_append]
    linarith
  · rw [List.length_append, List.length_map, List.length_map, ← List.length_append,
      List.take_append_drop]

/-- The overload of `interpolate` that returns array indices keeps some of the weights of
the other overload and sets the others to `0.0`: when it returns, it returns eight weights,
each `0` or at least `1e-13`, of a total between `0` and `1`. -/
theorem interpolate_indices_bound (gv : grid_volume) (rnd : Rat → Int) (a : Rat)
    (c : component) (pc : vec) (ha : 0 < a) (hpc : pc.dim = gv.dim)
    (r : List (Int × Rat)) (h : gv.interpolate rnd a c pc = .ok r) :
    r.length = 8 ∧ (∀ x ∈ r, x.2 = 0 ∨ (1 : Rat) / 10 ^ 13 ≤ x.2)
      ∧ 0 ≤ (r.map (fun x => x.2)).sum ∧ (r.map (fun x => x.2)).sum ≤ 1 := by
  obtain ⟨r0, h0, l0, w0, -, u0⟩ := interpolate_locs_ok gv rnd a c pc ha hpc
  simp only [grid_volume.interpolate, h0, bind_ok] at h
  generalize weight_run r0 = run at h
  obtain ⟨a1, a2, a3, a4⟩ := take_drop_weights
    (fun x : ivec × Rat => if !gv.owns x.1 then (x.1, (0 : Rat)) else x) id
    (fun x => by
      by_cases hx : (!gv.owns x.1) = true
      · right; beta_reduce; rw [if_pos hx]
      · left; beta_reduce; rw [if_neg hx])
    (fun x => Or.inl rfl) r0 run w0
  rw [List.map_id] at a1 a2 a3 a4
  generalize (r0.take run).map (fun x : ivec × Rat =>
    if !gv.owns x.1 then (x.1, (0 : Rat)) else x) ++ r0.drop run = arr1 at h a1 a2 a3 a4
  obtain ⟨b1, b2, b3⟩ := stupidsort_weights (zero_ivec .D1) 8 arr1 (by omega)
    (by
      intro x hx
      rw [List.drop_of_length_le (by omega)] at hx
      exact absurd hx (List.not_mem_nil _)) a1
  generalize stupidsort (zero_ivec .D1) 8 arr1 = arr2 at h b1 b2 b3
  generalize weight_run arr2 = run2 at h
  obtain ⟨c1, c2, c3, c4⟩ := take_drop_weights
    (fun x : ivec × Rat => (gv.index c x.1, x.2)) (fun x : ivec × Rat => ((0 : Int), x.2))
    (fun x => Or.inl rfl) (fun x => Or.inl rfl) arr2 run2 b1
  generalize (arr2.take run2).map (fun x : ivec × Rat => (gv.index c x.1, x.2))
    ++ (arr2.drop run2).map (fun x : ivec × Rat => ((0 : Int), x.2)) = ind at h c1 c2 c3 c4
  obtain ⟨d1, d2, d3, d4⟩ := take_drop_weights
    (fun x : Int × Rat => if (ind.getD 0 (0, 0)).1 < 0 ∨ (ind.getD 0 (0, 0)).1 ≥ gv.ntot
      then (x.1, (0 : Rat)) else x) id
    (fun x => by
      by_cases hx : (ind.getD 0 (0, 0)).1 < 0 ∨ (ind.getD 0 (0, 0)).1 ≥ gv.ntot
      · right; beta_reduce; rw [if_pos hx]
      · left; beta_reduce; rw [if_neg hx])
    (fun x => Or.inl rfl) ind run2 c1
  rw [List.map_id] at d1 d2 d3 d4
  generalize (ind.take run2).map (fun x : Int × Rat =>
    if (ind.getD 0 (0, 0)).1 < 0 ∨ (ind.getD 0 (0, 0)).1 ≥ gv.ntot
      then (x.1, (0 : Rat)) else x) ++ ind.drop run2 = ind2 at h d1 d2 d3 d4
  obtain ⟨e1, e2, e3⟩ := stupidsort_weights (0 : Int) 8 ind2 (by omega)
    (by
      intro x hx
      rw [List.drop_of_length_le (by omega)] at hx
      exact absurd hx (List.not_mem_nil _)) d1
  generalize stupidsort (0 : Int) 8 ind2 = ind3 at h e1 e2 e3
  split_ifs at h
  cases h
  exact ⟨by omega, e1, by linarith, by linarith⟩


/-- C27 (corrected): for a point of the dimension of the descriptor and a positive
resolution (weights as exact rationals), the overload of `interpolate` that returns lattice
points returns, with no abort, eight weights, each `0` or at least `1e-13`, whose total lies
between `1 - 8e-13` and `1`; the overload that returns array indices, when it returns,
returns eight weights, each `0` or at least `1e-13`, whose total lies between `0` and
`1`. -/
theorem interpolate_spec (gv : grid_volume) (rnd : Rat → Int) (a : Rat) (c : component)
    (pc : vec) (ha : 0 < a) (hpc : pc.dim = gv.dim) :
    (∃ r : List (ivec × Rat), gv.interpolate_locs rnd a c pc = .ok r ∧ r.length = 8
        ∧ (∀ x ∈ r, x.2 = 0 ∨ (1 : Rat) / 10 ^ 13 ≤ x.2)
        ∧ 1 - 8 / 10 ^ 13 ≤ (r.map (fun x => x.2)).sum
        ∧ (r.map (fun x => x.2)).sum ≤ 1)
      ∧ (∀ r : List (Int × Rat), gv.interpolate rnd a c pc = .ok r →
          r.length = 8 ∧ (∀ x ∈ r, x.2 = 0 ∨ (1 : Rat) / 10 ^ 13 ≤ x.2)
            ∧ 0 ≤ (r.map (fun x => x.2)).sum ∧ (r.map (fun x => x.2)).sum ≤ 1) :=
  ⟨interpolate_locs_ok gv rnd a c pc ha hpc,
    fun r h => interpolate_indices_bound gv rnd a c pc ha hpc r h⟩

/-- C27, an instance: a point of the 3-D descriptor `4 x 4 x 4` at resolution `10`. -/
theorem interpolate_spec_witness :
    ∃ r : List (ivec × Rat),
      (⟨.D3, 4, 4, 4, zero_ivec .D3⟩ : grid_volume).interpolate_locs
          (fun q => floor (q + 1 / 2)) 10 .Ex ⟨.D3, 1 / 8, 1 / 7, 3 / 20, 0, 0⟩ = .ok r
        ∧ r.length = 8
        ∧ (∀ x ∈ r, x.2 = 0 ∨ (1 : Rat) / 10 ^ 13 ≤ x.2)
        ∧ 1 - 8 / 10 ^ 13 ≤ (r.map (fun x => x.2)).sum
        ∧ (r.map (fun x => x.2)).sum ≤ 1 :=
  (interpolate_spec ⟨.D3, 4, 4, 4, zero_ivec .D3⟩ (fun q => floor (q + 1 / 2)) 10 .Ex
    ⟨.D3, 1 / 8, 1 / 7, 3 / 20, 0, 0⟩ (by norm_num) rfl).1

/-- C27, the counterexample: in the 1-D descriptor of `4` cells at resolution `1` the point
`z = 1/4` is contained; its two neighbours on the lattice of `Ex` carry the weights `3/4`
(at `z = 0`, not owned) and `1/4` (at `z = 1`, owned), and the overload of `interpolate`
that returns array indices returns the single weight `1/4`: the total is `1/4`. -/
theorem interpolate_indices_total :
    (⟨.D1, 0, 0, 4, zero_ivec .D1⟩ : grid_volume).contains_vec 1 ⟨.D1, 0, 0, 1 / 4, 0, 0⟩ = true
      ∧ (⟨.D1, 0, 0, 4, zero_ivec .D1⟩ : grid_volume).interpolate
          (fun q => floor (q + 1 / 2)) 1 .Ex ⟨.D1, 0, 0, 1 / 4, 0, 0⟩
        = .ok [(1, 1 / 4), (0, 0), (0, 0), (0, 0), (0, 0), (0, 0), (0, 0), (0, 0)]
      ∧ (([(1, 1 / 4), (0, 0), (0, 0), (0, 0), (0, 0), (0, 0), (0, 0), (0, 0)] :
          List (Int × Rat)).map (fun x => x.2)).sum = 1 / 4 := by
  refine ⟨by decide!, by decide!, by norm_num⟩

/-! ## Compaction of weights -/

theorem take_set_same {β : Type} (z : β) :
    ∀ (t : List β) (k : Nat), (t.set k z).take k = t.take k := by
  intro t
  induction t with
  | nil => intro k; simp
  | cons a t ih =>
    intro k
    cases k with
    | zero => rfl
    | succ j =>
      simp only [List.set_cons_succ, List.take_succ_cons]
      rw [ih j]

theorem take_succ_getD {β : Type} (z : β) :
    ∀ (t : List β) (k : Nat), k < t.length → t.take (k + 1) = t.take k ++ [t.getD k z] := by
  intro t
  induction t with
  | nil => intro k hk; exact absurd hk (Nat.not_lt_zero _)
  | cons a t ih =>
    intro k hk
    cases k with
    | zero => rfl
    | succ j =>
      have := ih j (Nat.lt_of_succ_lt_succ hk)
      simp only [List.take_succ_cons, List.cons_append, List.getD_cons_succ]
      rw [← this]

/-- The function `stupidsort` on the first `l` entries of an array: the entries of
magnitude at least `2e-15` come first, as a rearrangement of those of the input, the rest of
the first `l` positions holds `(zero, 0)`, and the positions from `l` on are untouched. -/
theorem stupidsort_compacts {α : Type} (zero : α) :
    ∀ (l : Nat) (xs : List (α × Rat)), l ≤ xs.length →
      ∃ A : List (α × Rat),
        stupidsort zero l xs = A ++ List.replicate (l - A.length) (zero, 0) ++ xs.drop l
          ∧ A.length ≤ l
          ∧ (∀ x ∈ A, stupidsort_keeps x = true)
          ∧ List.Perm A ((xs.take l).filter stupidsort_keeps) := by
  intro l
  induction l with
  | zero =>
    intro xs _
    exact ⟨[], by simp [stupidsort], le_refl _, fun _ h => absurd h (List.not_mem_nil _),
      by simp⟩
  | succ l ih =>
    intro xs hl
    cases xs with
    | nil => exact absurd hl (by simp)
    | cons x t =>
      have hlt : l ≤ t.length := Nat.le_of_succ_le_succ hl
      by_cases hs : |x.2| < 2 / 10 ^ 15
      · have e : stupidsort zero (l + 1) (x :: t)
            = stupidsort zero l
                (((x :: t).set 0 ((x :: t).getD l (zero, 0))).set l (zero, 0)) := by
          simp only [stupidsort, if_pos hs]
        have hlen : (((x :: t).set 0 ((x :: t).getD l (zero, 0))).set l (zero, 0)).length
            = (x :: t).length := by simp
        obtain ⟨A, a1, a2, a3, a4⟩ := ih _ (by rw [hlen]; simp only [List.length_cons]; omega)
        refine ⟨A, ?_, Nat.le_succ_of_le a2, a3, ?_⟩
        · rw [e, a1, List.set_cons_zero,
            drop_set_same _ _ _ (by simp only [List.length_cons]; omega)]
          have hr : List.replicate (l + 1 - A.length) ((zero, 0) : α × Rat)
              = List.replicate (l - A.length) (zero, 0) ++ [(zero, 0)] := by
            rw [show l + 1 - A.length = (l - A.length) + 1 by omega, List.replicate_succ']
          rw [hr]
          simp
        · refine a4.trans ?_
          rw [List.set_cons_zero, take_set_same]
          cases l with
          | zero => simp [stupidsort_keeps, hs]
          | succ k =>
            have hk : k < t.length := hlt
            have e1 : (x :: t).getD (k + 1) (zero, 0) = t.getD k (zero, 0) := rfl
            have e2 : List.take (k + 1) (t.getD k (zero, 0) :: t)
                = [t.getD k (zero, 0)] ++ List.take k t := rfl
            have e3 : List.take (k + 1 + 1) (x :: t)
                = x :: (List.take k t ++ [t.getD k (zero, 0)]) := by
              rw [List.take_succ_cons, take_succ_getD (zero, 0) t k hk]
            have hx : ¬ (stupidsort_keeps x = true) := by simp [stupidsort_keeps, hs]
            rw [e1, e2, e3, List.filter_cons_of_neg hx, List.filter_append, List.filter_append]
            exact List.perm_append_comm
      · have e : stupidsort zero (l + 1) (x :: t) = x :: stupidsort zero l t := by
          simp only [stupidsort, if_neg hs]
        obtain ⟨A, a1, a2, a3, a4⟩ := ih t hlt
        refine ⟨x :: A, ?_, ?_, ?_, ?_⟩
        · rw [e, a1]
          simp
        · simpa using a2
        · intro y hy
          rcases List.mem_cons.mp hy with h | h
          · rw [h]; simp [stupidsort_keeps, hs]
          · exact a3 y h
        · simp only [List.take_succ_cons]
          rw [List.filter_cons_of_pos (by simp [stupidsort_keeps, hs])]
          exact List.Perm.cons x a4


/-- C38: `stupidsort` is a total function, and on an array of `l` pairs it leaves the pairs
whose weight has magnitude at least `2e-15` in front, as a rearrangement of those of the
input (the same multiset), followed by pairs of weight exactly `0` and entry `zero` (the
index `0` of the overload on `int` indices) up to the length `l`. -/
theorem stupidsort_permutation_compacted {α : Type} (zero : α) (xs : List (α × Rat)) :
    ∃ A : List (α × Rat),
      stupidsort zero xs.length xs = A ++ List.replicate (xs.length - A.length) (zero, 0)
        ∧ A.length ≤ xs.length
        ∧ (∀ x ∈ A, stupidsort_keeps x = true)
        ∧ List.Perm A (xs.filter stupidsort_keeps) := by
  obtain ⟨A, a1, a2, a3, a4⟩ := stupidsort_compacts zero xs.length xs (le_refl _)
  refine ⟨A, ?_, a2, a3, ?_⟩
  · simpa using a1
  · simpa using a4

/-- The array `[(1, 0.0), (2, 1.0), (3, 1.0)]` of the overload on `int` indices. -/
theorem stupidsort_permutation_compacted_witness :
    ∃ A : List (Int × Rat),
      stupidsort 0 ([(1, 0), (2, 1), (3, 1)] : List (Int × Rat)).length
          [(1, 0), (2, 1), (3, 1)]
        = A ++ List.replicate (([(1, 0), (2, 1), (3, 1)] : List (Int × Rat)).length - A.length)
            (0, 0)
        ∧ A.length ≤ ([(1, 0), (2, 1), (3, 1)] : List (Int × Rat)).length
        ∧ (∀ x ∈ A, stupidsort_keeps x = true)
        ∧ List.Perm A (([(1, 0), (2, 1), (3, 1)] : List (Int × Rat)).filter stupidsort_keeps) :=
  stupidsort_permutation_compacted 0 [(1, 0), (2, 1), (3, 1)]

/-- The kept entries in front of the first entry `stupidsort` drops stay where they are. -/
theorem stupidsort_front {α : Type} (zero : α) (rest : List (α × Rat)) (l : Nat) :
    ∀ A : List (α × Rat), (∀ x ∈ A, stupidsort_keeps x = true) →
      stupidsort zero (A.length + l) (A ++ rest) = A ++ stupidsort zero l rest := by
  intro A
  induction A with
  | nil => intro _; simp
  | cons a A ih =>
    intro h
    have ha : ¬ |a.2| < 2 / 10 ^ 15 := by
      have := h a (List.mem_cons_self a A)
      simpa [stupidsort_keeps] using this
    have e : (a :: A).length + l = (A.length + l) + 1 := by
      simp only [List.length_cons]; omega
    rw [e, List.cons_append]
    simp only [stupidsort, if_neg ha]
    rw [ih (fun x hx => h x (List.mem_cons_of_mem a hx))]
    rfl

/-- C37 (as stated) fails: on the array `[(1, 0.0), (2, 1.0), (3, 1.0)]` the entry of weight
`0` is overwritten by the last entry, so the kept entries `2, 3` come out as `3, 2`. -/
theorem stupidsort_not_stable :
    stupidsort (0 : Int) 3 [(1, 0), (2, 1), (3, 1)] = [(3, 1), (2, 1), (0, 0)]
      ∧ ([(1, 0), (2, 1), (3, 1)] : List (Int × Rat)).filter stupidsort_keeps
          = [(2, 1), (3, 1)]
      ∧ (stupidsort (0 : Int) 3 [(1, 0), (2, 1), (3, 1)]).filter stupidsort_keeps
          = [(3, 1), (2, 1)] := by
  decide!

/-- C37 (amended): the entries of magnitude at least `2e-15` that precede the first entry of
smaller magnitude keep their places and their order: `stupidsort` on `A ++ rest`, where
every entry of `A` is kept, returns `A` followed by `stupidsort` on `rest`; and an array all
of whose first `l` entries are kept is returned unchanged. (Behind the first dropped entry
the order is not kept: a dropped entry is overwritten by the last entry of the range.) -/
theorem stupidsort_stable_front {α : Type} (zero : α) (A rest : List (α × Rat)) (l : Nat)
    (hA : ∀ x ∈ A, stupidsort_keeps x = true) :
    stupidsort zero (A.length + l) (A ++ rest) = A ++ stupidsort zero l rest
      ∧ stupidsort zero A.length (A ++ rest) = A ++ rest := by
  refine ⟨stupidsort_front zero rest l A hA, ?_⟩
  have := stupidsort_front zero rest 0 A hA
  simpa [stupidsort] using this

/-- The entries `(5, 1.0), (6, 0.5)` in front of `(7, 0.0), (8, 1.0)`. -/
theorem stupidsort_stable_front_witness :
    (∀ x ∈ ([(5, 1), (6, 1 / 2)] : List (Int × Rat)), stupidsort_keeps x = true)
      ∧ (stupidsort (0 : Int) (([(5, 1), (6, 1 / 2)] : List (Int × Rat)).length + 2)
          ([(5, 1), (6, 1 / 2)] ++ [(7, 0), (8, 1)])
          = [(5, 1), (6, 1 / 2)] ++ stupidsort (0 : Int) 2 [(7, 0), (8, 1)]
        ∧ stupidsort (0 : Int) ([(5, 1), (6, 1 / 2)] : List (Int × Rat)).length
          ([(5, 1), (6, 1 / 2)] ++ [(7, 0), (8, 1)])
          = [(5, 1), (6, 1 / 2)] ++ [(7, 0), (8, 1)]) :=
  ⟨by decide!, stupidsort_stable_front 0 [(5, 1), (6, 1 / 2)] [(7, 0), (8, 1)] 2 (by decide!)⟩


/-! ## Derived components -/

theorem energy_loop_undef (has_field : component → Bool) (partner : component) :
    ∀ L : List component, energy_loop has_field partner L .undef = .undef := by
  intro L
  induction L with
  | nil => rfl
  | cons c0 L ih =>
    simp only [energy_loop, List.foldl] at ih ⊢
    by_cases h : has_field c0 = true
    · simp only [h, if_true, push_component, Res.bind]
      exact ih
    · simp only [h]
      exact ih

/-- The loops of `derived_component_func` over the components that have a field: two
entries are written for each of them while the array `cs[12]` has room, and a write beyond
the array is undefined. -/
theorem energy_loop_spec (has_field : component → Bool) (partner : component) :
    ∀ (L : List component) (cs : List component),
      (∀ c0 ∈ L, ∃ c1, direction_component partner (component_direction c0) = .ok c1) →
      cs.length ≤ 12 → cs.length % 2 = 0 →
      (cs.length + 2 * (L.filter has_field).length ≤ 12 →
          ∃ cs', energy_loop has_field partner L (.ok cs) = .ok cs'
            ∧ cs'.length = cs.length + 2 * (L.filter has_field).length)
        ∧ (12 < cs.length + 2 * (L.filter has_field).length →
            energy_loop has_field partner L (.ok cs) = .undef) := by
  intro L
  induction L with
  | nil =>
    intro cs _ h12 _
    exact ⟨fun _ => ⟨cs, rfl, by simp⟩, fun h => by simp at h; omega⟩
  | cons c0 L ih =>
    intro cs hL h12 hev
    obtain ⟨c1, hc1⟩ := hL c0 (List.mem_cons_self c0 L)
    have hL' : ∀ c ∈ L, ∃ c1, direction_component partner (component_direction c) = .ok c1 :=
      fun c hc => hL c (List.mem_cons_of_mem c0 hc)
    by_cases h : has_field c0 = true
    · have e : energy_loop has_field partner (c0 :: L) (.ok cs)
          = energy_loop has_field partner L
              (push_component (push_component (.ok cs) (.ok c0)) (.ok c1)) := by
        simp only [energy_loop, List.foldl, h, if_true, hc1]
      rw [e, List.filter_cons_of_pos h]
      by_cases hlt : cs.length < 12
      · have e2 : push_component (push_component (.ok cs) (.ok c0)) (.ok c1)
            = .ok ((cs ++ [c0]) ++ [c1]) := by
          have : (cs ++ [c0]).length < 12 := by simp; omega
          simp only [push_component, Res.bind, hlt, if_true, this]
        rw [e2]
        obtain ⟨i1, i2⟩ := ih ((cs ++ [c0]) ++ [c1]) hL' (by simp; omega) (by simp; omega)
        simp only [List.length_append, List.length_cons, List.length_nil] at i1 i2 ⊢
        constructor
        · intro hle
          obtain ⟨cs', j1, j2⟩ := i1 (by omega)
          exact ⟨cs', j1, by omega⟩
        · intro hgt
          exact i2 (by omega)
      · have e2 : push_component (push_component (.ok cs) (.ok c0)) (.ok c1) = .undef := by
          simp only [push_component, Res.bind, hlt, if_false]
        rw [e2, energy_loop_undef]
        simp only [List.length_cons]
        exact ⟨fun hle => by omega, fun _ => trivial⟩
    · have e : energy_loop has_field partner (c0 :: L) (.ok cs)
          = energy_loop has_field partner L (.ok cs) := by
        simp only [energy_loop, List.foldl, h]
        rfl
      rw [e, List.filter_cons_of_neg h]
      exact ih cs hL' h12 hev

theorem partner_electric :
    ∀ c0 ∈ for_electric_components,
      ∃ c1, direction_component .Dx (component_direction c0) = .ok c1 := by
  intro c0 h
  simp only [for_electric_components, List.mem_cons, List.mem_singleton, List.not_mem_nil,
    or_false] at h
  rcases h with rfl | rfl | rfl | rfl | rfl <;> exact ⟨_, rfl⟩

theorem partner_magnetic :
    ∀ c0 ∈ for_magnetic_components,
      ∃ c1, direction_component .Bx (component_direction c0) = .ok c1 := by
  intro c0 h
  simp only [for_magnetic_components, List.mem_cons, List.mem_singleton, List.not_mem_nil,
    or_false] at h
  rcases h with rfl | rfl | rfl | rfl | rfl <;> exact ⟨_, rfl⟩


/-- The two loops of the energy-density case one after the other; `be` and `bm` tell whether
the electric and the magnetic loop run. -/
theorem energy_loops_spec (has_field : component → Bool) (be bm : Bool) (e m : Nat)
    (he : e = if be then (for_electric_components.filter has_field).length else 0)
    (hm : m = if bm then (for_magnetic_components.filter has_field).length else 0) :
    (e + m ≤ 6 →
        ∃ cs, (if bm then energy_loop has_field .Bx for_magnetic_components
            (if be then energy_loop has_field .Dx for_electric_components (.ok []) else .ok [])
          else (if be then energy_loop has_field .Dx for_electric_components (.ok [])
            else .ok [])) = .ok cs ∧ cs.length = 2 * (e + m))
      ∧ (6 < e + m →
        (if bm then energy_loop has_field .Bx for_magnetic_components
            (if be then energy_loop has_field .Dx for_electric_components (.ok []) else .ok [])
          else (if be then energy_loop has_field .Dx for_electric_components (.ok [])
            else .ok [])) = .undef) := by
  have first : (2 * e ≤ 12 →
        ∃ cs, (if be then energy_loop has_field .Dx for_electric_components (.ok [])
            else .ok []) = .ok cs ∧ cs.length = 2 * e)
      ∧ (12 < 2 * e →
        (if be then energy_loop has_field .Dx for_electric_components (.ok [])
            else .ok []) = .undef) := by
    cases be
    · simp only [Bool.false_eq_true, if_false] at he ⊢
      subst he
      exact ⟨fun _ => ⟨[], rfl, rfl⟩, fun h => by omega⟩
    · simp only [if_true] at he ⊢
      obtain ⟨i1, i2⟩ := energy_loop_spec has_field .Dx for_electric_components []
        partner_electric (by simp) (by simp)
      simp only [List.length_nil, zero_add] at i1 i2
      rw [he]
      exact ⟨i1, i2⟩
  by_cases h12 : 2 * e ≤ 12
  · obtain ⟨cs1, c1, c2⟩ := first.1 h12
    rw [c1]
    cases bm
    · simp only [Bool.false_eq_true, if_false] at hm ⊢
      subst hm
      exact ⟨fun _ => ⟨cs1, rfl, by omega⟩, fun h => by omega⟩
    · simp only [if_true] at hm ⊢
      obtain ⟨i1, i2⟩ := energy_loop_spec has_field .Bx for_magnetic_components cs1
        partner_magnetic (by omega) (by omega)
      rw [← hm] at i1 i2
      constructor
      · intro h
        obtain ⟨cs, j1, j2⟩ := i1 (by omega)
        exact ⟨cs, j1, by omega⟩
      · intro h
        exact i2 (by omega)
  · rw [first.2 (by omega)]
    refine ⟨fun h => by omega, fun _ => ?_⟩
    cases bm
    · rfl
    · simp only [if_true]
      exact energy_loop_undef has_field .Bx for_magnetic_components

/-- The energy-density case of `derived_component_func` in terms of its two loops. -/
theorem derived_component_func_energy (has_field : component → Bool) (c : derived_component)
    (hc : is_poynting c = false) :
    derived_component_func c has_field
      = (if decide (c ≠ .D_EnergyDensity) then
            energy_loop has_field .Bx for_magnetic_components
              (if decide (c ≠ .H_EnergyDensity) then
                energy_loop has_field .Dx for_electric_components (.ok []) else .ok [])
          else (if decide (c ≠ .H_EnergyDensity) then
            energy_loop has_field .Dx for_electric_components (.ok []) else .ok [])).bind
          (fun cs =>
            if (cs.length : Int) > 12 then .fatal
            else .ok (.energy_fun, (cs.length : Int), cs)) := by
  cases c <;> simp [is_poynting] at hc <;> simp [derived_component_func]

/-- C39: for the Poynting component `S_d` along each `d` of `x, y, z, r, phi`, with
`(j, k)` the two directions that follow `d` in right-handed order,
`derived_component_func` returns `poynting_fun`, `nfields = 4` and `cs = (E_j, H_k, E_k,
H_j)`, and `poynting_fun` on the values of these four components is
`Re(conj(E_j) H_k) - Re(conj(E_k) H_j)`. For an energy-density component, with `e` the
number of electric components that have a field (left out for `H_EnergyDensity`) and `m`
the number of magnetic ones (left out for `D_EnergyDensity`): if `e + m <= 6` the function
returns `energy_fun` and `nfields = 2 (e + m)`, which is even and at most `12`, with that
many entries of `cs` written; otherwise it writes beyond `cs[12]`. -/
theorem derived_component_func_spec (has_field : component → Bool) :
    (∀ d : direction, d ≠ .NO_DIRECTION →
      ∃ S Ej Hk Ek Hj,
        direction_derived_component .Sx d = .ok S
          ∧ direction_component .Ex (right_handed d).1 = .ok Ej
          ∧ direction_component .Hx (right_handed d).2 = .ok Hk
          ∧ direction_component .Ex (right_handed d).2 = .ok Ek
          ∧ direction_component .Hx (right_handed d).1 = .ok Hj
          ∧ derived_component_func S has_field = .ok (.poynting_fun, 4, [Ej, Hk, Ek, Hj])
          ∧ ∀ F : component → Rat × Rat,
              poynting_fun ([Ej, Hk, Ek, Hj].map F)
                = .ok (real_conj_mul (F Ej) (F Hk) - real_conj_mul (F Ek) (F Hj)))
      ∧ (∀ c : derived_component, is_poynting c = false →
          ∀ e m : Nat,
            e = (if c ≠ .H_EnergyDensity then
                (for_electric_components.filter has_field).length else 0) →
            m = (if c ≠ .D_EnergyDensity then
                (for_magnetic_components.filter has_field).length else 0) →
            (e + m ≤ 6 →
              ∃ cs, derived_component_func c has_field
                  = .ok (.energy_fun, ((2 * (e + m) : Nat) : Int), cs)
                ∧ cs.length = 2 * (e + m)
                ∧ ((2 * (e + m) : Nat) : Int) % 2 = 0 ∧ ((2 * (e + m) : Nat) : Int) ≤ 12)
            ∧ (6 < e + m → derived_component_func c has_field = .undef)) := by
  constructor
  · intro d hd
    cases d
    · exact ⟨_, _, _, _, _, rfl, rfl, rfl, rfl, rfl, rfl, fun _ => rfl⟩
    · exact ⟨_, _, _, _, _, rfl, rfl, rfl, rfl, rfl, rfl, fun _ => rfl⟩
    · exact ⟨_, _, _, _, _, rfl, rfl, rfl, rfl, rfl, rfl, fun _ => rfl⟩
    · exact ⟨_, _, _, _, _, rfl, rfl, rfl, rfl, rfl, rfl, fun _ => rfl⟩
    · exact ⟨_, _, _, _, _, rfl, rfl, rfl, rfl, rfl, rfl, fun _ => rfl⟩
    · exact absurd rfl hd
  · intro c hc e m he hm
    rw [derived_component_func_energy has_field c hc]
    obtain ⟨i1, i2⟩ := energy_loops_spec has_field (decide (c ≠ .H_EnergyDensity))
      (decide (c ≠ .D_EnergyDensity)) e m (by simpa using he) (by simpa using hm)
    constructor
    · intro h
      obtain ⟨cs, j1, j2⟩ := i1 h
      refine ⟨cs, ?_, j2, by omega, by omega⟩
      rw [j1]
      have : ¬ (((2 * (e + m) : Nat) : Int) > 12) := by omega
      simp only [Res.bind, j2]
      rw [if_neg this]
    · intro h
      rw [i2 h]
      rfl

/-- The Cartesian grid, where the components along `x, y, z` have a field: `EnergyDensity`
asks for the twelve components `Ex, Dx, ..., Hz, Bz`; and a grid on which all ten electric and
magnetic components had a field would overrun the array. -/
theorem derived_component_func_spec_witness :
    (∃ cs, derived_component_func .EnergyDensity
          (fun c => decide (component_direction c ∈ [direction.X, .Y, .Z]))
        = .ok (.energy_fun, 12, cs) ∧ cs.length = 12)
      ∧ derived_component_func .EnergyDensity (fun _ => true) = .undef := by
  have h1 := (derived_component_func_spec
    (fun c => decide (component_direction c ∈ [direction.X, .Y, .Z]))).2 .EnergyDensity rfl 3 3
    (by decide) (by decide)
  have h2 := (derived_component_func_spec (fun _ => true)).2 .EnergyDensity rfl 5 5
    (by decide) (by decide)
  obtain ⟨cs, c1, c2, -, -⟩ := h1.1 (by decide)
  exact ⟨⟨cs, c1, c2⟩, h2.2 (by decide)⟩


/-! ## The phase of a chain of symmetries -/

/-- C35 fails on a chain whose first link has order above two: for
`s = rotate4(Z, gv) * (-1) + mirror(X, gv)` on the 3-D grid of `4 x 4 x 4` cells (links
`(g_0, ph_0) = (4, -1)` and `(g_1, ph_1) = (2, 1)`, multiplicity `8`) and
`n = 6 = 2 + 4 * 1`, the phase of `transform(X, 6)` is `-1 = ph_0 * ph_1`, not
`ph_0^2 * ph_1^1 = 1`; without the second link, and for `n = 2` in the chain, the phase is
`ph_0^2 = 1`. -/
theorem transform_phase_drops_power :
    ∃ r s : symmetry Int,
      rotate4 .Z ⟨.D3, 4, 4, 4, zero_ivec .D3⟩ = .ok r
        ∧ s = (r.mul (-1)).add (mirror .X ⟨.D3, 4, 4, 4, zero_ivec .D3⟩)
        ∧ s.links.map (fun l => (l.g, l.ph)) = [(4, -1), (2, 1)]
        ∧ s.multiplicity = 8
        ∧ (6 : Int) = 2 + 4 * 1
        ∧ s.transform .X 6 = .ok ⟨.X, false, -1⟩
        ∧ (-1 : Int) ^ 2 * 1 ^ 1 = 1
        ∧ s.transform .X 2 = .ok ⟨.X, true, 1⟩
        ∧ (r.mul (-1)).transform .X 2 = .ok ⟨.X, true, 1⟩ := by
  refine ⟨_, _, rfl, rfl, ?_, ?_, ?_, ?_, ?_, ?_, ?_⟩ <;> decide


/-! ## The array index -/

/-- The mixed-radix number with digits `a, b, c` below `A, B, C` lies below `A * B * C` and
has these digits. -/
theorem undigits3 (a b c A B C : Int) (ha : 0 ≤ a) (hA : a < A) (hb : 0 ≤ b) (hB : b < B)
    (hc : 0 ≤ c) (hC : c < C) (k1 k2 k3 : Nat) :
    0 ≤ a * (C * B) + b * C + c ∧ a * (C * B) + b * C + c < A * B * C
      ∧ (iloc_wrap k1 ((a * (C * B) + b * C + c).tdiv (C * B)) A).tmod A = a
      ∧ (iloc_wrap k2 ((a * (C * B) + b * C + c).tdiv C) B).tmod B = b
      ∧ (iloc_wrap k3 (a * (C * B) + b * C + c) C).tmod C = c := by
  have hCB : 0 < C * B := by nlinarith
  have hC0 : 0 < C := by omega
  have hB0 : 0 < B := by omega
  have hA0 : 0 < A := by omega
  have i0 : 0 ≤ a * (C * B) + b * C + c := by
    have := mul_nonneg ha hCB.le
    have := mul_nonneg hb hC0.le
    omega
  have e1 := (@Int.ediv_emod_unique (a * (C * B) + b * C + c) C c (a * B + b) hC0).mpr
    ⟨by ring, hc, hC⟩
  have e2 := (@Int.ediv_emod_unique (a * B + b) B b a hB0).mpr ⟨by ring, hb, hB⟩
  have hbc : b * C + c < C * B := by nlinarith
  have e3 := (@Int.ediv_emod_unique (a * (C * B) + b * C + c) (C * B) (b * C + c) a hCB).mpr
    ⟨by ring, by nlinarith, hbc⟩
  refine ⟨i0, ?_, ?_, ?_, ?_⟩
  · have : a * (C * B) + (b * C + c) < (a + 1) * (C * B) := by nlinarith
    have : (a + 1) * (C * B) ≤ A * (C * B) := by
      apply mul_le_mul_of_nonneg_right (by omega) hCB.le
    nlinarith
  · rw [Int.tdiv_eq_ediv i0 hCB.le, e3.1, iloc_wrap_nonneg _ _ _ ha, Int.tmod_eq_emod ha hA0.le]
    exact Int.emod_eq_of_lt ha hA
  · rw [Int.tdiv_eq_ediv i0 hC0.le, e1.1,
      iloc_wrap_nonneg _ _ _ (by nlinarith [mul_nonneg ha hB0.le]),
      Int.tmod_eq_emod (by nlinarith [mul_nonneg ha hB0.le]) hB0.le]
    exact e2.2
  · rw [iloc_wrap_nonneg _ _ _ i0, Int.tmod_eq_emod i0 hC0.le]
    exact e1.2

/-- The mixed-radix number with digits `b, c` below `B, C` lies below `B * C` and has these
digits. -/
theorem undigits2 (b c B C : Int) (hb : 0 ≤ b) (hB : b < B) (hc : 0 ≤ c) (hC : c < C)
    (k2 k3 : Nat) :
    0 ≤ b * C + c ∧ b * C + c < B * C
      ∧ (iloc_wrap k2 ((b * C + c).tdiv C) B).tmod B = b
      ∧ (iloc_wrap k3 (b * C + c) C).tmod C = c := by
  obtain ⟨u1, u2, -, u4, u5⟩ := undigits3 0 b c 1 B C (le_refl _) one_pos hb hB hc hC 0 k2 k3
  simp only [zero_mul, zero_add, one_mul] at u1 u2 u4 u5
  exact ⟨u1, u2, u4, u5⟩

theorem two_mul_tdiv (k : Int) : (2 * k).tdiv 2 = k := by
  rw [tdiv_two]
  split <;> omega

/-- On the array box of `c` the index lies in `[0, ntot())` and `iloc` gives the point
back. -/
theorem index_box (gv : grid_volume) (c : component) (p : ivec) (hwf : gv.wf)
    (hp : p.dim = gv.dim)
    (hbox : ∀ d ∈ loop_over_directions gv.dim,
      (p.in_direction d - gv.io.in_direction d - (gv.iyee_shift c).in_direction d) % 2 = 0
        ∧ 0 ≤ p.in_direction d - gv.io.in_direction d - (gv.iyee_shift c).in_direction d
        ∧ p.in_direction d - gv.io.in_direction d - (gv.iyee_shift c).in_direction d
            ≤ 2 * gv.num_direction d) :
    0 ≤ gv.index c p ∧ gv.index c p < gv.ntot
      ∧ ∀ d ∈ loop_over_directions gv.dim,
          (gv.iloc c (gv.index c p)).in_direction d = p.in_direction d := by
  have hs := iyee_shift_dim gv c
  simp only [grid_volume.index, grid_volume.iloc]
  generalize gv.iyee_shift c = s at hs hbox ⊢
  obtain ⟨dim, n0, n1, n2, ⟨iod, ix, iy, iz, ir, ip⟩⟩ := gv
  obtain ⟨sd, sx, sy, sz, sr, sp⟩ := s
  obtain ⟨pd, px, py, pz, pr, pp⟩ := p
  obtain ⟨hd, h0', h1', h2', hD1, hD2, hDc⟩ := hwf
  simp only at hd hs hp h0' h1' h2' hD1 hD2 hDc
  subst hd hs hp
  cases pd
  · simp only [loop_over_directions, List.mem_cons, List.mem_singleton, List.not_mem_nil,
        or_false, forall_eq_or_imp, forall_eq, num_direction_X, num_direction_Y,
        num_direction_Z, num_direction_R, ivec.in_direction] at hbox
    obtain ⟨z1, z2, z3⟩ := hbox
    obtain ⟨kz, hkz⟩ : ∃ kz, pz = iz + sz + 2 * kz := ⟨(pz - iz - sz) / 2, by omega⟩
    subst hkz
    have ez : iz + sz + 2 * kz - iz - sz = 2 * kz := by ring
    simp only [loop_over_directions, ivec.add, ivec.sub, ivec.set_direction,
      ivec.in_direction, zero_ivec, grid_volume.stride, grid_volume.ntot, grid_volume.nz,
      grid_volume.ny, List.foldl, List.mem_cons, List.mem_singleton, List.not_mem_nil,
      or_false, forall_eq_or_imp, forall_eq, num_direction_X, num_direction_Y,
      num_direction_Z, ez, two_mul_tdiv, true_or, or_true, if_true, zero_add,
      one_mul, mul_one, Int.tdiv_one]
    have k0 : 0 ≤ kz := by omega
    rw [iloc_wrap_nonneg _ _ _ k0, Int.tmod_eq_emod k0 (by omega),
      Int.emod_eq_of_lt k0 (by omega)]
    exact ⟨k0, by omega, by ring⟩
  · obtain rfl : n2 = 0 := hD2 rfl
    simp only [loop_over_directions, List.mem_cons, List.mem_singleton, List.not_mem_nil,
        or_false, forall_eq_or_imp, forall_eq, num_direction_X, num_direction_Y,
        num_direction_Z, num_direction_R, ivec.in_direction] at hbox
    obtain ⟨⟨x1, x2, x3⟩, y1, y2, y3⟩ := hbox
    obtain ⟨kx, hkx⟩ : ∃ kx, px = ix + sx + 2 * kx := ⟨(px - ix - sx) / 2, by omega⟩
    obtain ⟨ky, hky⟩ : ∃ ky, py = iy + sy + 2 * ky := ⟨(py - iy - sy) / 2, by omega⟩
    subst hkx hky
    have ex : ix + sx + 2 * kx - ix - sx = 2 * kx := by ring
    have ey : iy + sy + 2 * ky - iy - sy = 2 * ky := by ring
    simp only [loop_over_directions, ivec.add, ivec.sub, ivec.set_direction,
      ivec.in_direction, zero_ivec, grid_volume.stride, grid_volume.ntot, grid_volume.nz,
      grid_volume.ny, List.foldl, List.mem_cons, List.mem_singleton, List.not_mem_nil,
      or_false, forall_eq_or_imp, forall_eq, num_direction_X, num_direction_Y,
      num_direction_Z, ex, ey, two_mul_tdiv, true_or, or_true, if_true, zero_add,
      one_mul, mul_one, Int.tdiv_one]
    obtain ⟨u1, u2, u4, u5⟩ := undigits2 kx ky (n0 + 1) (n1 + 1) (by omega) (by omega)
      (by omega) (by omega)
      ((kx * (n1 + 1) + ky).tdiv (n1 + 1)).natAbs (kx * (n1 + 1) + ky).natAbs
    rw [u4, u5]
    exact ⟨u1, u2, by ring, by ring⟩
  · simp only [loop_over_directions, List.mem_cons, List.mem_singleton, List.not_mem_nil,
        or_false, forall_eq_or_imp, forall_eq, num_direction_X, num_direction_Y,
        num_direction_Z, num_direction_R, ivec.in_direction] at hbox
    obtain ⟨⟨x1, x2, x3⟩, ⟨y1, y2, y3⟩, z1, z2, z3⟩ := hbox
    obtain ⟨kx, hkx⟩ : ∃ kx, px = ix + sx + 2 * kx := ⟨(px - ix - sx) / 2, by omega⟩
    obtain ⟨ky, hky⟩ : ∃ ky, py = iy + sy + 2 * ky := ⟨(py - iy - sy) / 2, by omega⟩
    obtain ⟨kz, hkz⟩ : ∃ kz, pz = iz + sz + 2 * kz := ⟨(pz - iz - sz) / 2, by omega⟩
    subst hkx hky hkz
    have ex : ix + sx + 2 * kx - ix - sx = 2 * kx := by ring
    have ey : iy + sy + 2 * ky - iy - sy = 2 * ky := by ring
    have ez : iz + sz + 2 * kz - iz - sz = 2 * kz := by ring
    simp only [loop_over_directions, ivec.add, ivec.sub, ivec.set_direction,
      ivec.in_direction, zero_ivec, grid_volume.stride, grid_volume.ntot, grid_volume.nz,
      grid_volume.ny, List.foldl, List.mem_cons, List.mem_singleton, List.not_mem_nil,
      or_false, forall_eq_or_imp, forall_eq, num_direction_X, num_direction_Y,
      num_direction_Z, ex, ey, ez, two_mul_tdiv, true_or, or_true, if_true, zero_add,
      one_mul, mul_one, Int.tdiv_one]
    obtain ⟨u1, u2, u3, u4, u5⟩ := undigits3 kx ky kz (n0 + 1) (n1 + 1) (n2 + 1) (by omega)
      (by omega) (by omega) (by omega) (by omega) (by omega)
      ((kx * ((n2 + 1) * (n1 + 1)) + ky * (n2 + 1) + kz).tdiv ((n2 + 1) * (n1 + 1))).natAbs
      ((kx * ((n2 + 1) * (n1 + 1)) + ky * (n2 + 1) + kz).tdiv (n2 + 1)).natAbs
      (kx * ((n2 + 1) * (n1 + 1)) + ky * (n2 + 1) + kz).natAbs
    rw [u3, u4, u5]
    exact ⟨u1, u2, by ring, by ring, by ring⟩
  · simp only [loop_over_directions, List.mem_cons, List.mem_singleton, List.not_mem_nil,
        or_false, forall_eq_or_imp, forall_eq, num_direction_X, num_direction_Y,
        num_direction_Z, num_direction_R, ivec.in_direction] at hbox
    obtain ⟨⟨z1, z2, z3⟩, r1, r2, r3⟩ := hbox
    obtain ⟨kr, hkr⟩ : ∃ kr, pr = ir + sr + 2 * kr := ⟨(pr - ir - sr) / 2, by omega⟩
    obtain ⟨kz, hkz⟩ : ∃ kz, pz = iz + sz + 2 * kz := ⟨(pz - iz - sz) / 2, by omega⟩
    subst hkr hkz
    have er : ir + sr + 2 * kr - ir - sr = 2 * kr := by ring
    have ez : iz + sz + 2 * kz - iz - sz = 2 * kz := by ring
    simp only [loop_over_directions, ivec.add, ivec.sub, ivec.set_direction,
      ivec.in_direction, zero_ivec, grid_volume.stride, grid_volume.ntot, grid_volume.nz,
      grid_volume.ny, List.foldl, List.mem_cons, List.mem_singleton, List.not_mem_nil,
      or_false, forall_eq_or_imp, forall_eq, num_direction_X, num_direction_Y,
      num_direction_Z, num_direction_R, er, ez, two_mul_tdiv, true_or, or_true, if_true,
      zero_add, one_mul, mul_one, Int.tdiv_one]
    have e : kz + kr * (n2 + 1) = kr * (n2 + 1) + kz := by ring
    rw [e]
    obtain ⟨u1, u2, u4, u5⟩ := undigits2 kr kz (n0 + 1) (n2 + 1) (by omega) (by omega)
      (by omega) (by omega)
      ((kr * (n2 + 1) + kz).tdiv (n2 + 1)).natAbs (kr * (n2 + 1) + kz).natAbs
    rw [u4, u5]
    exact ⟨u1, by linarith, by ring, by ring⟩


theorem wrap_tmod_bounds (i st m : Int) (k : Nat) (h0 : 0 ≤ i) (hst : 0 < st) (hm : 0 < m) :
    0 ≤ (iloc_wrap k (i.tdiv st) m).tmod m ∧ (iloc_wrap k (i.tdiv st) m).tmod m < m := by
  have q0 : 0 ≤ i.tdiv st := by
    rw [Int.tdiv_eq_ediv h0 hst.le]
    exact Int.ediv_nonneg h0 hst.le
  rw [iloc_wrap_nonneg _ _ _ q0, Int.tmod_eq_emod q0 hm.le]
  exact ⟨Int.emod_nonneg _ hm.ne', Int.emod_lt_of_pos _ hm⟩

/-- The point `iloc(c, i)` of an index `0 ≤ i` lies in the array box of `c`. -/
theorem iloc_box (gv : grid_volume) (c : component) (i : Int) (hwf : gv.wf) (h0 : 0 ≤ i) :
    (gv.iloc c i).dim = gv.dim
      ∧ ∀ d ∈ loop_over_directions gv.dim,
        ((gv.iloc c i).in_direction d - gv.io.in_direction d
            - (gv.iyee_shift c).in_direction d) % 2 = 0
          ∧ 0 ≤ (gv.iloc c i).in_direction d - gv.io.in_direction d
            - (gv.iyee_shift c).in_direction d
          ∧ (gv.iloc c i).in_direction d - gv.io.in_direction d
            - (gv.iyee_shift c).in_direction d ≤ 2 * gv.num_direction d := by
  have hs := iyee_shift_dim gv c
  simp only [grid_volume.iloc]
  generalize gv.iyee_shift c = s at hs ⊢
  obtain ⟨dim, n0, n1, n2, ⟨iod, ix, iy, iz, ir, ip⟩⟩ := gv
  obtain ⟨sd, sx, sy, sz, sr, sp⟩ := s
  obtain ⟨hd, h0', h1', h2', hD1, hD2, hDc⟩ := hwf
  simp only at hd hs h0' h1' h2' hD1 hD2 hDc
  subst hd hs
  have bx := fun (st : Int) (hst : 0 < st) => wrap_tmod_bounds i st (n0 + 1)
    (i.tdiv st).natAbs h0 hst (by omega)
  have by_ := fun (st : Int) (hst : 0 < st) => wrap_tmod_bounds i st (n1 + 1)
    (i.tdiv st).natAbs h0 hst (by omega)
  have bz := fun (st : Int) (hst : 0 < st) => wrap_tmod_bounds i st (n2 + 1)
    (i.tdiv st).natAbs h0 hst (by omega)
  cases sd
  · simp only [loop_over_directions, ivec.add, ivec.sub, ivec.set_direction,
      ivec.in_direction, zero_ivec, grid_volume.stride, grid_volume.nz,
      grid_volume.ny, List.foldl, List.mem_cons, List.mem_singleton, List.not_mem_nil,
      or_false, forall_eq_or_imp, forall_eq, num_direction_X, num_direction_Y,
      num_direction_Z, num_direction_R, true_or, or_true, if_true, zero_add, true_and]
    have := bz 1 one_pos
    omega
  · simp only [loop_over_directions, ivec.add, ivec.sub, ivec.set_direction,
      ivec.in_direction, zero_ivec, grid_volume.stride, grid_volume.nz,
      grid_volume.ny, List.foldl, List.mem_cons, List.mem_singleton, List.not_mem_nil,
      or_false, forall_eq_or_imp, forall_eq, num_direction_X, num_direction_Y,
      num_direction_Z, num_direction_R, true_or, or_true, if_true, zero_add, true_and]
    have := bx ((n2 + 1) * (n1 + 1)) (by positivity)
    have := by_ (n2 + 1) (by omega)
    omega
  · simp only [loop_over_directions, ivec.add, ivec.sub, ivec.set_direction,
      ivec.in_direction, zero_ivec, grid_volume.stride, grid_volume.nz,
      grid_volume.ny, List.foldl, List.mem_cons, List.mem_singleton, List.not_mem_nil,
      or_false, forall_eq_or_imp, forall_eq, num_direction_X, num_direction_Y,
      num_direction_Z, num_direction_R, true_or, or_true, if_true, zero_add, true_and]
    have := bx ((n2 + 1) * (n1 + 1)) (by positivity)
    have := by_ (n2 + 1) (by omega)
    have := bz 1 one_pos
    omega
  · simp only [loop_over_directions, ivec.add, ivec.sub, ivec.set_direction,
      ivec.in_direction, zero_ivec, grid_volume.stride, grid_volume.nz,
      grid_volume.ny, List.foldl, List.mem_cons, List.mem_singleton, List.not_mem_nil,
      or_false, forall_eq_or_imp, forall_eq, num_direction_X, num_direction_Y,
      num_direction_Z, num_direction_R, true_or, or_true, if_true, zero_add, true_and]
    have := bx (n2 + 1) (by omega)
    have := bz 1 one_pos
    omega

/-- An owned point of the sub-lattice of `c` lies in the array box of `c`. -/
theorem owned_in_box (gv : grid_volume) (c : component) (p : ivec) (hwf : gv.wf)
    (hp : p.dim = gv.dim) (hl : gv.on_lattice c p = true) (ho : gv.owns p = true) :
    ∀ d ∈ loop_over_directions gv.dim,
      (p.in_direction d - gv.io.in_direction d - (gv.iyee_shift c).in_direction d) % 2 = 0
        ∧ 0 ≤ p.in_direction d - gv.io.in_direction d - (gv.iyee_shift c).in_direction d
        ∧ p.in_direction d - gv.io.in_direction d - (gv.iyee_shift c).in_direction d
            ≤ 2 * gv.num_direction d := by
  have hs := iyee_shift_dim gv c
  have h01 := iyee_shift_01 gv c
  simp only [grid_volume.on_lattice] at hl
  generalize gv.iyee_shift c = s at hs h01 hl ⊢
  obtain ⟨dim, n0, n1, n2, ⟨iod, ix, iy, iz, ir, ip⟩⟩ := gv
  obtain ⟨sd, sx, sy, sz, sr, sp⟩ := s
  obtain ⟨pd, px, py, pz, pr, pp⟩ := p
  obtain ⟨hd, h0', h1', h2', hD1, hD2, hDc⟩ := hwf
  simp only at hd hs hp h0' h1' h2' hD1 hD2 hDc
  subst hd hs hp
  have hx := h01 .X
  have hy := h01 .Y
  have hz := h01 .Z
  have hr := h01 .R
  simp only [ivec.in_direction] at hx hy hz hr
  clear h01
  cases pd <;>
    simp [grid_volume.owns, ivec.sub, loop_over_directions, ivec.set_direction,
      ivec.in_direction, grid_volume.nx, grid_volume.ny, grid_volume.nz,
      grid_volume.nr] at hl ho ⊢ <;>
    omega

/-- C32: for a descriptor of `vol1d`/`vol2d`/`vol3d`/`volcyl`-style construction and every
component `c`, `index(c, .)` maps the array box of `c` (the points `p` of the dimension of
the descriptor with `p - io - iyee_shift(c)` even and between `0` and `2 * num_d` on every
active axis) one-to-one onto `[0, ntot())` with inverse `iloc(c, .)`: on the box
`0 <= index(c, p) < ntot()` and `iloc(c, index(c, p))` is `p` on every active axis; for
`0 <= i < ntot()` the point `iloc(c, i)` lies in the box and `index(c, iloc(c, i)) = i`;
and every owned point of the sub-lattice of `c` has an index in `[0, ntot())`. -/
theorem index_bijection (gv : grid_volume) (c : component) (hwf : gv.wf) :
    (∀ p : ivec, p.dim = gv.dim →
        (∀ d ∈ loop_over_directions gv.dim,
          (p.in_direction d - gv.io.in_direction d - (gv.iyee_shift c).in_direction d) % 2 = 0
            ∧ 0 ≤ p.in_direction d - gv.io.in_direction d - (gv.iyee_shift c).in_direction d
            ∧ p.in_direction d - gv.io.in_direction d - (gv.iyee_shift c).in_direction d
                ≤ 2 * gv.num_direction d) →
        0 ≤ gv.index c p ∧ gv.index c p < gv.ntot
          ∧ ∀ d ∈ loop_over_directions gv.dim,
              (gv.iloc c (gv.index c p)).in_direction d = p.in_direction d)
      ∧ (∀ i : Int, 0 ≤ i → i < gv.ntot →
          (gv.iloc c i).dim = gv.dim
            ∧ (∀ d ∈ loop_over_directions gv.dim,
              ((gv.iloc c i).in_direction d - gv.io.in_direction d
                  - (gv.iyee_shift c).in_direction d) % 2 = 0
                ∧ 0 ≤ (gv.iloc c i).in_direction d - gv.io.in_direction d
                  - (gv.iyee_shift c).in_direction d
                ∧ (gv.iloc c i).in_direction d - gv.io.in_direction d
                  - (gv.iyee_shift c).in_direction d ≤ 2 * gv.num_direction d)
            ∧ gv.index c (gv.iloc c i) = i)
      ∧ (∀ p : ivec, p.dim = gv.dim → gv.on_lattice c p = true → gv.owns p = true →
          0 ≤ gv.index c p ∧ gv.index c p < gv.ntot) := by
  refine ⟨fun p hp hbox => index_box gv c p hwf hp hbox, fun i h0 h1 => ?_,
    fun p hp hl ho => ?_⟩
  · obtain ⟨b1, b2⟩ := iloc_box gv c i hwf h0
    exact ⟨b1, b2, index_iloc_of_lt_ntot gv c i hwf h0 h1⟩
  · obtain ⟨i1, i2, -⟩ := index_box gv c p hwf hp (owned_in_box gv c p hwf hp hl ho)
    exact ⟨i1, i2⟩

/-- The cylindrical descriptor with `nr = 2`, `nz = 3` at the origin, component `Hz`: the
owned point `(r, z) = (3, 4)` has the index `1 * 4 + 2 = 6` of the `12` of the array, and
`iloc` gives the point back. -/
theorem index_bijection_witness :
    (⟨.Dcyl, 2, 0, 3, zero_ivec .Dcyl⟩ : grid_volume).wf
      ∧ (⟨.Dcyl, 2, 0, 3, zero_ivec .Dcyl⟩ : grid_volume).index .Hz ⟨.Dcyl, 0, 0, 4, 3, 0⟩ = 6
      ∧ (⟨.Dcyl, 2, 0, 3, zero_ivec .Dcyl⟩ : grid_volume).ntot = 12
      ∧ (0 ≤ (⟨.Dcyl, 2, 0, 3, zero_ivec .Dcyl⟩ : grid_volume).index .Hz ⟨.Dcyl, 0, 0, 4, 3, 0⟩
        ∧ (⟨.Dcyl, 2, 0, 3, zero_ivec .Dcyl⟩ : grid_volume).index .Hz ⟨.Dcyl, 0, 0, 4, 3, 0⟩
            < (⟨.Dcyl, 2, 0, 3, zero_ivec .Dcyl⟩ : grid_volume).ntot
        ∧ ∀ d ∈ loop_over_directions .Dcyl,
            ((⟨.Dcyl, 2, 0, 3, zero_ivec .Dcyl⟩ : grid_volume).iloc .Hz
              ((⟨.Dcyl, 2, 0, 3, zero_ivec .Dcyl⟩ : grid_volume).index .Hz
                ⟨.Dcyl, 0, 0, 4, 3, 0⟩)).in_direction d
              = (⟨.Dcyl, 0, 0, 4, 3, 0⟩ : ivec).in_direction d) :=
  ⟨by decide, by decide, by decide,
    (index_bijection ⟨.Dcyl, 2, 0, 3, zero_ivec .Dcyl⟩ .Hz (by decide)).1
      ⟨.Dcyl, 0, 0, 4, 3, 0⟩ rfl (by decide)⟩


/-! ## The count of owned points -/

/-- Counting the points of a product set that satisfy a product condition. -/
theorem card_filter_image3 (A B C : Finset Int) (f : Int × Int × Int → ivec)
    (pred : ivec → Prop) [DecidablePred pred] (Pa Pb Pc : Int → Prop) [DecidablePred Pa]
    [DecidablePred Pb] [DecidablePred Pc]
    (hinj : ∀ t ∈ A ×ˢ B ×ˢ C, ∀ u ∈ A ×ˢ B ×ˢ C, f t = f u → t = u)
    (h : ∀ a ∈ A, ∀ b ∈ B, ∀ c ∈ C, pred (f (a, b, c)) ↔ Pa a ∧ Pb b ∧ Pc c) :
    (((A ×ˢ B ×ˢ C).image f).filter pred).card
      = (A.filter Pa).card * ((B.filter Pb).card * (C.filter Pc).card) := by
  rw [Finset.filter_image, Finset.card_image_of_injOn]
  · have e : (A ×ˢ B ×ˢ C).filter (fun t => pred (f t))
        = (A.filter Pa) ×ˢ ((B.filter Pb) ×ˢ (C.filter Pc)) := by
      ext ⟨a, b, c⟩
      simp only [Finset.mem_filter, Finset.mem_product]
      constructor
      · rintro ⟨⟨ha, hb, hc⟩, hp⟩
        obtain ⟨pa, pb, pc⟩ := (h a ha b hb c hc).mp hp
        exact ⟨⟨ha, pa⟩, ⟨hb, pb⟩, ⟨hc, pc⟩⟩
      · rintro ⟨⟨ha, pa⟩, ⟨hb, pb⟩, ⟨hc, pc⟩⟩
        exact ⟨⟨ha, hb, hc⟩, (h a ha b hb c hc).mpr ⟨pa, pb, pc⟩⟩
    rw [e, Finset.card_product, Finset.card_product]
  · intro t ht u hu htu
    simp only [Finset.coe_filter, Set.mem_setOf_eq] at ht hu
    exact hinj t ht.1 u hu.1 htu

/-- The number of offsets `0 < a ≤ 2 n` of the parity of the shift `s`. -/
theorem axis_count (n s : Int) (hn : 0 ≤ n) (hs : s = 0 ∨ s = 1) :
    (((Finset.Icc 0 (2 * n)).filter
      (fun a => (a - s) % 2 = 0 ∧ 0 < a ∧ a ≤ 2 * n)).card : Int) = n := by
  have e : (Finset.Icc 0 (2 * n)).filter (fun a => (a - s) % 2 = 0 ∧ 0 < a ∧ a ≤ 2 * n)
      = (Finset.range n.toNat).image (fun (k : Nat) => 2 * (k : Int) + 2 - s) := by
    ext a
    simp only [Finset.mem_filter, Finset.mem_Icc, Finset.mem_image, Finset.mem_range]
    constructor
    · rintro ⟨-, h1, h2, h3⟩
      refine ⟨((a + s) / 2 - 1).toNat, ?_, ?_⟩ <;> rcases hs with rfl | rfl <;> omega
    · rintro ⟨k, hk, rfl⟩
      rcases hs with rfl | rfl <;> omega
  rw [e, Finset.card_image_of_injective _ (fun a b hab => by omega),
    Finset.card_range]
  omega

/-- The number of offsets `0 ≤ a ≤ 2 n` of the parity of the shift `s`. -/
theorem axis_count_zero (n s : Int) (hn : 0 ≤ n) (hs : s = 0 ∨ s = 1) :
    (((Finset.Icc 0 (2 * n)).filter
      (fun a => (a - s) % 2 = 0 ∧ (a = 0 ∨ (0 < a ∧ a ≤ 2 * n)))).card : Int) = n + 1 - s := by
  have e : (Finset.Icc 0 (2 * n)).filter
        (fun a => (a - s) % 2 = 0 ∧ (a = 0 ∨ (0 < a ∧ a ≤ 2 * n)))
      = (Finset.range (n + 1 - s).toNat).image (fun (k : Nat) => 2 * (k : Int) + s) := by
    ext a
    simp only [Finset.mem_filter, Finset.mem_Icc, Finset.mem_image, Finset.mem_range]
    constructor
    · rintro ⟨-, h1, h2⟩
      refine ⟨((a - s) / 2).toNat, ?_, ?_⟩ <;> rcases hs with rfl | rfl <;> omega
    · rintro ⟨k, hk, rfl⟩
      rcases hs with rfl | rfl <;> omega
  rw [e, Finset.card_image_of_injective _ (fun a b hab => by omega),
    Finset.card_range]
  rcases hs with rfl | rfl <;> omega

/-- An inactive slot contributes one offset. -/
theorem axis_count_one : ((Finset.Icc (0 : Int) 0).filter (fun _ => True)).card = 1 := by
  decide


/-- One factor of `nowned` on an axis of positive extent. -/
theorem owned_factor_eq (n o s : Int) (hn : 0 < n) (hs : s = 0 ∨ s = 1) :
    (n * 2 + o - (2 + o - s)).tdiv 2 + 1 = n := by
  have e : n * 2 + o - (2 + o - s) = 2 * n - 2 + s := by ring
  rw [e, tdiv_two]
  rcases hs with rfl | rfl <;> split <;> omega

/-- The factor of `nowned` along `r` when the first owned point is moved to the axis. -/
theorem axis_factor_eq (n : Int) (hn : 0 ≤ n) : (n * 2 + 0 - 0).tdiv 2 + 1 = n + 1 := by
  rw [tdiv_two]
  split <;> omega

set_option maxHeartbeats 4000000 in
theorem nowned_card_D3 (n0 n1 n2 : Int) (io : ivec) (c : component)
    (hwf : (⟨.D3, n0, n1, n2, io⟩ : grid_volume).wf)
    (hpos : ∀ d ∈ loop_over_directions .D3,
      0 < (⟨.D3, n0, n1, n2, io⟩ : grid_volume).num_direction d) :
    (⟨.D3, n0, n1, n2, io⟩ : grid_volume).nowned c
      = (((⟨.D3, n0, n1, n2, io⟩ : grid_volume).owned_points c).card : Int) := by
  obtain ⟨sx, sy, sz, sr, hx, hy, hz, hr, -, -, -, -, hsh⟩ :=
    iyee_shift_bits ⟨.D3, n0, n1, n2, io⟩ c
  simp only [grid_volume.nowned, grid_volume.little_owned_corner,
    grid_volume.little_owned_corner0, grid_volume.big_corner, grid_volume.little_corner,
    grid_volume.owned_points, grid_volume.box_points, grid_volume.on_lattice, hsh]
  obtain ⟨iod, ix, iy, iz, ir, ip⟩ := io
  obtain ⟨hd, -, -, -, -, -, -⟩ := hwf
  simp only at hd
  subst hd
  simp only [loop_over_directions, List.mem_cons, List.mem_singleton, List.not_mem_nil,
    or_false, forall_eq_or_imp, forall_eq, num_direction_X, num_direction_Y,
    num_direction_Z] at hpos
  obtain ⟨p0, p1, p2⟩ := hpos
  rw [card_filter_image3 _ _ _ _ _
    (fun a => (a - sx) % 2 = 0 ∧ 0 < a ∧ a ≤ 2 * n0)
    (fun a => (a - sy) % 2 = 0 ∧ 0 < a ∧ a ≤ 2 * n1)
    (fun a => (a - sz) % 2 = 0 ∧ 0 < a ∧ a ≤ 2 * n2)]
  · push_cast
    rw [axis_count n0 sx p0.le hx, axis_count n1 sy p1.le hy, axis_count n2 sz p2.le hz]
    simp only [loop_over_directions, ivec.add, ivec.sub, ivec.scale, ivec.set_direction,
      ivec.in_direction, zero_ivec, one_ivec, ivec_of_nums, grid_volume.nx,
      grid_volume.ny, grid_volume.nz, List.foldl, num_direction_X, num_direction_Y,
      num_direction_Z, one_mul, reduceCtorEq, false_and, if_false]
    rw [owned_factor_eq n0 ix sx p0 hx, owned_factor_eq n1 iy sy p1 hy,
      owned_factor_eq n2 iz sz p2 hz]
    ring
  · rintro ⟨a, b, c⟩ - ⟨a', b', c'⟩ -
    simp only [ivec.add, ivec_of_nums, loop_over_directions, List.foldl, ivec.set_direction,
      ivec.in_direction, ivec.mk.injEq, Prod.mk.injEq, true_and]
    omega
  · intro a ha b hb c hc
    simp only [Finset.mem_Icc] at ha hb hc
    simp [grid_volume.owns, ivec.add, ivec.sub, ivec_of_nums, loop_over_directions,
      ivec.set_direction, ivec.in_direction, grid_volume.nx, grid_volume.ny, grid_volume.nz]
    omega


set_option maxHeartbeats 4000000 in
theorem nowned_card_D1 (n0 n1 n2 : Int) (io : ivec) (c : component)
    (hwf : (⟨.D1, n0, n1, n2, io⟩ : grid_volume).wf)
    (hpos : ∀ d ∈ loop_over_directions .D1,
      0 < (⟨.D1, n0, n1, n2, io⟩ : grid_volume).num_direction d) :
    (⟨.D1, n0, n1, n2, io⟩ : grid_volume).nowned c
      = (((⟨.D1, n0, n1, n2, io⟩ : grid_volume).owned_points c).card : Int) := by
  obtain ⟨sx, sy, sz, sr, hx, hy, hz, hr, -, -, -, -, hsh⟩ :=
    iyee_shift_bits ⟨.D1, n0, n1, n2, io⟩ c
  simp only [grid_volume.nowned, grid_volume.little_owned_corner,
    grid_volume.little_owned_corner0, grid_volume.big_corner, grid_volume.little_corner,
    grid_volume.owned_points, grid_volume.box_points, grid_volume.on_lattice, hsh]
  obtain ⟨iod, ix, iy, iz, ir, ip⟩ := io
  obtain ⟨hd, -, -, -, hD1, -, -⟩ := hwf
  simp only at hd hD1
  subst hd
  obtain ⟨rfl, rfl⟩ := hD1 trivial
  simp only [loop_over_directions, List.mem_cons, List.mem_singleton, List.not_mem_nil,
    or_false, forall_eq_or_imp, forall_eq, num_direction_X, num_direction_Y,
    num_direction_Z] at hpos
  rw [card_filter_image3 _ _ _ _ _
    (fun _ => True) (fun _ => True)
    (fun a => (a - sz) % 2 = 0 ∧ 0 < a ∧ a ≤ 2 * n2)]
  · push_cast
    rw [axis_count n2 sz hpos.le hz, axis_count_one]
    simp only [loop_over_directions, ivec.add, ivec.sub, ivec.scale, ivec.set_direction,
      ivec.in_direction, zero_ivec, one_ivec, ivec_of_nums, grid_volume.nx,
      grid_volume.ny, grid_volume.nz, List.foldl, num_direction_X, num_direction_Y,
      num_direction_Z, one_mul, reduceCtorEq, false_and, if_false]
    rw [owned_factor_eq n2 iz sz hpos hz]
    simp
  · rintro ⟨a, b, c⟩ h1 ⟨a', b', c'⟩ h2
    simp only [Finset.mem_product, Finset.mem_Icc] at h1 h2
    simp only [ivec.add, ivec_of_nums, loop_over_directions, List.foldl, ivec.set_direction,
      ivec.in_direction, ivec.mk.injEq, Prod.mk.injEq, true_and]
    omega
  · intro a ha b hb c hc
    simp only [Finset.mem_Icc] at ha hb hc
    simp [grid_volume.owns, ivec.add, ivec.sub, ivec_of_nums, loop_over_directions,
      ivec.set_direction, ivec.in_direction, grid_volume.nx, grid_volume.ny, grid_volume.nz]
    omega

set_option maxHeartbeats 4000000 in
theorem nowned_card_D2 (n0 n1 n2 : Int) (io : ivec) (c : component)
    (hwf : (⟨.D2, n0, n1, n2, io⟩ : grid_volume).wf)
    (hpos : ∀ d ∈ loop_over_directions .D2,
      0 < (⟨.D2, n0, n1, n2, io⟩ : grid_volume).num_direction d) :
    (⟨.D2, n0, n1, n2, io⟩ : grid_volume).nowned c
      = (((⟨.D2, n0, n1, n2, io⟩ : grid_volume).owned_points c).card : Int) := by
  obtain ⟨sx, sy, sz, sr, hx, hy, hz, hr, -, -, -, -, hsh⟩ :=
    iyee_shift_bits ⟨.D2, n0, n1, n2, io⟩ c
  simp only [grid_volume.nowned, grid_volume.little_owned_corner,
    grid_volume.little_owned_corner0, grid_volume.big_corner, grid_volume.little_corner,
    grid_volume.owned_points, grid_volume.box_points, grid_volume.on_lattice, hsh]
  obtain ⟨iod, ix, iy, iz, ir, ip⟩ := io
  obtain ⟨hd, -, -, -, -, hD2, -⟩ := hwf
  simp only at hd hD2
  subst hd
  obtain rfl := hD2 trivial
  simp only [loop_over_directions, List.mem_cons, List.mem_singleton, List.not_mem_nil,
    or_false, forall_eq_or_imp, forall_eq, num_direction_X, num_direction_Y,
    num_direction_Z] at hpos
  obtain ⟨p0, p1⟩ := hpos
  rw [card_filter_image3 _ _ _ _ _
    (fun a => (a - sx) % 2 = 0 ∧ 0 < a ∧ a ≤ 2 * n0)
    (fun a => (a - sy) % 2 = 0 ∧ 0 < a ∧ a ≤ 2 * n1)
    (fun _ => True)]
  · push_cast
    rw [axis_count n0 sx p0.le hx, axis_count n1 sy p1.le hy, axis_count_one]
    simp only [loop_over_directions, ivec.add, ivec.sub, ivec.scale, ivec.set_direction,
      ivec.in_direction, zero_ivec, one_ivec, ivec_of_nums, grid_volume.nx,
      grid_volume.ny, grid_volume.nz, List.foldl, num_direction_X, num_direction_Y,
      num_direction_Z, one_mul, reduceCtorEq, false_and, if_false]
    rw [owned_factor_eq n0 ix sx p0 hx, owned_factor_eq n1 iy sy p1 hy]
    simp
  · rintro ⟨a, b, c⟩ h1 ⟨a', b', c'⟩ h2
    simp only [Finset.mem_product, Finset.mem_Icc] at h1 h2
    simp only [ivec.add, ivec_of_nums, loop_over_directions, List.foldl, ivec.set_direction,
      ivec.in_direction, ivec.mk.injEq, Prod.mk.injEq, true_and]
    omega
  · intro a ha b hb c hc
    simp only [Finset.mem_Icc] at ha hb hc
    simp [grid_volume.owns, ivec.add, ivec.sub, ivec_of_nums, loop_over_directions,
      ivec.set_direction, ivec.in_direction, grid_volume.nx, grid_volume.ny, grid_volume.nz]
    omega

set_option maxHeartbeats 4000000 in
theorem nowned_card_Dcyl (n0 n1 n2 : Int) (io : ivec) (c : component)
    (hwf : (⟨.Dcyl, n0, n1, n2, io⟩ : grid_volume).wf)
    (hpos : ∀ d ∈ loop_over_directions .Dcyl,
      0 < (⟨.Dcyl, n0, n1, n2, io⟩ : grid_volume).num_direction d) :
    (⟨.Dcyl, n0, n1, n2, io⟩ : grid_volume).nowned c
      = (((⟨.Dcyl, n0, n1, n2, io⟩ : grid_volume).owned_points c).card : Int) := by
  obtain ⟨sx, sy, sz, sr, hx, hy, hz, hr, -, -, -, -, hsh⟩ :=
    iyee_shift_bits ⟨.Dcyl, n0, n1, n2, io⟩ c
  simp only [grid_volume.nowned, grid_volume.little_owned_corner,
    grid_volume.little_owned_corner0, grid_volume.big_corner, grid_volume.little_corner,
    grid_volume.owned_points, grid_volume.box_points, grid_volume.on_lattice, hsh]
  obtain ⟨iod, ix, iy, iz, ir, ip⟩ := io
  obtain ⟨hd, -, -, -, -, -, hDc⟩ := hwf
  simp only at hd hDc
  subst hd
  obtain rfl := hDc trivial
  simp only [loop_over_directions, List.mem_cons, List.mem_singleton, List.not_mem_nil,
    or_false, forall_eq_or_imp, forall_eq, num_direction_X, num_direction_Y,
    num_direction_Z, num_direction_R] at hpos
  obtain ⟨p2, p0⟩ := hpos
  by_cases hir : ir = 0
  · subst hir
    rw [card_filter_image3 _ _ _ _ _
      (fun a => (a - sr) % 2 = 0 ∧ (a = 0 ∨ (0 < a ∧ a ≤ 2 * n0)))
      (fun _ => True)
      (fun a => (a - sz) % 2 = 0 ∧ 0 < a ∧ a ≤ 2 * n2)]
    · push_cast
      rw [axis_count_zero n0 sr p0.le hr, axis_count n2 sz p2.le hz, axis_count_one]
      simp only [loop_over_directions, ivec.add, ivec.sub, ivec.scale, ivec.set_direction,
        ivec.in_direction, zero_ivec, one_ivec, ivec_of_nums, grid_volume.nx,
        grid_volume.ny, grid_volume.nz, grid_volume.nr, List.foldl, num_direction_X,
        num_direction_Y, num_direction_Z, num_direction_R, one_mul, true_and]
      have fz := owned_factor_eq n2 iz sz p2 hz
      rcases hr with rfl | rfl
      · have fa := axis_factor_eq n0 p0.le
        simp only [add_zero, sub_zero, ↓reduceIte] at fa ⊢
        rw [fz, fa]
        push_cast
        ring
      · have fr := owned_factor_eq n0 0 1 p0 (Or.inr rfl)
        have e : ¬ ((2 : Int) + 0 - 1 = 2) := by omega
        simp only [e, ↓reduceIte] at fr ⊢
        rw [fz, fr]
        push_cast
        ring
    · rintro ⟨a, b, c⟩ h1 ⟨a', b', c'⟩ h2
      simp only [Finset.mem_product, Finset.mem_Icc] at h1 h2
      simp only [ivec.add, ivec_of_nums, loop_over_directions, List.foldl,
        ivec.set_direction, ivec.in_direction, ivec.mk.injEq, Prod.mk.injEq, true_and]
      omega
    · intro a ha b hb c hc
      simp only [Finset.mem_Icc] at ha hb hc
      simp [grid_volume.owns, ivec.add, ivec.sub, ivec_of_nums, loop_over_directions,
        ivec.set_direction, ivec.in_direction, grid_volume.nx, grid_volume.ny,
        grid_volume.nz, grid_volume.nr]
      omega
  · rw [card_filter_image3 _ _ _ _ _
      (fun a => (a - sr) % 2 = 0 ∧ 0 < a ∧ a ≤ 2 * n0)
      (fun _ => True)
      (fun a => (a - sz) % 2 = 0 ∧ 0 < a ∧ a ≤ 2 * n2)]
    · push_cast
      rw [axis_count n0 sr p0.le hr, axis_count n2 sz p2.le hz, axis_count_one]
      simp only [loop_over_directions, ivec.add, ivec.sub, ivec.scale, ivec.set_direction,
        ivec.in_direction, zero_ivec, one_ivec, ivec_of_nums, grid_volume.nx,
        grid_volume.ny, grid_volume.nz, grid_volume.nr, List.foldl, num_direction_X,
        num_direction_Y, num_direction_Z, num_direction_R, one_mul, true_and, hir,
        false_and, if_false]
      rw [owned_factor_eq n2 iz sz p2 hz, owned_factor_eq n0 ir sr p0 hr]
      push_cast
      ring
    · rintro ⟨a, b, c⟩ h1 ⟨a', b', c'⟩ h2
      simp only [Finset.mem_product, Finset.mem_Icc] at h1 h2
      simp only [ivec.add, ivec_of_nums, loop_over_directions, List.foldl,
        ivec.set_direction, ivec.in_direction, ivec.mk.injEq, Prod.mk.injEq, true_and]
      omega
    · intro a ha b hb c hc
      simp only [Finset.mem_Icc] at ha hb hc
      simp [grid_volume.owns, ivec.add, ivec.sub, ivec_of_nums, loop_over_directions,
        ivec.set_direction, ivec.in_direction, grid_volume.nx, grid_volume.ny,
        grid_volume.nz, grid_volume.nr, hir]
      omega


set_option linter.unnecessarySeqFocus false in
/-- Every point that a descriptor owns is, on the active axes, a point of `box_points`, and
two points of `box_points` that agree on the active axes are equal. -/
theorem box_points_enumerate (gv : grid_volume) (hwf : gv.wf) :
    (∀ p : ivec, p.dim = gv.dim → gv.owns p = true →
        ∃ q ∈ gv.box_points, q.dim = gv.dim
          ∧ ∀ d ∈ loop_over_directions gv.dim, q.in_direction d = p.in_direction d)
      ∧ (∀ q ∈ gv.box_points, ∀ q' ∈ gv.box_points,
          (∀ d ∈ loop_over_directions gv.dim, q.in_direction d = q'.in_direction d) →
            q = q') := by
  obtain ⟨dim, n0, n1, n2, ⟨iod, ix, iy, iz, ir, ip⟩⟩ := gv
  obtain ⟨hd, h0', h1', h2', hD1, hD2, hDc⟩ := hwf
  simp only at hd h0' h1' h2' hD1 hD2 hDc
  subst hd
  constructor
  · rintro ⟨pd, px, py, pz, pr, pp⟩ hp ho
    simp only at hp
    subst hp
    have key : ∀ a b c : Int, (0 ≤ a ∧ a ≤ 2 * n0) → (0 ≤ b ∧ b ≤ 2 * n1) →
        (0 ≤ c ∧ c ≤ 2 * n2) →
        (ivec_of_nums pd a b c).add ⟨pd, ix, iy, iz, ir, ip⟩
          ∈ (⟨pd, n0, n1, n2, ⟨pd, ix, iy, iz, ir, ip⟩⟩ : grid_volume).box_points := by
      intro a b c ha hb hc
      simp only [grid_volume.box_points, Finset.mem_image, Finset.mem_product,
        Finset.mem_Icc]
      exact ⟨(a, b, c), ⟨ha, hb, hc⟩, rfl⟩
    cases pd
    · obtain ⟨rfl, rfl⟩ := hD1 rfl
      refine ⟨_, key 0 0 (pz - iz) (by omega) (by omega) ?_, ?_⟩ <;>
        simp [grid_volume.owns, ivec.add, ivec.sub, ivec_of_nums, loop_over_directions,
          ivec.set_direction, ivec.in_direction, grid_volume.nx, grid_volume.ny,
          grid_volume.nz, grid_volume.nr] at ho ⊢ <;> omega
    · obtain rfl := hD2 rfl
      refine ⟨_, key (px - ix) (py - iy) 0 ?_ ?_ (by omega), ?_⟩ <;>
        simp [grid_volume.owns, ivec.add, ivec.sub, ivec_of_nums, loop_over_directions,
          ivec.set_direction, ivec.in_direction, grid_volume.nx, grid_volume.ny,
          grid_volume.nz, grid_volume.nr] at ho ⊢ <;> omega
    · refine ⟨_, key (px - ix) (py - iy) (pz - iz) ?_ ?_ ?_, ?_⟩ <;>
        simp [grid_volume.owns, ivec.add, ivec.sub, ivec_of_nums, loop_over_directions,
          ivec.set_direction, ivec.in_direction, grid_volume.nx, grid_volume.ny,
          grid_volume.nz, grid_volume.nr] at ho ⊢ <;> omega
    · obtain rfl := hDc rfl
      refine ⟨_, key (pr - ir) 0 (pz - iz) ?_ (by omega) ?_, ?_⟩ <;>
        simp [grid_volume.owns, ivec.add, ivec.sub, ivec_of_nums, loop_over_directions,
          ivec.set_direction, ivec.in_direction, grid_volume.nx, grid_volume.ny,
          grid_volume.nz, grid_volume.nr] at ho ⊢ <;> omega
  · intro q hq q' hq' hag
    simp only [grid_volume.box_points, Finset.mem_image, Finset.mem_product,
      Finset.mem_Icc] at hq hq'
    obtain ⟨⟨a, b, c⟩, ⟨ha, hb, hc⟩, rfl⟩ := hq
    obtain ⟨⟨a', b', c'⟩, ⟨ha', hb', hc'⟩, rfl⟩ := hq'
    simp only at ha hb hc ha' hb' hc' hag
    cases iod <;>
      simp [ivec.add, ivec_of_nums, loop_over_directions, ivec.set_direction,
        ivec.in_direction] at hag ⊢ <;> omega

/-- C33: for a descriptor of `vol1d`/`vol2d`/`vol3d`/`volcyl`-style construction with
positive extents on its active axes and every component `c`, `nowned(c)` is the number of
lattice points of the sub-lattice of `c` that `owns` accepts, the points on the axis of a
cylindrical descriptor with origin at `r = 0` included. The points are counted in
`box_points`, which holds every owned point once. -/
theorem nowned_counts_owned (gv : grid_volume) (c : component) (hwf : gv.wf)
    (hpos : ∀ d ∈ loop_over_directions gv.dim, 0 < gv.num_direction d) :
    gv.nowned c = ((gv.owned_points c).card : Int)
      ∧ (∀ p : ivec, p.dim = gv.dim → gv.owns p = true →
          ∃ q ∈ gv.box_points, q.dim = gv.dim
            ∧ ∀ d ∈ loop_over_directions gv.dim, q.in_direction d = p.in_direction d)
      ∧ (∀ q ∈ gv.box_points, ∀ q' ∈ gv.box_points,
          (∀ d ∈ loop_over_directions gv.dim, q.in_direction d = q'.in_direction d) →
            q = q') := by
  refine ⟨?_, box_points_enumerate gv hwf⟩
  obtain ⟨dim, n0, n1, n2, io⟩ := gv
  cases dim
  · exact nowned_card_D1 n0 n1 n2 io c hwf hpos
  · exact nowned_card_D2 n0 n1 n2 io c hwf hpos
  · exact nowned_card_D3 n0 n1 n2 io c hwf hpos
  · exact nowned_card_Dcyl n0 n1 n2 io c hwf hpos

/-- The cylindrical descriptor with `nr = 2`, `nz = 3` and origin at `r = 0`: `Ez` has the
`(2 + 1) * 3 = 9` owned points that include the axis. -/
theorem nowned_counts_owned_witness :
    (⟨.Dcyl, 2, 0, 3, zero_ivec .Dcyl⟩ : grid_volume).wf
      ∧ (⟨.Dcyl, 2, 0, 3, zero_ivec .Dcyl⟩ : grid_volume).nowned .Ez = 9
      ∧ (⟨.Dcyl, 2, 0, 3, zero_ivec .Dcyl⟩ : grid_volume).nowned .Ez
        = ((((⟨.Dcyl, 2, 0, 3, zero_ivec .Dcyl⟩ : grid_volume).owned_points .Ez).card : Nat)
            : Int) :=
  ⟨by decide, by decide,
    (nowned_counts_owned ⟨.Dcyl, 2, 0, 3, zero_ivec .Dcyl⟩ .Ez (by decide) (by decide)).1⟩


/-! ## Ownership of the parts of a split -/

set_option maxHeartbeats 4000000 in
/-- The two parts of a cut at `0 < numer < biglen` of a descriptor whose origin is not at
negative `r`: a lattice point is owned by the descriptor exactly when it is owned by one of
the parts, no point is owned by both, and the parts keep the dimension and an origin that is
not at negative `r`. -/
theorem owns_cut (gv : grid_volume) (numer : Int) (hwf : gv.wf)
    (h0 : 0 < numer) (h1 : numer < gv.biglen) (hr : gv.dim = .Dcyl → 0 ≤ gv.io.r) :
    (gv.split_retval false numer).dim = gv.dim
      ∧ (gv.split_retval true numer).dim = gv.dim
      ∧ ((gv.split_retval false numer).dim = .Dcyl → 0 ≤ (gv.split_retval false numer).io.r)
      ∧ ((gv.split_retval true numer).dim = .Dcyl → 0 ≤ (gv.split_retval true numer).io.r)
      ∧ ∀ p : ivec, p.dim = gv.dim →
          (gv.owns p = true ↔
            ((gv.split_retval false numer).owns p = true
              ∨ (gv.split_retval true numer).owns p = true))
          ∧ ¬ ((gv.split_retval false numer).owns p = true
              ∧ (gv.split_retval true numer).owns p = true) := by
  have hbl := biglen_eq gv
  simp only [grid_volume.split_retval, grid_volume.split_direction]
  obtain ⟨dim, n0, n1, n2, ⟨iod, ix, iy, iz, ir, ip⟩⟩ := gv
  obtain ⟨hd, h0', h1', h2', hD1, hD2, hDc⟩ := hwf
  simp only at hd h0' h1' h2' hD1 hD2 hDc hbl hr
  subst hd
  rw [hbl] at h1
  rcases best_cases ⟨iod, n0, n1, n2, ⟨iod, ix, iy, iz, ir, ip⟩⟩ with ⟨hb, h⟩ | ⟨hb, h⟩ | ⟨hb, h⟩ | ⟨hb, h⟩ <;>
    simp only at h <;> rw [hb] <;> clear hb hbl
  · omega
  all_goals
    cases iod <;> simp only [reduceCtorEq, forall_true_left, false_implies] at hD1 hD2 hDc hr <;>
    first
    | (exfalso; omega)
    | (refine ⟨by simp [grid_volume.num, grid_volume.set_num, grid_volume.set_origin, grid_volume.shift_origin],
        by simp [grid_volume.num, grid_volume.set_num, grid_volume.set_origin, grid_volume.shift_origin],
        by simp [grid_volume.num, grid_volume.set_num, grid_volume.set_origin, grid_volume.shift_origin]; try omega,
        by simp [grid_volume.num, grid_volume.set_num, grid_volume.set_origin, grid_volume.shift_origin, direction.ofInt, unit_ivec, zero_ivec, ivec.scale, ivec.add, ivec.in_direction, ivec.set_direction, loop_over_directions]; try omega, ?_⟩
       rintro ⟨pd, px, py, pz, pr, pp⟩ hp
       simp only at hp
       subst hp
       simp [grid_volume.num, grid_volume.set_num, grid_volume.set_origin, grid_volume.shift_origin, direction.ofInt, unit_ivec, zero_ivec, ivec.scale, ivec.add, ivec.sub, ivec.in_direction, ivec.set_direction, loop_over_directions, grid_volume.owns, grid_volume.nx, grid_volume.ny, grid_volume.nz, grid_volume.nr, direction.toInt]
       omega)


/-- The parts of `split(n, .)` own what the descriptor owns, each point once. -/
theorem split_fuel_owns (m : Nat) : ∀ (gv : grid_volume) (n : Int), gv.wf →
    (gv.dim = .Dcyl → 0 ≤ gv.io.r) → 1 ≤ n → n ≤ gv.nowned_min → n.toNat ≤ m →
    ∀ p : ivec, p.dim = gv.dim →
      (gv.owns p = true ↔
        ∃ w : Int, 0 ≤ w ∧ w < n
          ∧ ∃ r, grid_volume.split_fuel m gv n w = .ok r ∧ r.owns p = true)
      ∧ (∀ w w' : Int, 0 ≤ w → w < n → 0 ≤ w' → w' < n →
          ∀ r r', grid_volume.split_fuel m gv n w = .ok r →
            grid_volume.split_fuel m gv n w' = .ok r' →
            r.owns p = true → r'.owns p = true → w = w') := by
  induction m with
  | zero => intro gv n _ _ h1 _ hm; omega
  | succ m ih =>
    intro gv n hwf hr h1 hP hm p hp
    by_cases hn1 : n = 1
    · subst hn1
      have e : ∀ w, grid_volume.split_fuel (m + 1) gv 1 w = .ok gv :=
        fun w => split_fuel_one m gv w hP
      constructor
      · constructor
        · intro ho
          exact ⟨0, le_refl _, one_pos, gv, e 0, ho⟩
        · rintro ⟨w, -, -, r, hr1, hr2⟩
          rw [e w] at hr1
          rw [Res.ok.inj hr1]
          exact hr2
      · intro w w' a1 a2 b1 b2 _ _ _ _ _ _
        omega
    · have hn2 : 2 ≤ n := by omega
      obtain ⟨-, wlo, whi, l1, l2, l3, l4, -, s0, sL, -, -, -⟩ :=
        split_fuel_step 0 gv n 0 hwf hn2 hP
      obtain ⟨d1, d2, r1, r2, hcut⟩ := owns_cut gv (gv.split_point n) hwf s0 sL hr
      obtain ⟨c1, c2⟩ := hcut p hp
      have step : ∀ w, grid_volume.split_fuel (m + 1) gv n w
          = (if w < gv.num_low n then
              grid_volume.split_fuel m (gv.split_retval false (gv.split_point n))
                (gv.num_low n) w
            else
              grid_volume.split_fuel m (gv.split_retval true (gv.split_point n))
                (n - gv.num_low n) (w - gv.num_low n)) :=
        fun w => (split_fuel_step m gv n w hwf hn2 hP).1
      obtain ⟨lo1, lo2⟩ := ih _ (gv.num_low n) wlo r1 l1 l3 (by omega) p (by rw [d1]; exact hp)
      obtain ⟨hi1, hi2⟩ := ih _ (n - gv.num_low n) whi r2 (by omega) l4 (by omega) p
        (by rw [d2]; exact hp)
      constructor
      · constructor
        · intro ho
          rcases c1.mp ho with h | h
          · obtain ⟨w, w0, w1, r, e1, e2⟩ := lo1.mp h
            refine ⟨w, w0, by omega, r, ?_, e2⟩
            rw [step w, if_pos w1]
            exact e1
          · obtain ⟨w, w0, w1, r, e1, e2⟩ := hi1.mp h
            refine ⟨w + gv.num_low n, by omega, by omega, r, ?_, e2⟩
            rw [step, if_neg (by omega)]
            rw [show w + gv.num_low n - gv.num_low n = w by ring]
            exact e1
        · rintro ⟨w, w0, w1, r, e1, e2⟩
          rw [step w] at e1
          by_cases hw : w < gv.num_low n
          · rw [if_pos hw] at e1
            exact c1.mpr (Or.inl (lo1.mpr ⟨w, w0, hw, r, e1, e2⟩))
          · rw [if_neg hw] at e1
            exact c1.mpr (Or.inr (hi1.mpr ⟨w - gv.num_low n, by omega, by omega, r, e1, e2⟩))
      · intro w w' a1 a2 b1 b2 r r' e1 e1' e2 e2'
        rw [step w] at e1
        rw [step w'] at e1'
        by_cases hw : w < gv.num_low n <;> by_cases hw' : w' < gv.num_low n
        · rw [if_pos hw] at e1
          rw [if_pos hw'] at e1'
          exact lo2 w w' a1 hw b1 hw' r r' e1 e1' e2 e2'
        · rw [if_pos hw] at e1
          rw [if_neg hw'] at e1'
          exact absurd ⟨lo1.mpr ⟨w, a1, hw, r, e1, e2⟩,
            hi1.mpr ⟨w' - gv.num_low n, by omega, by omega, r', e1', e2'⟩⟩ c2
        · rw [if_neg hw] at e1
          rw [if_pos hw'] at e1'
          exact absurd ⟨lo1.mpr ⟨w', b1, hw', r', e1', e2'⟩,
            hi1.mpr ⟨w - gv.num_low n, by omega, by omega, r, e1, e2⟩⟩ c2
        · rw [if_neg hw] at e1
          rw [if_neg hw'] at e1'
          have := hi2 (w - gv.num_low n) (w' - gv.num_low n) (by omega) (by omega) (by omega)
            (by omega) r r' e1 e1' e2 e2'
          omega

/-- C31 (as stated) fails: the cylindrical descriptor with `nr = 2`, `nz = 1` and origin
index `r = -2` (a descriptor padded along `r`) has `nowned_min() = 2`; `split(2, 0)` and
`split(2, 1)` are the halves `r in [-2, 0]` and `r in [0, 2]`, and the point
`(r, z) = (0, 2)`, which the descriptor owns, is owned by both parts. -/
theorem split_owns_twice_at_axis :
    (⟨.Dcyl, 2, 0, 1, ⟨.Dcyl, 0, 0, 0, -2, 0⟩⟩ : grid_volume).wf
      ∧ (⟨.Dcyl, 2, 0, 1, ⟨.Dcyl, 0, 0, 0, -2, 0⟩⟩ : grid_volume).nowned_min = 2
      ∧ (⟨.Dcyl, 2, 0, 1, ⟨.Dcyl, 0, 0, 0, -2, 0⟩⟩ : grid_volume).split 2 0
          = .ok ⟨.Dcyl, 1, 0, 1, ⟨.Dcyl, 0, 0, 0, -2, 0⟩⟩
      ∧ (⟨.Dcyl, 2, 0, 1, ⟨.Dcyl, 0, 0, 0, -2, 0⟩⟩ : grid_volume).split 2 1
          = .ok ⟨.Dcyl, 1, 0, 1, ⟨.Dcyl, 0, 0, 0, 0, 0⟩⟩
      ∧ (⟨.Dcyl, 2, 0, 1, ⟨.Dcyl, 0, 0, 0, -2, 0⟩⟩ : grid_volume).owns ⟨.Dcyl, 0, 0, 2, 0, 0⟩
          = true
      ∧ (⟨.Dcyl, 1, 0, 1, ⟨.Dcyl, 0, 0, 0, -2, 0⟩⟩ : grid_volume).owns ⟨.Dcyl, 0, 0, 2, 0, 0⟩
          = true
      ∧ (⟨.Dcyl, 1, 0, 1, ⟨.Dcyl, 0, 0, 0, 0, 0⟩⟩ : grid_volume).owns ⟨.Dcyl, 0, 0, 2, 0, 0⟩
          = true := by
  decide

/-- C31 (amended): for a descriptor of `vol1d`/`vol2d`/`vol3d`/`volcyl`-style construction
whose origin, if it is cylindrical, is not at negative `r`, every `n` with
`1 <= n <= nowned_min()` and every lattice point `p` of its dimension: every call
`split(n, which)` with `0 <= which < n` returns, `gv.owns(p)` holds if and only if there is
exactly one `which` in `[0, n)` with `split(n, which).owns(p)`, and a point owned by some
part is owned by `gv`. -/
theorem split_ownership (gv : grid_volume) (n : Int) (p : ivec) (hwf : gv.wf)
    (hr : gv.dim = .Dcyl → 0 ≤ gv.io.r) (h1 : 1 ≤ n) (hn : n ≤ gv.nowned_min)
    (hp : p.dim = gv.dim) :
    (∀ which : Int, 0 ≤ which → which < n → ∃ r, gv.split n which = .ok r)
      ∧ (gv.owns p = true ↔
          ∃! which : Int, 0 ≤ which ∧ which < n
            ∧ ∃ r, gv.split n which = .ok r ∧ r.owns p = true)
      ∧ (∀ which : Int, 0 ≤ which → which < n →
          ∀ r, gv.split n which = .ok r → r.owns p = true → gv.owns p = true) := by
  obtain ⟨k1, k2⟩ := split_fuel_owns n.toNat gv n hwf hr h1 hn (le_refl _) p hp
  refine ⟨fun which _ _ => ?_, ?_, ?_⟩
  · obtain ⟨r, -, hr'⟩ := split_fuel_ok n.toNat gv n which hwf h1 hn (le_refl _)
    exact ⟨r, hr' n.toNat (le_refl _)⟩
  · constructor
    · intro ho
      obtain ⟨w, w0, w1, r, e1, e2⟩ := k1.mp ho
      refine ⟨w, ⟨w0, w1, r, e1, e2⟩, ?_⟩
      rintro w' ⟨w0', w1', r', e1', e2'⟩
      exact k2 w' w w0' w1' w0 w1 r' r e1' e1 e2' e2
    · rintro ⟨w, ⟨w0, w1, r, e1, e2⟩, -⟩
      exact k1.mpr ⟨w, w0, w1, r, e1, e2⟩
  · intro which w0 w1 r e1 e2
    exact k1.mpr ⟨which, w0, w1, r, e1, e2⟩

/-- The 2-D descriptor with extents `5 x 7` split into `6` parts, and the point `(4, 6)`. -/
theorem split_ownership_witness :
    (⟨.D2, 5, 7, 0, zero_ivec .D2⟩ : grid_volume).wf
      ∧ (⟨.D2, 5, 7, 0, zero_ivec .D2⟩ : grid_volume).owns ⟨.D2, 4, 6, 0, 0, 0⟩ = true
      ∧ ((⟨.D2, 5, 7, 0, zero_ivec .D2⟩ : grid_volume).owns ⟨.D2, 4, 6, 0, 0, 0⟩ = true ↔
          ∃! which : Int, 0 ≤ which ∧ which < 6
            ∧ ∃ r, (⟨.D2, 5, 7, 0, zero_ivec .D2⟩ : grid_volume).split 6 which = .ok r
              ∧ r.owns ⟨.D2, 4, 6, 0, 0, 0⟩ = true) :=
  ⟨by decide, by decide,
    (split_ownership ⟨.D2, 5, 7, 0, zero_ivec .D2⟩ 6 ⟨.D2, 4, 6, 0, 0, 0⟩ (by decide)
      (by decide) (by decide) (by decide) rfl).2.1⟩


/-! ## Symmetries and the Yee lattice -/

theorem ivec_set_direction_dim (v : ivec) (d : direction) (x : Int) :
    (v.set_direction d x).dim = v.dim := by
  cases d <;> rfl

theorem ivec_set_direction_same (v : ivec) (d : direction) (x : Int)
    (hd : d ≠ .NO_DIRECTION) : (v.set_direction d x).in_direction d = x := by
  cases d <;> first | rfl | exact absurd rfl hd

theorem ivec_set_direction_other (v : ivec) (d e : direction) (x : Int) (h : e ≠ d) :
    (v.set_direction d x).in_direction e = v.in_direction e := by
  cases d <;> cases e <;> first | rfl | exact absurd rfl h

/-- The loop of `transform(const ivec &, int)` over a list of directions whose images are
distinct: the slot of the image of `d` receives the reflected or the shifted offset of the
slot `d` of `ov`, and the other slots keep the value they had. -/
theorem transform_ivec_fold {α : Type} (t : direction → Res (signed_direction α))
    (f : direction → signed_direction α) (sp ov : ivec) :
    ∀ (L : List direction) (out : ivec), L.Nodup →
      (∀ d ∈ L, t d = .ok (f d)) →
      (∀ d ∈ L, ∀ e ∈ L, (f d).d = (f e).d → d = e) →
      (∀ d ∈ L, (f d).d ≠ .NO_DIRECTION) →
      ∃ r : ivec,
        L.foldl
          (fun (out : Res ivec) d =>
            out.bind (fun out =>
              (t d).bind (fun sd =>
                let sp_d := sp.in_direction d
                let sp_sd := sp.in_direction sd.d
                let delta := ov.in_direction d - sp_d
                if sd.flipped then .ok (out.set_direction sd.d (sp_sd - delta))
                else .ok (out.set_direction sd.d (sp_sd + delta)))))
          (.ok out) = .ok r
        ∧ r.dim = out.dim
        ∧ (∀ d ∈ L, r.in_direction (f d).d
            = if (f d).flipped then sp.in_direction (f d).d - (ov.in_direction d - sp.in_direction d)
              else sp.in_direction (f d).d + (ov.in_direction d - sp.in_direction d))
        ∧ (∀ e, (∀ d ∈ L, (f d).d ≠ e) → r.in_direction e = out.in_direction e) := by
  intro L
  induction L with
  | nil =>
    intro out _ _ _ _
    exact ⟨out, rfl, rfl, fun d hd => absurd hd (List.not_mem_nil d), fun _ _ => rfl⟩
  | cons d L ih =>
    intro out hnd ht hinj hno
    have hdL : d ∉ L := (List.nodup_cons.mp hnd).1
    have hnd' : L.Nodup := (List.nodup_cons.mp hnd).2
    have htd := ht d (List.mem_cons_self d L)
    have hnod := hno d (List.mem_cons_self d L)
    obtain ⟨r, h1, h2, h3, h4⟩ := ih
      (out.set_direction (f d).d
        (if (f d).flipped then sp.in_direction (f d).d - (ov.in_direction d - sp.in_direction d)
          else sp.in_direction (f d).d + (ov.in_direction d - sp.in_direction d)))
      hnd' (fun e he => ht e (List.mem_cons_of_mem d he))
      (fun a ha b hb => hinj a (List.mem_cons_of_mem d ha) b (List.mem_cons_of_mem d hb))
      (fun e he => hno e (List.mem_cons_of_mem d he))
    have hne : ∀ e ∈ L, (f e).d ≠ (f d).d := by
      intro e he heq
      have := hinj e (List.mem_cons_of_mem d he) d (List.mem_cons_self d L) heq
      exact hdL (this ▸ he)
    refine ⟨r, ?_, ?_, ?_, ?_⟩
    · rw [← h1]
      simp only [List.foldl, bind_ok, htd]
      by_cases hf : (f d).flipped = true
      · simp only [hf, if_true]
      · simp only [hf, Bool.false_eq_true, if_false]
    · rw [h2, ivec_set_direction_dim]
    · intro e he
      rcases List.mem_cons.mp he with rfl | he'
      · rw [h4 _ hne, ivec_set_direction_same _ _ _ hnod]
      · exact h3 e he'
    · intro e he
      rw [h4 e (fun a ha => he a (List.mem_cons_of_mem d ha)),
        ivec_set_direction_other _ _ _ _ (fun h => he d (List.mem_cons_self d L) h.symm)]

/-- An injective map of the active directions into themselves reaches every active
direction. -/
theorem active_surjective (dim : ndim) (g : direction → direction)
    (hm : ∀ d ∈ loop_over_directions dim, g d ∈ loop_over_directions dim)
    (hi : ∀ d ∈ loop_over_directions dim, ∀ e ∈ loop_over_directions dim, g d = g e → d = e) :
    ∀ d' ∈ loop_over_directions dim, ∃ d ∈ loop_over_directions dim, g d = d' := by
  cases dim <;>
    simp only [loop_over_directions, List.mem_cons, List.mem_singleton, List.not_mem_nil,
      or_false, forall_eq_or_imp, forall_eq, exists_eq_or_imp, exists_eq_left] at hm hi ⊢
  · exact hm
  · obtain ⟨h1, h2⟩ := hm
    obtain ⟨⟨-, i1⟩, i2, -⟩ := hi
    rcases h1 with a | a <;> rcases h2 with b | b <;>
      first
      | exact absurd (i1 (a.trans b.symm)) (by decide)
      | simp [a, b]
  · obtain ⟨h1, h2, h3⟩ := hm
    obtain ⟨⟨-, i1, i2⟩, ⟨i3, -, i4⟩, i5, i6, -⟩ := hi
    rcases h1 with a | a | a <;> rcases h2 with b | b | b <;> rcases h3 with c | c | c <;>
      first
      | exact absurd (i1 (a.trans b.symm)) (by decide)
      | exact absurd (i2 (a.trans c.symm)) (by decide)
      | exact absurd (i4 (b.trans c.symm)) (by decide)
      | simp [a, b, c]
  · obtain ⟨h1, h2⟩ := hm
    obtain ⟨⟨-, i1⟩, i2, -⟩ := hi
    rcases h1 with a | a <;> rcases h2 with b | b <;>
      first
      | exact absurd (i1 (a.trans b.symm)) (by decide)
      | simp [a, b]

/-- The slot of `iyee_shift(c)` along an active direction. -/
theorem iyee_shift_in_direction (gv : grid_volume) (c : component) (d : direction)
    (hd : d ∈ loop_over_directions gv.dim) :
    (gv.iyee_shift c).in_direction d
      = if c = .Dielectric ∨ c = .Permeability
          ∨ ((is_electric c ∨ is_D c) ∧ d = component_direction c)
          ∨ ((is_magnetic c ∨ is_B c) ∧ d ≠ component_direction c) then 1 else 0 := by
  obtain ⟨dim, n0, n1, n2, io⟩ := gv
  cases dim <;>
    simp only [loop_over_directions, List.mem_cons, List.mem_singleton, List.not_mem_nil,
      or_false] at hd <;>
    rcases hd with rfl | rfl | rfl <;>
    simp only [grid_volume.iyee_shift, loop_over_directions, List.foldl] <;>
    (repeat' split) <;>
    simp_all [ivec.set_direction, zero_ivec, ivec.in_direction]

/-- The difference `icenter() - io` is even on every active axis. -/
theorem icenter_even (gv : grid_volume) (hio : gv.io.dim = gv.dim) :
    ∀ d ∈ loop_over_directions gv.dim,
      (gv.icenter.in_direction d - gv.io.in_direction d) % 2 = 0 := by
  obtain ⟨dim, n0, n1, n2, ⟨idim, ix, iy, iz, ir, ip⟩⟩ := gv
  simp only at hio
  subst hio
  have e3 : ∀ t : Int, (t + (if t ≥ 0 then t else -t).tmod 2) % 2 = 0 := by
    intro t
    split
    · next h => rw [Int.tmod_eq_emod h (by decide)]; omega
    · next h => rw [Int.tmod_eq_emod (by omega) (by decide)]; omega
  have b0 := e3 n0
  have b1 := e3 n1
  have b2 := e3 n2
  have bz := e3 0
  intro d hd
  cases idim <;>
    simp only [loop_over_directions, List.mem_cons, List.mem_singleton, List.not_mem_nil,
      or_false] at hd <;>
    rcases hd with rfl | rfl | rfl <;>
    simp only [grid_volume.icenter, ivec.add, ivec.round_up_to_even, ivec_of_nums, zero_ivec,
      loop_over_directions, ivec.set_direction, ivec.in_direction, grid_volume.nx,
      grid_volume.ny, grid_volume.nz, grid_volume.nr, List.foldl, num_direction_X,
      num_direction_Y, num_direction_Z, num_direction_R] <;>
    omega


/-- The component `direction_component(c, d)` has the field kind of `c` and the direction
`d`. -/
theorem direction_component_kind (c c' : component) (d : direction)
    (h : direction_component c d = .ok c') :
    component_direction c' = d ∧ is_electric c' = is_electric c ∧ is_D c' = is_D c
      ∧ is_magnetic c' = is_magnetic c ∧ is_B c' = is_B c
      ∧ (c' = .Dielectric ↔ c = .Dielectric) ∧ (c' = .Permeability ↔ c = .Permeability) := by
  cases c <;> cases d <;>
    simp only [direction_component, is_electric, is_magnetic, is_D, is_B, if_true, if_false,
      Bool.false_eq_true, reduceCtorEq, and_self, and_true, and_false, true_and,
      false_and, Res.ok.injEq] at h <;>
    (subst h; decide)

/-- A field component has a direction. -/
theorem component_direction_field (c : component) (h1 : c ≠ .Dielectric)
    (h2 : c ≠ .Permeability) : component_direction c ≠ .NO_DIRECTION := by
  cases c <;> first | exact absurd rfl h1 | exact absurd rfl h2 | decide

/-- The Yee shift of the image of a component at the image of an active direction is the
Yee shift of the component at the direction. -/
theorem iyee_shift_transport (gv : grid_volume) (c c' : component) (g : direction → direction)
    (hi : ∀ d e, d ≠ .NO_DIRECTION → e ≠ .NO_DIRECTION → g d = g e → d = e)
    (h : direction_component c (g (component_direction c)) = .ok c')
    (d : direction) (hd : d ∈ loop_over_directions gv.dim)
    (hgd : g d ∈ loop_over_directions gv.dim) :
    (gv.iyee_shift c').in_direction (g d) = (gv.iyee_shift c).in_direction d := by
  rw [iyee_shift_in_direction gv c' (g d) hgd, iyee_shift_in_direction gv c d hd]
  obtain ⟨k1, k2, k3, k4, k5, k6, k7⟩ := direction_component_kind c c' _ h
  have hdn : d ≠ .NO_DIRECTION := fun e => no_direction_not_mem gv.dim (e ▸ hd)
  by_cases h1 : c = .Dielectric
  · simp only [h1, k6.mpr h1, true_or, if_true]
  by_cases h2 : c = .Permeability
  · simp only [h2, k7.mpr h2, true_or, or_true, if_true]
  have he := component_direction_field c h1 h2
  have hiff : g d = g (component_direction c) ↔ d = component_direction c :=
    ⟨fun e => hi d _ hdn he e, fun e => by rw [e]⟩
  simp only [k1, k2, k3, k4, k5, k6, k7, hiff, ne_eq]

/-- One more application of the table of a single link: the call `transform(d, n)` with
`0 < n < g` in terms of the call `transform(S[d].d, n - 1)`. -/
theorem transform_last_step {α : Type} [Mul α] [One α] (l : generator α) (hg : 0 < l.g)
    (d : direction) (n : Int) (hn : 0 < n) (hlt : n < l.g) (hd : d ≠ .NO_DIRECTION) :
    ∃ r0 : signed_direction α,
      (symmetry.last l).transform (l.S d).d (n - 1) = .ok r0
        ∧ (symmetry.last l).transform d n
          = .ok ((if (l.S d).flipped then flip r0 else r0).mul l.ph) := by
  obtain ⟨r0, hr0⟩ := transform_fuel_inner (.last l) hg (n - 1).toNat (l.S d).d
    (by simp only [symmetry.head]; omega)
  have hm : (((n - 1).toNat : Nat) : Int) = n - 1 := by omega
  rw [hm] at hr0
  have hfu : (symmetry.last l).fuel = l.g.natAbs + 1 := rfl
  refine ⟨r0, hr0 _ (by rw [hfu]; omega), ?_⟩
  unfold symmetry.transform
  rw [hfu]
  have hk := hr0 l.g.natAbs (by omega)
  have p1 := nme_eq_emod l.g n hg
  have e1 : n % l.g = n := Int.emod_eq_of_lt hn.le hlt
  rw [e1] at p1
  have h0 : ¬ (n = 0 ∨ d = .NO_DIRECTION) := by
    rintro (h | h)
    · omega
    · exact hd h
  simp only [symmetry.transform_fuel, h0, if_false, symmetry.head, hg.ne', p1, hn.ne', hk,
    Res.bind, symmetry.next]
  by_cases hf : (l.S d).flipped <;> simp [hf, hd]

/-- The table of `transform(., m)` of a single link whose table `S` is injective and closed:
it is defined, injective and closed, and it maps the active directions to active directions
when `S` does. -/
theorem last_table {α : Type} [Mul α] [One α] (l : generator α) (hg : 0 < l.g)
    (hc : ∀ d, d ≠ .NO_DIRECTION → (l.S d).d ≠ .NO_DIRECTION)
    (hi : ∀ d e, d ≠ .NO_DIRECTION → e ≠ .NO_DIRECTION → (l.S d).d = (l.S e).d → d = e) :
    ∀ m : Nat, (m : Int) < l.g →
      ∃ f : direction → signed_direction α,
        (∀ d, (symmetry.last l).transform d m = .ok (f d))
          ∧ (f .NO_DIRECTION).d = .NO_DIRECTION
          ∧ (∀ d, d ≠ .NO_DIRECTION → (f d).d ≠ .NO_DIRECTION)
          ∧ (∀ d e, d ≠ .NO_DIRECTION → e ≠ .NO_DIRECTION → (f d).d = (f e).d → d = e)
          ∧ (∀ dim, (∀ d ∈ loop_over_directions dim, (l.S d).d ∈ loop_over_directions dim) →
              ∀ d ∈ loop_over_directions dim, (f d).d ∈ loop_over_directions dim) := by
  intro m
  induction m with
  | zero =>
    intro _
    refine ⟨fun d => signed_direction.of d, fun d => ?_, rfl, fun d hd => hd,
      fun d e _ _ h => h, fun dim _ d hd => hd⟩
    exact transform_zero _ d
  | succ m ih =>
    intro hm
    obtain ⟨f, f1, f2, f3, f4, f5⟩ := ih (by push_cast at hm; omega)
    have hfd : ∀ d, d ≠ .NO_DIRECTION →
        ((if (l.S d).flipped then flip (f (l.S d).d) else f (l.S d).d).mul l.ph).d
          = (f (l.S d).d).d := by
      intro d _
      by_cases hf : (l.S d).flipped = true <;> simp [hf, flip, signed_direction.mul]
    refine ⟨fun d => if d = .NO_DIRECTION then signed_direction.of d
      else (if (l.S d).flipped then flip (f (l.S d).d) else f (l.S d).d).mul l.ph,
      fun d => ?_, by simp [signed_direction.of], fun d hd => ?_, fun d e hd he h => ?_,
      fun dim hS d hd => ?_⟩
    · beta_reduce
      by_cases hd : d = .NO_DIRECTION
      · rw [if_pos hd, hd]
        exact transform_no_direction _ _
      · rw [if_neg hd]
        obtain ⟨r0, h1, h2⟩ := transform_last_step l hg d ((m + 1 : Nat) : Int)
          (by push_cast; omega) hm hd
        have e : (((m + 1 : Nat) : Int) - 1) = (m : Int) := by push_cast; ring
        rw [e, f1] at h1
        rw [h2, ← Res.ok.inj h1]
    · simp only [if_neg hd, hfd d hd]
      exact f3 _ (hc d hd)
    · simp only [if_neg hd, if_neg he, hfd d hd, hfd e he] at h
      exact hi d e hd he (f4 _ _ (hc d hd) (hc e he) h)
    · have hdn : d ≠ .NO_DIRECTION := fun e => no_direction_not_mem dim (e ▸ hd)
      simp only [if_neg hdn, hfd d hdn]
      exact f5 dim hS _ (hS d hd)


set_option maxHeartbeats 4000000 in
/-- The symmetries `mirror(axis, gv)`, `rotate2(axis, gv)` and `rotate4(axis, gv)` are single
links of positive order about `gv.icenter()` whose tables are closed and injective. -/
theorem single_link {α : Type} [One α] (axis : direction) (gv : grid_volume) (s : symmetry α)
    (hs : s = mirror axis gv ∨ rotate2 axis gv = .ok s ∨ rotate4 axis gv = .ok s) :
    ∃ l : generator α, s = .last l ∧ 0 < l.g ∧ l.i_symmetry_point = gv.icenter
      ∧ (∀ d, d ≠ .NO_DIRECTION → (l.S d).d ≠ .NO_DIRECTION)
      ∧ (∀ d e, d ≠ .NO_DIRECTION → e ≠ .NO_DIRECTION → (l.S d).d = (l.S e).d → d = e) := by
  have t01 : ((0 : Int) + 1).tmod 3 = 1 := rfl
  have t02 : ((0 : Int) + 2).tmod 3 = 2 := rfl
  have t11 : ((1 : Int) + 1).tmod 3 = 2 := rfl
  have t12 : ((1 : Int) + 2).tmod 3 = 0 := rfl
  have t21 : ((2 : Int) + 1).tmod 3 = 0 := rfl
  have t22 : ((2 : Int) + 2).tmod 3 = 1 := rfl
  rcases hs with h | h | h
  · subst h
    refine ⟨_, rfl, (by show (0 : Int) < 2; decide), rfl, ?_, ?_⟩
    · intro d hd
      cases axis <;> cases d <;>
        simp_all [set_S, signed_direction.of, direction.toInt]
    · intro d e hd he
      cases axis <;> cases d <;> cases e <;>
        simp_all [set_S, signed_direction.of, direction.toInt]
  · unfold rotate2 at h
    split_ifs at h with hax
    rw [← Res.ok.inj h]
    refine ⟨_, rfl, (by show (0 : Int) < 2; decide), rfl, ?_, ?_⟩
    · intro d hd
      cases axis <;> cases d <;>
        simp_all [set_S, signed_direction.of, direction.toInt]
    · intro d e hd he
      cases axis <;> cases d <;> cases e <;>
        simp_all [set_S, signed_direction.of, direction.toInt]
  · unfold rotate4 at h
    split_ifs at h with hax
    rw [← Res.ok.inj h]
    refine ⟨_, rfl, (by show (0 : Int) < 4; decide), rfl, ?_, ?_⟩
    · intro d hd
      cases axis <;> cases d <;>
        simp_all [set_S, signed_direction.of, direction.toInt, direction.ofInt]
    · intro d e hd he
      cases axis <;> cases d <;> cases e <;>
        simp_all [set_S, signed_direction.of, direction.toInt, direction.ofInt]

/-- The call `direction_component(c, d)` returns when `d` is a direction exactly if `c` has
one. -/
theorem direction_component_defined (c : component) (d : direction)
    (h : d = .NO_DIRECTION ↔ component_direction c = .NO_DIRECTION) :
    ∃ c', direction_component c d = .ok c' := by
  cases c <;> cases d <;> first | exact ⟨_, rfl⟩ | (exfalso; revert h; decide)

theorem direction_component_self (c : component) :
    direction_component c (component_direction c) = .ok c := by
  cases c <;> rfl

/-- C34: for a descriptor `gv` whose origin has its dimension, a symmetry `s` built by
`mirror(axis, gv)`, `rotate2(axis, gv)` or `rotate4(axis, gv)` whose table maps the active
directions of `gv` to active directions, every component `c`, every `n` with
`0 <= n < s.multiplicity()` and every lattice point `p` of the sub-lattice of `c`: the calls
`s.transform(p, n)` and `s.transform(c, n)` return, and the image of `p` lies on the
sub-lattice of the image of `c`. -/
theorem transform_preserves_lattice {α : Type} [Mul α] [One α] (gv : grid_volume)
    (axis : direction) (s : symmetry α) (c : component) (n : Int) (p : ivec)
    (hio : gv.io.dim = gv.dim)
    (hs : s = mirror axis gv ∨ rotate2 axis gv = .ok s ∨ rotate4 axis gv = .ok s)
    (hact : ∀ d ∈ loop_over_directions gv.dim, (s.head.S d).d ∈ loop_over_directions gv.dim)
    (hn : 0 ≤ n) (hlt : n < s.multiplicity) (hp : p.dim = gv.dim)
    (hl : gv.on_lattice c p = true) :
    ∃ p' c', s.transform_ivec p n = .ok p' ∧ s.transform_component c n = .ok c'
      ∧ p'.dim = gv.dim ∧ gv.on_lattice c' p' = true := by
  obtain ⟨l, rfl, hg, hsp, hc, hi⟩ := single_link axis gv s hs
  simp only [symmetry.multiplicity] at hlt
  simp only [symmetry.head] at hact
  by_cases h0 : n = 0
  · subst h0
    refine ⟨p, c, by simp [symmetry.transform_ivec], ?_, hp, hl⟩
    simp only [symmetry.transform_component, transform_zero, bind_ok, signed_direction.of]
    exact direction_component_self c
  obtain ⟨f, f1, f2, f3, f4, f5⟩ := last_table l hg hc hi n.toNat (by omega)
  have hcast : ((n.toNat : Nat) : Int) = n := by omega
  rw [hcast] at f1
  have f5' := f5 gv.dim hact
  have hnoL : ∀ d ∈ loop_over_directions gv.dim, d ≠ .NO_DIRECTION :=
    fun d hd e => no_direction_not_mem gv.dim (e ▸ hd)
  obtain ⟨c', hc'⟩ := direction_component_defined c (f (component_direction c)).d
    ⟨fun h => by
      by_contra hne
      exact f3 _ hne h,
     fun h => by rw [h]; exact f2⟩
  obtain ⟨r, r1, r2, r3, -⟩ := transform_ivec_fold (fun d => (symmetry.last l).transform d n) f
    l.i_symmetry_point p (loop_over_directions gv.dim) p (loop_over_directions_nodup gv.dim)
    (fun d _ => f1 d)
    (fun d hd e he h => f4 d e (hnoL d hd) (hnoL e he) h)
    (fun d hd => f3 d (hnoL d hd))
  refine ⟨r, c', ?_, ?_, by rw [r2, hp], ?_⟩
  · simp only [symmetry.transform_ivec, if_neg h0, hp, symmetry.head]
    exact r1
  · simp only [symmetry.transform_component, f1, bind_ok]
    exact hc'
  · simp only [grid_volume.on_lattice, List.all_eq_true, decide_eq_true_eq] at hl ⊢
    intro d' hd'
    obtain ⟨d, hd, rfl⟩ := active_surjective gv.dim (fun d => (f d).d) f5'
      (fun d hd e he h => f4 d e (hnoL d hd) (hnoL e he) h) d' hd'
    have e1 := r3 d hd
    have e2 := iyee_shift_transport gv c c' (fun d => (f d).d) f4 hc' d hd hd'
    have e3 := icenter_even gv hio d hd
    have e4 := icenter_even gv hio _ hd'
    have e5 := hl d hd
    rw [← hsp] at e3 e4
    beta_reduce at e2
    rw [e1, e2]
    split <;> omega

/-- The 2-D grid of `4 x 4` cells, `rotate4(Z, gv)`, the component `Ex` and its lattice
point `(1, 2)`, turned three times. -/
theorem transform_preserves_lattice_witness :
    ∃ s : symmetry Int, rotate4 .Z ⟨.D2, 4, 4, 0, zero_ivec .D2⟩ = .ok s
      ∧ (⟨.D2, 4, 4, 0, zero_ivec .D2⟩ : grid_volume).on_lattice .Ex ⟨.D2, 1, 2, 0, 0, 0⟩ = true
      ∧ ∃ p' c', s.transform_ivec ⟨.D2, 1, 2, 0, 0, 0⟩ 3 = .ok p'
          ∧ s.transform_component .Ex 3 = .ok c'
          ∧ p'.dim = .D2
          ∧ (⟨.D2, 4, 4, 0, zero_ivec .D2⟩ : grid_volume).on_lattice c' p' = true :=
  ⟨_, rfl, by decide,
    transform_preserves_lattice ⟨.D2, 4, 4, 0, zero_ivec .D2⟩ .Z _ .Ex 3 ⟨.D2, 1, 2, 0, 0, 0⟩
      rfl (Or.inr (Or.inr rfl)) (by decide) (by decide) (by decide) rfl (by decide)⟩


/-! ## Volumes and points under a symmetry -/

theorem vec_set_direction_dim (v : vec) (d : direction) (x : Rat) :
    (v.set_direction d x).dim = v.dim := by
  cases d <;> rfl

theorem vec_set_direction_same (v : vec) (d : direction) (x : Rat)
    (hd : d ≠ .NO_DIRECTION) : (v.set_direction d x).in_direction d = x := by
  cases d <;> first | rfl | exact absurd rfl hd

theorem vec_set_direction_other (v : vec) (d e : direction) (x : Rat) (h : e ≠ d) :
    (v.set_direction d x).in_direction e = v.in_direction e := by
  cases d <;> cases e <;> first | rfl | exact absurd rfl h

/-- The slots and the dimension tag of a sum of two `vec`. -/
theorem vec_add_in_direction (v a : vec) (e : direction) :
    (v.add a).dim = a.dim
      ∧ (v.add a).in_direction e
        = a.in_direction e + (if e ∈ loop_over_directions v.dim then v.in_direction e else 0) := by
  obtain ⟨vd, vx, vy, vz, vr, vp⟩ := v
  cases vd <;> cases e <;>
    simp [vec.add, loop_over_directions, vec.set_direction, vec.in_direction]

/-- The loop of `transform(const vec &, int)` over a list of directions whose images are
distinct: the slot of the image of `d` receives the offset of the slot `d` of `ov` from the
symmetry point, negated under a flip, and the other slots keep the value they had. -/
theorem transform_vec_fold {α : Type} (t : direction → Res (signed_direction α))
    (f : direction → signed_direction α) (sp ov : vec) :
    ∀ (L : List direction) (out : vec), L.Nodup →
      (∀ d ∈ L, t d = .ok (f d)) →
      (∀ d ∈ L, ∀ e ∈ L, (f d).d = (f e).d → d = e) →
      (∀ d ∈ L, (f d).d ≠ .NO_DIRECTION) →
      ∃ r : vec,
        L.foldl
          (fun (delta : Res vec) d =>
            delta.bind (fun delta =>
              (t d).bind (fun sd =>
                let deltad := ov.in_direction d - sp.in_direction d
                if sd.flipped then .ok (delta.set_direction sd.d (-deltad))
                else .ok (delta.set_direction sd.d deltad))))
          (.ok out) = .ok r
        ∧ r.dim = out.dim
        ∧ (∀ d ∈ L, r.in_direction (f d).d
            = if (f d).flipped then -(ov.in_direction d - sp.in_direction d)
              else ov.in_direction d - sp.in_direction d)
        ∧ (∀ e, (∀ d ∈ L, (f d).d ≠ e) → r.in_direction e = out.in_direction e) := by
  intro L
  induction L with
  | nil =>
    intro out _ _ _ _
    exact ⟨out, rfl, rfl, fun d hd => absurd hd (List.not_mem_nil d), fun _ _ => rfl⟩
  | cons d L ih =>
    intro out hnd ht hinj hno
    have hdL : d ∉ L := (List.nodup_cons.mp hnd).1
    have hnd' : L.Nodup := (List.nodup_cons.mp hnd).2
    have htd := ht d (List.mem_cons_self d L)
    have hnod := hno d (List.mem_cons_self d L)
    obtain ⟨r, h1, h2, h3, h4⟩ := ih
      (out.set_direction (f d).d
        (if (f d).flipped then -(ov.in_direction d - sp.in_direction d)
          else ov.in_direction d - sp.in_direction d))
      hnd' (fun e he => ht e (List.mem_cons_of_mem d he))
      (fun a ha b hb => hinj a (List.mem_cons_of_mem d ha) b (List.mem_cons_of_mem d hb))
      (fun e he => hno e (List.mem_cons_of_mem d he))
    have hne : ∀ e ∈ L, (f e).d ≠ (f d).d := by
      intro e he heq
      have := hinj e (List.mem_cons_of_mem d he) d (List.mem_cons_self d L) heq
      exact hdL (this ▸ he)
    refine ⟨r, ?_, ?_, ?_, ?_⟩
    · rw [← h1]
      simp only [List.foldl, bind_ok, htd]
      by_cases hf : (f d).flipped = true
      · simp only [hf, if_true]
      · simp only [hf, Bool.false_eq_true, if_false]
    · rw [h2, vec_set_direction_dim]
    · intro e he
      rcases List.mem_cons.mp he with rfl | he'
      · rw [h4 _ hne, vec_set_direction_same _ _ _ hnod]
      · exact h3 e he'
    · intro e he
      rw [h4 e (fun a ha => he a (List.mem_cons_of_mem d ha)),
        vec_set_direction_other _ _ _ _ (fun h => he d (List.mem_cons_self d L) h.symm)]

/-- The image of a point under `transform(const vec &, n)` with `n ≠ 0`, slot by slot, when
the directions of the point have distinct images. -/
theorem transform_vec_slots {α : Type} [Mul α] [One α] (s : symmetry α) (inva : Rat)
    (ov : vec) (n : Int) (h0 : n ≠ 0) (f : direction → signed_direction α)
    (hf : ∀ d ∈ loop_over_directions ov.dim, s.transform d n = .ok (f d))
    (hinj : ∀ d ∈ loop_over_directions ov.dim, ∀ e ∈ loop_over_directions ov.dim,
      (f d).d = (f e).d → d = e)
    (hno : ∀ d ∈ loop_over_directions ov.dim, (f d).d ≠ .NO_DIRECTION) :
    ∃ r : vec, s.transform_vec inva ov n = .ok r ∧ r.dim = ov.dim
      ∧ ∀ d ∈ loop_over_directions ov.dim,
          r.in_direction (f d).d
            = (if (f d).flipped then
                -(ov.in_direction d - (s.symmetry_point inva).in_direction d)
              else ov.in_direction d - (s.symmetry_point inva).in_direction d)
              + (if (f d).d ∈ loop_over_directions (s.symmetry_point inva).dim then
                  (s.symmetry_point inva).in_direction (f d).d else 0) := by
  obtain ⟨r, r1, r2, r3, -⟩ := transform_vec_fold (fun d => s.transform d n) f
    (s.symmetry_point inva) ov (loop_over_directions ov.dim) ov
    (loop_over_directions_nodup ov.dim) hf hinj hno
  refine ⟨(s.symmetry_point inva).add r, ?_, ?_, ?_⟩
  · simp only [symmetry.transform_vec, if_neg h0]
    rw [r1]
    rfl
  · rw [(vec_add_in_direction _ _ .X).1, r2]
  · intro d hd
    rw [(vec_add_in_direction _ _ _).2, r3 d hd]

/-- C36 (as stated) fails for a volume whose corners are not ordered: the 1-D volume with
`min_corner = 1` and `max_corner = 0` (as `set_direction_min` leaves it) contains no point,
while its image under `identity()` with `n = 0` is rebuilt by the constructor as `[0, 1]`
and contains the image `1/2` of the point `1/2`. -/
theorem transform_volume_unordered :
    (identity : symmetry Int).multiplicity = 1
      ∧ (volume.mk .D1 ⟨.D1, 0, 0, 1, 0, 0⟩ ⟨.D1, 0, 0, 0, 0, 0⟩).contains
          ⟨.D1, 0, 0, 1 / 2, 0, 0⟩ = false
      ∧ (identity : symmetry Int).transform_vec 1 ⟨.D1, 0, 0, 1 / 2, 0, 0⟩ 0
          = .ok ⟨.D1, 0, 0, 1 / 2, 0, 0⟩
      ∧ (identity : symmetry Int).transform_volume 1
          (volume.mk .D1 ⟨.D1, 0, 0, 1, 0, 0⟩ ⟨.D1, 0, 0, 0, 0, 0⟩) 0
          = .ok (volume.mk .D1 ⟨.D1, 0, 0, 0, 0, 0⟩ ⟨.D1, 0, 0, 1, 0, 0⟩)
      ∧ (volume.mk .D1 ⟨.D1, 0, 0, 0, 0, 0⟩ ⟨.D1, 0, 0, 1, 0, 0⟩).contains
          ⟨.D1, 0, 0, 1 / 2, 0, 0⟩ = true := by
  decide!

/-- C36 (amended): for a symmetry `s` with links of positive order, `n` with
`0 <= n < s.multiplicity()` such that `transform(., n)` maps the active directions to
distinct active directions, a volume `v` whose corners have its dimension and are ordered
(`min_d <= max_d` on every active axis, as the constructor leaves them) and a point `p` of
the dimension of `v`: `s.transform(v, n)` and `s.transform(p, n)` return, and `v.contains(p)`
holds if and only if `s.transform(v, n).contains(s.transform(p, n))`. -/
theorem transform_volume_contains {α : Type} [Mul α] [One α] (s : symmetry α) (inva : Rat)
    (n : Int) (v : volume) (p : vec) (hpos : s.pos) (hn : 0 ≤ n) (hlt : n < s.multiplicity)
    (hp : p.dim = v.dim) (hmin : v.min_corner.dim = v.dim) (hmax : v.max_corner.dim = v.dim)
    (hnorm : v.normalised)
    (hperm : ∀ d ∈ loop_over_directions v.dim, ∀ r, s.transform d n = .ok r →
      r.d ∈ loop_over_directions v.dim)
    (hinj : ∀ d ∈ loop_over_directions v.dim, ∀ e ∈ loop_over_directions v.dim,
      ∀ r r', s.transform d n = .ok r → s.transform e n = .ok r' → r.d = r'.d → d = e) :
    ∃ v' p', s.transform_volume inva v n = .ok v' ∧ s.transform_vec inva p n = .ok p'
      ∧ (v.contains p = true ↔ v'.contains p' = true) := by
  by_cases h0 : n = 0
  · subst h0
    refine ⟨volume.of_corners v.min_corner v.max_corner, p,
      by simp [symmetry.transform_volume, symmetry.transform_vec, Res.bind],
      by simp [symmetry.transform_vec], ?_⟩
    rw [contains_iff, contains_iff]
    have hd' : (volume.of_corners v.min_corner v.max_corner).dim = v.dim := hmin
    rw [hd']
    refine forall₂_congr (fun d hd => ?_)
    obtain ⟨m1, m2⟩ := vec_min_max_in_direction v.min_corner v.max_corner d (by rw [hmin]; exact hd)
    have hle := hnorm d hd
    simp only [volume.in_direction_min, volume.in_direction_max, volume.of_corners] at hle ⊢
    rw [m1, m2, min_eq_left hle, max_eq_right hle]
  · have hdef : ∀ d, ∃ r, s.transform d n = .ok r := fun d => by
      obtain ⟨r, hr, -⟩ := transform_defined s hpos d n hn hlt
      exact ⟨r, hr⟩
    have hf : ∀ d, s.transform d n = .ok ((s.transform d n).getD (signed_direction.of d)) := by
      intro d
      obtain ⟨r, hr⟩ := hdef d
      rw [hr]
      rfl
    generalize hfdef : (fun d => (s.transform d n).getD (signed_direction.of d)) = f at *
    have hf' : ∀ d, s.transform d n = .ok (f d) := fun d => by rw [← hfdef]; exact hf d
    have hperm' : ∀ d ∈ loop_over_directions v.dim, (f d).d ∈ loop_over_directions v.dim :=
      fun d hd => hperm d hd _ (hf' d)
    have hinj' : ∀ d ∈ loop_over_directions v.dim, ∀ e ∈ loop_over_directions v.dim,
        (f d).d = (f e).d → d = e :=
      fun d hd e he h => hinj d hd e he _ _ (hf' d) (hf' e) h
    have hno : ∀ d ∈ loop_over_directions v.dim, (f d).d ≠ .NO_DIRECTION :=
      fun d hd e => no_direction_not_mem v.dim (e ▸ hperm' d hd)
    obtain ⟨lo, lo1, lo2, lo3⟩ := transform_vec_slots s inva v.min_corner n h0 f
      (fun d _ => hf' d) (by rw [hmin]; exact hinj') (by rw [hmin]; exact hno)
    obtain ⟨hi, hi1, hi2, hi3⟩ := transform_vec_slots s inva v.max_corner n h0 f
      (fun d _ => hf' d) (by rw [hmax]; exact hinj') (by rw [hmax]; exact hno)
    obtain ⟨p', p1, p2, p3⟩ := transform_vec_slots s inva p n h0 f
      (fun d _ => hf' d) (by rw [hp]; exact hinj') (by rw [hp]; exact hno)
    rw [hmin] at lo2 lo3
    rw [hmax] at hi3
    rw [hp] at p3
    refine ⟨volume.of_corners lo hi, p', by simp only [symmetry.transform_volume, lo1, hi1,
      bind_ok], p1, ?_⟩
    rw [contains_iff, contains_iff]
    have hd' : (volume.of_corners lo hi).dim = v.dim := lo2
    rw [hd']
    have key : ∀ d ∈ loop_over_directions v.dim,
        ((v.in_direction_min d ≤ p.in_direction d ∧ p.in_direction d ≤ v.in_direction_max d)
          ↔ ((volume.of_corners lo hi).in_direction_min (f d).d ≤ p'.in_direction (f d).d
            ∧ p'.in_direction (f d).d ≤ (volume.of_corners lo hi).in_direction_max (f d).d)) := by
      intro d hd
      obtain ⟨m1, m2⟩ := vec_min_max_in_direction lo hi (f d).d (by rw [lo2]; exact hperm' d hd)
      have hle := hnorm d hd
      simp only [volume.in_direction_min, volume.in_direction_max, volume.of_corners] at hle ⊢
      rw [m1, m2, lo3 d hd, hi3 d hd, p3 d hd]
      by_cases hfl : (f d).flipped = true
      · simp only [hfl, if_true]
        constructor
        · rintro ⟨a, b⟩
          constructor
          · apply le_trans (min_le_right _ _); linarith
          · apply le_trans _ (le_max_left _ _); linarith
        · rintro ⟨a, b⟩
          rw [min_eq_right (by linarith)] at a
          rw [max_eq_left (by linarith)] at b
          constructor <;> linarith
      · simp only [hfl, Bool.false_eq_true, if_false]
        constructor
        · rintro ⟨a, b⟩
          constructor
          · apply le_trans (min_le_left _ _); linarith
          · apply le_trans _ (le_max_right _ _); linarith
        · rintro ⟨a, b⟩
          rw [min_eq_left (by linarith)] at a
          rw [max_eq_right (by linarith)] at b
          constructor <;> linarith
    constructor
    · intro h d' hd'
      obtain ⟨d, hd, rfl⟩ := active_surjective v.dim (fun d => (f d).d) hperm' hinj' d' hd'
      exact (key d hd).mp (h d hd)
    · intro h d hd
      exact (key d hd).mpr (h _ (hperm' d hd))

/-- The 2-D volume `[0, 2] x [0, 1]` and the point `(1, 1/2)` under `rotate4(Z, gv)` on the
grid of `4 x 4` cells at resolution `1`, turned once. -/
theorem transform_volume_contains_witness :
    ∃ s : symmetry Int, rotate4 .Z ⟨.D2, 4, 4, 0, zero_ivec .D2⟩ = .ok s
      ∧ ∃ v' p', s.transform_volume 1
            (volume.mk .D2 ⟨.D2, 0, 0, 0, 0, 0⟩ ⟨.D2, 2, 1, 0, 0, 0⟩) 1 = .ok v'
          ∧ s.transform_vec 1 ⟨.D2, 1, 1 / 2, 0, 0, 0⟩ 1 = .ok p'
          ∧ ((volume.mk .D2 ⟨.D2, 0, 0, 0, 0, 0⟩ ⟨.D2, 2, 1, 0, 0, 0⟩).contains
                ⟨.D2, 1, 1 / 2, 0, 0, 0⟩ = true ↔ v'.contains p' = true) :=
  ⟨_, rfl,
    transform_volume_contains _ 1 1 (volume.mk .D2 ⟨.D2, 0, 0, 0, 0, 0⟩ ⟨.D2, 2, 1, 0, 0, 0⟩)
      ⟨.D2, 1, 1 / 2, 0, 0, 0⟩ (by decide) (by decide) (by decide) rfl rfl rfl
      (by
        intro d hd
        simp only [loop_over_directions, List.mem_cons, List.mem_singleton, List.not_mem_nil,
          or_false] at hd
        rcases hd with rfl | rfl <;> decide!)
      (by
        intro d hd r hr
        simp only [loop_over_directions, List.mem_cons, List.mem_singleton, List.not_mem_nil,
          or_false] at hd
        rcases hd with rfl | rfl <;>
          (rw [← Res.ok.inj (show Res.ok _ = Res.ok r from hr)]; decide))
      (by
        intro d hd e he r r' hr hr'
        simp only [loop_over_directions, List.mem_cons, List.mem_singleton, List.not_mem_nil,
          or_false] at hd he
        rcases hd with rfl | rfl <;> rcases he with rfl | rfl <;>
          (rw [← Res.ok.inj (show Res.ok _ = Res.ok r from hr),
            ← Res.ok.inj (show Res.ok _ = Res.ok r' from hr')]; decide))⟩

end meep
